import Mathlib

/-!
# Plus++ interpreter: token model, syntax validator and executor

A shallow embedding of `lexer.h`, `lexer.c`, `parser.c` and `interpreter.c`.
Global C variables become fields of explicit state records, `exit(1)` becomes an
error result that carries the state reached, and the recursion of the C
functions is bounded by a fuel argument.
-/

namespace PlusPlus

/-! ## Token model (`lexer.h`) -/

/-- The enum `TokenType` of `lexer.h`, in declaration order. -/
inductive TokenType
  | TOKEN_KEYWORD
  | TOKEN_IDENTIFIER
  | TOKEN_INTCONST
  | TOKEN_STRINGCONST
  | TOKEN_OPERATOR
  | TOKEN_OPENBLOCK
  | TOKEN_CLOSEBLOCK
  | TOKEN_ENDOFLINE
  | TOKEN_ERROR
  deriving DecidableEq, Repr

open TokenType

/-- The struct `Token` of `lexer.h`: `value` is the NUL-terminated text held in
`char value[128]`. -/
structure Token where
  type : TokenType
  value : String
  line : Nat
  deriving DecidableEq, Repr

/-- The constant `MAX_TOKENS` of `lexer.h`. -/
def MAX_TOKENS : Nat := 1024

/-- The constant `MAX_VARS` of `interpreter.c`. -/
def MAX_VARS : Nat := 100

/-! ## Cursor primitives (`parser.c`), shared by validator and executor -/

/-- The globals `current`, `last_token` and `last_token_line` of `parser.c`. -/
structure Cursor where
  current : Nat
  last_token : Option Token
  last_token_line : Int
  deriving DecidableEq, Repr

/-- The function `peek`: the token under the cursor, `none` for `NULL`. -/
def peek (toks : List Token) (c : Cursor) : Option Token :=
  toks[c.current]?

/-- The function `advance`: returns the token under the cursor and moves past
it, recording it as the last consumed token; at end of input nothing changes. -/
def advance (toks : List Token) (c : Cursor) : Option Token × Cursor :=
  match toks[c.current]? with
  | some t => (some t, { current := c.current + 1, last_token := some t, last_token_line := t.line })
  | none => (none, c)

/-- The test of `match`: type equal and, when a text is given, text equal. -/
def tokMatches (t : Token) (type : TokenType) (val : Option String) : Bool :=
  t.type == type && (match val with | none => true | some v => t.value == v)

/-- The function `match` of `parser.c`: consumes the token under the cursor when
it has the given type and text. -/
def matchTok (toks : List Token) (c : Cursor) (type : TokenType) (val : Option String) :
    Bool × Cursor :=
  match peek toks c with
  | some t => if tokMatches t type val then (true, (advance toks c).2) else (false, c)
  | none => (false, c)

/-! ## Executor (`interpreter.c`) -/

/-- The struct `Variable`; the field `initialized` is always 1 and is left out. -/
structure Variable where
  name : String
  value : Int
  deriving DecidableEq, Repr

/-- Executor state: the cursor globals, `var_table` (its length is `var_count`)
and the text written to standard output so far. -/
structure ExecState where
  cur : Cursor
  var_table : List Variable
  output : String
  deriving DecidableEq, Repr

/-- The fatal diagnostics of `interpreter.c`, one constructor per `fprintf`/`exit`
site, and `nullDeref` for a dereference of the `NULL` returned by `peek` or
`advance` at end of input. -/
inductive RuntimeError
  | alreadyDeclared (line : Nat) (name : String)
  | tooManyVariables
  | notDeclaredCheck (line : Nat) (name : String)
  | notDeclaredValue (line : Nat) (name : String)
  | notDeclaredSet (name : String)
  | invalidValue (line : Nat) (text : String)
  | expectedOpenBlock
  | expectedCloseBlock
  | expectedSemicolonWrite
  | expectedTimes
  | expectedIdentifier
  | expectedSemicolonDecl
  | unknownKeyword (text : String) (line : Nat)
  | unknownOperator (text : String)
  | expectedSemicolonAssign
  | unexpectedToken (text : String) (line : Nat)
  | nullDeref
  deriving DecidableEq, Repr

/-- Result of an executor function: normal return, `exit(1)` after a diagnostic
(with the state reached), or fuel exhausted. -/
inductive Res
  | ok (s : ExecState)
  | fail (e : RuntimeError) (s : ExecState)
  | timeout
  deriving DecidableEq, Repr

/-- Sequencing of executor steps: the first failure or timeout ends the run. -/
def Res.bind (r : Res) (k : ExecState → Res) : Res :=
  match r with
  | .ok s => k s
  | .fail e s => .fail e s
  | .timeout => .timeout

/-- Two's-complement wrap of an integer into the range of `long long`. -/
def wrap64 (x : Int) : Int :=
  (x + 9223372036854775808) % 18446744073709551616 - 9223372036854775808

/-- The constant `LLONG_MAX`. -/
def LLONG_MAX : Int := 9223372036854775807

/-- The constant `LLONG_MIN`. -/
def LLONG_MIN : Int := -9223372036854775808

/-- The C library `isspace` in the "C" locale: space, form feed, new-line,
carriage return, horizontal tab and vertical tab. -/
def isspace (c : Char) : Bool :=
  c == ' ' || c == '\x0c' || c == '\n' || c == '\r' || c == '\t' || c == '\x0b'

/-- The C library `isdigit`. -/
def isdigit (c : Char) : Bool :=
  decide ('0' ≤ c) && decide (c ≤ '9')

/-- Accumulates the decimal value of the leading digits of a character list. -/
def atollDigits : List Char → Nat → Nat
  | [], acc => acc
  | c :: cs, acc => if isdigit c then atollDigits cs (acc * 10 + (c.toNat - 48)) else acc

/-- The sign handling of `strtoll`: an optional `-` or `+`, then the digits. -/
def atoll_signed : List Char → Int
  | '-' :: r => -(atollDigits r 0 : Int)
  | '+' :: r => (atollDigits r 0 : Int)
  | r => (atollDigits r 0 : Int)

/-- The saturation of `strtoll` at `LLONG_MIN` and `LLONG_MAX`. -/
def clamp64 (v : Int) : Int :=
  if v > LLONG_MAX then LLONG_MAX else if v < LLONG_MIN then LLONG_MIN else v

/-- The C library `atoll` as implemented by `strtoll(s, NULL, 10)`: leading white
space, an optional sign, then digits up to the first non-digit; a value out of
range saturates at `LLONG_MIN` or `LLONG_MAX`. -/
def atoll (s : String) : Int :=
  clamp64 (atoll_signed (s.toList.dropWhile isspace))

/-- The loop of `find_var`: index of the first entry with the given name. -/
def find_var_from : List Variable → String → Nat → Option Nat
  | [], _, _ => none
  | v :: vs, name, i => if v.name == name then some i else find_var_from vs name (i + 1)

/-- The function `find_var`; `none` stands for `-1`. -/
def find_var (vars : List Variable) (name : String) : Option Nat :=
  find_var_from vars name 0

/-- The function `declare_var`. -/
def declare_var (s : ExecState) (name : String) (line : Nat) : Res :=
  if (find_var s.var_table name).isSome then .fail (.alreadyDeclared line name) s
  else if s.var_table.length ≥ MAX_VARS then .fail .tooManyVariables s
  else .ok { s with var_table := s.var_table ++ [{ name := name, value := 0 }] }

/-- The function `check_var_exists`: `none` when the name is declared. -/
def check_var_exists (s : ExecState) (name : String) (line : Nat) : Option RuntimeError :=
  if (find_var s.var_table name).isNone then some (.notDeclaredCheck line name) else none

/-- The function `get_value`. -/
def get_value (s : ExecState) (t : Token) : Except RuntimeError Int :=
  if t.type = TOKEN_INTCONST then .ok (atoll t.value)
  else if t.type = TOKEN_IDENTIFIER then
    match find_var s.var_table t.value with
    | none => .error (.notDeclaredValue t.line t.value)
    | some idx =>
      match s.var_table[idx]? with
      | some v => .ok v.value
      | none => .error .nullDeref
  else .error (.invalidValue t.line t.value)

/-- Stores a value in the entry at an index, as `var_table[idx].value = v`. -/
def store : List Variable → Nat → Int → List Variable
  | [], _, _ => []
  | x :: xs, 0, v => { x with value := v } :: xs
  | x :: xs, i + 1, v => x :: store xs i v

/-- The function `set_variable`. -/
def set_variable (s : ExecState) (name : String) (new_value : Int) : Res :=
  match find_var s.var_table name with
  | none => .fail (.notDeclaredSet name) s
  | some idx => .ok { s with var_table := store s.var_table idx new_value }

/-- The call `advance()` on the executor state. -/
def adv (toks : List Token) (s : ExecState) : Option Token × ExecState :=
  ((advance toks s.cur).1, { s with cur := (advance toks s.cur).2 })

/-- The call `match(type, val)` on the executor state. -/
def accept (toks : List Token) (s : ExecState) (type : TokenType) (val : Option String) :
    Bool × ExecState :=
  ((matchTok toks s.cur type val).1, { s with cur := (matchTok toks s.cur type val).2 })

/-- The call `printf` of the executor: appends text to standard output. -/
def emit (s : ExecState) (text : String) : ExecState :=
  { s with output := s.output ++ text }

/-- The decimal rendering of `printf("%lld", v)`. -/
def lld (v : Int) : String :=
  toString v

/-- The `while (1)` loop of `interpret_write`, with the flag `expect_and`; it
returns at `break`. -/
def interpret_write_loop : Nat → List Token → Bool → ExecState → Res
  | 0, _, _, _ => .timeout
  | fuel + 1, toks, expect_and, s =>
    match peek toks s.cur with
    | none => .ok s
    | some t =>
      if expect_and then
        if (accept toks s TOKEN_KEYWORD (some "and")).1 then
          interpret_write_loop fuel toks false (accept toks s TOKEN_KEYWORD (some "and")).2
        else .ok s
      else if t.type = TOKEN_STRINGCONST then
        interpret_write_loop fuel toks true (adv toks (emit s t.value)).2
      else if t.type = TOKEN_KEYWORD ∧ t.value = "newline" then
        interpret_write_loop fuel toks true (adv toks (emit s "\n")).2
      else if t.type = TOKEN_INTCONST ∨ t.type = TOKEN_IDENTIFIER then
        match get_value s t with
        | .error e => .fail e s
        | .ok v => interpret_write_loop fuel toks true (adv toks (emit s (lld v))).2
      else .ok s

/-- The function `interpret_write`. -/
def interpret_write (fuel : Nat) (toks : List Token) (s : ExecState) : Res :=
  (interpret_write_loop fuel toks false (adv toks s).2).bind fun s1 =>
    if (accept toks s1 TOKEN_ENDOFLINE none).1 then .ok (accept toks s1 TOKEN_ENDOFLINE none).2
    else .fail .expectedSemicolonWrite s1

/-- The declaration branch of `interpret_statement`, entered at `number`. -/
def interpret_declaration (toks : List Token) (s : ExecState) : Res :=
  let s1 := (adv toks s).2
  match (adv toks s1).1 with
  | none => .fail .expectedIdentifier (adv toks s1).2
  | some id =>
    if id.type ≠ TOKEN_IDENTIFIER then .fail .expectedIdentifier (adv toks s1).2
    else
      (declare_var (adv toks s1).2 id.value id.line).bind fun s3 =>
        if (accept toks s3 TOKEN_ENDOFLINE none).1 then .ok (accept toks s3 TOKEN_ENDOFLINE none).2
        else .fail .expectedSemicolonDecl s3

/-- The update `var_table[idx].value op= value` of the assignment branch, for
the operator text of the token `op`; `none` for an unknown operator. The sum
and difference of `long long` values wrap around in two's complement. -/
def apply_op (op : String) (old value : Int) : Option Int :=
  if op = ":=" then some value
  else if op = "+=" then some (wrap64 (old + value))
  else if op = "-=" then some (wrap64 (old - value))
  else none

/-- The assignment branch of `interpret_statement`, entered at an identifier. -/
def interpret_assignment (toks : List Token) (s : ExecState) : Res :=
  let id := (adv toks s).1
  let s1 := (adv toks s).2
  let op := (adv toks s1).1
  let s2 := (adv toks s1).2
  let rhs := (adv toks s2).1
  let s3 := (adv toks s2).2
  match id, op, rhs with
  | some id, some op, some rhs =>
    match get_value s3 rhs with
    | .error e => .fail e s3
    | .ok value =>
      match check_var_exists s3 id.value id.line with
      | some e => .fail e s3
      | none =>
        match (find_var s3.var_table id.value).bind fun idx =>
            (s3.var_table[idx]?).map fun old => (idx, old) with
        | none => .fail .nullDeref s3
        | some (idx, old) =>
          match apply_op op.value old.value value with
          | none => .fail (.unknownOperator op.value) s3
          | some v =>
            let s4 := { s3 with var_table := store s3.var_table idx v }
            if (accept toks s4 TOKEN_ENDOFLINE none).1 then
              .ok (accept toks s4 TOKEN_ENDOFLINE none).2
            else .fail .expectedSemicolonAssign s4
  | _, _, _ => .fail .nullDeref s3

mutual

/-- The function `interpret_statement`. -/
def interpret_statement : Nat → List Token → ExecState → Res
  | 0, _, _ => .timeout
  | fuel + 1, toks, s =>
    match peek toks s.cur with
    | none => .ok s
    | some t =>
      if t.type = TOKEN_KEYWORD then
        if t.value = "number" then interpret_declaration toks s
        else if t.value = "write" then interpret_write fuel toks s
        else if t.value = "repeat" then interpret_repeat fuel toks s
        else .fail (.unknownKeyword t.value t.line) s
      else if t.type = TOKEN_IDENTIFIER then interpret_assignment toks s
      else if t.type = TOKEN_OPENBLOCK then interpret_block fuel toks s
      else .fail (.unexpectedToken t.value t.line) s

/-- The function `interpret_block`. -/
def interpret_block : Nat → List Token → ExecState → Res
  | 0, _, _ => .timeout
  | fuel + 1, toks, s =>
    if (accept toks s TOKEN_OPENBLOCK none).1 then
      (interpret_block_loop fuel toks (accept toks s TOKEN_OPENBLOCK none).2).bind fun s2 =>
        if (accept toks s2 TOKEN_CLOSEBLOCK none).1 then
          .ok (accept toks s2 TOKEN_CLOSEBLOCK none).2
        else .fail .expectedCloseBlock s2
    else .fail .expectedOpenBlock s

/-- The `while` loop of `interpret_block`. -/
def interpret_block_loop : Nat → List Token → ExecState → Res
  | 0, _, _ => .timeout
  | fuel + 1, toks, s =>
    match peek toks s.cur with
    | none => .ok s
    | some t =>
      if t.type ≠ TOKEN_CLOSEBLOCK then
        (interpret_statement fuel toks s).bind fun s1 => interpret_block_loop fuel toks s1
      else .ok s

/-- The function `interpret_repeat`, up to its `while` loop. -/
def interpret_repeat : Nat → List Token → ExecState → Res
  | 0, _, _ => .timeout
  | fuel + 1, toks, s =>
    let s1 := (adv toks s).2
    match (adv toks s1).1 with
    | none => .fail .nullDeref (adv toks s1).2
    | some count_tok =>
      let s2 := (adv toks s1).2
      match get_value s2 count_tok with
      | .error e => .fail e s2
      | .ok count =>
        if (accept toks s2 TOKEN_KEYWORD (some "times")).1 then
          let s3 := (accept toks s2 TOKEN_KEYWORD (some "times")).2
          match peek toks s3.cur with
          | none => .fail .nullDeref s3
          | some b =>
            interpret_repeat_loop fuel toks count_tok s3.cur.current
              (decide (b.type = TOKEN_OPENBLOCK)) count s3
        else .fail .expectedTimes s2

/-- The two `while (count >= 1)` loops of `interpret_repeat` and the final
reset of a count variable; `is_block` selects the block loop (body run by
`interpret_block`) or the statement loop (body run by `interpret_statement`),
`start` is `block_start` or `statement_start`. -/
def interpret_repeat_loop : Nat → List Token → Token → Nat → Bool → Int → ExecState → Res
  | 0, _, _, _, _, _, _ => .timeout
  | fuel + 1, toks, count_tok, start, is_block, count, s =>
    if count ≥ 1 then
      let s0 := { s with cur := { s.cur with current := start } }
      (if is_block then interpret_block fuel toks s0 else interpret_statement fuel toks s0).bind
        fun s1 =>
          if count_tok.type = TOKEN_IDENTIFIER then
            (set_variable s1 count_tok.value (count - 1)).bind fun s2 =>
              match get_value s2 count_tok with
              | .error e => .fail e s2
              | .ok c => interpret_repeat_loop fuel toks count_tok start is_block c s2
          else interpret_repeat_loop fuel toks count_tok start is_block (count - 1) s1
    else if count_tok.type = TOKEN_IDENTIFIER then set_variable s count_tok.value 0
    else .ok s

end

/-- The `while (peek())` loop of `interpret`. -/
def interpret_loop : Nat → List Token → ExecState → Res
  | 0, _, _ => .timeout
  | fuel + 1, toks, s =>
    match peek toks s.cur with
    | none => .ok s
    | some _ => (interpret_statement fuel toks s).bind fun s1 => interpret_loop fuel toks s1

/-- The function `interpret`, started from the cursor globals left by the
validator, an empty `var_table` and empty output. -/
def interpret (fuel : Nat) (toks : List Token) (c : Cursor) : Res :=
  interpret_loop fuel toks { cur := { c with current := 0 }, var_table := [], output := "" }

/-- One execution of a repeat body: the cursor is reset to `start` and the body
is run by `interpret_block` (block body) or `interpret_statement`. -/
def run_body (fuel : Nat) (toks : List Token) (start : Nat) (is_block : Bool)
    (s : ExecState) : Res :=
  if is_block then interpret_block fuel toks { s with cur := { s.cur with current := start } }
  else interpret_statement fuel toks { s with cur := { s.cur with current := start } }

/-- The state after one round of a repeat loop whose body returned `s1` with
`left` rounds to go: a count variable (entry `idx` of the table) receives
`left`, a literal count changes nothing. -/
def after_round (counter : Option Nat) (left : Int) (s1 : ExecState) : ExecState :=
  match counter with
  | some idx => { s1 with var_table := store s1.var_table idx left }
  | none => s1

/-- The body of a repeat executed `n` times in sequence, each execution starting
in the state left by the round before it. -/
def body_runs (fuel : Nat) (toks : List Token) (start : Nat) (is_block : Bool)
    (counter : Option Nat) : Nat → ExecState → Res
  | 0, s => .ok s
  | k + 1, s =>
    (run_body fuel toks start is_block s).bind fun s1 =>
      body_runs fuel toks start is_block counter k (after_round counter k s1)

/-- The cursor of `s1` stands just past a token of type `ty`, which is the last
token consumed. -/
def ends_after (toks : List Token) (ty : TokenType) (s1 : ExecState) : Prop :=
  ∃ t i, t.type = ty ∧ s1.cur.last_token = some t ∧ s1.cur.current = i + 1 ∧ toks[i]? = some t

/-- Every declared name of `s` is declared in `s1` at the same index. -/
def keeps_vars (s s1 : ExecState) : Prop :=
  ∀ name idx, find_var s.var_table name = some idx → find_var s1.var_table name = some idx

/-- Fuel order on results: the left one timed out or both are equal. -/
def Res.le (r r2 : Res) : Prop :=
  r = .timeout ∨ r = r2

/-- The relation `R` holds between a start state and the state of a result. -/
def Res.related (R : ExecState → ExecState → Prop) (s : ExecState) : Res → Prop
  | .ok s1 => R s s1
  | .fail _ s1 => R s s1
  | .timeout => True

/-- A relation on executor states that holds along every step the executor
takes: moving the cursor, writing output, appending a fresh variable, storing
into a declared variable. -/
structure StepClosed (R : ExecState → ExecState → Prop) : Prop where
  refl : ∀ s, R s s
  trans : ∀ s1 s2 s3, R s1 s2 → R s2 s3 → R s1 s3
  cursor : ∀ s c, R s { s with cur := c }
  emit : ∀ s text, R s (emit s text)
  declare : ∀ s name, find_var s.var_table name = none → s.var_table.length < MAX_VARS →
    R s { s with var_table := s.var_table ++ [{ name := name, value := 0 }] }
  store : ∀ s name idx v, find_var s.var_table name = some idx →
    R s { s with var_table := store s.var_table idx v }

/-! ## Syntax validator (`parser.c`) -/

/-- The fatal diagnostics of `parser.c`, one constructor per `fprintf`/`exit`
site, with the line and texts printed; `lookaheadOutOfBounds` stands for the
read of `token_list[current + 1]` past the end of the array. -/
inductive SyntaxError
  | expected (line : Int) (expected : String) (got : String)
  | assignValue (line : Int)
  | incrementValue (line : Int)
  | decrementValue (line : Int)
  | writeEof (line : Int)
  | writeUnexpected (line : Int) (text : String)
  | blockEof
  | repeatCount (line : Int)
  | repeatEof
  | repeatUnexpected (line : Int)
  | unexpectedKeyword (line : Int) (text : String)
  | unexpectedOperator (line : Int) (text : String)
  | unexpectedToken (line : Int) (text : String)
  | unexpectedClose (line : Int)
  | lookaheadOutOfBounds
  deriving DecidableEq, Repr

/-- Result of a validator function: normal return, `exit(1)` after a
diagnostic, or fuel exhausted. -/
inductive PRes
  | ok (c : Cursor)
  | fail (e : SyntaxError) (c : Cursor)
  | timeout
  deriving DecidableEq, Repr

/-- Sequencing of validator steps. -/
def PRes.bind (r : PRes) (k : Cursor → PRes) : PRes :=
  match r with
  | .ok c => k c
  | .fail e c => .fail e c
  | .timeout => .timeout

/-- The text that `expect` prints for what it expected. -/
def expected_str (type : TokenType) (val : Option String) : String :=
  match val with
  | some v => v
  | none =>
    match type with
    | TOKEN_KEYWORD => "a keyword"
    | TOKEN_IDENTIFIER => "an identifier"
    | TOKEN_INTCONST => "an integer constant"
    | TOKEN_STRINGCONST => "a string constant"
    | TOKEN_OPERATOR => "an operator"
    | TOKEN_ENDOFLINE => "semicolon ';'"
    | _ => "a token"

/-- The line that `expect` reports: the current token's line, or the last
consumed token's line when that is earlier; without a current token, the
global `last_token_line`. -/
def expect_err_line (t : Option Token) (c : Cursor) : Int :=
  match t with
  | some t =>
    match c.last_token with
    | some l => if l.line < t.line then (l.line : Int) else (t.line : Int)
    | none => (t.line : Int)
  | none => c.last_token_line

/-- The function `expect`. -/
def expect (toks : List Token) (c : Cursor) (type : TokenType) (val : Option String) : PRes :=
  if (matchTok toks c type val).1 then .ok (matchTok toks c type val).2
  else
    .fail (.expected (expect_err_line (peek toks c) c) (expected_str type val)
      (match peek toks c with | some t => t.value | none => "EOF")) c

/-- The function `parse_declaration`. -/
def parse_declaration (toks : List Token) (c : Cursor) : PRes :=
  (expect toks c TOKEN_KEYWORD (some "number")).bind fun c1 =>
    (expect toks c1 TOKEN_IDENTIFIER none).bind fun c2 =>
      expect toks c2 TOKEN_ENDOFLINE none

/-- The line reported for a missing value in `parse_assignment`,
`parse_increment` and `parse_decrement`. -/
def value_err_line (t : Option Token) (c : Cursor) : Int :=
  match t with
  | some t =>
    match c.last_token with
    | some l => if l.line < t.line then (l.line : Int) else (t.line : Int)
    | none => (t.line : Int)
  | none => c.last_token_line

/-- The common body of `parse_assignment`, `parse_increment` and
`parse_decrement`, which differ in the operator text and in the diagnostic. -/
def parse_assign_with (op : String) (err : Int → SyntaxError) (toks : List Token)
    (c : Cursor) : PRes :=
  (expect toks c TOKEN_IDENTIFIER none).bind fun c1 =>
    (expect toks c1 TOKEN_OPERATOR (some op)).bind fun c2 =>
      match peek toks c2 with
      | some t =>
        if t.type = TOKEN_INTCONST ∨ t.type = TOKEN_IDENTIFIER then
          expect toks (advance toks c2).2 TOKEN_ENDOFLINE none
        else .fail (err (value_err_line (some t) c2)) c2
      | none => .fail (err (value_err_line none c2)) c2

/-- The function `parse_assignment`. -/
def parse_assignment (toks : List Token) (c : Cursor) : PRes :=
  parse_assign_with ":=" .assignValue toks c

/-- The function `parse_increment`. -/
def parse_increment (toks : List Token) (c : Cursor) : PRes :=
  parse_assign_with "+=" .incrementValue toks c

/-- The function `parse_decrement`. -/
def parse_decrement (toks : List Token) (c : Cursor) : PRes :=
  parse_assign_with "-=" .decrementValue toks c

/-- The `while (1)` loop of `parse_write`, with the flag `expect_and`; it
returns at `break`. -/
def parse_write_loop : Nat → List Token → Bool → Cursor → PRes
  | 0, _, _, _ => .timeout
  | fuel + 1, toks, expect_and, c =>
    match peek toks c with
    | none => .fail (.writeEof c.last_token_line) c
    | some t =>
      if expect_and then
        if (matchTok toks c TOKEN_KEYWORD (some "and")).1 then
          parse_write_loop fuel toks false (matchTok toks c TOKEN_KEYWORD (some "and")).2
        else .ok c
      else if t.type = TOKEN_STRINGCONST ∨ t.type = TOKEN_INTCONST ∨ t.type = TOKEN_IDENTIFIER ∨
          (t.type = TOKEN_KEYWORD ∧ t.value = "newline") then
        parse_write_loop fuel toks true (advance toks c).2
      else .fail (.writeUnexpected t.line t.value) c

/-- The function `parse_write`. -/
def parse_write (fuel : Nat) (toks : List Token) (c : Cursor) : PRes :=
  (expect toks c TOKEN_KEYWORD (some "write")).bind fun c1 =>
    (parse_write_loop fuel toks false c1).bind fun c2 =>
      expect toks c2 TOKEN_ENDOFLINE none

/-- The read `&token_list[current + 1]`: a stored token, a zero-initialised slot
of the global array beyond `token_count`, or `none` past the end of the array. -/
def lookahead (toks : List Token) (c : Cursor) : Option Token :=
  match toks[c.current + 1]? with
  | some t => some t
  | none =>
    if c.current + 1 < MAX_TOKENS then some { type := TOKEN_KEYWORD, value := "", line := 0 }
    else none

/-- The check of the count token in `parse_repeat`. -/
def parse_repeat_count (toks : List Token) (c : Cursor) : PRes :=
  match peek toks c with
  | some t =>
    if t.type = TOKEN_INTCONST ∨ t.type = TOKEN_IDENTIFIER then .ok (advance toks c).2
    else .fail (.repeatCount t.line) c
  | none => .fail (.repeatCount (-1)) c

mutual

/-- The function `parse_statement`. -/
def parse_statement : Nat → List Token → Cursor → PRes
  | 0, _, _ => .timeout
  | fuel + 1, toks, c =>
    match peek toks c with
    | none => .ok c
    | some t =>
      if t.type = TOKEN_KEYWORD then
        if t.value = "number" then parse_declaration toks c
        else if t.value = "write" then parse_write fuel toks c
        else if t.value = "repeat" then parse_repeat fuel toks c
        else .fail (.unexpectedKeyword t.line t.value) c
      else if t.type = TOKEN_IDENTIFIER then
        match lookahead toks c with
        | none => .fail .lookaheadOutOfBounds c
        | some la =>
          if la.type = TOKEN_OPERATOR then
            if la.value = ":=" then parse_assignment toks c
            else if la.value = "+=" then parse_increment toks c
            else if la.value = "-=" then parse_decrement toks c
            else .fail (.unexpectedOperator la.line la.value) c
          else .fail (.unexpectedToken t.line t.value) c
      else if t.type = TOKEN_OPENBLOCK then parse_block fuel toks c
      else if t.type = TOKEN_CLOSEBLOCK then .fail (.unexpectedClose t.line) c
      else .fail (.unexpectedToken t.line t.value) c

/-- The function `parse_block`. -/
def parse_block : Nat → List Token → Cursor → PRes
  | 0, _, _ => .timeout
  | fuel + 1, toks, c =>
    (expect toks c TOKEN_OPENBLOCK none).bind fun c1 => parse_block_loop fuel toks c1

/-- The `while (1)` loop of `parse_block`. -/
def parse_block_loop : Nat → List Token → Cursor → PRes
  | 0, _, _ => .timeout
  | fuel + 1, toks, c =>
    match peek toks c with
    | none => .fail .blockEof c
    | some t =>
      if t.type = TOKEN_CLOSEBLOCK then expect toks c TOKEN_CLOSEBLOCK none
      else (parse_statement fuel toks c).bind fun c1 => parse_block_loop fuel toks c1

/-- The function `parse_repeat`. -/
def parse_repeat : Nat → List Token → Cursor → PRes
  | 0, _, _ => .timeout
  | fuel + 1, toks, c =>
    (expect toks c TOKEN_KEYWORD (some "repeat")).bind fun c1 =>
      (parse_repeat_count toks c1).bind fun c2 =>
        (expect toks c2 TOKEN_KEYWORD (some "times")).bind fun c3 =>
          match peek toks c3 with
          | none => .fail .repeatEof c3
          | some t =>
            if t.type = TOKEN_OPENBLOCK then parse_block fuel toks c3
            else if t.type = TOKEN_KEYWORD ∧ t.value = "write" then parse_write fuel toks c3
            else if t.type = TOKEN_IDENTIFIER then
              match lookahead toks c3 with
              | none => .fail .lookaheadOutOfBounds c3
              | some la =>
                if la.type = TOKEN_OPERATOR ∧ la.value = ":=" then
                  (parse_assignment toks c3).bind fun c4 => expect toks c4 TOKEN_ENDOFLINE none
                else if la.type = TOKEN_OPERATOR ∧ la.value = "+=" then
                  (parse_increment toks c3).bind fun c4 => expect toks c4 TOKEN_ENDOFLINE none
                else if la.type = TOKEN_OPERATOR ∧ la.value = "-=" then
                  (parse_decrement toks c3).bind fun c4 => expect toks c4 TOKEN_ENDOFLINE none
                else .fail (.repeatUnexpected t.line) c3
            else .fail (.repeatUnexpected t.line) c3

end

/-- The `while (current < token_count)` loop of `parse`. -/
def parse_loop : Nat → List Token → Cursor → PRes
  | 0, _, _ => .timeout
  | fuel + 1, toks, c =>
    if c.current < toks.length then
      (parse_statement fuel toks c).bind fun c1 => parse_loop fuel toks c1
    else .ok c

/-- The function `parse`, started from the initial values of the globals. Every
statement consumes a token or fails, so `3 * token_count + 2` nested calls
suffice. -/
def parse (toks : List Token) : PRes :=
  parse_loop (3 * toks.length + 2) toks { current := 0, last_token := none, last_token_line := -1 }

/-- A validator result that, when it is a normal return, has moved the cursor
forward by at least `k` tokens. -/
def PRes.moved (k : Nat) (c : Cursor) : PRes → Prop
  | .ok c1 => c.current + k ≤ c1.current
  | .fail _ _ => True
  | .timeout => True

/-- The number of tokens from the cursor to the end of the input. -/
def remaining (toks : List Token) (c : Cursor) : Nat :=
  toks.length - c.current

/-! ## Lexer (`lexer.c`) -/

/-- The lines the lexer prints on standard error: the debug line printed at every
newline read by the main loop, and the fatal diagnostics, one constructor per
`fprintf` site, with the line and text printed. -/
inductive LexDiag
  | debugLine (line : Nat)
  | tooManyTokens
  | unterminatedComment (line : Nat)
  | unterminatedString (line : Nat)
  | intTooLong (line : Nat)
  | identTooLong (line : Nat)
  | notDefined (line : Nat) (msg : String)
  | unrecognized (line : Nat) (msg : String)
  deriving DecidableEq, Repr

/-- Lexer state: the local variables `line` and `expect_identifier_declaration`
of `tokenize`, the globals `declared_identifiers` (its length is
`declared_count`) and `token_list` (its length is `token_count`), the lines
written to `out` and the lines written to standard error. -/
structure LexState where
  line : Nat
  expect_identifier_declaration : Bool
  declared_identifiers : List String
  token_list : List Token
  out : List String
  diag : List LexDiag
  deriving DecidableEq, Repr

/-- Result of the lexer: normal return, `exit(1)`, a write past the end of one
of the fixed-size buffers `num[128]` and `word[64]` (undefined behaviour), or
fuel exhausted. -/
inductive LexRes
  | ok (s : LexState)
  | exit (s : LexState)
  | overrun (s : LexState)
  | timeout
  deriving DecidableEq, Repr

/-- Sequencing of lexer steps. -/
def LexRes.bind (r : LexRes) (k : LexState → LexRes) : LexRes :=
  match r with
  | .ok s => k s
  | r => r

/-- The array `keywords`. -/
def keywords : List String :=
  ["number", "repeat", "times", "write", "newline", "and"]

/-- The constant `MAX_IDENTIFIERS`. -/
def MAX_IDENTIFIERS : Nat := 256

/-- The C library `isalpha` in the "C" locale. -/
def isalpha (c : Char) : Bool :=
  (decide ('a' ≤ c) && decide (c ≤ 'z')) || (decide ('A' ≤ c) && decide (c ≤ 'Z'))

/-- The C library `isalnum` in the "C" locale. -/
def isalnum (c : Char) : Bool :=
  isalpha c || isdigit c

/-- The characters of a C string: those before the first NUL. -/
def cstr (cs : List Char) : List Char :=
  cs.takeWhile fun c => c != '\x00'

/-- The length computation of `check_intconstant_length`: `strlen` less one for
a leading sign. -/
def intconstant_len (num : List Char) : Nat :=
  match num with
  | '-' :: _ => num.length - 1
  | '+' :: _ => num.length - 1
  | _ => num.length

/-- The function `check_intconstant_length`: the diagnostic printed before
`exit(1)`, `none` when the length is accepted. -/
def check_intconstant_length (num : List Char) (line : Nat) : Option LexDiag :=
  if intconstant_len num > 100 then some (.intTooLong line) else none

/-- The function `check_identifier_length`. -/
def check_identifier_length (name : List Char) (line : Nat) : Option LexDiag :=
  if name.length > 20 then some (.identTooLong line) else none

/-- The function `is_keyword`. -/
def is_keyword (word : String) : Bool :=
  keywords.contains word

/-- The function `is_identifier_start`. -/
def is_identifier_start (c : Char) : Bool :=
  isalpha c || c == '_'

/-- The function `is_identifier_char`. -/
def is_identifier_char (c : Char) : Bool :=
  isalnum c || c == '_'

/-- The function `is_declared`. -/
def is_declared (s : LexState) (name : String) : Bool :=
  s.declared_identifiers.contains name

/-- The function `declare_identifier`: the name is stored only while the array
has room. -/
def declare_identifier (s : LexState) (name : String) : LexState :=
  if s.declared_identifiers.length < MAX_IDENTIFIERS then
    { s with declared_identifiers := s.declared_identifiers ++ [name] }
  else s

/-- The token type that `write_token` derives from its `type_str`. -/
def type_of_str (type_str : String) : TokenType :=
  if type_str = "Keyword" then TOKEN_KEYWORD
  else if type_str = "Identifier" then TOKEN_IDENTIFIER
  else if type_str = "IntConstant" then TOKEN_INTCONST
  else if type_str = "StringConstant" then TOKEN_STRINGCONST
  else if type_str = "Operator" then TOKEN_OPERATOR
  else if type_str = "OpenBlock" then TOKEN_OPENBLOCK
  else if type_str = "CloseBlock" then TOKEN_CLOSEBLOCK
  else if type_str = "EndOfLine" then TOKEN_ENDOFLINE
  else TOKEN_ERROR

/-- The text stored by `strncpy(t->value, value_str, 127)` into the zeroed
`value[128]`: at most 127 characters of the C string. -/
def stored_value (value_str : Option (List Char)) : String :=
  match value_str with
  | some v => String.mk ((cstr v).take 127)
  | none => ""

/-- The line `write_token` prints to `out`: `TYPE(VALUE)`, or `TYPE` alone. -/
def token_line (type_str : String) (value_str : Option (List Char)) : String :=
  match value_str with
  | some v => type_str ++ "(" ++ String.mk (cstr v) ++ ")"
  | none => type_str

/-- The function `write_token`. -/
def write_token (s : LexState) (type_str : String) (value_str : Option (List Char))
    (line : Nat) : LexRes :=
  if s.token_list.length ≥ MAX_TOKENS then .exit { s with diag := s.diag ++ [.tooManyTokens] }
  else
    .ok { s with
      token_list := s.token_list ++
        [{ type := type_of_str type_str, value := stored_value value_str, line := line }],
      out := s.out ++ [token_line type_str value_str] }

/-- The error exits of `tokenize`: the diagnostic on standard error, then the
`Error` token written by `write_token`, then `exit(1)`. -/
def lex_error (s : LexState) (d : LexDiag) (msg : String) (line : Nat) : LexRes :=
  match write_token { s with diag := s.diag ++ [d] } "Error" (some msg.toList) line with
  | .ok s1 => .exit s1
  | r => r

/-- The text `sprintf(err_msg, "'%s' is not defined", word)`. -/
def not_defined_msg (word : List Char) : String :=
  "'" ++ String.mk word ++ "' is not defined"

/-- The C string left in `err_msg` by
`sprintf(err_msg, "[ERROR]: Unrecognized character '%c'", c)`. -/
def unrecognized_msg (c : Char) : String :=
  String.mk (cstr ("[ERROR]: Unrecognized character '" ++ String.mk [c] ++ "'").toList)

/-- The comment loop of `tokenize`: reads up to the closing `*`, counting
newlines; `none` when end of input comes first (with the line reached). -/
def scan_comment : List Char → Nat → Nat × Option (List Char)
  | [], line => (line, none)
  | c :: rest, line =>
    if c = '*' then (line, some rest)
    else scan_comment rest (if c = '\n' then line + 1 else line)

/-- The string loop of `tokenize` with the index `i` into `str[256]`: reads up to
the closing quote; the text is `none` when end of input comes first or 255
characters were stored. The result also gives the line reached and the input
left. -/
def scan_string : List Char → Nat → Nat → List Char → Nat × Option (List Char) × List Char
  | [], _, line, _ => (line, none, [])
  | c :: rest, i, line, str =>
    if i < 255 then
      if c = '"' then (line, some str, rest)
      else scan_string rest (i + 1) (if c = '\n' then line + 1 else line) (str ++ [c])
    else (line, none, rest)

/-- The first statement of the main loop of `tokenize`: a newline advances the
line counter and prints the debug line. -/
def newline_seen (s0 : LexState) (c : Char) : LexState :=
  if c = '\n' then { s0 with line := s0.line + 1, diag := s0.diag ++ [.debugLine (s0.line + 1)] }
  else s0

/-- The chain of `if` blocks of the main loop of `tokenize` on the character
`c`, with the input after it: the state reached and the input left, or the
final result. -/
def tokenize_token (s : LexState) (c : Char) (rest : List Char) : LexRes × List Char :=
  if c = ';' then (write_token s "EndOfLine" none s.line, rest)
  else if c = '*' then
    match scan_comment rest s.line with
    | (line, some rest1) => (.ok { s with line := line }, rest1)
    | (line, none) =>
      (lex_error { s with line := line } (.unterminatedComment s.line)
        "Unterminated comment detected." line, [])
  else if c = '{' then (write_token s "OpenBlock" none s.line, rest)
  else if c = '}' then (write_token s "CloseBlock" none s.line, rest)
  else if c = '"' then
    match scan_string rest 0 s.line [] with
    | (line, some str, rest1) =>
      (write_token { s with line := line } "StringConstant" (some str) line, rest1)
    | (line, none, rest1) =>
      (lex_error { s with line := line } (.unterminatedString s.line)
        "Unterminated string constant." line, rest1)
  else if c = ':' ∨ c = '+' ∨ c = '-' then
    match rest with
    | next :: rest1 =>
      if c = ':' ∧ next = '=' then (write_token s "Operator" (some [':', '=']) s.line, rest1)
      else if c = '+' ∧ next = '=' then (write_token s "Operator" (some ['+', '=']) s.line, rest1)
      else if c = '-' ∧ next = '=' then (write_token s "Operator" (some ['-', '=']) s.line, rest1)
      else if (c = '-' ∨ c = '+') ∧ isdigit next then
        let num := c :: next :: rest1.takeWhile isdigit
        if num.length ≥ 128 then (.overrun s, rest1.dropWhile isdigit)
        else
          match check_intconstant_length num s.line with
          | some d => (.exit { s with diag := s.diag ++ [d] }, rest1.dropWhile isdigit)
          | none => (write_token s "IntConstant" (some num) s.line, rest1.dropWhile isdigit)
      else (write_token s "Operator" (some [c]) s.line, rest)
    | [] => (write_token s "Operator" (some [c]) s.line, rest)
  else if isdigit c then
    let num := c :: rest.takeWhile isdigit
    if num.length ≥ 128 then (.overrun s, rest.dropWhile isdigit)
    else
      match check_intconstant_length num s.line with
      | some d => (.exit { s with diag := s.diag ++ [d] }, rest.dropWhile isdigit)
      | none => (write_token s "IntConstant" (some num) s.line, rest.dropWhile isdigit)
  else if is_identifier_start c then
    let word := c :: rest.takeWhile is_identifier_char
    let rest1 := rest.dropWhile is_identifier_char
    if word.length ≥ 64 then (.overrun s, rest1)
    else
      match check_identifier_length word s.line with
      | some d => (.exit { s with diag := s.diag ++ [d] }, rest1)
      | none =>
        if is_keyword (String.mk word) then
          ((write_token s "Keyword" (some word) s.line).bind fun s1 =>
            .ok (if String.mk word = "number" then
              { s1 with expect_identifier_declaration := true } else s1), rest1)
        else if s.expect_identifier_declaration then
          ((write_token (declare_identifier s (String.mk word)) "Identifier" (some word)
            s.line).bind fun s1 => .ok { s1 with expect_identifier_declaration := false }, rest1)
        else if is_declared s (String.mk word) then
          (write_token s "Identifier" (some word) s.line, rest1)
        else
          (lex_error s (.notDefined s.line (not_defined_msg word)) (not_defined_msg word)
            s.line, rest1)
  else if !isspace c then
    (lex_error s (.unrecognized s.line (unrecognized_msg c)) (unrecognized_msg c) s.line, rest)
  else (.ok s, rest)

/-- One round of the main loop of `tokenize` on the character `c`. -/
def tokenize_step (s0 : LexState) (c : Char) (rest : List Char) : LexRes × List Char :=
  tokenize_token (newline_seen s0 c) c rest

/-- The main loop `while ((c = fgetc(in)) != EOF)` of `tokenize`. -/
def tokenize_loop : Nat → LexState → List Char → LexRes
  | _, s, [] => .ok s
  | 0, _, _ :: _ => .timeout
  | fuel + 1, s, c :: rest =>
    match tokenize_step s c rest with
    | (.ok s1, rest1) => tokenize_loop fuel s1 rest1
    | (r, _) => r

/-- The state in which `tokenize` starts: line 1, no flag, empty tables. -/
def LexState.init : LexState :=
  { line := 1, expect_identifier_declaration := false, declared_identifiers := [],
    token_list := [], out := [], diag := [] }

/-- The function `tokenize` on the input file, given as the list of its bytes
(each a character below 256, as `fgetc` returns them); every round of the main
loop reads at least one character, so the input's length is fuel enough. -/
def tokenize (input : List Char) : LexRes :=
  tokenize_loop input.length LexState.init input

/-! ## The whole run (`ppp.c`) -/

/-- How far `main` got: lexing ended the run, validation ended the run, or the
executor ran on the validated tokens. -/
inductive Run
  | lexFailed (l : LexRes)
  | syntaxFailed (l : LexState) (p : PRes)
  | executed (l : LexState) (c : Cursor) (r : Res)
  deriving DecidableEq, Repr

/-- The function `main` after the source file is opened: `tokenize`, `parse`,
`interpret`, each reached only when the one before returned. -/
def run (fuel : Nat) (input : List Char) : Run :=
  match tokenize input with
  | .ok l =>
    match parse l.token_list with
    | .ok c => .executed l c (interpret fuel l.token_list c)
    | p => .syntaxFailed l p
  | l => .lexFailed l

/-- The text written by the executor's `write` statements during a run. -/
def Run.program_output : Run → String
  | .executed _ _ (.ok s) => s.output
  | .executed _ _ (.fail _ s) => s.output
  | _ => ""

/-- The variable table at the end of a run whose executor returned normally. -/
def Run.final_vars : Run → Option (List Variable)
  | .executed _ _ (.ok s) => some s.var_table
  | _ => none

/-- The fatal diagnostic and variable table of a run whose executor failed. -/
def Run.runtime_error : Run → Option (RuntimeError × List Variable)
  | .executed _ _ (.fail e s) => some (e, s.var_table)
  | _ => none

/-! ## The grammar of the specification -/

/-- The nonterminals of the specification's grammar that need a name here:
`program` (which is `statement*`, also the content of a block), `statement` and
`writelist`. -/
inductive Nonterminal
  | program
  | statement
  | writelist
  deriving DecidableEq, Repr

/-- A quoted terminal of the grammar that is a keyword: a Keyword token with
that text. -/
def Token.isKeyword (t : Token) (text : String) : Prop :=
  t.type = TOKEN_KEYWORD ∧ t.value = text

/-- The alternative `(IntegerLiteral|Identifier)` of the grammar. -/
def Token.isValue (t : Token) : Prop :=
  t.type = TOKEN_INTCONST ∨ t.type = TOKEN_IDENTIFIER

/-- The alternative `( ":=" | "+=" | "-=" )` of the grammar. -/
def Token.isAssignOp (t : Token) : Prop :=
  t.type = TOKEN_OPERATOR ∧ (t.value = ":=" ∨ t.value = "+=" ∨ t.value = "-=")

/-- The rule `writeval := StringLiteral | "newline" | IntegerLiteral | Identifier`. -/
def Token.isWriteVal (t : Token) : Prop :=
  t.type = TOKEN_STRINGCONST ∨ t.isKeyword "newline" ∨ t.type = TOKEN_INTCONST ∨
    t.type = TOKEN_IDENTIFIER

/-- Derivability in the grammar of the specification, written from its EBNF:
`program := statement*`, `statement := declaration | write | repeat |
assignment | block`, with one constructor per rule. -/
inductive Derives : Nonterminal → List Token → Prop
  | program_nil : Derives .program []
  | program_cons {a b : List Token} :
      Derives .statement a → Derives .program b → Derives .program (a ++ b)
  | declaration {n id semi : Token} :
      n.isKeyword "number" → id.type = TOKEN_IDENTIFIER → semi.type = TOKEN_ENDOFLINE →
      Derives .statement [n, id, semi]
  | assignment {id op v semi : Token} :
      id.type = TOKEN_IDENTIFIER → op.isAssignOp → v.isValue → semi.type = TOKEN_ENDOFLINE →
      Derives .statement [id, op, v, semi]
  | write {w semi : Token} {l : List Token} :
      w.isKeyword "write" → Derives .writelist l → semi.type = TOKEN_ENDOFLINE →
      Derives .statement (w :: l ++ [semi])
  | writelist_one {v : Token} : v.isWriteVal → Derives .writelist [v]
  | writelist_and {v a : Token} {rest : List Token} :
      v.isWriteVal → a.isKeyword "and" → Derives .writelist rest →
      Derives .writelist (v :: a :: rest)
  | repeat_stmt {r c t : Token} {body : List Token} :
      r.isKeyword "repeat" → c.isValue → t.isKeyword "times" → Derives .statement body →
      Derives .statement (r :: c :: t :: body)
  | block {o c : Token} {l : List Token} :
      o.type = TOKEN_OPENBLOCK → Derives .program l → c.type = TOKEN_CLOSEBLOCK →
      Derives .statement (o :: l ++ [c])

/-- The decimal value of a digit character. -/
def digit_value (c : Char) : Nat :=
  c.toNat - 48

/-- The number written by a list of decimal digit characters. -/
def decimal_value (ds : List Char) : Nat :=
  Nat.ofDigits 10 (ds.reverse.map digit_value)

/-- Whether a character list is a nonempty run of decimal digits. -/
def is_digits (ds : List Char) : Bool :=
  !ds.isEmpty && ds.all isdigit

/-- The integer written by an integer literal: an optional `+` or `-` and a
nonempty run of decimal digits; `none` for any other text. -/
def literal_value (text : String) : Option Int :=
  match text.toList with
  | '-' :: ds => if is_digits ds then some (-(decimal_value ds : Int)) else none
  | '+' :: ds => if is_digits ds then some (decimal_value ds : Int) else none
  | ds => if is_digits ds then some (decimal_value ds : Int) else none

/-- A right-hand side or count token `t` denotes the value `b` in state `s`: an
integer literal within the signed 64-bit range that writes `b`, or a declared
variable holding `b`. -/
def denotes (s : ExecState) (t : Token) (b : Int) : Prop :=
  (t.type = TOKEN_INTCONST ∧ literal_value t.value = some b ∧ LLONG_MIN ≤ b ∧ b ≤ LLONG_MAX) ∨
  (t.type = TOKEN_IDENTIFIER ∧ ∃ j y, find_var s.var_table t.value = some j ∧
    s.var_table[j]? = some y ∧ y.value = b)

/-- No semicolon token stands first or directly after another semicolon token;
`prev` tells whether the token before the list is a semicolon (or the list
starts the input). -/
def semicolons_separated : Bool → List Token → Bool
  | _, [] => true
  | prev, t :: ts =>
    !(prev && t.type == TOKEN_ENDOFLINE) && semicolons_separated (t.type == TOKEN_ENDOFLINE) ts

/-- The tokens that `tokenize` stores for a source text, when it returns. -/
def tokens_of (src : String) : Option (List Token) :=
  match tokenize src.toList with
  | .ok l => some l.token_list
  | _ => none

/-- Whether `parse` returns normally on a token sequence. -/
def accepted (toks : List Token) : Bool :=
  match parse toks with
  | .ok _ => true
  | _ => false

/-- Every `times` keyword token that has a successor is followed by a token
that satisfies `ok`. -/
def times_followed_by (ok : Token → Bool) : List Token → Bool
  | t :: b :: rest =>
    (!(t.type == TOKEN_KEYWORD && t.value == "times") || ok b) &&
      times_followed_by ok (b :: rest)
  | _ => true

/-- The first token of a block or of a write statement. -/
def starts_block_or_write (b : Token) : Bool :=
  b.type == TOKEN_OPENBLOCK || (b.type == TOKEN_KEYWORD && b.value == "write")

/-- The token list `l` stands in `toks` from position `n` on. -/
def occurs_at (toks : List Token) (n : Nat) (l : List Token) : Prop :=
  ∀ i t, l[i]? = some t → toks[n + i]? = some t

/-- What the validator does on a token list `l` that the grammar derives from a
nonterminal and in which every repeat body is a block or a write statement,
when `l` stands at the cursor: a statement is consumed whole by
`parse_statement` (and by `parse_block` or `parse_write` when it starts that
way), a statement list by `parse_block_loop` up to the closing brace after it
and by `parse_loop` up to the end of input, a write list by
`parse_write_loop` up to the token after it. -/
def Accepts : Nonterminal → List Token → Prop
  | .statement, l =>
    ∀ (toks : List Token) (c : Cursor) (f : Nat), occurs_at toks c.current l →
      times_followed_by starts_block_or_write l = true → 3 * l.length + 1 ≤ f →
      (∃ c1, parse_statement f toks c = .ok c1 ∧ c1.current = c.current + l.length) ∧
      (∀ b, l.head? = some b → b.type = TOKEN_OPENBLOCK →
        ∃ c1, parse_block f toks c = .ok c1 ∧ c1.current = c.current + l.length) ∧
      (∀ b, l.head? = some b → b.isKeyword "write" →
        ∃ c1, parse_write f toks c = .ok c1 ∧ c1.current = c.current + l.length)
  | .program, l =>
    ∀ (toks : List Token) (c : Cursor) (f : Nat), occurs_at toks c.current l →
      times_followed_by starts_block_or_write l = true → 3 * l.length + 2 ≤ f →
      (∀ cl, toks[c.current + l.length]? = some cl → cl.type = TOKEN_CLOSEBLOCK →
        ∃ c1, parse_block_loop f toks c = .ok c1 ∧ c1.current = c.current + l.length + 1) ∧
      (c.current + l.length = toks.length →
        ∃ c1, parse_loop f toks c = .ok c1 ∧ c1.current = toks.length)
  | .writelist, l =>
    ∀ (toks : List Token) (c : Cursor) (f : Nat) (nx : Token), occurs_at toks c.current l →
      toks[c.current + l.length]? = some nx → ¬ nx.isKeyword "and" → l.length + 1 ≤ f →
      ∃ c1, parse_write_loop f toks false c = .ok c1 ∧ c1.current = c.current + l.length

/-- The diagnostic with which `parse` ends a run, if it does. -/
def syntax_error (toks : List Token) : Option SyntaxError :=
  match parse toks with
  | .fail e _ => some e
  | _ => none

/-- The tokens of a write list `v ("and" v)*`: the first item, then the pairs of
an `and` token and the item after it. -/
def write_list : Token → List (Token × Token) → List Token
  | v, [] => [v]
  | v, (a, v2) :: more => v :: a :: write_list v2 more

/-- The rendering the specification gives a write item in state `s`: the text of
a string literal, a line break for the keyword `newline`, and the decimal form
of the value that an integer literal or an identifier denotes. -/
def renders (s : ExecState) (t : Token) (text : String) : Prop :=
  (t.type = TOKEN_STRINGCONST ∧ text = t.value) ∨
  (t.isKeyword "newline" ∧ text = "\n") ∨
  (∃ b, denotes s t b ∧ text = lld b)

/-- The concatenation of texts in order, with no separator. -/
def concat_texts : List String → String
  | [] => ""
  | t :: ts => t ++ concat_texts ts

/-- The source text `write "s";` for a text `s`. -/
def write_string_source (s : List Char) : List Char :=
  ['w', 'r', 'i', 't', 'e', ' ', '"'] ++ s ++ ['"', ';']

/-- The line number a validator diagnostic prints, when it prints one. -/
def SyntaxError.line : SyntaxError → Option Int
  | .expected l _ _ => some l
  | .assignValue l => some l
  | .incrementValue l => some l
  | .decrementValue l => some l
  | .writeEof l => some l
  | .writeUnexpected l _ => some l
  | .blockEof => none
  | .repeatCount l => some l
  | .repeatEof => none
  | .repeatUnexpected l => some l
  | .unexpectedKeyword l _ => some l
  | .unexpectedOperator l _ => some l
  | .unexpectedToken l _ => some l
  | .unexpectedClose l => some l
  | .lookaheadOutOfBounds => none

/-- The diagnostics of a missing token: `Expected token ...` of `expect` and the
missing value of an assignment, increment or decrement. -/
def SyntaxError.is_omission : SyntaxError → Bool
  | .expected _ _ _ => true
  | .assignValue _ => true
  | .incrementValue _ => true
  | .decrementValue _ => true
  | _ => false

/-- The diagnostics of an unexpected token under the cursor: in a write
statement, as a repeat count, after `times`, or at the start of a statement. -/
def SyntaxError.is_unexpected : SyntaxError → Bool
  | .writeUnexpected _ _ => true
  | .repeatCount _ => true
  | .repeatUnexpected _ => true
  | .unexpectedKeyword _ _ => true
  | .unexpectedToken _ _ => true
  | .unexpectedClose _ => true
  | _ => false

/-- The diagnostics of an end of input, raised when no token is under the
cursor: in a write statement, in a block, or after `repeat ... times`. -/
def SyntaxError.is_end_of_input : SyntaxError → Bool
  | .writeEof _ => true
  | .blockEof => true
  | .repeatEof => true
  | _ => false

/-- How the line of a diagnostic `e`, raised with the cursor at `c`, relates to
the tokens there: a missing-token diagnostic carries the line chosen by the
attribution rule of `expect`, an unexpected-token diagnostic the line of the
token under the cursor, the unexpected-operator diagnostic the line and text of
the token after the one under the cursor, and an end-of-input diagnostic is
raised only when no token is under the cursor. -/
def line_attributed (toks : List Token) (e : SyntaxError) (c : Cursor) : Prop :=
  (e.is_omission = true → e.line = some (expect_err_line (peek toks c) c)) ∧
  (e.is_unexpected = true → ∀ t, peek toks c = some t → e.line = some (t.line : Int)) ∧
  (∀ l v, e = .unexpectedOperator l v →
    ∃ la, toks[c.current + 1]? = some la ∧ l = (la.line : Int) ∧ v = la.value) ∧
  (e.is_end_of_input = true → peek toks c = none)

/-- Every failure of a validator result is line-attributed. -/
def PRes.attributed (toks : List Token) : PRes → Prop
  | .fail e c => line_attributed toks e c
  | _ => True

/-- The lexer state `s2` is reached from `s1` by rounds of the main loop of
`tokenize` that all return normally. -/
inductive LexReach : LexState → LexState → Prop
  | refl (s : LexState) : LexReach s s
  | step {s s1 s2 : LexState} {c : Char} {rest rest1 : List Char} :
      tokenize_step s c rest = (.ok s1, rest1) → LexReach s1 s2 → LexReach s s2

/-- The lines written to standard error and the number of tokens stored when
`tokenize` exits on an input, if it exits. -/
def lex_exit (input : List Char) : Option (List LexDiag × Nat) :=
  match tokenize input with
  | .exit s => some (s.diag, s.token_list.length)
  | _ => none

/-- The source text made of `n` copies of a text. -/
def copies : Nat → List Char → List Char
  | 0, _ => []
  | n + 1, t => t ++ copies n t

/-- An integer literal as written: an optional sign, then 1 to 100 digits. -/
def is_int_literal (w : List Char) : Bool :=
  match w with
  | '+' :: ds => is_digits ds && decide (ds.length ≤ 100)
  | '-' :: ds => is_digits ds && decide (ds.length ≤ 100)
  | ds => is_digits ds && decide (ds.length ≤ 100)

/-- A word of a source made only of keywords and integer literals. -/
def is_plain_word (w : List Char) : Bool :=
  is_keyword (String.mk w) || is_int_literal w

/-- The kind name under which the diagnostic line shows a plain word. -/
def plain_kind (w : List Char) : String :=
  if is_keyword (String.mk w) then "Keyword" else "IntConstant"

/-- The token type of a plain word. -/
def plain_type (w : List Char) : TokenType :=
  if is_keyword (String.mk w) then TOKEN_KEYWORD else TOKEN_INTCONST

/-- The source text of a list of words, each followed by its white space. -/
def words_source : List (List Char × List Char) → List Char
  | [] => []
  | (w, sep) :: rest => w ++ sep ++ words_source rest

/-- Every word but the last is followed by at least one character of white
space. -/
def separated : List (List Char × List Char) → Bool
  | [] => true
  | [_] => true
  | (_, sep) :: q :: rest => !sep.isEmpty && separated (q :: rest)

/-- What one round of the main loop does with a word: while the token table has
room it stores the token `t` and prints `line`, otherwise it exits with the
too-many-tokens diagnostic. -/
def writes_word (s : LexState) (c : Char) (rest after : List Char) (t : Token)
    (line : String) : Prop :=
  (s.token_list.length < MAX_TOKENS →
    ∃ s1, tokenize_step s c rest = (.ok s1, after) ∧
      s1.token_list = s.token_list ++ [t] ∧ s1.out = s.out ++ [line]) ∧
  (MAX_TOKENS ≤ s.token_list.length →
    (tokenize_step s c rest).1 = .exit { s with diag := s.diag ++ [.tooManyTokens] })

/-- The texts of the operator tokens of the language. -/
def operators : List String :=
  [":=", "+=", "-=", ":", "+", "-"]

/-- A word that can be the text of an identifier: 1 to 20 letters, digits and
underscores, the first one a letter or an underscore, and not a keyword. -/
def is_identifier_word (w : List Char) : Bool :=
  match w with
  | [] => false
  | c :: cs =>
    is_identifier_start c && cs.all is_identifier_char && decide ((c :: cs).length ≤ 20) &&
      !is_keyword (String.mk (c :: cs))

/-- The shape of a stored token, by kind: a keyword text, an identifier word, an
integer literal, a string of at most 127 characters, an operator text, or the
empty text of a brace or semicolon token; an Error token has no good shape. -/
def Token.well_formed (t : Token) : Bool :=
  match t.type with
  | TOKEN_KEYWORD => is_keyword t.value
  | TOKEN_IDENTIFIER => is_identifier_word t.value.toList
  | TOKEN_INTCONST => is_int_literal t.value.toList
  | TOKEN_STRINGCONST => decide (t.value.length ≤ 127)
  | TOKEN_OPERATOR => operators.contains t.value
  | TOKEN_OPENBLOCK => t.value == ""
  | TOKEN_CLOSEBLOCK => t.value == ""
  | TOKEN_ENDOFLINE => t.value == ""
  | TOKEN_ERROR => false

/-- How the flag `expect_identifier_declaration` and the declaration set change
when the token `t` is stored in state `s`, giving `s1`: an identifier token
clears the flag and is either registered (flag set before) or already
registered; the keyword `number` sets the flag; no other token changes
either. -/
def lex_flags (s : LexState) (t : Token) (s1 : LexState) : Prop :=
  if t.type = TOKEN_IDENTIFIER then
    s1.expect_identifier_declaration = false ∧
      ((s.expect_identifier_declaration = true ∧
          s1.declared_identifiers = (declare_identifier s t.value).declared_identifiers) ∨
        (s.expect_identifier_declaration = false ∧ t.value ∈ s.declared_identifiers ∧
          s1.declared_identifiers = s.declared_identifiers))
  else
    s1.declared_identifiers = s.declared_identifiers ∧
      s1.expect_identifier_declaration =
        (s.expect_identifier_declaration || (t.type == TOKEN_KEYWORD && t.value == "number"))

/-- What a round of the main loop of `tokenize` that returns normally does to
the state: the line counter does not go back, and either nothing else that
matters changes, or one well-formed token whose line is the line counter is
appended to a table that had room. -/
def lex_round (s s1 : LexState) : Prop :=
  s.line ≤ s1.line ∧
    ((s1.token_list = s.token_list ∧
        s1.expect_identifier_declaration = s.expect_identifier_declaration ∧
        s1.declared_identifiers = s.declared_identifiers) ∨
      ∃ t, s.token_list.length < MAX_TOKENS ∧ s1.token_list = s.token_list ++ [t] ∧
        t.line = s1.line ∧ t.well_formed = true ∧ lex_flags s t s1)

/-- The lines of a token sequence never go back from one token to the next. -/
def lines_ordered (toks : List Token) : Prop :=
  ∀ i t u, toks[i]? = some t → toks[i + 1]? = some u → t.line ≤ u.line

/-- The tokens of the leading items of a write list, each followed by its
`and` token. -/
def write_items : List (Token × Token) → List Token
  | [] => []
  | (v, a) :: more => v :: a :: write_items more

/-- Two token sequences that agree in kinds and texts, token by token; the
lines may differ. -/
def same_tokens (a b : List Token) : Prop :=
  a.map (fun t => (t.type, t.value)) = b.map (fun t => (t.type, t.value))

/-- Two lexer states that differ at most in the line counter, in the lines of
the stored tokens and in what was printed on standard error. -/
def LexState.same_upto_lines (s s2 : LexState) : Prop :=
  s.expect_identifier_declaration = s2.expect_identifier_declaration ∧
    s.declared_identifiers = s2.declared_identifiers ∧
    same_tokens s.token_list s2.token_list ∧ s.out = s2.out

/-- Two lexer results of the same kind whose states differ at most in line
numbers. -/
def LexRes.same_upto_lines : LexRes → LexRes → Prop
  | .ok s, .ok s2 => s.same_upto_lines s2
  | .exit s, .exit s2 => s.same_upto_lines s2
  | .overrun s, .overrun s2 => s.same_upto_lines s2
  | .timeout, .timeout => True
  | _, _ => False

/-- The main loop of `tokenize`, started in state `s` on `input`, reaches the
state `s2` with `rest` left to read, by rounds that all return normally. -/
inductive LexRun : LexState → List Char → LexState → List Char → Prop
  | refl (s : LexState) (input : List Char) : LexRun s input s input
  | step {s s1 s2 : LexState} {c : Char} {rest rest1 rest2 : List Char} :
      tokenize_step s c rest = (.ok s1, rest1) → LexRun s1 rest1 s2 rest2 →
      LexRun s (c :: rest) s2 rest2

/-- A relation on executor states that holds along every step the executor
takes on a token sequence whose identifier texts all satisfy `N`: as
`StepClosed`, but a fresh variable is only ever appended under a name that
satisfies `N`. -/
structure StepClosedOn (N : String → Prop) (R : ExecState → ExecState → Prop) : Prop where
  refl : ∀ s, R s s
  trans : ∀ s1 s2 s3, R s1 s2 → R s2 s3 → R s1 s3
  cursor : ∀ s c, R s { s with cur := c }
  emit : ∀ s text, R s (emit s text)
  declare : ∀ s name, N name → find_var s.var_table name = none →
    s.var_table.length < MAX_VARS →
    R s { s with var_table := s.var_table ++ [{ name := name, value := 0 }] }
  store : ∀ s name idx v, find_var s.var_table name = some idx →
    R s { s with var_table := store s.var_table idx v }

/-- The variable table of `s1` continues the one of `s`: the names of `s` stand
first in `s1`, in the same order; distinct names stay distinct; and the bound of
`MAX_VARS` entries is kept. -/
def table_kept (s s1 : ExecState) : Prop :=
  (∃ ext, s1.var_table.map (·.name) = s.var_table.map (·.name) ++ ext) ∧
    ((s.var_table.map (·.name)).Nodup → (s1.var_table.map (·.name)).Nodup) ∧
    (s.var_table.length ≤ MAX_VARS → s1.var_table.length ≤ MAX_VARS)

/-- When every name in the table of `s` has at most 20 characters, so has every
name in the table of `s1`. -/
def names_short (s s1 : ExecState) : Prop :=
  (∀ v ∈ s.var_table, v.name.length ≤ 20) → ∀ v ∈ s1.var_table, v.name.length ≤ 20

/-- The state with which an executor function ended, if it ended. -/
def Res.state : Res → Option ExecState
  | .ok s => some s
  | .fail _ s => some s
  | .timeout => none

/-- The globals `last_token` and `last_token_line` describe the token just
before the cursor: nothing consumed yet at position 0, or the token at the
position before `current` and its line. -/
def cursor_follows (toks : List Token) (c : Cursor) : Prop :=
  (c.last_token = none ∧ c.current = 0) ∨
    ∃ t i, c.last_token = some t ∧ c.last_token_line = (t.line : Int) ∧ c.current = i + 1 ∧
      toks[i]? = some t

/-- The cursor with which a validator function ended follows the tokens. -/
def PRes.follows (toks : List Token) : PRes → Prop
  | .ok c => cursor_follows toks c
  | .fail _ c => cursor_follows toks c
  | .timeout => True

/-- The language that the validator accepts, as a grammar read off
`parser.c`: the rules of the specification for programs, declarations,
assignments, write statements and blocks, and for `repeat` the three body forms
that `parse_repeat` admits: a block, a write statement, and an assignment
followed by a second semicolon. -/
inductive Validates : Nonterminal → List Token → Prop
  | program_nil : Validates .program []
  | program_cons {a b : List Token} :
      Validates .statement a → Validates .program b → Validates .program (a ++ b)
  | declaration {n id semi : Token} :
      n.isKeyword "number" → id.type = TOKEN_IDENTIFIER → semi.type = TOKEN_ENDOFLINE →
      Validates .statement [n, id, semi]
  | assignment {id op v semi : Token} :
      id.type = TOKEN_IDENTIFIER → op.isAssignOp → v.isValue → semi.type = TOKEN_ENDOFLINE →
      Validates .statement [id, op, v, semi]
  | write {w semi : Token} {l : List Token} :
      w.isKeyword "write" → Validates .writelist l → semi.type = TOKEN_ENDOFLINE →
      Validates .statement (w :: l ++ [semi])
  | writelist_one {v : Token} : v.isWriteVal → Validates .writelist [v]
  | writelist_and {v a : Token} {rest : List Token} :
      v.isWriteVal → a.isKeyword "and" → Validates .writelist rest →
      Validates .writelist (v :: a :: rest)
  | repeat_block {r c t o cl : Token} {l : List Token} :
      r.isKeyword "repeat" → c.isValue → t.isKeyword "times" → o.type = TOKEN_OPENBLOCK →
      Validates .program l → cl.type = TOKEN_CLOSEBLOCK →
      Validates .statement (r :: c :: t :: o :: l ++ [cl])
  | repeat_write {r c t w semi : Token} {l : List Token} :
      r.isKeyword "repeat" → c.isValue → t.isKeyword "times" → w.isKeyword "write" →
      Validates .writelist l → semi.type = TOKEN_ENDOFLINE →
      Validates .statement (r :: c :: t :: w :: l ++ [semi])
  | repeat_assign {r c t id op v semi semi2 : Token} :
      r.isKeyword "repeat" → c.isValue → t.isKeyword "times" → id.type = TOKEN_IDENTIFIER →
      op.isAssignOp → v.isValue → semi.type = TOKEN_ENDOFLINE → semi2.type = TOKEN_ENDOFLINE →
      Validates .statement [r, c, t, id, op, v, semi, semi2]
  | block {o c : Token} {l : List Token} :
      o.type = TOKEN_OPENBLOCK → Validates .program l → c.type = TOKEN_CLOSEBLOCK →
      Validates .statement (o :: l ++ [c])

/-- The test for an OpenBlock token. -/
def is_open_block (b : Token) : Bool :=
  b.type == TOKEN_OPENBLOCK

/-- An executor result that, when it is a normal return, has its cursor at
least `k` tokens past position `p`. -/
def Res.advanced (k : Nat) (p : Nat) : Res → Prop
  | .ok s1 => p + k ≤ s1.cur.current
  | .fail _ _ => True
  | .timeout => True

/-- The runtime diagnostics for a name that is not in the variable table, of
`check_var_exists`, `get_value` and `set_variable`. -/
def RuntimeError.is_undeclared : RuntimeError → Bool
  | .notDeclaredCheck _ _ => true
  | .notDeclaredValue _ _ => true
  | .notDeclaredSet _ => true
  | _ => false

/-- A token after which the validator starts a statement: a semicolon, a brace
or the keyword `times`. -/
def Token.ends_part (t : Token) : Prop :=
  t.type = TOKEN_ENDOFLINE ∨ t.type = TOKEN_CLOSEBLOCK ∨ t.type = TOKEN_OPENBLOCK ∨
    t.isKeyword "times"

/-- Two neighbouring tokens of a validated sequence: `number` is followed by an
identifier, and stands only after a semicolon, a brace or `times`. -/
def number_adjacent (a b : Token) : Prop :=
  (a.isKeyword "number" → b.type = TOKEN_IDENTIFIER) ∧ (b.isKeyword "number" → a.ends_part)

/-- The flag `expect_identifier_declaration` as the stored tokens determine it:
set by the keyword `number`, cleared by an identifier. -/
def armed (toks : List Token) : Bool :=
  toks.foldl (fun b t =>
    if t.type = TOKEN_IDENTIFIER then false
    else b || (t.type == TOKEN_KEYWORD && t.value == "number")) false

/-- The tokens at positions `q` and `q + 1` are the keyword `number` and an
identifier with the text `name`. -/
def introduces (toks : List Token) (q : Nat) (name : String) : Prop :=
  ∃ n u, toks[q]? = some n ∧ n.isKeyword "number" ∧ toks[q + 1]? = some u ∧
    u.type = TOKEN_IDENTIFIER ∧ u.value = name

/-- Every identifier token stands directly after `number`, or after an earlier
`number` followed by the same identifier. -/
def declared_before_use (toks : List Token) : Prop :=
  ∀ i t, toks[i]? = some t → t.type = TOKEN_IDENTIFIER → ∃ q, q + 1 ≤ i ∧ introduces toks q t.value

/-- The keyword `number` stands first or directly after a semicolon, a brace or
`times`. -/
def number_starts_statement (toks : List Token) : Prop :=
  ∀ i a b, toks[i]? = some a → toks[i + 1]? = some b → b.isKeyword "number" → a.ends_part

/-- What the lexer's flag and declaration set say about the stored tokens: the
flag is the one the tokens determine; every registered name is the text of an
identifier token stored while the flag was set; and every identifier token is
preceded by, or is, an identifier token of the same text stored while the flag
was set. -/
def lex_declared (s : LexState) : Prop :=
  s.expect_identifier_declaration = armed s.token_list ∧
    (∀ w ∈ s.declared_identifiers, ∃ j u, s.token_list[j]? = some u ∧
      u.type = TOKEN_IDENTIFIER ∧ u.value = w ∧ armed (s.token_list.take j) = true) ∧
    (∀ i t, s.token_list[i]? = some t → t.type = TOKEN_IDENTIFIER →
      ∃ j u, j ≤ i ∧ s.token_list[j]? = some u ∧ u.type = TOKEN_IDENTIFIER ∧
        u.value = t.value ∧ armed (s.token_list.take j) = true)

/-- Every name introduced by a declaration that stands wholly before position
`p` is in the variable table. -/
def declared_upto (toks : List Token) (p : Nat) (vt : List Variable) : Prop :=
  ∀ q name, q + 1 < p → introduces toks q name → (find_var vt name).isSome = true

/-- The token before position `p`, if any, is not the keyword `number`. -/
def not_after_number (toks : List Token) (p : Nat) : Prop :=
  ∀ q n, q + 1 = p → toks[q]? = some n → ¬ n.isKeyword "number"

/-- The executor stands at a point where every declaration passed so far has
been executed, and not between `number` and its identifier. -/
def well_placed (toks : List Token) (s : ExecState) : Prop :=
  declared_upto toks s.cur.current s.var_table ∧ not_after_number toks s.cur.current

/-- An executor result that is a normal return to a state satisfying `P`, or a
failure with a diagnostic other than the undeclared-variable ones, or a
time-out. -/
def Res.safe (P : ExecState → Prop) : Res → Prop
  | .ok s1 => P s1
  | .fail e _ => e.is_undeclared = false
  | .timeout => True

/-! # Properties -/

/-! ## Grammar facts -/

theorem semicolons_separated_weaken (l : List Token) (p : Bool)
    (h : semicolons_separated true l = true) : semicolons_separated p l = true := by
  cases l with
  | nil => rfl
  | cons t ts =>
    simp only [semicolons_separated, Bool.true_and, Bool.and_eq_true, Bool.not_eq_true'] at h ⊢
    refine ⟨?_, h.2⟩
    simp [h.1]

theorem semicolons_separated_append (a b : List Token) (p : Bool)
    (ha : semicolons_separated p a = true) (hb : semicolons_separated true b = true) :
    semicolons_separated p (a ++ b) = true := by
  induction a generalizing p with
  | nil => exact semicolons_separated_weaken b p hb
  | cons t ts ih =>
    simp only [List.cons_append, semicolons_separated, Bool.and_eq_true] at ha ⊢
    exact ⟨ha.1, ih _ ha.2⟩

theorem semicolons_separated_of_none (l : List Token) (x : Token)
    (h : ∀ t ∈ l, t.type ≠ TOKEN_ENDOFLINE) :
    semicolons_separated false (l ++ [x]) = true := by
  induction l with
  | nil => simp [semicolons_separated]
  | cons t ts ih =>
    have ht : t.type ≠ TOKEN_ENDOFLINE := h t (List.mem_cons_self _ _)
    have hts : ∀ u ∈ ts, u.type ≠ TOKEN_ENDOFLINE := fun u hu => h u (List.mem_cons_of_mem _ hu)
    simp only [List.cons_append, semicolons_separated, Bool.false_and, Bool.not_false,
      Bool.true_and]
    have : (t.type == TOKEN_ENDOFLINE) = false := by simpa using ht
    rw [this]
    exact ih hts

theorem isWriteVal_not_semicolon {t : Token} (h : t.isWriteVal) : t.type ≠ TOKEN_ENDOFLINE := by
  rcases h with h | h | h | h
  · simp [h]
  · simp [h.1]
  · simp [h]
  · simp [h]

theorem derives_semicolons {nt : Nonterminal} {l : List Token} (h : Derives nt l) :
    semicolons_separated true l = true ∧
      (nt = .writelist → ∀ t ∈ l, t.type ≠ TOKEN_ENDOFLINE) := by
  induction h with
  | program_nil => exact ⟨rfl, by simp⟩
  | program_cons _ _ iha ihb =>
    exact ⟨semicolons_separated_append _ _ _ iha.1 ihb.1, by simp⟩
  | declaration hn hid hs =>
    exact ⟨by simp [semicolons_separated, hn.1, hid, hs], by simp⟩
  | assignment hid hop hv hs =>
    refine ⟨?_, by simp⟩
    rcases hv with hv | hv <;> simp [semicolons_separated, hid, hop.1, hv, hs]
  | @write w semi vals hw _ hs ih =>
    refine ⟨?_, by simp⟩
    have hw1 : (w.type == TOKEN_ENDOFLINE) = false := by simp [hw.1]
    simp only [List.cons_append, semicolons_separated, hw1, Bool.and_false, Bool.not_false,
      Bool.true_and]
    exact semicolons_separated_of_none vals semi (ih.2 rfl)
  | writelist_one hv =>
    have := isWriteVal_not_semicolon hv
    exact ⟨by simp [semicolons_separated, this], by simpa using this⟩
  | writelist_and hv ha _ ih =>
    have h1 := isWriteVal_not_semicolon hv
    refine ⟨?_, ?_⟩
    · simp only [semicolons_separated, Bool.and_eq_true]
      refine ⟨by simp [h1], by simp [ha.1], ?_⟩
      exact semicolons_separated_weaken _ _ ih.1
    · intro _ t ht
      rcases List.mem_cons.1 ht with rfl | ht
      · exact h1
      rcases List.mem_cons.1 ht with rfl | ht
      · simp [ha.1]
      · exact ih.2 rfl t ht
  | repeat_stmt hr hc ht _ ih =>
    refine ⟨?_, by simp⟩
    simp only [semicolons_separated, Bool.and_eq_true]
    refine ⟨by simp [hr.1], ?_, by simp [ht.1], ?_⟩
    · rcases hc with hc | hc <;> simp [hc]
    · exact semicolons_separated_weaken _ _ ih.1
  | @block o c inner ho _ hc ih =>
    refine ⟨?_, by simp⟩
    have ho1 : (o.type == TOKEN_ENDOFLINE) = false := by simp [ho]
    simp only [List.cons_append, semicolons_separated, ho1, Bool.and_false, Bool.not_false,
      Bool.true_and]
    refine semicolons_separated_append _ _ _ (semicolons_separated_weaken _ _ ih.1) ?_
    simp [semicolons_separated, hc]

/-! ## The validator always returns -/

theorem PRes.moved_weaken {k j : Nat} {c : Cursor} {r : PRes} (h : r.moved k c) (hj : j ≤ k) :
    r.moved j c := by
  cases r with
  | ok c1 => exact Nat.le_trans (Nat.add_le_add_left hj _) h
  | fail e c1 => trivial
  | timeout => trivial

theorem PRes.moved_bind {k j : Nat} {c : Cursor} {r : PRes} {g : Cursor → PRes}
    (h : r.moved k c) (hg : ∀ c1, c.current + k ≤ c1.current → (g c1).moved j c1) :
    (r.bind g).moved (k + j) c := by
  cases r with
  | ok c1 =>
    have h2 := hg c1 h
    simp only [PRes.bind]
    cases hr : g c1 with
    | ok c2 =>
      rw [hr] at h2
      have h1 : c.current + k ≤ c1.current := h
      have h3 : c1.current + j ≤ c2.current := h2
      show c.current + (k + j) ≤ c2.current
      omega
    | fail e c2 => trivial
    | timeout => trivial
  | fail e c1 => trivial
  | timeout => trivial

theorem advance_current (toks : List Token) (c : Cursor) (h : (peek toks c).isSome = true) :
    (advance toks c).2.current = c.current + 1 := by
  unfold peek at h
  unfold advance
  cases ht : toks[c.current]? with
  | none => rw [ht] at h; cases h
  | some t => rfl

theorem matchTok_current (toks : List Token) (c : Cursor) (ty : TokenType) (v : Option String)
    (h : (matchTok toks c ty v).1 = true) :
    (matchTok toks c ty v).2.current = c.current + 1 := by
  unfold matchTok at h ⊢
  cases hp : peek toks c with
  | none => rw [hp] at h; cases h
  | some t =>
    rw [hp] at h
    simp only at h ⊢
    split_ifs at h ⊢ with hm
    exact advance_current toks c (by rw [hp]; rfl)

theorem expect_moved (toks : List Token) (c : Cursor) (ty : TokenType) (v : Option String) :
    (expect toks c ty v).moved 1 c := by
  unfold expect
  split_ifs with h
  · exact Nat.le_of_eq (matchTok_current toks c ty v h).symm
  · trivial

theorem expect_ne_timeout (toks : List Token) (c : Cursor) (ty : TokenType)
    (v : Option String) : expect toks c ty v ≠ .timeout := by
  unfold expect
  split_ifs <;> simp

theorem parse_declaration_moved (toks : List Token) (c : Cursor) :
    (parse_declaration toks c).moved 1 c := by
  unfold parse_declaration
  refine PRes.moved_weaken (k := 1 + (1 + 1)) ?_ (by omega)
  exact PRes.moved_bind (expect_moved _ _ _ _) fun c1 _ =>
    PRes.moved_bind (expect_moved _ _ _ _) fun c2 _ => expect_moved _ _ _ _

theorem parse_assign_with_moved (op : String) (err : Int → SyntaxError) (toks : List Token)
    (c : Cursor) : (parse_assign_with op err toks c).moved 1 c := by
  unfold parse_assign_with
  refine PRes.moved_weaken (k := 1 + (1 + 0)) ?_ (by omega)
  refine PRes.moved_bind (expect_moved _ _ _ _) fun c1 _ =>
    PRes.moved_bind (expect_moved _ _ _ _) fun c2 _ => ?_
  cases hp : peek toks c2 with
  | none => trivial
  | some t =>
    simp only
    split_ifs
    · have h1 := advance_current toks c2 (by rw [hp]; rfl)
      have h2 := expect_moved toks (advance toks c2).2 TOKEN_ENDOFLINE none
      cases he : expect toks (advance toks c2).2 TOKEN_ENDOFLINE none with
      | ok c3 =>
        rw [he] at h2
        have h3 : (advance toks c2).2.current + 1 ≤ c3.current := h2
        show c2.current + 0 ≤ c3.current
        omega
      | fail e c3 => trivial
      | timeout => trivial
    · trivial

theorem parse_write_loop_moved (fuel : Nat) (toks : List Token) :
    ∀ (e : Bool) (c : Cursor), (parse_write_loop fuel toks e c).moved 0 c := by
  induction fuel with
  | zero => intro e c; trivial
  | succ n ih =>
    intro e c
    rw [parse_write_loop]
    cases hp : peek toks c with
    | none => trivial
    | some t =>
      simp only
      split_ifs with h1 h2 h3
      · have h4 := matchTok_current toks c TOKEN_KEYWORD (some "and") h2
        have h5 := ih false (matchTok toks c TOKEN_KEYWORD (some "and")).2
        cases hr : parse_write_loop n toks false (matchTok toks c TOKEN_KEYWORD (some "and")).2 with
        | ok c3 =>
          rw [hr] at h5
          have h6 : (matchTok toks c TOKEN_KEYWORD (some "and")).2.current + 0 ≤ c3.current := h5
          show c.current + 0 ≤ c3.current
          omega
        | fail e c3 => trivial
        | timeout => trivial
      · exact Nat.le_refl _
      · have h4 := advance_current toks c (by rw [hp]; rfl)
        have h5 := ih true (advance toks c).2
        cases hr : parse_write_loop n toks true (advance toks c).2 with
        | ok c3 =>
          rw [hr] at h5
          have h6 : (advance toks c).2.current + 0 ≤ c3.current := h5
          show c.current + 0 ≤ c3.current
          omega
        | fail e c3 => trivial
        | timeout => trivial
      · trivial

theorem parse_write_moved (fuel : Nat) (toks : List Token) (c : Cursor) :
    (parse_write fuel toks c).moved 1 c := by
  unfold parse_write
  refine PRes.moved_weaken (k := 1 + (0 + 1)) ?_ (by omega)
  exact PRes.moved_bind (expect_moved _ _ _ _) fun c1 _ =>
    PRes.moved_bind (parse_write_loop_moved _ _ _ _) fun c2 _ => expect_moved _ _ _ _

theorem parse_repeat_count_moved (toks : List Token) (c : Cursor) :
    (parse_repeat_count toks c).moved 1 c := by
  unfold parse_repeat_count
  cases hp : peek toks c with
  | none => trivial
  | some t =>
    simp only
    split_ifs
    · exact Nat.le_of_eq (advance_current toks c (by rw [hp]; rfl)).symm
    · trivial

theorem parse_moved (fuel : Nat) (toks : List Token) :
    (∀ c, (peek toks c).isSome = true → (parse_statement fuel toks c).moved 1 c) ∧
    (∀ c, (parse_block fuel toks c).moved 1 c) ∧
    (∀ c, (parse_block_loop fuel toks c).moved 0 c) ∧
    (∀ c, (parse_repeat fuel toks c).moved 1 c) := by
  induction fuel with
  | zero => refine ⟨?_, ?_, ?_, ?_⟩ <;> intros <;> trivial
  | succ n ih =>
    obtain ⟨ihs, ihb, ihbl, ihr⟩ := ih
    refine ⟨?_, ?_, ?_, ?_⟩
    · intro c hc
      rw [parse_statement]
      cases hp : peek toks c with
      | none => rw [hp] at hc; cases hc
      | some t =>
        simp only
        split_ifs
        all_goals first
          | trivial
          | exact parse_declaration_moved _ _
          | exact parse_write_moved _ _ _
          | exact ihr _
          | exact ihb _
          | (split
             · trivial
             · split_ifs
               all_goals first
                 | trivial
                 | exact parse_assign_with_moved _ _ _ _)
    · intro c
      rw [parse_block]
      refine PRes.moved_weaken (k := 1 + 0) ?_ (by omega)
      exact PRes.moved_bind (expect_moved _ _ _ _) fun c1 _ => ihbl c1
    · intro c
      rw [parse_block_loop]
      cases hp : peek toks c with
      | none => trivial
      | some t =>
        simp only
        split_ifs
        · exact PRes.moved_weaken (expect_moved _ _ _ _) (by omega)
        · refine PRes.moved_weaken (k := 1 + 0) ?_ (by omega)
          exact PRes.moved_bind (ihs c (by rw [hp]; rfl)) fun c1 _ => ihbl c1
    · intro c
      rw [parse_repeat]
      refine PRes.moved_weaken (k := 1 + (1 + (1 + 0))) ?_ (by omega)
      refine PRes.moved_bind (expect_moved _ _ _ _) fun c1 _ =>
        PRes.moved_bind (parse_repeat_count_moved _ _) fun c2 _ =>
          PRes.moved_bind (expect_moved _ _ _ _) fun c3 _ => ?_
      cases hp : peek toks c3 with
      | none => trivial
      | some t =>
        simp only
        split_ifs
        all_goals first
          | trivial
          | exact PRes.moved_weaken (ihb _) (by omega)
          | exact PRes.moved_weaken (parse_write_moved _ _ _) (by omega)
          | (split
             · trivial
             · split_ifs
               all_goals first
                 | trivial
                 | (refine PRes.moved_weaken (k := 1 + 1) ?_ (by omega)
                    exact PRes.moved_bind (parse_assign_with_moved _ _ _ _) fun c4 _ =>
                      expect_moved _ _ _ _))

theorem PRes.bind_ne_timeout {r : PRes} {g : Cursor → PRes} (h : r ≠ .timeout)
    (hg : ∀ c1, r = .ok c1 → g c1 ≠ .timeout) : r.bind g ≠ .timeout := by
  cases r with
  | ok c1 => exact hg c1 rfl
  | fail e c1 => simp [PRes.bind]
  | timeout => exact absurd rfl h

theorem remaining_of_moved (toks : List Token) {c c1 : Cursor} {k : Nat} {r : PRes}
    (h : r.moved k c) (hr : r = .ok c1) : remaining toks c1 ≤ remaining toks c - k := by
  subst hr
  have h1 : c.current + k ≤ c1.current := h
  unfold remaining
  omega

theorem remaining_pos_of_peek {toks : List Token} {c : Cursor} {t : Token}
    (h : peek toks c = some t) : 1 ≤ remaining toks c := by
  unfold peek at h
  have := (List.getElem?_eq_some_iff.1 h).1
  unfold remaining
  omega

theorem expect_ok_peek {toks : List Token} {c c1 : Cursor} {ty : TokenType}
    {v : Option String} (h : expect toks c ty v = .ok c1) : ∃ t, peek toks c = some t := by
  unfold expect at h
  split_ifs at h with hm
  unfold matchTok at hm
  cases hp : peek toks c with
  | none => rw [hp] at hm; cases hm
  | some t => exact ⟨t, rfl⟩

theorem parse_declaration_ne_timeout (toks : List Token) (c : Cursor) :
    parse_declaration toks c ≠ .timeout := by
  unfold parse_declaration
  exact PRes.bind_ne_timeout (expect_ne_timeout _ _ _ _) fun c1 _ =>
    PRes.bind_ne_timeout (expect_ne_timeout _ _ _ _) fun c2 _ => expect_ne_timeout _ _ _ _

theorem parse_assign_with_ne_timeout (op : String) (err : Int → SyntaxError)
    (toks : List Token) (c : Cursor) : parse_assign_with op err toks c ≠ .timeout := by
  unfold parse_assign_with
  refine PRes.bind_ne_timeout (expect_ne_timeout _ _ _ _) fun c1 _ =>
    PRes.bind_ne_timeout (expect_ne_timeout _ _ _ _) fun c2 _ => ?_
  split
  · split_ifs
    · exact expect_ne_timeout _ _ _ _
    · simp
  · simp

theorem parse_repeat_count_ne_timeout (toks : List Token) (c : Cursor) :
    parse_repeat_count toks c ≠ .timeout := by
  unfold parse_repeat_count
  split
  · split_ifs <;> simp
  · simp

theorem parse_write_loop_ne_timeout (fuel : Nat) (toks : List Token) :
    ∀ (e : Bool) (c : Cursor), remaining toks c + 1 ≤ fuel →
      parse_write_loop fuel toks e c ≠ .timeout := by
  induction fuel with
  | zero => intro e c h; omega
  | succ n ih =>
    intro e c h
    rw [parse_write_loop]
    cases hp : peek toks c with
    | none => simp
    | some t =>
      have hpos := remaining_pos_of_peek hp
      simp only
      split_ifs with h1 h2 h3
      · refine ih _ _ ?_
        have := matchTok_current toks c TOKEN_KEYWORD (some "and") h2
        unfold remaining at h hpos ⊢
        omega
      · simp
      · refine ih _ _ ?_
        have := advance_current toks c (by rw [hp]; rfl)
        unfold remaining at h hpos ⊢
        omega
      · simp

theorem parse_write_ne_timeout (fuel : Nat) (toks : List Token) (c : Cursor)
    (h : remaining toks c ≤ fuel) : parse_write fuel toks c ≠ .timeout := by
  unfold parse_write
  refine PRes.bind_ne_timeout (expect_ne_timeout _ _ _ _) fun c1 h1 =>
    PRes.bind_ne_timeout ?_ fun c2 _ => expect_ne_timeout _ _ _ _
  obtain ⟨t, ht⟩ := expect_ok_peek h1
  have hpos := remaining_pos_of_peek ht
  have hrem := remaining_of_moved toks (expect_moved toks c _ _) h1
  exact parse_write_loop_ne_timeout _ _ _ _ (by omega)

/-- With fuel three times the number of remaining tokens (plus one for a
statement, plus two for a loop), no validator function runs out of fuel. -/
theorem parse_ne_timeout (toks : List Token) (fuel : Nat) :
    (∀ c, 3 * remaining toks c + 1 ≤ fuel → parse_statement fuel toks c ≠ .timeout) ∧
    (∀ c, 3 * remaining toks c ≤ fuel → 1 ≤ fuel → parse_block fuel toks c ≠ .timeout) ∧
    (∀ c, 3 * remaining toks c + 2 ≤ fuel → parse_block_loop fuel toks c ≠ .timeout) ∧
    (∀ c, 3 * remaining toks c ≤ fuel → 1 ≤ fuel → parse_repeat fuel toks c ≠ .timeout) := by
  induction fuel with
  | zero =>
    refine ⟨?_, ?_, ?_, ?_⟩ <;> intros <;> omega
  | succ n ih =>
    obtain ⟨ihs, ihb, ihbl, ihr⟩ := ih
    refine ⟨?_, ?_, ?_, ?_⟩
    · intro c h
      rw [parse_statement]
      cases hp : peek toks c with
      | none => simp
      | some t =>
        have hpos := remaining_pos_of_peek hp
        simp only
        split_ifs
        all_goals first
          | (simp; done)
          | exact parse_declaration_ne_timeout _ _
          | exact parse_write_ne_timeout _ _ _ (by omega)
          | exact ihr _ (by omega) (by omega)
          | exact ihb _ (by omega) (by omega)
          | (split
             · simp
             · split_ifs
               all_goals first
                 | (simp; done)
                 | exact parse_assign_with_ne_timeout _ _ _ _)
    · intro c h _
      rw [parse_block]
      refine PRes.bind_ne_timeout (expect_ne_timeout _ _ _ _) fun c1 h1 => ?_
      obtain ⟨t, ht⟩ := expect_ok_peek h1
      have hpos := remaining_pos_of_peek ht
      have hrem := remaining_of_moved toks (expect_moved toks c _ _) h1
      exact ihbl _ (by omega)
    · intro c h
      rw [parse_block_loop]
      cases hp : peek toks c with
      | none => simp
      | some t =>
        have hpos := remaining_pos_of_peek hp
        simp only
        split_ifs
        · exact expect_ne_timeout _ _ _ _
        · refine PRes.bind_ne_timeout (ihs _ (by omega)) fun c1 h1 => ?_
          have hrem := remaining_of_moved toks
            ((parse_moved n toks).1 c (by rw [hp]; rfl)) h1
          exact ihbl _ (by omega)
    · intro c h _
      rw [parse_repeat]
      refine PRes.bind_ne_timeout (expect_ne_timeout _ _ _ _) fun c1 h1 =>
        PRes.bind_ne_timeout (parse_repeat_count_ne_timeout _ _) fun c2 h2 =>
          PRes.bind_ne_timeout (expect_ne_timeout _ _ _ _) fun c3 h3 => ?_
      obtain ⟨t1, ht1⟩ := expect_ok_peek h1
      have hpos := remaining_pos_of_peek ht1
      have hrem1 := remaining_of_moved toks (expect_moved toks c _ _) h1
      have hrem2 := remaining_of_moved toks (parse_repeat_count_moved toks c1) h2
      have hrem3 := remaining_of_moved toks (expect_moved toks c2 _ _) h3
      cases hp : peek toks c3 with
      | none => simp
      | some t =>
        have hpos3 := remaining_pos_of_peek hp
        simp only
        split_ifs
        all_goals first
          | (simp; done)
          | exact ihb _ (by omega) (by omega)
          | exact parse_write_ne_timeout _ _ _ (by omega)
          | (split
             · simp
             · split_ifs
               all_goals first
                 | (simp; done)
                 | exact PRes.bind_ne_timeout (parse_assign_with_ne_timeout _ _ _ _)
                     fun c4 _ => expect_ne_timeout _ _ _ _)

theorem parse_loop_ne_timeout (toks : List Token) (fuel : Nat) :
    ∀ c, 3 * remaining toks c + 2 ≤ fuel → parse_loop fuel toks c ≠ .timeout := by
  induction fuel with
  | zero => intro c h; omega
  | succ n ih =>
    intro c h
    rw [parse_loop]
    split_ifs with hlt
    · have hsome : (peek toks c).isSome = true := by
        unfold peek
        rw [List.getElem?_eq_getElem hlt]; rfl
      have hpos : 1 ≤ remaining toks c := by unfold remaining; omega
      refine PRes.bind_ne_timeout ((parse_ne_timeout toks n).1 c (by omega)) fun c1 h1 => ?_
      have hrem := remaining_of_moved toks ((parse_moved n toks).1 c hsome) h1
      exact ih _ (by omega)
    · simp

/-- The validator always returns: `parse` ends with acceptance or with a
diagnostic, never by running out of fuel. -/
theorem parse_returns (toks : List Token) : parse toks ≠ .timeout := by
  unfold parse
  exact parse_loop_ne_timeout toks _ _ (by simp [remaining])

/-! ## The lexer always returns -/

theorem write_token_ne_timeout (s : LexState) (ty : String) (v : Option (List Char))
    (line : Nat) : write_token s ty v line ≠ .timeout := by
  unfold write_token
  split_ifs <;> simp

theorem lex_error_ne_timeout (s : LexState) (d : LexDiag) (msg : String) (line : Nat) :
    lex_error s d msg line ≠ .timeout := by
  unfold lex_error
  have := write_token_ne_timeout { s with diag := s.diag ++ [d] } "Error" (some msg.toList) line
  split
  · simp
  · assumption

theorem LexRes.bind_ok_ne_timeout {r : LexRes} {g : LexState → LexState}
    (h : r ≠ .timeout) : (r.bind fun s1 => .ok (g s1)) ≠ .timeout := by
  cases r with
  | ok s1 => simp [LexRes.bind]
  | exit s1 => simp [LexRes.bind]
  | overrun s1 => simp [LexRes.bind]
  | timeout => exact absurd rfl h

theorem scan_comment_length (rest : List Char) :
    ∀ (line : Nat) (r : List Char), (scan_comment rest line).2 = some r →
      r.length ≤ rest.length := by
  induction rest with
  | nil => intro line r h; simp [scan_comment] at h
  | cons c cs ih =>
    intro line r h
    rw [scan_comment] at h
    by_cases hc : c = '*'
    · rw [if_pos hc] at h
      simp only [Option.some.injEq] at h
      rw [← h]; simp
    · rw [if_neg hc] at h
      exact Nat.le_succ_of_le (ih _ r h)

theorem scan_string_length (rest : List Char) :
    ∀ (i line : Nat) (str : List Char),
      (scan_string rest i line str).2.2.length ≤ rest.length := by
  induction rest with
  | nil => intro i line str; simp [scan_string]
  | cons c cs ih =>
    intro i line str
    rw [scan_string]
    by_cases hi : i < 255
    · rw [if_pos hi]
      by_cases hq : c = '"'
      · rw [if_pos hq]; simp
      · rw [if_neg hq]
        exact Nat.le_succ_of_le (ih _ _ _)
    · rw [if_neg hi]; simp

theorem dropWhile_length_le (p : Char → Bool) (l : List Char) :
    (l.dropWhile p).length ≤ l.length := by
  induction l with
  | nil => simp
  | cons c cs ih =>
    rw [List.dropWhile_cons]
    split_ifs
    · simp only [List.length_cons]; omega
    · simp

/-- One round of the main loop never times out and leaves no more input than
it was given after its character. -/
theorem tokenize_token_spec (s : LexState) (c : Char) (rest : List Char) :
    (tokenize_token s c rest).1 ≠ .timeout ∧ (tokenize_token s c rest).2.length ≤ rest.length := by
  unfold tokenize_token
  by_cases h1 : c = ';'
  · rw [if_pos h1]; exact ⟨write_token_ne_timeout _ _ _ _, le_refl _⟩
  rw [if_neg h1]
  by_cases h2 : c = '*'
  · rw [if_pos h2]
    split
    · next line rest1 heq =>
      refine ⟨by simp, ?_⟩
      exact scan_comment_length rest s.line rest1 (by rw [heq])
    · exact ⟨lex_error_ne_timeout _ _ _ _, by simp⟩
  rw [if_neg h2]
  by_cases h3 : c = '{'
  · rw [if_pos h3]; exact ⟨write_token_ne_timeout _ _ _ _, le_refl _⟩
  rw [if_neg h3]
  by_cases h4 : c = '}'
  · rw [if_pos h4]; exact ⟨write_token_ne_timeout _ _ _ _, le_refl _⟩
  rw [if_neg h4]
  by_cases h5 : c = '"'
  · rw [if_pos h5]
    have hlen := scan_string_length rest 0 s.line []
    split
    · next line str rest1 heq =>
      rw [heq] at hlen
      exact ⟨write_token_ne_timeout _ _ _ _, hlen⟩
    · next line rest1 heq =>
      rw [heq] at hlen
      exact ⟨lex_error_ne_timeout _ _ _ _, hlen⟩
  rw [if_neg h5]
  by_cases h6 : c = ':' ∨ c = '+' ∨ c = '-'
  · rw [if_pos h6]
    cases rest with
    | nil => exact ⟨write_token_ne_timeout _ _ _ _, le_refl _⟩
    | cons next rest1 =>
      simp only
      have hd : (rest1.dropWhile isdigit).length ≤ (next :: rest1).length :=
        Nat.le_succ_of_le (dropWhile_length_le _ _)
      split_ifs
      · exact ⟨write_token_ne_timeout _ _ _ _, Nat.le_succ _⟩
      · exact ⟨write_token_ne_timeout _ _ _ _, Nat.le_succ _⟩
      · exact ⟨write_token_ne_timeout _ _ _ _, Nat.le_succ _⟩
      · exact ⟨by simp, hd⟩
      · split
        · exact ⟨by simp, hd⟩
        · exact ⟨write_token_ne_timeout _ _ _ _, hd⟩
      · exact ⟨write_token_ne_timeout _ _ _ _, le_refl _⟩
  rw [if_neg h6]
  by_cases h7 : isdigit c = true
  · rw [if_pos h7]
    simp only
    split_ifs
    · exact ⟨by simp, dropWhile_length_le _ _⟩
    · split
      · exact ⟨by simp, dropWhile_length_le _ _⟩
      · exact ⟨write_token_ne_timeout _ _ _ _, dropWhile_length_le _ _⟩
  rw [if_neg h7]
  by_cases h8 : is_identifier_start c = true
  · rw [if_pos h8]
    simp only
    by_cases hl : (c :: rest.takeWhile is_identifier_char).length ≥ 64
    · rw [if_pos hl]; exact ⟨by simp, dropWhile_length_le _ _⟩
    rw [if_neg hl]
    cases hcl : check_identifier_length (c :: rest.takeWhile is_identifier_char) s.line with
    | some d => exact ⟨by simp, dropWhile_length_le _ _⟩
    | none =>
      simp only
      by_cases hk : is_keyword (String.mk (c :: rest.takeWhile is_identifier_char)) = true
      · rw [if_pos hk]
        exact ⟨LexRes.bind_ok_ne_timeout (write_token_ne_timeout _ _ _ _),
          dropWhile_length_le _ _⟩
      rw [if_neg hk]
      by_cases he : s.expect_identifier_declaration = true
      · rw [if_pos he]
        exact ⟨LexRes.bind_ok_ne_timeout (write_token_ne_timeout _ _ _ _),
          dropWhile_length_le _ _⟩
      rw [if_neg he]
      by_cases hd : is_declared s (String.mk (c :: rest.takeWhile is_identifier_char)) = true
      · rw [if_pos hd]
        exact ⟨write_token_ne_timeout _ _ _ _, dropWhile_length_le _ _⟩
      · rw [if_neg hd]
        exact ⟨lex_error_ne_timeout _ _ _ _, dropWhile_length_le _ _⟩
  rw [if_neg h8]
  split_ifs
  · exact ⟨lex_error_ne_timeout _ _ _ _, le_refl _⟩
  · exact ⟨by simp, le_refl _⟩

theorem tokenize_loop_ne_timeout (fuel : Nat) :
    ∀ (s : LexState) (input : List Char), input.length ≤ fuel →
      tokenize_loop fuel s input ≠ .timeout := by
  induction fuel with
  | zero =>
    intro s input h
    cases input with
    | nil => simp [tokenize_loop]
    | cons c rest => simp at h
  | succ n ih =>
    intro s input h
    cases input with
    | nil => simp [tokenize_loop]
    | cons c rest =>
      rw [tokenize_loop]
      obtain ⟨h1, h2⟩ := tokenize_token_spec (newline_seen s c) c rest
      simp only [List.length_cons] at h
      unfold tokenize_step
      split
      · next s1 rest1 heq =>
        rw [heq] at h2
        exact ih s1 rest1 (by simp only at h2; omega)
      · next r rest1 hne heq =>
        rw [heq] at h1
        exact h1

/-- The lexer always returns: `tokenize` ends normally, with `exit(1)`, or with
a buffer overrun, never by running out of fuel. -/
theorem tokenize_returns (input : List Char) : tokenize input ≠ .timeout :=
  tokenize_loop_ne_timeout _ _ _ (le_refl _)

/-! ## Integer literals -/

theorem atollDigits_eq (ds : List Char) (acc : Nat) (h : ds.all isdigit = true) :
    atollDigits ds acc = acc * 10 ^ ds.length + decimal_value ds := by
  induction ds generalizing acc with
  | nil => simp [atollDigits, decimal_value]
  | cons c cs ih =>
    simp only [List.all_cons, Bool.and_eq_true] at h
    simp only [atollDigits, h.1, if_true]
    rw [ih _ h.2]
    simp only [decimal_value, List.reverse_cons, List.map_append, List.map_cons, List.map_nil,
      Nat.ofDigits_append, List.length_map, List.length_reverse, Nat.ofDigits_singleton,
      List.length_cons, digit_value]
    ring

theorem isdigit_not_isspace (c : Char) (h : isdigit c = true) : isspace c = false := by
  simp only [isdigit, Bool.and_eq_true, decide_eq_true_eq] at h
  have h1 : 48 ≤ c.toNat := h.1
  simp only [isspace, Bool.or_eq_false_iff, beq_eq_false_iff_ne, ne_eq]
  refine ⟨⟨⟨⟨⟨?_, ?_⟩, ?_⟩, ?_⟩, ?_⟩, ?_⟩ <;> (rintro rfl; revert h1; decide)

theorem atollDigits_zero (ds : List Char) (h : is_digits ds = true) :
    atollDigits ds 0 = decimal_value ds := by
  simp only [is_digits, Bool.and_eq_true] at h
  rw [atollDigits_eq ds 0 h.2]; simp

theorem clamp64_id (v : Int) (h1 : LLONG_MIN ≤ v) (h2 : v ≤ LLONG_MAX) : clamp64 v = v := by
  unfold clamp64
  rw [if_neg (by omega), if_neg (by omega)]

theorem atoll_signed_digits (ds : List Char) (h : is_digits ds = true) :
    atoll_signed ds = (atollDigits ds 0 : Int) := by
  cases ds with
  | nil => rfl
  | cons c cs =>
    have hc : isdigit c = true := by
      simp only [is_digits, List.all_cons, Bool.and_eq_true] at h
      exact h.2.1
    unfold atoll_signed
    split
    · next r heq =>
      rw [(List.cons.inj heq).1] at hc
      exact absurd hc (by decide)
    · next r heq =>
      rw [(List.cons.inj heq).1] at hc
      exact absurd hc (by decide)
    · rfl

theorem dropWhile_isspace_digits (ds : List Char) (h : is_digits ds = true) :
    ds.dropWhile isspace = ds := by
  cases ds with
  | nil => rfl
  | cons c cs =>
    have hc : isdigit c = true := by
      simp only [is_digits, List.all_cons, Bool.and_eq_true] at h
      exact h.2.1
    exact List.dropWhile_cons_of_neg (by simp [isdigit_not_isspace c hc])

theorem atoll_literal (text : String) (v : Int) (h : literal_value text = some v)
    (h1 : LLONG_MIN ≤ v) (h2 : v ≤ LLONG_MAX) : atoll text = v := by
  unfold literal_value at h
  unfold atoll
  split at h
  · next ds heq =>
    split at h
    · next hd =>
      cases h
      have : List.dropWhile isspace text.toList = '-' :: ds := by
        rw [heq]; exact List.dropWhile_cons_of_neg (by decide)
      rw [this]
      simp only [atoll_signed, atollDigits_zero ds hd]
      exact clamp64_id _ h1 h2
    · cases h
  · next ds heq =>
    split at h
    · next hd =>
      cases h
      have : List.dropWhile isspace text.toList = '+' :: ds := by
        rw [heq]; exact List.dropWhile_cons_of_neg (by decide)
      rw [this]
      simp only [atoll_signed, atollDigits_zero ds hd]
      exact clamp64_id _ h1 h2
    · cases h
  · next ds hm hp =>
    split at h
    · next hd =>
      cases h
      rw [dropWhile_isspace_digits _ hd, atoll_signed_digits _ hd, atollDigits_zero _ hd]
      exact clamp64_id _ h1 h2
    · cases h

/-! ## Cursor steps -/

theorem adv_mk {toks : List Token} {cur : Nat} {lt : Option Token} {ll : Int}
    {vt : List Variable} {out : String} {t : Token} (h : toks[cur]? = some t) :
    adv toks ⟨⟨cur, lt, ll⟩, vt, out⟩ = (some t, ⟨⟨cur + 1, some t, t.line⟩, vt, out⟩) := by
  simp [adv, advance, h]

theorem adv_mk_none {toks : List Token} {cur : Nat} {lt : Option Token} {ll : Int}
    {vt : List Variable} {out : String} (h : toks[cur]? = none) :
    adv toks ⟨⟨cur, lt, ll⟩, vt, out⟩ = (none, ⟨⟨cur, lt, ll⟩, vt, out⟩) := by
  simp [adv, advance, h]

theorem accept_mk {toks : List Token} {cur : Nat} {lt : Option Token} {ll : Int}
    {vt : List Variable} {out : String} {t : Token} {ty : TokenType} {v : Option String}
    (h : toks[cur]? = some t) (hm : tokMatches t ty v = true) :
    accept toks ⟨⟨cur, lt, ll⟩, vt, out⟩ ty v
      = (true, ⟨⟨cur + 1, some t, t.line⟩, vt, out⟩) := by
  simp [accept, matchTok, peek, advance, h, hm]

theorem accept_mk_false {toks : List Token} {cur : Nat} {lt : Option Token} {ll : Int}
    {vt : List Variable} {out : String} {t : Token} {ty : TokenType} {v : Option String}
    (h : toks[cur]? = some t) (hm : tokMatches t ty v = false) :
    accept toks ⟨⟨cur, lt, ll⟩, vt, out⟩ ty v = (false, ⟨⟨cur, lt, ll⟩, vt, out⟩) := by
  simp [accept, matchTok, peek, h, hm]

theorem accept_mk_none {toks : List Token} {cur : Nat} {lt : Option Token} {ll : Int}
    {vt : List Variable} {out : String} {ty : TokenType} {v : Option String}
    (h : toks[cur]? = none) :
    accept toks ⟨⟨cur, lt, ll⟩, vt, out⟩ ty v = (false, ⟨⟨cur, lt, ll⟩, vt, out⟩) := by
  simp [accept, matchTok, peek, h]

/-! ## The variable table -/

theorem store_names (vars : List Variable) (idx : Nat) (v : Int) :
    (store vars idx v).map (·.name) = vars.map (·.name) := by
  induction vars generalizing idx with
  | nil => rfl
  | cons x xs ih => cases idx <;> simp [store, ih]

theorem store_length (vars : List Variable) (idx : Nat) (v : Int) :
    (store vars idx v).length = vars.length := by
  simpa using congrArg List.length (store_names vars idx v)

theorem store_get_self (vars : List Variable) (idx : Nat) (v : Int) (x : Variable)
    (h : vars[idx]? = some x) :
    (store vars idx v)[idx]? = some { name := x.name, value := v } := by
  induction vars generalizing idx with
  | nil => simp at h
  | cons y ys ih =>
    cases idx with
    | zero => simp at h; simp [store, h]
    | succ i => simp at h; simpa [store] using ih i h

theorem store_get_other (vars : List Variable) (idx j : Nat) (v : Int) (h : j ≠ idx) :
    (store vars idx v)[j]? = vars[j]? := by
  induction vars generalizing idx j with
  | nil => rfl
  | cons y ys ih =>
    cases idx with
    | zero =>
      cases j with
      | zero => exact absurd rfl h
      | succ k => simp [store]
    | succ i =>
      cases j with
      | zero => simp [store]
      | succ k => simpa [store] using ih i k (by omega)

theorem find_var_from_names (vars vars2 : List Variable) (name : String) (i : Nat)
    (h : vars.map (·.name) = vars2.map (·.name)) :
    find_var_from vars name i = find_var_from vars2 name i := by
  induction vars generalizing vars2 i with
  | nil =>
    cases vars2 with
    | nil => rfl
    | cons _ _ => simp at h
  | cons x xs ih =>
    cases vars2 with
    | nil => simp at h
    | cons y ys =>
      simp only [List.map_cons, List.cons.injEq] at h
      simp only [find_var_from, h.1]
      rw [ih ys (i + 1) h.2]

theorem find_var_store (vars : List Variable) (idx : Nat) (v : Int) (name : String) :
    find_var (store vars idx v) name = find_var vars name :=
  find_var_from_names _ _ _ _ (store_names vars idx v)

theorem get_value_of_denotes {s : ExecState} {t : Token} {b : Int} (h : denotes s t b) :
    get_value s t = .ok b := by
  rcases h with ⟨ht, hv, h1, h2⟩ | ⟨ht, j, y, hj, hy, hb⟩
  · simp [get_value, ht, atoll_literal _ _ hv h1 h2]
  · simp [get_value, ht, hj, hy, hb]

theorem assignment_step (fuel : Nat) (toks : List Token) (s : ExecState)
    (id op rhs semi : Token) (idx : Nat) (x : Variable) (b newv : Int)
    (hid : toks[s.cur.current]? = some id) (hidt : id.type = TOKEN_IDENTIFIER)
    (hop : toks[s.cur.current + 1]? = some op)
    (hrhs : toks[s.cur.current + 2]? = some rhs)
    (hsemi : toks[s.cur.current + 3]? = some semi) (hsemit : semi.type = TOKEN_ENDOFLINE)
    (hx : find_var s.var_table id.value = some idx) (hxv : s.var_table[idx]? = some x)
    (hb : get_value s rhs = .ok b)
    (hnew : apply_op op.value x.value b = some newv) :
    interpret_statement (fuel + 1) toks s =
      .ok { cur := ⟨s.cur.current + 4, some semi, semi.line⟩,
            var_table := store s.var_table idx newv, output := s.output } := by
  obtain ⟨⟨cur, lt, ll⟩, vt, out⟩ := s
  simp only at hid hop hrhs hsemi hx hxv
  have hb3 : ∀ c, get_value ⟨c, vt, out⟩ rhs = .ok b := fun c => hb
  have hm : tokMatches semi TOKEN_ENDOFLINE none = true := by simp [tokMatches, hsemit]
  simp only [interpret_statement, peek, hid, hidt]
  simp only [interpret_assignment, adv_mk hid, adv_mk hop, adv_mk hrhs, hb3, check_var_exists,
    hx, hxv, hnew, accept_mk hsemi hm]
  simp [hxv, hnew]

theorem declaration_step_redeclared (fuel : Nat) (toks : List Token) (s : ExecState)
    (n id : Token) (hn : toks[s.cur.current]? = some n) (hnt : n.type = TOKEN_KEYWORD)
    (hnv : n.value = "number") (hid : toks[s.cur.current + 1]? = some id)
    (hidt : id.type = TOKEN_IDENTIFIER) (hx : (find_var s.var_table id.value).isSome = true) :
    interpret_statement (fuel + 1) toks s =
      .fail (.alreadyDeclared id.line id.value)
        { cur := ⟨s.cur.current + 2, some id, id.line⟩, var_table := s.var_table,
          output := s.output } := by
  obtain ⟨⟨cur, lt, ll⟩, vt, out⟩ := s
  simp only at hn hid hx
  simp only [interpret_statement, peek, hn, hnt, hnv]
  simp only [interpret_declaration, adv_mk hn, adv_mk hid, hidt, declare_var, hx]
  simp [Res.bind]

/-- The value of `wrap64` lies in the signed 64-bit range and differs from the
argument by a multiple of `2^64`. -/
theorem wrap64_spec (y : Int) :
    -9223372036854775808 ≤ wrap64 y ∧ wrap64 y ≤ 9223372036854775807 ∧
    ∃ k : Int, wrap64 y = y + k * 18446744073709551616 := by
  unfold wrap64
  refine ⟨by omega, by omega, -((y + 9223372036854775808) / 18446744073709551616), ?_⟩
  omega

/-- C5: at an assignment `x op rhs ;` with `op` one of `:=`, `+=`, `-=`, whose
target `x` is declared (entry `idx`, holding `x.value`) and whose right-hand
side denotes `b` (a literal in signed 64-bit range or a declared variable,
possibly `x` itself), the executor returns normally four tokens further with
unchanged output; entry `idx` then holds a value `newv`, every other entry is
unchanged and so is the order of names. For `:=` the value `newv` is `b`. For
`+=` (for `-=`) it is the one value between `-2^63` and `2^63 - 1` that differs
from the sum `x.value + b` (the difference `x.value - b`) by a multiple of
`2^64`, so it is the sum (the difference) itself whenever that is in range. The
program `number a; a := 5; a += 3; write a;` ends with `a = 8` and output `8`;
adding 1 to `9223372036854775807` gives `-9223372036854775808`, and subtracting
2 from `-9223372036854775807` gives `9223372036854775807`. -/
theorem C5_assignment_semantics :
    (∀ (fuel : Nat) (toks : List Token) (s : ExecState) (id op rhs semi : Token) (idx : Nat)
        (x : Variable) (b : Int),
        toks[s.cur.current]? = some id → id.type = TOKEN_IDENTIFIER →
        toks[s.cur.current + 1]? = some op →
        toks[s.cur.current + 2]? = some rhs →
        toks[s.cur.current + 3]? = some semi → semi.type = TOKEN_ENDOFLINE →
        find_var s.var_table id.value = some idx → s.var_table[idx]? = some x →
        denotes s rhs b →
        op.value = ":=" ∨ op.value = "+=" ∨ op.value = "-=" →
        ∃ (s1 : ExecState) (newv : Int), interpret_statement (fuel + 1) toks s = .ok s1 ∧
          s1.cur.current = s.cur.current + 4 ∧ s1.output = s.output ∧
          s1.var_table[idx]? = some { name := x.name, value := newv } ∧
          (∀ j, j ≠ idx → s1.var_table[j]? = s.var_table[j]?) ∧
          s1.var_table.map (·.name) = s.var_table.map (·.name) ∧
          (op.value = ":=" → newv = b) ∧
          (op.value = "+=" →
            -9223372036854775808 ≤ newv ∧ newv ≤ 9223372036854775807 ∧
            (∃ k : Int, newv = x.value + b + k * 18446744073709551616) ∧
            (-9223372036854775808 ≤ x.value + b → x.value + b ≤ 9223372036854775807 →
              newv = x.value + b)) ∧
          (op.value = "-=" →
            -9223372036854775808 ≤ newv ∧ newv ≤ 9223372036854775807 ∧
            (∃ k : Int, newv = x.value - b + k * 18446744073709551616) ∧
            (-9223372036854775808 ≤ x.value - b → x.value - b ≤ 9223372036854775807 →
              newv = x.value - b))) ∧
    (run 20 "number a; a := 5; a += 3; write a;".toList).final_vars
      = some [{ name := "a", value := 8 }] ∧
    (run 20 "number a; a := 5; a += 3; write a;".toList).program_output = "8" ∧
    (run 20 "number a; a := 9223372036854775807; a += 1; write a;".toList).final_vars
      = some [{ name := "a", value := -9223372036854775808 }] ∧
    (run 20 "number a; a := 9223372036854775807; a += 1; write a;".toList).program_output
      = "-9223372036854775808" ∧
    (run 20 "number a; a -= 9223372036854775807; a -= 2; write a;".toList).final_vars
      = some [{ name := "a", value := 9223372036854775807 }] := by
  refine ⟨?_, by decide!, by decide!, by decide!, by decide!, by decide!⟩
  intro fuel toks s id op rhs semi idx x b hid hidt hop hrhs hsemi hsemit hx hxv hb hop3
  have hne1 : (":=" : String) ≠ "+=" := by decide
  have hne2 : (":=" : String) ≠ "-=" := by decide
  have hne3 : ("+=" : String) ≠ "-=" := by decide
  obtain ⟨newv, hap, h1, h2, h3⟩ : ∃ newv, apply_op op.value x.value b = some newv ∧
      (op.value = ":=" → newv = b) ∧ (op.value = "+=" → newv = wrap64 (x.value + b)) ∧
      (op.value = "-=" → newv = wrap64 (x.value - b)) := by
    rcases hop3 with h | h | h
    · exact ⟨b, by simp [apply_op, h], fun _ => rfl, fun k => absurd (h.symm.trans k) hne1,
        fun k => absurd (h.symm.trans k) hne2⟩
    · exact ⟨wrap64 (x.value + b), by simp [apply_op, h],
        fun k => absurd (k.symm.trans h) hne1, fun _ => rfl,
        fun k => absurd (h.symm.trans k) hne3⟩
    · exact ⟨wrap64 (x.value - b), by simp [apply_op, h],
        fun k => absurd (k.symm.trans h) hne2, fun k => absurd (k.symm.trans h) hne3,
        fun _ => rfl⟩
  refine ⟨_, newv, assignment_step fuel toks s id op rhs semi idx x b newv hid hidt hop hrhs
    hsemi hsemit hx hxv (get_value_of_denotes hb) hap, rfl, rfl, ?_, ?_, ?_, h1, ?_, ?_⟩
  · exact store_get_self _ _ _ _ hxv
  · intro j hj; exact store_get_other _ _ _ _ hj
  · exact store_names _ _ _
  · intro h
    obtain ⟨a1, a2, k, a3⟩ := wrap64_spec (x.value + b)
    rw [h2 h]
    exact ⟨a1, a2, ⟨k, a3⟩, fun l1 l2 => by omega⟩
  · intro h
    obtain ⟨a1, a2, k, a3⟩ := wrap64_spec (x.value - b)
    rw [h3 h]
    exact ⟨a1, a2, ⟨k, a3⟩, fun l1 l2 => by omega⟩

/-- Witness for C5: `x += 1` with `x = 9223372036854775807` in a two-entry
table; the stored value wraps to `-9223372036854775808`. -/
theorem C5_assignment_semantics_witness :
    ∃ s1, interpret_statement 1
        [⟨TOKEN_IDENTIFIER, "x", 1⟩, ⟨TOKEN_OPERATOR, "+=", 1⟩, ⟨TOKEN_INTCONST, "1", 1⟩,
          ⟨TOKEN_ENDOFLINE, "", 1⟩]
        ⟨⟨0, none, -1⟩, [⟨"w", 1⟩, ⟨"x", 9223372036854775807⟩], ""⟩ = .ok s1 ∧
      s1.cur.current = 0 + 4 ∧ s1.output = "" ∧
      s1.var_table[1]? = some { name := "x", value := -9223372036854775808 } ∧
      (∀ j, j ≠ 1 →
        s1.var_table[j]? = ([⟨"w", 1⟩, ⟨"x", 9223372036854775807⟩] : List Variable)[j]?) ∧
      s1.var_table.map (·.name) = ["w", "x"] := by
  obtain ⟨s1, newv, h1, h2, h3, h4, h5, h6, _, h7, _⟩ :=
    C5_assignment_semantics.1 0
      [⟨TOKEN_IDENTIFIER, "x", 1⟩, ⟨TOKEN_OPERATOR, "+=", 1⟩, ⟨TOKEN_INTCONST, "1", 1⟩,
        ⟨TOKEN_ENDOFLINE, "", 1⟩]
      ⟨⟨0, none, -1⟩, [⟨"w", 1⟩, ⟨"x", 9223372036854775807⟩], ""⟩
      ⟨TOKEN_IDENTIFIER, "x", 1⟩ ⟨TOKEN_OPERATOR, "+=", 1⟩ ⟨TOKEN_INTCONST, "1", 1⟩
      ⟨TOKEN_ENDOFLINE, "", 1⟩ 1 ⟨"x", 9223372036854775807⟩ 1
      rfl rfl rfl rfl rfl rfl (by decide!) rfl
      (Or.inl ⟨rfl, by decide!, by decide, by decide⟩) (Or.inr (Or.inl rfl))
  obtain ⟨a1, a2, ⟨k, a3⟩, _⟩ := h7 rfl
  have hv : newv = -9223372036854775808 := by
    simp only at a3
    omega
  rw [hv] at h4
  exact ⟨s1, h1, h2, h3, h4, h5, h6⟩

/-! ## More fuel never changes a result -/

theorem Res.le_refl (r : Res) : r.le r := Or.inr rfl

theorem Res.timeout_le (r : Res) : Res.timeout.le r := Or.inl rfl

theorem Res.bind_le {r r2 : Res} {k k2 : ExecState → Res} (h : r.le r2)
    (hk : ∀ s, (k s).le (k2 s)) : (r.bind k).le (r2.bind k2) := by
  rcases h with rfl | rfl
  · exact Or.inl rfl
  · cases r with
    | ok s => exact hk s
    | fail e s => exact Or.inr rfl
    | timeout => exact Or.inl rfl

theorem interpret_write_loop_succ_le (fuel : Nat) (toks : List Token) :
    ∀ (e : Bool) (s : ExecState),
      (interpret_write_loop fuel toks e s).le (interpret_write_loop (fuel + 1) toks e s) := by
  induction fuel with
  | zero => intro e s; exact Res.timeout_le _
  | succ n ih =>
    intro e s
    rw [interpret_write_loop, interpret_write_loop]
    cases hp : peek toks s.cur with
    | none => exact Res.le_refl _
    | some t =>
      simp only
      split_ifs
      all_goals first
        | exact Res.le_refl _
        | exact ih _ _
        | (split
           · exact Res.le_refl _
           · exact ih _ _)

theorem interpret_write_succ_le (fuel : Nat) (toks : List Token) (s : ExecState) :
    (interpret_write fuel toks s).le (interpret_write (fuel + 1) toks s) := by
  unfold interpret_write
  exact Res.bind_le (interpret_write_loop_succ_le _ _ _ _) (fun _ => Res.le_refl _)

theorem interpret_succ_le (fuel : Nat) (toks : List Token) :
    (∀ s, (interpret_statement fuel toks s).le (interpret_statement (fuel + 1) toks s)) ∧
    (∀ s, (interpret_block fuel toks s).le (interpret_block (fuel + 1) toks s)) ∧
    (∀ s, (interpret_block_loop fuel toks s).le (interpret_block_loop (fuel + 1) toks s)) ∧
    (∀ s, (interpret_repeat fuel toks s).le (interpret_repeat (fuel + 1) toks s)) ∧
    (∀ ct st b c s, (interpret_repeat_loop fuel toks ct st b c s).le
      (interpret_repeat_loop (fuel + 1) toks ct st b c s)) := by
  induction fuel with
  | zero =>
    refine ⟨?_, ?_, ?_, ?_, ?_⟩ <;> intros <;> exact Res.timeout_le _
  | succ n ih =>
    obtain ⟨ihs, ihb, ihbl, ihr, ihrl⟩ := ih
    refine ⟨?_, ?_, ?_, ?_, ?_⟩
    · intro s
      rw [interpret_statement, interpret_statement]
      cases hp : peek toks s.cur with
      | none => exact Res.le_refl _
      | some t =>
        simp only
        split_ifs
        all_goals first
          | exact Res.le_refl _
          | exact interpret_write_succ_le _ _ _
          | exact ihr _
          | exact ihb _
    · intro s
      rw [interpret_block, interpret_block]
      split_ifs
      · exact Res.bind_le (ihbl _) (fun _ => Res.le_refl _)
      · exact Res.le_refl _
    · intro s
      rw [interpret_block_loop, interpret_block_loop]
      cases hp : peek toks s.cur with
      | none => exact Res.le_refl _
      | some t =>
        simp only
        split_ifs
        · exact Res.bind_le (ihs _) (fun _ => ihbl _)
        · exact Res.le_refl _
    · intro s
      rw [interpret_repeat, interpret_repeat]
      simp only
      split
      · exact Res.le_refl _
      · split
        · exact Res.le_refl _
        · split_ifs
          · split
            · exact Res.le_refl _
            · exact ihrl _ _ _ _ _
          · exact Res.le_refl _
    · intro ct st b c s
      rw [interpret_repeat_loop, interpret_repeat_loop]
      simp only
      split_ifs
      all_goals first
        | exact Res.le_refl _
        | (refine Res.bind_le (ihb _) (fun s1 => ?_)
           first
             | exact ihrl _ _ _ _ _
             | (refine Res.bind_le (Res.le_refl _) (fun s2 => ?_)
                split
                · exact Res.le_refl _
                · exact ihrl _ _ _ _ _))
        | (refine Res.bind_le (ihs _) (fun s1 => ?_)
           first
             | exact ihrl _ _ _ _ _
             | (refine Res.bind_le (Res.le_refl _) (fun s2 => ?_)
                split
                · exact Res.le_refl _
                · exact ihrl _ _ _ _ _))

theorem Res.le_trans {a b c : Res} (h1 : a.le b) (h2 : b.le c) : a.le c := by
  rcases h1 with rfl | rfl
  · exact Or.inl rfl
  · exact h2

theorem Res.eq_of_le_ok {r r2 : Res} {s : ExecState} (h : r.le r2) (hr : r = .ok s) :
    r2 = .ok s := by
  rcases h with h | h
  · rw [h] at hr; cases hr
  · rw [← h]; exact hr

theorem interpret_statement_mono (toks : List Token) (s : ExecState) (f k : Nat) :
    (interpret_statement f toks s).le (interpret_statement (f + k) toks s) := by
  induction k with
  | zero => exact Res.le_refl _
  | succ k ih => exact Res.le_trans ih ((interpret_succ_le (f + k) toks).1 s)

theorem interpret_block_mono (toks : List Token) (s : ExecState) (f k : Nat) :
    (interpret_block f toks s).le (interpret_block (f + k) toks s) := by
  induction k with
  | zero => exact Res.le_refl _
  | succ k ih => exact Res.le_trans ih ((interpret_succ_le (f + k) toks).2.1 s)

theorem interpret_repeat_loop_mono (toks : List Token) (ct : Token) (st : Nat) (b : Bool)
    (c : Int) (s : ExecState) (f k : Nat) :
    (interpret_repeat_loop f toks ct st b c s).le
      (interpret_repeat_loop (f + k) toks ct st b c s) := by
  induction k with
  | zero => exact Res.le_refl _
  | succ k ih => exact Res.le_trans ih ((interpret_succ_le (f + k) toks).2.2.2.2 ct st b c s)

/-! ## A relation kept by every executor step -/

theorem Res.related_bind {R : ExecState → ExecState → Prop} (hR : StepClosed R)
    {s : ExecState} {r : Res} {k : ExecState → Res} (h : r.related R s)
    (hk : ∀ s1, R s s1 → (k s1).related R s1) : (r.bind k).related R s := by
  cases r with
  | ok s1 =>
    have := hk s1 h
    simp only [Res.bind]
    cases hks : k s1 with
    | ok s2 => rw [hks] at this; exact hR.trans _ _ _ h this
    | fail e s2 => rw [hks] at this; exact hR.trans _ _ _ h this
    | timeout => trivial
  | fail e s1 => exact h
  | timeout => trivial

theorem Res.related_of_step {R : ExecState → ExecState → Prop} (hR : StepClosed R)
    {s : ExecState} (s1 : ExecState) {r : Res} (h1 : R s s1) (h : r.related R s1) :
    r.related R s := by
  cases r with
  | ok s2 => exact hR.trans _ _ _ h1 h
  | fail e s2 => exact hR.trans _ _ _ h1 h
  | timeout => trivial

theorem adv_related {R : ExecState → ExecState → Prop} (hR : StepClosed R) (toks : List Token)
    (s : ExecState) : R s (adv toks s).2 := hR.cursor _ _

theorem accept_related {R : ExecState → ExecState → Prop} (hR : StepClosed R)
    (toks : List Token) (s : ExecState) (ty : TokenType) (v : Option String) :
    R s (accept toks s ty v).2 := hR.cursor _ _

theorem declare_var_related {R : ExecState → ExecState → Prop} (hR : StepClosed R)
    (s : ExecState) (name : String) (line : Nat) : (declare_var s name line).related R s := by
  unfold declare_var
  split_ifs with h1 h2
  · exact hR.refl _
  · exact hR.refl _
  · refine hR.declare _ _ ?_ (by omega)
    cases hf : find_var s.var_table name with
    | none => rfl
    | some i => simp [hf] at h1

theorem set_variable_related {R : ExecState → ExecState → Prop} (hR : StepClosed R)
    (s : ExecState) (name : String) (v : Int) : (set_variable s name v).related R s := by
  unfold set_variable
  split
  · exact hR.refl _
  · next idx h => exact hR.store _ _ _ _ h

theorem interpret_write_loop_related {R : ExecState → ExecState → Prop} (hR : StepClosed R)
    (fuel : Nat) (toks : List Token) :
    ∀ (e : Bool) (s : ExecState), (interpret_write_loop fuel toks e s).related R s := by
  induction fuel with
  | zero => intro e s; trivial
  | succ n ih =>
    intro e s
    rw [interpret_write_loop]
    cases hp : peek toks s.cur with
    | none => exact hR.refl _
    | some t =>
      simp only
      split_ifs
      · exact Res.related_of_step hR _ (accept_related hR _ _ _ _) (ih _ _)
      · exact hR.refl _
      · exact Res.related_of_step hR _ (hR.trans _ _ _ (hR.emit s _) (adv_related hR _ _)) (ih _ _)
      · exact Res.related_of_step hR _ (hR.trans _ _ _ (hR.emit s _) (adv_related hR _ _)) (ih _ _)
      · split
        · exact hR.refl _
        · exact Res.related_of_step hR _ (hR.trans _ _ _ (hR.emit s _) (adv_related hR _ _))
            (ih _ _)
      · exact hR.refl _

theorem interpret_write_related {R : ExecState → ExecState → Prop} (hR : StepClosed R)
    (fuel : Nat) (toks : List Token) (s : ExecState) :
    (interpret_write fuel toks s).related R s := by
  unfold interpret_write
  refine Res.related_of_step hR _ (adv_related hR toks s) ?_
  refine Res.related_bind hR (interpret_write_loop_related hR _ _ _ _) (fun s1 _ => ?_)
  split_ifs
  · exact accept_related hR _ _ _ _
  · exact hR.refl _

theorem interpret_declaration_related {R : ExecState → ExecState → Prop} (hR : StepClosed R)
    (toks : List Token) (s : ExecState) : (interpret_declaration toks s).related R s := by
  unfold interpret_declaration
  have h2 : R s (adv toks (adv toks s).2).2 :=
    hR.trans _ _ _ (adv_related hR toks s) (adv_related hR toks _)
  simp only
  split
  · exact h2
  · split_ifs
    · exact h2
    · refine Res.related_of_step hR _ h2 ?_
      refine Res.related_bind hR (declare_var_related hR _ _ _) (fun s3 _ => ?_)
      split_ifs
      · exact accept_related hR _ _ _ _
      · exact hR.refl _

theorem interpret_assignment_related {R : ExecState → ExecState → Prop} (hR : StepClosed R)
    (toks : List Token) (s : ExecState) : (interpret_assignment toks s).related R s := by
  unfold interpret_assignment
  have h3 : R s (adv toks (adv toks (adv toks s).2).2).2 :=
    hR.trans _ _ _ (adv_related hR toks s)
      (hR.trans _ _ _ (adv_related hR toks _) (adv_related hR toks _))
  simp only
  split
  · next id op rhs _ _ _ =>
    split
    · exact h3
    · split
      · exact h3
      · split
        · exact h3
        · next idx old hio =>
          split
          · exact h3
          · next v _ =>
            have hidx : find_var (adv toks (adv toks (adv toks s).2).2).2.var_table id.value
                = some idx := by
              cases hf : find_var (adv toks (adv toks (adv toks s).2).2).2.var_table id.value with
              | none => simp [hf] at hio
              | some i =>
                simp only [hf, Option.some_bind, Option.map_eq_some', Prod.mk.injEq] at hio
                obtain ⟨_, _, hi, _⟩ := hio
                rw [hi]
            have h4 := hR.store _ _ _ v hidx
            split_ifs
            · exact hR.trans _ _ _ h3 (hR.trans _ _ _ h4 (accept_related hR _ _ _ _))
            · exact hR.trans _ _ _ h3 h4
  · exact h3

theorem interpret_related {R : ExecState → ExecState → Prop} (hR : StepClosed R)
    (fuel : Nat) (toks : List Token) :
    (∀ s, (interpret_statement fuel toks s).related R s) ∧
    (∀ s, (interpret_block fuel toks s).related R s) ∧
    (∀ s, (interpret_block_loop fuel toks s).related R s) ∧
    (∀ s, (interpret_repeat fuel toks s).related R s) ∧
    (∀ ct st b c s, (interpret_repeat_loop fuel toks ct st b c s).related R s) := by
  induction fuel with
  | zero => refine ⟨?_, ?_, ?_, ?_, ?_⟩ <;> intros <;> trivial
  | succ n ih =>
    obtain ⟨ihs, ihb, ihbl, ihr, ihrl⟩ := ih
    refine ⟨?_, ?_, ?_, ?_, ?_⟩
    · intro s
      rw [interpret_statement]
      cases hp : peek toks s.cur with
      | none => exact hR.refl _
      | some t =>
        simp only
        split_ifs
        all_goals first
          | exact hR.refl _
          | exact interpret_declaration_related hR _ _
          | exact interpret_assignment_related hR _ _
          | exact interpret_write_related hR _ _ _
          | exact ihr _
          | exact ihb _
    · intro s
      rw [interpret_block]
      split_ifs
      · refine Res.related_of_step hR (accept toks s TOKEN_OPENBLOCK none).2
          (accept_related hR _ _ _ _) ?_
        refine Res.related_bind hR (ihbl _) (fun s2 _ => ?_)
        split_ifs
        · exact accept_related hR _ _ _ _
        · exact hR.refl _
      · exact hR.refl _
    · intro s
      rw [interpret_block_loop]
      cases hp : peek toks s.cur with
      | none => exact hR.refl _
      | some t =>
        simp only
        split_ifs
        · exact Res.related_bind hR (ihs _) (fun s1 _ => ihbl _)
        · exact hR.refl _
    · intro s
      rw [interpret_repeat]
      have h2 : R s (adv toks (adv toks s).2).2 :=
        hR.trans _ _ _ (adv_related hR toks s) (adv_related hR toks _)
      simp only
      split
      · exact h2
      · split
        · exact h2
        · split_ifs
          · have h3 := hR.trans _ _ _ h2 (accept_related hR toks (adv toks (adv toks s).2).2
              TOKEN_KEYWORD (some "times"))
            split
            · exact h3
            · exact Res.related_of_step hR _ h3 (ihrl _ _ _ _ _)
          · exact h2
    · intro ct st b c s
      rw [interpret_repeat_loop]
      simp only
      have hbody : ∀ s0, (if b = true then interpret_block n toks s0
          else interpret_statement n toks s0).related R s0 := by
        intro s0
        split_ifs
        · exact ihb _
        · exact ihs _
      split_ifs with hc hb hct hct
      · refine Res.related_of_step hR { s with cur := { s.cur with current := st } } (hR.cursor s _) ?_
        refine Res.related_bind hR (ihb _) (fun s1 _ => ?_)
        refine Res.related_bind hR (set_variable_related hR _ _ _) (fun s2 _ => ?_)
        split
        · exact hR.refl _
        · exact ihrl _ _ _ _ _
      · refine Res.related_of_step hR { s with cur := { s.cur with current := st } } (hR.cursor s _) ?_
        exact Res.related_bind hR (ihb _) (fun s1 _ => ihrl _ _ _ _ _)
      · refine Res.related_of_step hR { s with cur := { s.cur with current := st } } (hR.cursor s _) ?_
        refine Res.related_bind hR (ihs _) (fun s1 _ => ?_)
        refine Res.related_bind hR (set_variable_related hR _ _ _) (fun s2 _ => ?_)
        split
        · exact hR.refl _
        · exact ihrl _ _ _ _ _
      · refine Res.related_of_step hR { s with cur := { s.cur with current := st } } (hR.cursor s _) ?_
        exact Res.related_bind hR (ihs _) (fun s1 _ => ihrl _ _ _ _ _)
      · exact set_variable_related hR _ _ _
      · exact hR.refl _

/-! ## Validator defects -/

/-- C2 as stated fails: three token sequences that the grammar derives, each a
repeat with a single-statement body, are rejected by `parse`: a declaration or
a nested repeat as body is reported as an unexpected token after `times`, and
after an assignment body `parse_repeat` demands a second semicolon. -/
theorem C2_counterexample :
    (∃ toks, tokens_of "number x; repeat 3 times x += 1;" = some toks ∧
      Derives .program toks ∧ syntax_error toks = some (.expected 1 "semicolon ';'" "EOF")) ∧
    (∃ toks, tokens_of "repeat 2 times number y;" = some toks ∧
      Derives .program toks ∧ syntax_error toks = some (.repeatUnexpected 1)) ∧
    (∃ toks, tokens_of "repeat 2 times repeat 3 times write \"x\";" = some toks ∧
      Derives .program toks ∧ syntax_error toks = some (.repeatUnexpected 1)) := by
  refine ⟨⟨[⟨TOKEN_KEYWORD, "number", 1⟩, ⟨TOKEN_IDENTIFIER, "x", 1⟩, ⟨TOKEN_ENDOFLINE, "", 1⟩,
      ⟨TOKEN_KEYWORD, "repeat", 1⟩, ⟨TOKEN_INTCONST, "3", 1⟩, ⟨TOKEN_KEYWORD, "times", 1⟩,
      ⟨TOKEN_IDENTIFIER, "x", 1⟩, ⟨TOKEN_OPERATOR, "+=", 1⟩, ⟨TOKEN_INTCONST, "1", 1⟩,
      ⟨TOKEN_ENDOFLINE, "", 1⟩], by decide!, ?_, by decide!⟩,
    ⟨[⟨TOKEN_KEYWORD, "repeat", 1⟩, ⟨TOKEN_INTCONST, "2", 1⟩, ⟨TOKEN_KEYWORD, "times", 1⟩,
      ⟨TOKEN_KEYWORD, "number", 1⟩, ⟨TOKEN_IDENTIFIER, "y", 1⟩, ⟨TOKEN_ENDOFLINE, "", 1⟩],
      by decide!, ?_, by decide!⟩,
    ⟨[⟨TOKEN_KEYWORD, "repeat", 1⟩, ⟨TOKEN_INTCONST, "2", 1⟩, ⟨TOKEN_KEYWORD, "times", 1⟩,
      ⟨TOKEN_KEYWORD, "repeat", 1⟩, ⟨TOKEN_INTCONST, "3", 1⟩, ⟨TOKEN_KEYWORD, "times", 1⟩,
      ⟨TOKEN_KEYWORD, "write", 1⟩, ⟨TOKEN_STRINGCONST, "x", 1⟩, ⟨TOKEN_ENDOFLINE, "", 1⟩],
      by decide!, ?_, by decide!⟩⟩
  · exact Derives.program_cons (a := [_, _, _])
      (Derives.declaration ⟨rfl, rfl⟩ rfl rfl)
      (Derives.program_cons (a := [_, _, _, _, _, _, _]) (b := [])
        (Derives.repeat_stmt ⟨rfl, rfl⟩ (Or.inl rfl) ⟨rfl, rfl⟩
          (Derives.assignment rfl ⟨rfl, Or.inr (Or.inl rfl)⟩ (Or.inl rfl) rfl))
        Derives.program_nil)
  · exact Derives.program_cons (a := [_, _, _, _, _, _]) (b := [])
      (Derives.repeat_stmt ⟨rfl, rfl⟩ (Or.inl rfl) ⟨rfl, rfl⟩
        (Derives.declaration ⟨rfl, rfl⟩ rfl rfl))
      Derives.program_nil
  · exact Derives.program_cons (a := [_, _, _, _, _, _, _, _, _]) (b := [])
      (Derives.repeat_stmt ⟨rfl, rfl⟩ (Or.inl rfl) ⟨rfl, rfl⟩
        (Derives.repeat_stmt ⟨rfl, rfl⟩ (Or.inl rfl) ⟨rfl, rfl⟩
          (Derives.write (l := [_]) ⟨rfl, rfl⟩ (Derives.writelist_one (Or.inl rfl)) rfl)))
      Derives.program_nil

/-! ## Validator completeness for block and write bodies -/

theorem occurs_at_head {toks : List Token} {n : Nat} {t : Token} {l : List Token}
    (h : occurs_at toks n (t :: l)) : toks[n]? = some t := by
  simpa using h 0 t (by simp)

theorem occurs_at_tail {toks : List Token} {n : Nat} {t : Token} {l : List Token}
    (h : occurs_at toks n (t :: l)) : occurs_at toks (n + 1) l := by
  intro i u hu
  have := h (i + 1) u (by simpa using hu)
  rw [show n + 1 + i = n + (i + 1) by omega]
  exact this

theorem occurs_at_append_left {toks : List Token} {n : Nat} {a b : List Token}
    (h : occurs_at toks n (a ++ b)) : occurs_at toks n a := by
  intro i u hu
  refine h i u ?_
  have hi : i < a.length := (List.getElem?_eq_some_iff.1 hu).1
  rw [List.getElem?_append_left hi]
  exact hu

theorem occurs_at_append_right {toks : List Token} {n : Nat} {a b : List Token}
    (h : occurs_at toks n (a ++ b)) : occurs_at toks (n + a.length) b := by
  intro i u hu
  have := h (a.length + i) u (by
    rw [List.getElem?_append_right (by omega)]
    simpa using hu)
  rw [show n + a.length + i = n + (a.length + i) by omega]
  exact this

theorem occurs_at_self (toks : List Token) : occurs_at toks 0 toks := by
  intro i u hu
  simpa using hu

theorem times_followed_by_tail {ok : Token → Bool} {t : Token} {l : List Token}
    (h : times_followed_by ok (t :: l) = true) : times_followed_by ok l = true := by
  cases l with
  | nil => rfl
  | cons b rest =>
    simp only [times_followed_by, Bool.and_eq_true] at h
    exact h.2

theorem times_followed_by_append_right {ok : Token → Bool} {a b : List Token}
    (h : times_followed_by ok (a ++ b) = true) : times_followed_by ok b = true := by
  induction a with
  | nil => exact h
  | cons t a ih => exact ih (times_followed_by_tail h)

theorem times_followed_by_append_left {ok : Token → Bool} {a b : List Token}
    (h : times_followed_by ok (a ++ b) = true) : times_followed_by ok a = true := by
  induction a with
  | nil => rfl
  | cons t a ih =>
    cases a with
    | nil => rfl
    | cons u a =>
      simp only [List.cons_append, times_followed_by, Bool.and_eq_true] at h ⊢
      exact ⟨h.1, ih h.2⟩

theorem expect_mk {toks : List Token} {cur : Nat} {lt : Option Token} {ll : Int} {t : Token}
    {ty : TokenType} {v : Option String} (h : toks[cur]? = some t)
    (hm : tokMatches t ty v = true) :
    expect toks ⟨cur, lt, ll⟩ ty v = .ok ⟨cur + 1, some t, t.line⟩ := by
  simp [expect, matchTok, peek, advance, h, hm]

theorem tokMatches_type {t : Token} {ty : TokenType} (h : t.type = ty) :
    tokMatches t ty none = true := by
  simp [tokMatches, h]

theorem tokMatches_keyword {t : Token} {text : String} (h : t.isKeyword text) :
    tokMatches t TOKEN_KEYWORD (some text) = true := by
  simp [tokMatches, h.1, h.2]

theorem accepts_declaration {n id semi : Token} (hn : n.isKeyword "number")
    (hid : id.type = TOKEN_IDENTIFIER) (hs : semi.type = TOKEN_ENDOFLINE) :
    Accepts .statement [n, id, semi] := by
  intro toks c f hocc _ hf
  obtain ⟨cur, lt, ll⟩ := c
  have h0 : toks[cur]? = some n := occurs_at_head hocc
  have h1 : toks[cur + 1]? = some id := occurs_at_head (occurs_at_tail hocc)
  have h2 : toks[cur + 2]? = some semi :=
    occurs_at_head (occurs_at_tail (occurs_at_tail hocc))
  refine ⟨?_, ?_, ?_⟩
  · obtain ⟨g, rfl⟩ : ∃ g, f = g + 1 := ⟨f - 1, by omega⟩
    rw [parse_statement]
    simp only [peek, h0, hn.1, hn.2, if_true, parse_declaration,
      expect_mk h0 (tokMatches_keyword hn), PRes.bind, expect_mk h1 (tokMatches_type hid),
      expect_mk h2 (tokMatches_type hs)]
    exact ⟨_, rfl, rfl⟩
  · intro b hb hbt
    simp only [List.head?_cons, Option.some.injEq] at hb
    rw [← hb, hn.1] at hbt; cases hbt
  · intro b hb hw
    simp only [List.head?_cons, Option.some.injEq] at hb
    rw [← hb] at hw
    have := hw.2
    rw [hn.2] at this
    exact absurd this (by decide)

theorem advance_mk {toks : List Token} {cur : Nat} {lt : Option Token} {ll : Int} {t : Token}
    (h : toks[cur]? = some t) :
    advance toks ⟨cur, lt, ll⟩ = (some t, ⟨cur + 1, some t, t.line⟩) := by
  simp [advance, h]

theorem matchTok_mk {toks : List Token} {cur : Nat} {lt : Option Token} {ll : Int} {t : Token}
    {ty : TokenType} {v : Option String} (h : toks[cur]? = some t)
    (hm : tokMatches t ty v = true) :
    matchTok toks ⟨cur, lt, ll⟩ ty v = (true, ⟨cur + 1, some t, t.line⟩) := by
  simp [matchTok, peek, advance, h, hm]

theorem matchTok_mk_false {toks : List Token} {cur : Nat} {lt : Option Token} {ll : Int}
    {t : Token} {ty : TokenType} {v : Option String} (h : toks[cur]? = some t)
    (hm : tokMatches t ty v = false) :
    matchTok toks ⟨cur, lt, ll⟩ ty v = (false, ⟨cur, lt, ll⟩) := by
  simp [matchTok, peek, h, hm]

theorem parse_assign_with_ok {toks : List Token} {cur : Nat} {lt : Option Token} {ll : Int}
    {id op v semi : Token} (text : String) (err : Int → SyntaxError)
    (h0 : toks[cur]? = some id) (h1 : toks[cur + 1]? = some op) (h2 : toks[cur + 2]? = some v)
    (h3 : toks[cur + 3]? = some semi) (hid : id.type = TOKEN_IDENTIFIER)
    (hop : op.type = TOKEN_OPERATOR) (hopv : op.value = text) (hv : v.isValue)
    (hs : semi.type = TOKEN_ENDOFLINE) :
    parse_assign_with text err toks ⟨cur, lt, ll⟩ = .ok ⟨cur + 4, some semi, semi.line⟩ := by
  have hm1 : tokMatches op TOKEN_OPERATOR (some text) = true := by
    simp [tokMatches, hop, hopv]
  have hv2 : v.type = TOKEN_INTCONST ∨ v.type = TOKEN_IDENTIFIER := hv
  simp only [parse_assign_with, expect_mk h0 (tokMatches_type hid), PRes.bind,
    expect_mk h1 hm1, peek, h2, hv2, if_true, advance_mk h2,
    expect_mk h3 (tokMatches_type hs)]

theorem lookahead_some {toks : List Token} {c : Cursor} {t : Token}
    (h : toks[c.current + 1]? = some t) : lookahead toks c = some t := by
  simp [lookahead, h]

theorem accepts_assignment {id op v semi : Token} (hid : id.type = TOKEN_IDENTIFIER)
    (hop : op.isAssignOp) (hv : v.isValue) (hs : semi.type = TOKEN_ENDOFLINE) :
    Accepts .statement [id, op, v, semi] := by
  intro toks c f hocc _ hf
  obtain ⟨cur, lt, ll⟩ := c
  have h0 : toks[cur]? = some id := occurs_at_head hocc
  have h1 : toks[cur + 1]? = some op := occurs_at_head (occurs_at_tail hocc)
  have h2 : toks[cur + 2]? = some v := occurs_at_head (occurs_at_tail (occurs_at_tail hocc))
  have h3 : toks[cur + 3]? = some semi :=
    occurs_at_head (occurs_at_tail (occurs_at_tail (occurs_at_tail hocc)))
  refine ⟨?_, ?_, ?_⟩
  · obtain ⟨g, rfl⟩ : ∃ g, f = g + 1 := ⟨f - 1, by omega⟩
    rw [parse_statement]
    have hla : lookahead toks ⟨cur, lt, ll⟩ = some op := lookahead_some h1
    simp only [peek, h0, hid, hla, hop.1, if_true]
    rw [if_neg (by decide)]
    rcases hop.2 with hv1 | hv1 | hv1
    · rw [if_pos hv1, parse_assignment,
        parse_assign_with_ok ":=" _ h0 h1 h2 h3 hid hop.1 hv1 hv hs]
      exact ⟨_, rfl, rfl⟩
    · rw [if_neg (by rw [hv1]; decide), if_pos hv1, parse_increment,
        parse_assign_with_ok "+=" _ h0 h1 h2 h3 hid hop.1 hv1 hv hs]
      exact ⟨_, rfl, rfl⟩
    · rw [if_neg (by rw [hv1]; decide), if_neg (by rw [hv1]; decide), if_pos hv1,
        parse_decrement, parse_assign_with_ok "-=" _ h0 h1 h2 h3 hid hop.1 hv1 hv hs]
      exact ⟨_, rfl, rfl⟩
  · intro b hb hbt
    simp only [List.head?_cons, Option.some.injEq] at hb
    rw [← hb, hid] at hbt; cases hbt
  · intro b hb hw
    simp only [List.head?_cons, Option.some.injEq] at hb
    rw [← hb] at hw
    have := hw.1
    rw [hid] at this; cases this

theorem isWriteVal_cond {t : Token} (h : t.isWriteVal) :
    t.type = TOKEN_STRINGCONST ∨ t.type = TOKEN_INTCONST ∨ t.type = TOKEN_IDENTIFIER ∨
      (t.type = TOKEN_KEYWORD ∧ t.value = "newline") := by
  rcases h with h | h | h | h
  · exact Or.inl h
  · exact Or.inr (Or.inr (Or.inr h))
  · exact Or.inr (Or.inl h)
  · exact Or.inr (Or.inr (Or.inl h))

theorem tokMatches_and_false {t : Token} (h : ¬ t.isKeyword "and") :
    tokMatches t TOKEN_KEYWORD (some "and") = false := by
  cases hm : tokMatches t TOKEN_KEYWORD (some "and") with
  | false => rfl
  | true =>
    simp only [tokMatches, Bool.and_eq_true, beq_iff_eq] at hm
    exact absurd ⟨hm.1, hm.2⟩ h

theorem accepts_writelist_one {v : Token} (hv : v.isWriteVal) : Accepts .writelist [v] := by
  intro toks c f nx hocc hnx hnot hf
  obtain ⟨cur, lt, ll⟩ := c
  have h0 : toks[cur]? = some v := occurs_at_head hocc
  have h1 : toks[cur + 1]? = some nx := hnx
  obtain ⟨g, rfl⟩ : ∃ g, f = g + 1 + 1 := ⟨f - 2, by simp only [List.length_cons] at hf; omega⟩
  rw [parse_write_loop]
  simp only [peek, h0, Bool.false_eq_true, if_false, isWriteVal_cond hv, if_true, advance_mk h0]
  rw [parse_write_loop]
  simp only [peek, h1, if_true, matchTok_mk_false h1 (tokMatches_and_false hnot),
    Bool.false_eq_true, if_false]
  exact ⟨_, rfl, rfl⟩

theorem accepts_writelist_and {v a : Token} {rest : List Token} (hv : v.isWriteVal)
    (ha : a.isKeyword "and") (ih : Accepts .writelist rest) :
    Accepts .writelist (v :: a :: rest) := by
  intro toks c f nx hocc hnx hnot hf
  obtain ⟨cur, lt, ll⟩ := c
  have h0 : toks[cur]? = some v := occurs_at_head hocc
  have h1 : toks[cur + 1]? = some a := occurs_at_head (occurs_at_tail hocc)
  have hrest : occurs_at toks (cur + 2) rest := occurs_at_tail (occurs_at_tail hocc)
  simp only [List.length_cons] at hf hnx
  obtain ⟨g, rfl⟩ : ∃ g, f = g + 1 + 1 := ⟨f - 2, by omega⟩
  rw [parse_write_loop]
  simp only [peek, h0, Bool.false_eq_true, if_false, isWriteVal_cond hv, if_true, advance_mk h0]
  rw [parse_write_loop]
  simp only [peek, h1, if_true, matchTok_mk h1 (tokMatches_keyword ha)]
  obtain ⟨c1, hc1, hcur⟩ := ih toks ⟨cur + 1 + 1, some a, a.line⟩ g nx hrest
    (by rw [show cur + 1 + 1 + rest.length = cur + (rest.length + 1 + 1) by omega]; exact hnx)
    hnot (by omega)
  exact ⟨c1, hc1, by rw [hcur]; simp only [List.length_cons]; omega⟩

theorem accepts_write {w semi : Token} {l : List Token} (hw : w.isKeyword "write")
    (hs : semi.type = TOKEN_ENDOFLINE) (ih : Accepts .writelist l) :
    Accepts .statement (w :: l ++ [semi]) := by
  intro toks c f hocc _ hf
  obtain ⟨cur, lt, ll⟩ := c
  have h0 : toks[cur]? = some w := occurs_at_head hocc
  have hl : occurs_at toks (cur + 1) l := occurs_at_append_left (occurs_at_tail hocc)
  have hsemi : toks[cur + 1 + l.length]? = some semi :=
    occurs_at_head (occurs_at_append_right (occurs_at_tail hocc))
  have hnot : ¬ semi.isKeyword "and" := by
    intro h
    have h1 := h.1
    rw [hs] at h1; cases h1
  simp only [List.cons_append, List.length_cons, List.length_append, List.length_nil] at hf
  have hwrite : ∀ g, l.length + 1 ≤ g → ∃ c1, parse_write g toks ⟨cur, lt, ll⟩ = .ok c1 ∧
      c1.current = cur + (w :: l ++ [semi]).length := by
    intro g hg
    obtain ⟨c1, hc1, hcur⟩ := ih toks ⟨cur + 1, some w, w.line⟩ g semi hl hsemi hnot hg
    obtain ⟨cur1, lt1, ll1⟩ := c1
    simp only at hcur
    subst hcur
    simp only [parse_write, expect_mk h0 (tokMatches_keyword hw), PRes.bind, hc1,
      expect_mk hsemi (tokMatches_type hs)]
    exact ⟨_, rfl, by simp only [List.cons_append, List.length_cons, List.length_append,
      List.length_nil]; omega⟩
  refine ⟨?_, ?_, ?_⟩
  · obtain ⟨g, rfl⟩ : ∃ g, f = g + 1 := ⟨f - 1, by omega⟩
    rw [parse_statement]
    simp only [peek, h0, hw.1, hw.2, if_true]
    exact hwrite g (by omega)
  · intro b hb hbt
    simp only [List.cons_append, List.head?_cons, Option.some.injEq] at hb
    rw [← hb, hw.1] at hbt; cases hbt
  · intro b _ _
    exact hwrite f (by omega)

theorem derives_statement_first {l : List Token} (h : Derives .statement l) :
    ∃ t rest, l = t :: rest ∧ t.type ≠ TOKEN_CLOSEBLOCK := by
  cases h with
  | declaration hn _ _ => exact ⟨_, _, rfl, by rw [hn.1]; decide⟩
  | assignment hid _ _ _ => exact ⟨_, _, rfl, by rw [hid]; decide⟩
  | write hw _ _ => exact ⟨_, _, rfl, by rw [hw.1]; decide⟩
  | repeat_stmt hr _ _ _ => exact ⟨_, _, rfl, by rw [hr.1]; decide⟩
  | block ho _ _ => exact ⟨_, _, rfl, by rw [ho]; decide⟩

theorem accepts_block {o cl : Token} {inner : List Token} (ho : o.type = TOKEN_OPENBLOCK)
    (hcl : cl.type = TOKEN_CLOSEBLOCK) (ih : Accepts .program inner) :
    Accepts .statement (o :: inner ++ [cl]) := by
  intro toks c f hocc htf hf
  obtain ⟨cur, lt, ll⟩ := c
  have h0 : toks[cur]? = some o := occurs_at_head hocc
  have hin : occurs_at toks (cur + 1) inner := occurs_at_append_left (occurs_at_tail hocc)
  have hclose : toks[cur + 1 + inner.length]? = some cl :=
    occurs_at_head (occurs_at_append_right (occurs_at_tail hocc))
  have htf2 : times_followed_by starts_block_or_write inner = true :=
    times_followed_by_append_left (times_followed_by_tail htf)
  simp only [List.cons_append, List.length_cons, List.length_append, List.length_nil] at hf
  have hblock : ∀ g, 3 * inner.length + 3 ≤ g → ∃ c1,
      parse_block g toks ⟨cur, lt, ll⟩ = .ok c1 ∧
        c1.current = cur + (o :: inner ++ [cl]).length := by
    intro g hg
    obtain ⟨k, rfl⟩ : ∃ k, g = k + 1 := ⟨g - 1, by omega⟩
    obtain ⟨c1, hc1, hcur⟩ := (ih toks ⟨cur + 1, some o, o.line⟩ k hin htf2 (by omega)).1 cl
      hclose hcl
    rw [parse_block]
    simp only [expect_mk h0 (tokMatches_type ho), PRes.bind, hc1]
    exact ⟨c1, rfl, by rw [hcur]; simp only [List.cons_append, List.length_cons,
      List.length_append, List.length_nil]; omega⟩
  refine ⟨?_, ?_, ?_⟩
  · obtain ⟨g, rfl⟩ : ∃ g, f = g + 1 := ⟨f - 1, by omega⟩
    rw [parse_statement]
    simp only [peek, h0, ho, if_true]
    rw [if_neg (by decide), if_neg (by decide)]
    exact hblock g (by omega)
  · intro b _ _
    exact hblock f (by omega)
  · intro b hb hw
    simp only [List.cons_append, List.head?_cons, Option.some.injEq] at hb
    rw [← hb] at hw
    have := hw.1
    rw [ho] at this; cases this

theorem accepts_repeat {r c t : Token} {body : List Token} (hr : r.isKeyword "repeat")
    (hc : c.isValue) (ht : t.isKeyword "times") (hbody : Derives .statement body)
    (ih : Accepts .statement body) : Accepts .statement (r :: c :: t :: body) := by
  intro toks cu f hocc htf hf
  obtain ⟨cur, lt, ll⟩ := cu
  obtain ⟨b0, rest, rfl, _⟩ := derives_statement_first hbody
  have h0 : toks[cur]? = some r := occurs_at_head hocc
  have h1 : toks[cur + 1]? = some c := occurs_at_head (occurs_at_tail hocc)
  have h2 : toks[cur + 2]? = some t := occurs_at_head (occurs_at_tail (occurs_at_tail hocc))
  have hb : occurs_at toks (cur + 3) (b0 :: rest) :=
    occurs_at_tail (occurs_at_tail (occurs_at_tail hocc))
  have h3 : toks[cur + 3]? = some b0 := occurs_at_head hb
  have htf3 : times_followed_by starts_block_or_write (t :: b0 :: rest) = true :=
    times_followed_by_tail (times_followed_by_tail htf)
  have hstart : starts_block_or_write b0 = true := by
    simp only [times_followed_by, ht.1, ht.2, beq_self_eq_true, Bool.and_self, Bool.not_true,
      Bool.false_or, Bool.and_eq_true] at htf3
    exact htf3.1
  have htfb : times_followed_by starts_block_or_write (b0 :: rest) = true :=
    times_followed_by_tail htf3
  simp only [List.length_cons] at hf
  have hc2 : c.type = TOKEN_INTCONST ∨ c.type = TOKEN_IDENTIFIER := hc
  refine ⟨?_, ?_, ?_⟩
  · obtain ⟨g, rfl⟩ : ∃ g, f = g + 1 + 1 := ⟨f - 2, by omega⟩
    obtain ⟨_, hib, hiw⟩ := ih toks ⟨cur + 3, some t, t.line⟩ g hb htfb
      (by simp only [List.length_cons]; omega)
    have hdispatch : parse_statement (g + 1 + 1) toks ⟨cur, lt, ll⟩
        = parse_repeat (g + 1) toks ⟨cur, lt, ll⟩ := by
      rw [parse_statement]
      simp [peek, h0, hr.1, hr.2]
    rw [hdispatch, parse_repeat]
    simp only [expect_mk h0 (tokMatches_keyword hr), PRes.bind, parse_repeat_count, peek, h1,
      hc2, if_true, advance_mk h1, expect_mk h2 (tokMatches_keyword ht), h3]
    simp only [starts_block_or_write, Bool.or_eq_true, beq_iff_eq, Bool.and_eq_true] at hstart
    rcases hstart with hs | hs
    · rw [if_pos hs]
      obtain ⟨c1, hc1, hcur⟩ := hib b0 rfl hs
      exact ⟨c1, hc1, by rw [hcur]; simp only [List.length_cons]; omega⟩
    · rw [if_neg (by rw [hs.1]; decide), if_pos hs]
      obtain ⟨c1, hc1, hcur⟩ := hiw b0 rfl hs
      exact ⟨c1, hc1, by rw [hcur]; simp only [List.length_cons]; omega⟩
  · intro b hb2 hbt
    simp only [List.head?_cons, Option.some.injEq] at hb2
    rw [← hb2, hr.1] at hbt; cases hbt
  · intro b hb2 hw
    simp only [List.head?_cons, Option.some.injEq] at hb2
    rw [← hb2] at hw
    have := hw.2
    rw [hr.2] at this
    exact absurd this (by decide)

theorem accepts_program_nil : Accepts .program [] := by
  intro toks c f _ _ hf
  obtain ⟨cur, lt, ll⟩ := c
  obtain ⟨g, rfl⟩ : ∃ g, f = g + 1 := ⟨f - 1, by omega⟩
  constructor
  · intro cl hcl hclt
    simp only [List.length_nil, Nat.add_zero] at hcl
    rw [parse_block_loop]
    simp only [peek, hcl, hclt, if_true, expect_mk hcl (tokMatches_type hclt)]
    exact ⟨_, rfl, rfl⟩
  · intro hend
    simp only [List.length_nil, Nat.add_zero] at hend
    rw [parse_loop, if_neg (by simp only; omega)]
    exact ⟨_, rfl, hend⟩

theorem accepts_program_cons {a b : List Token} (ha : Derives .statement a)
    (iha : Accepts .statement a) (ihb : Accepts .program b) : Accepts .program (a ++ b) := by
  intro toks c f hocc htf hf
  obtain ⟨t0, rest, hae, ht0⟩ := derives_statement_first ha
  have hoa : occurs_at toks c.current a := occurs_at_append_left hocc
  have hob : occurs_at toks (c.current + a.length) b := occurs_at_append_right hocc
  have hpeek : toks[c.current]? = some t0 := by
    rw [hae] at hoa; exact occurs_at_head hoa
  have hlen : 1 ≤ a.length := by rw [hae]; simp
  simp only [List.length_append] at hf
  obtain ⟨g, rfl⟩ : ∃ g, f = g + 1 := ⟨f - 1, by omega⟩
  obtain ⟨⟨c1, hc1, hcur⟩, _, _⟩ := iha toks c g hoa (times_followed_by_append_left htf)
    (by omega)
  have hb := ihb toks c1 g (by rw [hcur]; exact hob) (times_followed_by_append_right htf)
    (by omega)
  constructor
  · intro cl hcl hclt
    obtain ⟨c2, hc2, hcur2⟩ := hb.1 cl
      (by rw [hcur, Nat.add_assoc, ← List.length_append]; exact hcl) hclt
    rw [parse_block_loop]
    simp only [peek, hpeek, ht0, if_false, hc1, PRes.bind, hc2]
    exact ⟨c2, rfl, by rw [hcur2, hcur, List.length_append]; omega⟩
  · intro hend
    obtain ⟨c2, hc2, hcur2⟩ := hb.2 (by rw [hcur, ← hend, List.length_append]; omega)
    have hlt : c.current < toks.length := (List.getElem?_eq_some_iff.1 hpeek).1
    rw [parse_loop, if_pos hlt]
    simp only [hc1, PRes.bind, hc2]
    exact ⟨c2, rfl, hcur2⟩

/-- Every derivation of the grammar whose repeat bodies are blocks or write
statements is followed by the validator. -/
theorem accepts_of_derives {nt : Nonterminal} {l : List Token} (h : Derives nt l) :
    Accepts nt l := by
  induction h with
  | program_nil => exact accepts_program_nil
  | program_cons ha _ iha ihb => exact accepts_program_cons ha iha ihb
  | declaration hn hid hs => exact accepts_declaration hn hid hs
  | assignment hid hop hv hs => exact accepts_assignment hid hop hv hs
  | write hw _ hs ih => exact accepts_write hw hs ih
  | writelist_one hv => exact accepts_writelist_one hv
  | writelist_and hv ha _ ih => exact accepts_writelist_and hv ha ih
  | repeat_stmt hr hc ht hbody ih => exact accepts_repeat hr hc ht hbody ih
  | block ho _ hcl ih => exact accepts_block ho hcl ih

/-- The validator accepts every token sequence that the grammar derives and in
which each `times` is followed by `{` or by `write`. -/
theorem parse_complete (toks : List Token) (h : Derives .program toks)
    (hb : times_followed_by starts_block_or_write toks = true) : accepted toks = true := by
  obtain ⟨c1, hc1, _⟩ := (accepts_of_derives h toks ⟨0, none, -1⟩ (3 * toks.length + 2)
    (by simpa using occurs_at_self toks) hb (le_refl _)).2 (by simp)
  unfold accepted parse
  rw [hc1]

/-- The guard of `parse_repeat`: a keyword other than `write` after `times` is
reported as unexpected. -/
theorem parse_repeat_keyword_body (f : Nat) (toks : List Token) (cu : Cursor)
    (r c t b : Token) (h0 : toks[cu.current]? = some r) (hr : r.isKeyword "repeat")
    (h1 : toks[cu.current + 1]? = some c) (hc : c.isValue)
    (h2 : toks[cu.current + 2]? = some t) (ht : t.isKeyword "times")
    (h3 : toks[cu.current + 3]? = some b) (hb : b.type = TOKEN_KEYWORD)
    (hbv : b.value ≠ "write") :
    parse_statement (f + 2) toks cu =
      .fail (.repeatUnexpected b.line) ⟨cu.current + 3, some t, t.line⟩ := by
  obtain ⟨cur, lt, ll⟩ := cu
  simp only at h0 h1 h2 h3
  have hc2 : c.type = TOKEN_INTCONST ∨ c.type = TOKEN_IDENTIFIER := hc
  have hdispatch : parse_statement (f + 1 + 1) toks ⟨cur, lt, ll⟩
      = parse_repeat (f + 1) toks ⟨cur, lt, ll⟩ := by
    rw [parse_statement]
    simp [peek, h0, hr.1, hr.2]
  rw [hdispatch, parse_repeat]
  simp only [expect_mk h0 (tokMatches_keyword hr), PRes.bind, parse_repeat_count, peek, h1,
    hc2, if_true, advance_mk h1, expect_mk h2 (tokMatches_keyword ht), h3, hb, hbv, and_false,
    if_false]
  rw [if_neg (by decide), if_neg (by decide)]

/-- C2 (amended): `parse` accepts every token sequence that the grammar
`program := statement*` derives and in which each `times` is directly followed
by `{` or by `write`, that is, whose repeat bodies are blocks or write
statements. A keyword other than `write` after `times` (a declaration or a
nested repeat as body) is rejected by the guard of `parse_repeat`. So
`repeat 3 times write "x";` is accepted. -/
theorem C2_block_and_write_bodies_accepted :
    (∀ toks : List Token, Derives .program toks →
        times_followed_by starts_block_or_write toks = true → accepted toks = true) ∧
    (∀ (f : Nat) (toks : List Token) (cu : Cursor) (r c t b : Token),
        toks[cu.current]? = some r → r.isKeyword "repeat" →
        toks[cu.current + 1]? = some c → c.isValue →
        toks[cu.current + 2]? = some t → t.isKeyword "times" →
        toks[cu.current + 3]? = some b → b.type = TOKEN_KEYWORD → b.value ≠ "write" →
        parse_statement (f + 2) toks cu =
          .fail (.repeatUnexpected b.line) ⟨cu.current + 3, some t, t.line⟩) ∧
    (∃ toks, tokens_of "repeat 3 times write \"x\";" = some toks ∧ accepted toks = true) := by
  refine ⟨parse_complete, parse_repeat_keyword_body, ?_⟩
  exact ⟨[⟨TOKEN_KEYWORD, "repeat", 1⟩, ⟨TOKEN_INTCONST, "3", 1⟩, ⟨TOKEN_KEYWORD, "times", 1⟩,
    ⟨TOKEN_KEYWORD, "write", 1⟩, ⟨TOKEN_STRINGCONST, "x", 1⟩, ⟨TOKEN_ENDOFLINE, "", 1⟩],
    by decide!, by decide!⟩

/-- Witness for C2: the tokens of `repeat 2 times { number y; }`. -/
theorem C2_block_and_write_bodies_accepted_witness :
    accepted [⟨TOKEN_KEYWORD, "repeat", 1⟩, ⟨TOKEN_INTCONST, "2", 1⟩,
      ⟨TOKEN_KEYWORD, "times", 1⟩, ⟨TOKEN_OPENBLOCK, "", 1⟩, ⟨TOKEN_KEYWORD, "number", 1⟩,
      ⟨TOKEN_IDENTIFIER, "y", 1⟩, ⟨TOKEN_ENDOFLINE, "", 1⟩, ⟨TOKEN_CLOSEBLOCK, "", 1⟩] = true :=
  C2_block_and_write_bodies_accepted.1 _
    (Derives.program_cons (a := [_, _, _, _, _, _, _, _]) (b := [])
      (Derives.repeat_stmt ⟨rfl, rfl⟩ (Or.inl rfl) ⟨rfl, rfl⟩
        (Derives.block (l := [_, _, _]) rfl
          (Derives.program_cons (a := [_, _, _]) (b := [])
            (Derives.declaration ⟨rfl, rfl⟩ rfl rfl) Derives.program_nil) rfl))
      Derives.program_nil)
    (by decide)

/-- C3 (code defect): `parse` accepts `number x; repeat 3 times x += 1;;`, whose
second semicolon the grammar does not derive: `parse_repeat` consumes it with an
extra `expect` after the assignment body. -/
theorem C3_double_semicolon_accepted :
    ∃ toks, tokens_of "number x; repeat 3 times x += 1;;" = some toks ∧
      accepted toks = true ∧ ¬ Derives .program toks := by
  refine ⟨[⟨TOKEN_KEYWORD, "number", 1⟩, ⟨TOKEN_IDENTIFIER, "x", 1⟩, ⟨TOKEN_ENDOFLINE, "", 1⟩,
      ⟨TOKEN_KEYWORD, "repeat", 1⟩, ⟨TOKEN_INTCONST, "3", 1⟩, ⟨TOKEN_KEYWORD, "times", 1⟩,
      ⟨TOKEN_IDENTIFIER, "x", 1⟩, ⟨TOKEN_OPERATOR, "+=", 1⟩, ⟨TOKEN_INTCONST, "1", 1⟩,
      ⟨TOKEN_ENDOFLINE, "", 1⟩, ⟨TOKEN_ENDOFLINE, "", 1⟩], by decide!, by decide!, ?_⟩
  intro h
  have := (derives_semicolons h).1
  revert this
  decide!

/-- C4 (code defect): `number x; repeat 1 times x := 1;;` is lexed and accepted
by the validator, and the executor then stops with the structural diagnostic
`Unexpected token` on the second semicolon, which the validator consumed inside
`parse_repeat` and the executor meets as a statement of its own. -/
theorem C4_validated_program_structural_failure :
    (∃ toks, tokens_of "number x; repeat 1 times x := 1;;" = some toks ∧ accepted toks = true) ∧
    (run 20 "number x; repeat 1 times x := 1;;".toList).runtime_error
      = some (.unexpectedToken "" 1, [{ name := "x", value := 1 }]) := by
  refine ⟨⟨[⟨TOKEN_KEYWORD, "number", 1⟩, ⟨TOKEN_IDENTIFIER, "x", 1⟩, ⟨TOKEN_ENDOFLINE, "", 1⟩,
      ⟨TOKEN_KEYWORD, "repeat", 1⟩, ⟨TOKEN_INTCONST, "1", 1⟩, ⟨TOKEN_KEYWORD, "times", 1⟩,
      ⟨TOKEN_IDENTIFIER, "x", 1⟩, ⟨TOKEN_OPERATOR, ":=", 1⟩, ⟨TOKEN_INTCONST, "1", 1⟩,
      ⟨TOKEN_ENDOFLINE, "", 1⟩, ⟨TOKEN_ENDOFLINE, "", 1⟩], by decide!, by decide!⟩, by decide!⟩

/-! ## Repeat loops -/

theorem find_var_from_append (vars : List Variable) (x : Variable) (name : String) (i idx : Nat)
    (h : find_var_from vars name i = some idx) :
    find_var_from (vars ++ [x]) name i = some idx := by
  induction vars generalizing i with
  | nil => simp [find_var_from] at h
  | cons y ys ih =>
    simp only [List.cons_append, find_var_from] at h ⊢
    split_ifs with hy
    · simpa [hy] using h
    · rw [if_neg hy] at h; exact ih _ h

theorem keeps_vars_closed : StepClosed keeps_vars where
  refl := fun _ _ _ h => h
  trans := fun _ _ _ h1 h2 name idx h => h2 name idx (h1 name idx h)
  cursor := fun _ _ _ _ h => h
  emit := fun _ _ _ _ h => h
  declare := fun _ _ _ _ _ _ h => find_var_from_append _ _ _ _ _ h
  store := fun s _ idx v _ name i h => by
    show find_var (store s.var_table idx v) name = some i
    rw [find_var_store]; exact h

theorem find_var_from_lt (vars : List Variable) (name : String) (i idx : Nat)
    (h : find_var_from vars name i = some idx) : i ≤ idx ∧ idx < i + vars.length := by
  induction vars generalizing i with
  | nil => simp [find_var_from] at h
  | cons y ys ih =>
    simp only [find_var_from] at h
    split_ifs at h with hy
    · cases h; simp
    · have := ih _ h
      simp only [List.length_cons]; omega

theorem find_var_get (vars : List Variable) (name : String) (idx : Nat)
    (h : find_var vars name = some idx) : ∃ x, vars[idx]? = some x := by
  have := (find_var_from_lt vars name 0 idx h).2
  exact ⟨vars[idx], by simp [List.getElem?_eq_getElem (by omega : idx < vars.length)]⟩

theorem store_same (vars : List Variable) (idx : Nat) (x : Variable)
    (h : vars[idx]? = some x) : store vars idx x.value = vars := by
  induction vars generalizing idx with
  | nil => rfl
  | cons y ys ih =>
    cases idx with
    | zero => simp at h; simp [store, h]
    | succ i => simp at h; simp [store, ih i h]

theorem set_variable_ok {s : ExecState} {name : String} {idx : Nat} {v : Int}
    (h : find_var s.var_table name = some idx) :
    set_variable s name v = .ok { s with var_table := store s.var_table idx v } := by
  simp [set_variable, h]

theorem run_body_keeps (fuel : Nat) (toks : List Token) (start : Nat) (b : Bool)
    (s s1 : ExecState) (h : run_body fuel toks start b s = .ok s1) : keeps_vars s s1 := by
  have hc : keeps_vars s { s with cur := { s.cur with current := start } } :=
    keeps_vars_closed.cursor _ _
  unfold run_body at h
  split_ifs at h
  · have := (interpret_related keeps_vars_closed fuel toks).2.1
      { s with cur := { s.cur with current := start } }
    rw [h] at this
    exact keeps_vars_closed.trans _ _ _ hc this
  · have := (interpret_related keeps_vars_closed fuel toks).1
      { s with cur := { s.cur with current := start } }
    rw [h] at this
    exact keeps_vars_closed.trans _ _ _ hc this

theorem run_body_mono (toks : List Token) (start : Nat) (b : Bool) (s s1 : ExecState)
    (f k : Nat) (h : run_body f toks start b s = .ok s1) :
    run_body (f + k) toks start b s = .ok s1 := by
  unfold run_body at h ⊢
  split_ifs at h ⊢
  · exact Res.eq_of_le_ok (interpret_block_mono _ _ _ _) h
  · exact Res.eq_of_le_ok (interpret_statement_mono _ _ _ _) h

/-- The result of the repeat loop after the body ran to the end: a count
variable is set to 0. -/
theorem repeat_loop_runs (toks : List Token) (ct : Token) (start : Nat) (b : Bool)
    (counter : Option Nat) (fb : Nat)
    (hct : ct.type = TOKEN_IDENTIFIER ∨ (ct.type ≠ TOKEN_IDENTIFIER ∧ counter = none)) :
    ∀ (n f : Nat) (s sf : ExecState),
      (ct.type = TOKEN_IDENTIFIER → find_var s.var_table ct.value = counter ∧ counter.isSome) →
      body_runs fb toks start b counter n s = .ok sf → fb + n ≤ f →
      interpret_repeat_loop (f + 1) toks ct start b n s =
        (if ct.type = TOKEN_IDENTIFIER then set_variable sf ct.value 0 else .ok sf) := by
  intro n
  induction n with
  | zero =>
    intro f s sf _ hruns _
    simp only [body_runs, Res.ok.injEq] at hruns
    subst hruns
    rw [interpret_repeat_loop]
    simp
  | succ k ih =>
    intro f s sf hcount hruns hf
    obtain ⟨f1, rfl⟩ : ∃ f1, f = f1 + 1 := ⟨f - 1, by omega⟩
    simp only [body_runs] at hruns
    cases hb : run_body fb toks start b s with
    | timeout => rw [hb] at hruns; simp [Res.bind] at hruns
    | fail e s1 => rw [hb] at hruns; simp [Res.bind] at hruns
    | ok s1 =>
      rw [hb] at hruns
      simp only [Res.bind] at hruns
      have hb2 := run_body_mono toks start b s s1 fb (f1 + 1 - fb) hb
      rw [show fb + (f1 + 1 - fb) = f1 + 1 by omega] at hb2
      have hkeep := run_body_keeps _ _ _ _ _ _ hb
      rw [interpret_repeat_loop]
      have hge : ((k + 1 : Nat) : Int) ≥ 1 := by push_cast; omega
      simp only [hge, if_true]
      unfold run_body at hb2
      rw [hb2]
      simp only [Res.bind]
      by_cases hid : ct.type = TOKEN_IDENTIFIER
      · obtain ⟨hfind, hsome⟩ := hcount hid
        obtain ⟨idx, rfl⟩ := Option.isSome_iff_exists.1 hsome
        have hfind1 := hkeep _ _ hfind
        obtain ⟨x, hx⟩ := find_var_get _ _ _ hfind1
        have hsub : ((k + 1 : Nat) : Int) - 1 = (k : Int) := by push_cast; ring
        have hgv : get_value { s1 with var_table := store s1.var_table idx (k : Int) } ct
            = .ok (k : Int) := by
          simp [get_value, hid, find_var_store, hfind1, store_get_self _ _ _ _ hx]
        rw [if_pos hid, if_pos hid, hsub, set_variable_ok hfind1]
        simp only [Res.bind, hgv]
        simp only [after_round] at hruns
        have := ih f1 _ sf (fun _ => ⟨?_, rfl⟩) hruns (by omega)
        · rw [if_pos hid] at this; exact this
        · simp [find_var_store, hfind1]
      · rcases hct with hct | ⟨_, rfl⟩
        · exact absurd hct hid
        · have hsub : ((k + 1 : Nat) : Int) - 1 = (k : Int) := by push_cast; ring
          simp only [hid, if_false, hsub]
          simp only [after_round] at hruns
          have := ih f1 s1 sf (fun h => absurd h hid) hruns (by omega)
          simpa [hid] using this

theorem repeat_header (f : Nat) (toks : List Token) (s : ExecState) (r ct t b : Token)
    (c : Int) (hr : toks[s.cur.current]? = some r) (hrt : r.type = TOKEN_KEYWORD)
    (hrv : r.value = "repeat") (hct : toks[s.cur.current + 1]? = some ct)
    (ht : toks[s.cur.current + 2]? = some t) (htt : t.type = TOKEN_KEYWORD)
    (htv : t.value = "times") (hb : toks[s.cur.current + 3]? = some b)
    (hc : get_value s ct = .ok c) :
    interpret_statement (f + 2) toks s =
      interpret_repeat_loop f toks ct (s.cur.current + 3) (decide (b.type = TOKEN_OPENBLOCK)) c
        { s with cur := ⟨s.cur.current + 3, some t, t.line⟩ } := by
  obtain ⟨⟨cur, lt, ll⟩, vt, out⟩ := s
  simp only at hr hct ht hb
  have hc3 : ∀ c1, get_value ⟨c1, vt, out⟩ ct = .ok c := fun _ => hc
  have hm : tokMatches t TOKEN_KEYWORD (some "times") = true := by simp [tokMatches, htt, htv]
  rw [interpret_statement]
  simp only [peek, hr, hrt, hrv]
  rw [if_pos trivial, interpret_repeat]
  simp only [adv_mk hr, adv_mk hct, hc3, accept_mk ht hm, peek, hb, if_true]
  rw [if_neg (by decide), if_neg (by decide)]

theorem body_runs_last (fb : Nat) (toks : List Token) (start : Nat) (b : Bool)
    (counter : Option Nat) (name : String) :
    ∀ (k : Nat) (s sf : ExecState),
      (∀ idx, counter = some idx → find_var s.var_table name = some idx) →
      body_runs fb toks start b counter (k + 1) s = .ok sf →
      ∃ sa sb, run_body fb toks start b sa = .ok sb ∧ sf = after_round counter 0 sb ∧
        (∀ idx, counter = some idx → find_var sb.var_table name = some idx) := by
  intro k
  induction k with
  | zero =>
    intro s sf hinv h
    simp only [body_runs] at h
    cases hb : run_body fb toks start b s with
    | timeout => rw [hb] at h; simp [Res.bind] at h
    | fail e s1 => rw [hb] at h; simp [Res.bind] at h
    | ok s1 =>
      rw [hb] at h
      simp only [Res.bind, Res.ok.injEq] at h
      refine ⟨s, s1, hb, ?_, fun idx hi => run_body_keeps _ _ _ _ _ _ hb _ _ (hinv idx hi)⟩
      rw [← h]; simp
  | succ k ih =>
    intro s sf hinv h
    rw [body_runs] at h
    cases hb : run_body fb toks start b s with
    | timeout => rw [hb] at h; simp [Res.bind] at h
    | fail e s1 => rw [hb] at h; simp [Res.bind] at h
    | ok s1 =>
      rw [hb] at h
      simp only [Res.bind] at h
      refine ih _ sf (fun idx hi => ?_) h
      have := run_body_keeps _ _ _ _ _ _ hb _ _ (hinv idx hi)
      subst hi
      simpa [after_round, find_var_store] using this

theorem accept_true_inv {toks : List Token} {s : ExecState} {ty : TokenType}
    {v : Option String} (h : (accept toks s ty v).1 = true) :
    ∃ t, toks[s.cur.current]? = some t ∧ t.type = ty ∧
      (accept toks s ty v).2 = { s with cur := ⟨s.cur.current + 1, some t, t.line⟩ } := by
  obtain ⟨⟨cur, lt, ll⟩, vt, out⟩ := s
  cases ht : toks[cur]? with
  | none => rw [accept_mk_none ht] at h; cases h
  | some t =>
    cases hm : tokMatches t ty v with
    | false => rw [accept_mk_false ht hm] at h; cases h
    | true =>
      refine ⟨t, rfl, ?_, by rw [accept_mk ht hm]⟩
      simp only [tokMatches, Bool.and_eq_true, beq_iff_eq] at hm
      exact hm.1

theorem ends_after_accept {toks : List Token} {s : ExecState} {ty : TokenType}
    {v : Option String} (h : (accept toks s ty v).1 = true) :
    ends_after toks ty (accept toks s ty v).2 := by
  obtain ⟨t, ht, hty, heq⟩ := accept_true_inv h
  rw [heq]
  exact ⟨t, s.cur.current, hty, rfl, rfl, ht⟩

theorem interpret_block_ends {f : Nat} {toks : List Token} {s s1 : ExecState}
    (h : interpret_block f toks s = .ok s1) : ends_after toks TOKEN_CLOSEBLOCK s1 := by
  cases f with
  | zero => simp [interpret_block] at h
  | succ n =>
    rw [interpret_block] at h
    split_ifs at h with h1
    cases hl : interpret_block_loop n toks (accept toks s TOKEN_OPENBLOCK none).2 with
    | timeout => rw [hl] at h; simp [Res.bind] at h
    | fail e s2 => rw [hl] at h; simp [Res.bind] at h
    | ok s2 =>
      rw [hl] at h
      simp only [Res.bind] at h
      split_ifs at h with h2
      simp only [Res.ok.injEq] at h
      rw [← h]
      exact ends_after_accept h2

theorem interpret_write_ends {f : Nat} {toks : List Token} {s s1 : ExecState}
    (h : interpret_write f toks s = .ok s1) : ends_after toks TOKEN_ENDOFLINE s1 := by
  unfold interpret_write at h
  cases hl : interpret_write_loop f toks false (adv toks s).2 with
  | timeout => rw [hl] at h; simp [Res.bind] at h
  | fail e s2 => rw [hl] at h; simp [Res.bind] at h
  | ok s2 =>
    rw [hl] at h
    simp only [Res.bind] at h
    split_ifs at h with h2
    simp only [Res.ok.injEq] at h
    rw [← h]
    exact ends_after_accept h2

theorem interpret_declaration_ends {toks : List Token} {s s1 : ExecState}
    (h : interpret_declaration toks s = .ok s1) : ends_after toks TOKEN_ENDOFLINE s1 := by
  unfold interpret_declaration at h
  simp only at h
  split at h
  · cases h
  · split_ifs at h
    cases hd : declare_var (adv toks (adv toks s).2).2 _ _ with
    | timeout => rw [hd] at h; simp [Res.bind] at h
    | fail e s2 => rw [hd] at h; simp [Res.bind] at h
    | ok s2 =>
      rw [hd] at h
      simp only [Res.bind] at h
      split_ifs at h with h2
      simp only [Res.ok.injEq] at h
      rw [← h]
      exact ends_after_accept h2

theorem interpret_assignment_ends {toks : List Token} {s s1 : ExecState}
    (h : interpret_assignment toks s = .ok s1) : ends_after toks TOKEN_ENDOFLINE s1 := by
  unfold interpret_assignment at h
  simp only at h
  split at h
  · split at h
    · cases h
    · split at h
      · cases h
      · split at h
        · cases h
        · split at h
          · cases h
          · split_ifs at h with h2
            simp only [Res.ok.injEq] at h
            rw [← h]
            exact ends_after_accept h2
  · cases h

/-- Where a body execution that returns leaves the cursor, by the first token
`b` of the body. -/
theorem run_body_ends {fb : Nat} {toks : List Token} {start : Nat} {b : Token}
    {sa sb : ExecState} (hb : toks[start]? = some b)
    (h : run_body fb toks start (decide (b.type = TOKEN_OPENBLOCK)) sa = .ok sb) :
    (b.type = TOKEN_OPENBLOCK → ends_after toks TOKEN_CLOSEBLOCK sb) ∧
    (b.isKeyword "write" ∨ b.isKeyword "number" ∨ b.type = TOKEN_IDENTIFIER →
      ends_after toks TOKEN_ENDOFLINE sb) := by
  unfold run_body at h
  constructor
  · intro hblock
    simp only [hblock, decide_True, if_true] at h
    exact interpret_block_ends h
  · intro hkind
    have hnb : b.type ≠ TOKEN_OPENBLOCK := by
      rcases hkind with h1 | h1 | h1
      · rw [h1.1]; decide
      · rw [h1.1]; decide
      · rw [h1]; decide
    simp only [hnb, decide_False, Bool.false_eq_true, if_false] at h
    cases fb with
    | zero => simp [interpret_statement] at h
    | succ n =>
      rw [interpret_statement] at h
      simp only [peek, hb] at h
      rcases hkind with h1 | h1 | h1
      · rw [if_pos h1.1, if_neg (by rw [h1.2]; decide), if_pos h1.2] at h
        exact interpret_write_ends h
      · rw [if_pos h1.1, if_pos h1.2] at h
        exact interpret_declaration_ends h
      · rw [if_neg (by rw [h1]; decide), if_pos h1] at h
        exact interpret_assignment_ends h

/-- The repeat statement with a count of `n ≥ 1` returns the state in which `n`
executions of its body in sequence end. -/
theorem repeat_runs_body :
    ∀ (toks : List Token) (s : ExecState) (r ct t b : Token) (n fb : Nat) (sf : ExecState)
        (counter : Option Nat),
        toks[s.cur.current]? = some r → r.type = TOKEN_KEYWORD → r.value = "repeat" →
        toks[s.cur.current + 1]? = some ct →
        toks[s.cur.current + 2]? = some t → t.type = TOKEN_KEYWORD → t.value = "times" →
        toks[s.cur.current + 3]? = some b →
        1 ≤ n → denotes s ct n →
        counter = (if ct.type = TOKEN_IDENTIFIER then find_var s.var_table ct.value else none) →
        body_runs fb toks (s.cur.current + 3) (decide (b.type = TOKEN_OPENBLOCK)) counter n
          { s with cur := ⟨s.cur.current + 3, some t, t.line⟩ } = .ok sf →
        interpret_statement (fb + n + 3) toks s = .ok sf ∧
        (ct.type = TOKEN_IDENTIFIER → get_value sf ct = .ok 0) ∧
        (∃ sa sb, run_body fb toks (s.cur.current + 3) (decide (b.type = TOKEN_OPENBLOCK)) sa
            = .ok sb ∧ sf.cur = sb.cur ∧ sf.output = sb.output ∧
          (ct.type ≠ TOKEN_IDENTIFIER → sf = sb)) := by
  intro toks s r ct t b n fb sf counter hr hrt hrv hct ht htt htv hb hn hden hcounter hruns
  have hgv : get_value s ct = .ok (n : Int) := get_value_of_denotes hden
  have hkind : ct.type = TOKEN_IDENTIFIER ∨ (ct.type ≠ TOKEN_IDENTIFIER ∧ counter = none) := by
    by_cases hid : ct.type = TOKEN_IDENTIFIER
    · exact Or.inl hid
    · exact Or.inr ⟨hid, by rw [hcounter, if_neg hid]⟩
  have hcount : ct.type = TOKEN_IDENTIFIER →
      find_var s.var_table ct.value = counter ∧ counter.isSome = true := by
    intro hid
    rw [hcounter, if_pos hid]
    refine ⟨rfl, ?_⟩
    rcases hden with ⟨h1, _⟩ | ⟨_, j, y, hj, _, _⟩
    · rw [hid] at h1; cases h1
    · rw [hj]; rfl
  obtain ⟨k, rfl⟩ : ∃ k, n = k + 1 := ⟨n - 1, by omega⟩
  obtain ⟨sa, sb, hsb, hsf, hinv⟩ := body_runs_last fb toks _ _ counter ct.value k _ sf
    (fun idx hi => by
      by_cases hid : ct.type = TOKEN_IDENTIFIER
      · have := (hcount hid).1
        rw [hi] at this; exact this
      · rw [hcounter, if_neg hid] at hi; cases hi) hruns
  have hloop := repeat_loop_runs toks ct (s.cur.current + 3) (decide (b.type = TOKEN_OPENBLOCK))
    counter fb hkind (k + 1) (fb + (k + 1)) { s with cur := ⟨s.cur.current + 3, some t, t.line⟩ }
    sf hcount hruns (le_refl _)
  have hstmt : interpret_statement (fb + (k + 1) + 3) toks s =
      (if ct.type = TOKEN_IDENTIFIER then set_variable sf ct.value 0 else .ok sf) := by
    rw [show fb + (k + 1) + 3 = (fb + (k + 1) + 1) + 2 by omega,
      repeat_header _ toks s r ct t b _ hr hrt hrv hct ht htt htv hb hgv]
    exact hloop
  by_cases hid : ct.type = TOKEN_IDENTIFIER
  · obtain ⟨_, hsome⟩ := hcount hid
    obtain ⟨idx, rfl⟩ := Option.isSome_iff_exists.1 hsome
    have hfb := hinv idx rfl
    obtain ⟨x, hx⟩ := find_var_get _ _ _ hfb
    have hsfv : sf.var_table = store sb.var_table idx 0 := by rw [hsf]; simp [after_round]
    have hfsf : find_var sf.var_table ct.value = some idx := by
      rw [hsfv, find_var_store]; exact hfb
    have hsfx : sf.var_table[idx]? = some { name := x.name, value := 0 } := by
      rw [hsfv]; exact store_get_self _ _ _ _ hx
    refine ⟨?_, fun _ => ?_, sa, sb, hsb, by rw [hsf]; simp [after_round],
      by rw [hsf]; simp [after_round], fun h => absurd hid h⟩
    · rw [hstmt, if_pos hid, set_variable_ok hfsf]
      have := store_same sf.var_table idx _ hsfx
      simp only at this
      rw [this]
    · simp [get_value, hid, hfsf, hsfx]
  · have hnone : counter = none := by rw [hcounter, if_neg hid]
    subst hnone
    have hsf2 : sf = sb := by rw [hsf]; simp [after_round]
    refine ⟨by rw [hstmt, if_neg hid], fun h => absurd h hid, sa, sb, hsb, by rw [hsf2],
      by rw [hsf2], fun _ => hsf2⟩

/-- C6: at `repeat c times body` whose count token denotes `n ≥ 1` (a declared
variable holding `n`, or a literal), if `n` executions of the body in sequence
return normally and end in `sf`, then the executor returns `sf`: the body ran
exactly `n` times, the cursor and output are those left by the last execution
of the body (just past the `}` that closed a block body, just past the
semicolon of a write, declaration or assignment body), and a count variable
holds 0 (a literal count changes no variable). The program
`number n; n := 3; repeat n times { write "hi" and newline; }` writes the line
`hi` three times and ends with `n = 0`. -/
theorem C6_repeat_runs_body_n_times :
    (∀ (toks : List Token) (s : ExecState) (r ct t b : Token) (n fb : Nat) (sf : ExecState)
        (counter : Option Nat),
        toks[s.cur.current]? = some r → r.type = TOKEN_KEYWORD → r.value = "repeat" →
        toks[s.cur.current + 1]? = some ct →
        toks[s.cur.current + 2]? = some t → t.type = TOKEN_KEYWORD → t.value = "times" →
        toks[s.cur.current + 3]? = some b →
        1 ≤ n → denotes s ct n →
        counter = (if ct.type = TOKEN_IDENTIFIER then find_var s.var_table ct.value else none) →
        body_runs fb toks (s.cur.current + 3) (decide (b.type = TOKEN_OPENBLOCK)) counter n
          { s with cur := ⟨s.cur.current + 3, some t, t.line⟩ } = .ok sf →
        interpret_statement (fb + n + 3) toks s = .ok sf ∧
        (ct.type = TOKEN_IDENTIFIER → get_value sf ct = .ok 0) ∧
        (∃ sa sb, run_body fb toks (s.cur.current + 3) (decide (b.type = TOKEN_OPENBLOCK)) sa
            = .ok sb ∧ sf.cur = sb.cur ∧ sf.output = sb.output ∧
          (ct.type ≠ TOKEN_IDENTIFIER → sf = sb)) ∧
        (b.type = TOKEN_OPENBLOCK → ends_after toks TOKEN_CLOSEBLOCK sf) ∧
        (b.isKeyword "write" ∨ b.isKeyword "number" ∨ b.type = TOKEN_IDENTIFIER →
          ends_after toks TOKEN_ENDOFLINE sf)) ∧
    (run 20 "number n; n := 3; repeat n times \x7b write \"hi\" and newline; \x7d".toList).program_output
      = "hi\nhi\nhi\n" ∧
    (run 20 "number n; n := 3; repeat n times \x7b write \"hi\" and newline; \x7d".toList).final_vars
      = some [{ name := "n", value := 0 }] := by
  refine ⟨?_, by decide!, by decide!⟩
  intro toks s r ct t b n fb sf counter hr hrt hrv hct ht htt htv hb hn hden hcounter hruns
  obtain ⟨h1, h2, sa, sb, hsb, hcur, hout, hsame⟩ :=
    repeat_runs_body toks s r ct t b n fb sf counter hr hrt hrv hct ht htt htv hb hn hden
      hcounter hruns
  obtain ⟨he1, he2⟩ := run_body_ends hb hsb
  have hmove : ∀ ty, ends_after toks ty sb → ends_after toks ty sf := by
    intro ty ⟨t1, i, hty, hlast, hi, hti⟩
    exact ⟨t1, i, hty, by rw [hcur]; exact hlast, by rw [hcur]; exact hi, hti⟩
  exact ⟨h1, h2, ⟨sa, sb, hsb, hcur, hout, hsame⟩, fun h => hmove _ (he1 h),
    fun h => hmove _ (he2 h)⟩

/-- Witness for C6: `repeat n times write "x";` with `n = 2`. -/
theorem C6_repeat_runs_body_n_times_witness :
    interpret_statement (3 + 2 + 3)
        [⟨TOKEN_KEYWORD, "repeat", 1⟩, ⟨TOKEN_IDENTIFIER, "n", 1⟩, ⟨TOKEN_KEYWORD, "times", 1⟩,
          ⟨TOKEN_KEYWORD, "write", 1⟩, ⟨TOKEN_STRINGCONST, "x", 1⟩, ⟨TOKEN_ENDOFLINE, "", 1⟩]
        ⟨⟨0, none, -1⟩, [⟨"n", 2⟩], ""⟩
      = .ok ⟨⟨6, some ⟨TOKEN_ENDOFLINE, "", 1⟩, 1⟩, [⟨"n", 0⟩], "xx"⟩ :=
  (C6_repeat_runs_body_n_times.1
    [⟨TOKEN_KEYWORD, "repeat", 1⟩, ⟨TOKEN_IDENTIFIER, "n", 1⟩, ⟨TOKEN_KEYWORD, "times", 1⟩,
      ⟨TOKEN_KEYWORD, "write", 1⟩, ⟨TOKEN_STRINGCONST, "x", 1⟩, ⟨TOKEN_ENDOFLINE, "", 1⟩]
    ⟨⟨0, none, -1⟩, [⟨"n", 2⟩], ""⟩
    ⟨TOKEN_KEYWORD, "repeat", 1⟩ ⟨TOKEN_IDENTIFIER, "n", 1⟩ ⟨TOKEN_KEYWORD, "times", 1⟩
    ⟨TOKEN_KEYWORD, "write", 1⟩ 2 3 ⟨⟨6, some ⟨TOKEN_ENDOFLINE, "", 1⟩, 1⟩, [⟨"n", 0⟩], "xx"⟩
    (some 0) rfl rfl rfl rfl rfl rfl rfl rfl (by decide)
    (Or.inr ⟨rfl, 0, ⟨"n", 2⟩, by decide!, rfl, rfl⟩) (by decide!) (by decide!)).1

/-- C7 as stated fails: in `number n; n := 3; repeat n times { n := 1; write "x"; }`
the body sets `n` to 1 in the first round, yet the loop runs three rounds and
writes `xxx`, not `x`. -/
theorem C7_counterexample :
    (run 30 "number n; n := 3; repeat n times \x7b n := 1; write \"x\"; \x7d".toList).program_output
      = "xxx" ∧
    (run 30 "number n; n := 3; repeat n times \x7b n := 1; write \"x\"; \x7d".toList).program_output
      ≠ "x" := by
  constructor <;> decide!

/-- C7 (amended): in a repeat loop whose count is the variable named by `ct`
(declared, entry `idx`), a round with count `count ≥ 1` whose body returns `s1`
stores `count - 1` into the variable, whatever the body left there, and goes on
with count `count - 1`; the example program ends with `n = 0`. -/
theorem C7_body_change_overwritten :
    (∀ (fuel : Nat) (toks : List Token) (ct : Token) (start : Nat) (is_block : Bool)
        (count : Int) (s s1 : ExecState) (idx : Nat),
        ct.type = TOKEN_IDENTIFIER → count ≥ 1 → find_var s.var_table ct.value = some idx →
        run_body fuel toks start is_block s = .ok s1 →
        interpret_repeat_loop (fuel + 1) toks ct start is_block count s =
          interpret_repeat_loop fuel toks ct start is_block (count - 1)
            { s1 with var_table := store s1.var_table idx (count - 1) } ∧
        get_value { s1 with var_table := store s1.var_table idx (count - 1) } ct
          = .ok (count - 1)) ∧
    (run 30 "number n; n := 3; repeat n times \x7b n := 1; write \"x\"; \x7d".toList).final_vars
      = some [{ name := "n", value := 0 }] := by
  refine ⟨?_, by decide!⟩
  intro fuel toks ct start is_block count s s1 idx hid hc hfind hbody
  have hfind1 := run_body_keeps _ _ _ _ _ _ hbody _ _ hfind
  obtain ⟨x, hx⟩ := find_var_get _ _ _ hfind1
  have hgv : get_value { s1 with var_table := store s1.var_table idx (count - 1) } ct
      = .ok (count - 1) := by
    simp [get_value, hid, find_var_store, hfind1, store_get_self _ _ _ _ hx]
  refine ⟨?_, hgv⟩
  rw [interpret_repeat_loop]
  unfold run_body at hbody
  simp only [hc, if_true, hbody, Res.bind, hid, set_variable_ok hfind1, hgv]

/-- Witness for C7: one round of `repeat n times n := 7;` with `n = 2`. -/
theorem C7_body_change_overwritten_witness :
    interpret_repeat_loop (1 + 1)
        [⟨TOKEN_IDENTIFIER, "n", 1⟩, ⟨TOKEN_OPERATOR, ":=", 1⟩, ⟨TOKEN_INTCONST, "7", 1⟩,
          ⟨TOKEN_ENDOFLINE, "", 1⟩]
        ⟨TOKEN_IDENTIFIER, "n", 1⟩ 0 false 2 ⟨⟨0, none, -1⟩, [⟨"n", 2⟩], ""⟩ =
      interpret_repeat_loop 1
        [⟨TOKEN_IDENTIFIER, "n", 1⟩, ⟨TOKEN_OPERATOR, ":=", 1⟩, ⟨TOKEN_INTCONST, "7", 1⟩,
          ⟨TOKEN_ENDOFLINE, "", 1⟩]
        ⟨TOKEN_IDENTIFIER, "n", 1⟩ 0 false (2 - 1)
        ⟨⟨4, some ⟨TOKEN_ENDOFLINE, "", 1⟩, 1⟩, store [⟨"n", 7⟩] 0 (2 - 1), ""⟩ :=
  (C7_body_change_overwritten.1 1 _ ⟨TOKEN_IDENTIFIER, "n", 1⟩ 0 false 2
    ⟨⟨0, none, -1⟩, [⟨"n", 2⟩], ""⟩ ⟨⟨4, some ⟨TOKEN_ENDOFLINE, "", 1⟩, 1⟩, [⟨"n", 7⟩], ""⟩ 0
    rfl (by decide) (by decide!) (by decide!)).1

/-- C8: a declaration `number x ;` executed when `x` is already in the variable
table fails with the redeclaration diagnostic at the identifier's line, with
the table and the output unchanged. `number x; repeat 2 times { number y; }`
fails so on `y` in the second round, with `y` inserted by the first round; with
one round only it returns normally. -/
theorem C8_redeclaration_fails :
    (∀ (fuel : Nat) (toks : List Token) (s : ExecState) (n id : Token),
        toks[s.cur.current]? = some n → n.type = TOKEN_KEYWORD → n.value = "number" →
        toks[s.cur.current + 1]? = some id → id.type = TOKEN_IDENTIFIER →
        (find_var s.var_table id.value).isSome = true →
        ∃ s1, interpret_statement (fuel + 1) toks s = .fail (.alreadyDeclared id.line id.value) s1 ∧
          s1.var_table = s.var_table ∧ s1.output = s.output) ∧
    (run 20 "number x; repeat 2 times \x7b number y; \x7d".toList).runtime_error
      = some (.alreadyDeclared 1 "y", [{ name := "x", value := 0 }, { name := "y", value := 0 }]) ∧
    (run 20 "number x; repeat 1 times \x7b number y; \x7d".toList).final_vars
      = some [{ name := "x", value := 0 }, { name := "y", value := 0 }] := by
  refine ⟨?_, by decide!, by decide!⟩
  intro fuel toks s n id hn hnt hnv hid hidt hx
  exact ⟨_, declaration_step_redeclared fuel toks s n id hn hnt hnv hid hidt hx, rfl, rfl⟩

/-- Witness for C8: `number x ;` with `x` already declared. -/
theorem C8_redeclaration_fails_witness :
    ∃ s1, interpret_statement (0 + 1)
        [⟨TOKEN_KEYWORD, "number", 4⟩, ⟨TOKEN_IDENTIFIER, "x", 4⟩, ⟨TOKEN_ENDOFLINE, "", 4⟩]
        ⟨⟨0, none, -1⟩, [⟨"x", 5⟩], "out"⟩ = .fail (.alreadyDeclared 4 "x") s1 ∧
      s1.var_table = [⟨"x", 5⟩] ∧ s1.output = "out" :=
  C8_redeclaration_fails.1 0 _ ⟨⟨0, none, -1⟩, [⟨"x", 5⟩], "out"⟩ ⟨TOKEN_KEYWORD, "number", 4⟩
    ⟨TOKEN_IDENTIFIER, "x", 4⟩ rfl rfl rfl rfl rfl (by decide!)

/-! ## Zero-iteration repeat -/

theorem get_value_ident_declared {s : ExecState} {t : Token} {c : Int}
    (ht : t.type = TOKEN_IDENTIFIER) (h : get_value s t = .ok c) :
    ∃ idx, find_var s.var_table t.value = some idx := by
  unfold get_value at h
  rw [if_neg (by rw [ht]; decide), if_pos ht] at h
  cases hf : find_var s.var_table t.value with
  | none => rw [hf] at h; cases h
  | some idx => exact ⟨idx, rfl⟩

/-- C1 (code defect): at `repeat c times body` whose count is below 1,
`interpret_repeat` itself writes nothing and changes no variable except a count
variable, which it sets to 0, but it returns with the cursor on the first token
of the body. So `interpret` goes on to execute the body once as an ordinary
statement: `repeat 0 times { write "x"; }` is lexed, validated and then writes
`x`, and with a count variable the body changes the other variable `a`. -/
theorem C1_zero_repeat_executes_body :
    (∀ (f : Nat) (toks : List Token) (s : ExecState) (r ct t b : Token) (c : Int),
        toks[s.cur.current]? = some r → r.type = TOKEN_KEYWORD → r.value = "repeat" →
        toks[s.cur.current + 1]? = some ct →
        toks[s.cur.current + 2]? = some t → t.type = TOKEN_KEYWORD → t.value = "times" →
        toks[s.cur.current + 3]? = some b →
        get_value s ct = .ok c → c < 1 →
        ∃ s1, interpret_statement (f + 3) toks s = .ok s1 ∧
          s1.cur.current = s.cur.current + 3 ∧ s1.output = s.output ∧
          (ct.type ≠ TOKEN_IDENTIFIER → s1.var_table = s.var_table) ∧
          (ct.type = TOKEN_IDENTIFIER → ∃ idx, find_var s.var_table ct.value = some idx ∧
            s1.var_table = store s.var_table idx 0)) ∧
    (run 20 "repeat 0 times \x7b write \"x\"; \x7d".toList).program_output = "x" ∧
    (run 20 "number n; number a; repeat n times \x7b a := 5; \x7d".toList).final_vars
      = some [{ name := "n", value := 0 }, { name := "a", value := 5 }] := by
  refine ⟨?_, by decide!, by decide!⟩
  intro f toks s r ct t b c hr hrt hrv hct ht htt htv hb hc hlt
  rw [show f + 3 = (f + 1) + 2 by omega,
    repeat_header _ toks s r ct t b c hr hrt hrv hct ht htt htv hb hc, interpret_repeat_loop]
  rw [if_neg (by omega)]
  by_cases hid : ct.type = TOKEN_IDENTIFIER
  · obtain ⟨idx, hidx⟩ := get_value_ident_declared hid hc
    rw [if_pos hid, set_variable_ok (by exact hidx)]
    exact ⟨_, rfl, rfl, rfl, fun h => absurd hid h, fun _ => ⟨idx, hidx, rfl⟩⟩
  · rw [if_neg hid]
    exact ⟨_, rfl, rfl, rfl, fun _ => rfl, fun h => absurd h hid⟩

/-- Witness for C1: `repeat 0 times write "x";` leaves the cursor on `write`. -/
theorem C1_zero_repeat_executes_body_witness :
    ∃ s1, interpret_statement (0 + 3)
        [⟨TOKEN_KEYWORD, "repeat", 1⟩, ⟨TOKEN_INTCONST, "0", 1⟩, ⟨TOKEN_KEYWORD, "times", 1⟩,
          ⟨TOKEN_KEYWORD, "write", 1⟩, ⟨TOKEN_STRINGCONST, "x", 1⟩, ⟨TOKEN_ENDOFLINE, "", 1⟩]
        ⟨⟨0, none, -1⟩, [], ""⟩ = .ok s1 ∧
      s1.cur.current = 0 + 3 ∧ s1.output = "" ∧
      ((⟨TOKEN_INTCONST, "0", 1⟩ : Token).type ≠ TOKEN_IDENTIFIER → s1.var_table = []) ∧
      ((⟨TOKEN_INTCONST, "0", 1⟩ : Token).type = TOKEN_IDENTIFIER →
        ∃ idx, find_var [] "0" = some idx ∧ s1.var_table = store [] idx 0) :=
  C1_zero_repeat_executes_body.1 0 _ ⟨⟨0, none, -1⟩, [], ""⟩ ⟨TOKEN_KEYWORD, "repeat", 1⟩
    ⟨TOKEN_INTCONST, "0", 1⟩ ⟨TOKEN_KEYWORD, "times", 1⟩ ⟨TOKEN_KEYWORD, "write", 1⟩ 0
    rfl rfl rfl rfl rfl rfl rfl rfl
    (get_value_of_denotes (Or.inl ⟨rfl, by decide!, by decide, by decide⟩)) (by decide)

/-! ## Integer literals in the lexer -/

/-! ## Scanning runs of characters -/

theorem takeWhile_append_run (p : Char → Bool) (cs rest : List Char)
    (hcs : cs.all p = true) (hrest : ∀ c ∈ rest.head?, p c = false) :
    (cs ++ rest).takeWhile p = cs := by
  induction cs with
  | nil =>
    cases rest with
    | nil => rfl
    | cons r rs => simp [List.takeWhile, hrest r (by simp)]
  | cons c cs ih =>
    simp only [List.all_cons, Bool.and_eq_true] at hcs
    simp [List.takeWhile, hcs.1, ih hcs.2]

theorem dropWhile_append_run (p : Char → Bool) (cs rest : List Char)
    (hcs : cs.all p = true) (hrest : ∀ c ∈ rest.head?, p c = false) :
    (cs ++ rest).dropWhile p = rest := by
  induction cs with
  | nil =>
    cases rest with
    | nil => rfl
    | cons r rs => simp [List.dropWhile, hrest r (by simp)]
  | cons c cs ih =>
    simp only [List.all_cons, Bool.and_eq_true] at hcs
    simp [List.dropWhile, hcs.1, ih hcs.2]

theorem cstr_of_no_nul (cs : List Char) (h : ∀ c ∈ cs, c ≠ '\x00') : cstr cs = cs := by
  unfold cstr
  induction cs with
  | nil => rfl
  | cons c cs ih =>
    have hc : (c != '\x00') = true := by simpa using h c (List.mem_cons_self _ _)
    have h1 := List.takeWhile_cons_of_pos (p := fun c => c != '\x00') (l := cs) (a := c) hc
    rw [h1, ih (fun d hd => h d (List.mem_cons_of_mem _ hd))]

theorem isdigit_ne_nul {c : Char} (h : isdigit c = true) : c ≠ '\x00' := by
  rintro rfl; exact absurd h (by decide)

theorem stored_value_short (cs : List Char) (h : ∀ c ∈ cs, c ≠ '\x00') (hl : cs.length ≤ 127) :
    stored_value (some cs) = String.mk cs := by
  simp only [stored_value, cstr_of_no_nul cs h]
  rw [List.take_of_length_le hl]

theorem token_line_no_nul (ty : String) (cs : List Char) (h : ∀ c ∈ cs, c ≠ '\x00') :
    token_line ty (some cs) = ty ++ "(" ++ String.mk cs ++ ")" := by
  simp only [token_line, cstr_of_no_nul cs h]

theorem write_token_room (s : LexState) (ty : String) (v : Option (List Char)) (line : Nat)
    (h : s.token_list.length < MAX_TOKENS) :
    write_token s ty v line = .ok { s with
      token_list := s.token_list ++ [{ type := type_of_str ty, value := stored_value v, line := line }],
      out := s.out ++ [token_line ty v] } := by
  unfold write_token
  rw [if_neg (by omega)]

/-- The integer branch of `tokenize` on an unsigned literal. -/
theorem tokenize_step_unsigned (s : LexState) (c : Char) (cs rest : List Char)
    (hc : isdigit c = true) (hcs : cs.all isdigit = true)
    (hrest : ∀ d ∈ rest.head?, isdigit d = false) (hlen : (c :: cs).length ≤ 127) :
    tokenize_step s c (cs ++ rest) =
      (if (c :: cs).length > 100 then .exit { s with diag := s.diag ++ [.intTooLong s.line] }
        else write_token s "IntConstant" (some (c :: cs)) s.line, rest) := by
  have h1 : c ≠ '\n' := by rintro rfl; exact absurd hc (by decide)
  have h2 : c ≠ ';' := by rintro rfl; exact absurd hc (by decide)
  have h3 : c ≠ '*' := by rintro rfl; exact absurd hc (by decide)
  have h4 : c ≠ '{' := by rintro rfl; exact absurd hc (by decide)
  have h5 : c ≠ '}' := by rintro rfl; exact absurd hc (by decide)
  have h6 : c ≠ '"' := by rintro rfl; exact absurd hc (by decide)
  have h7 : c ≠ ':' := by rintro rfl; exact absurd hc (by decide)
  have h8 : c ≠ '+' := by rintro rfl; exact absurd hc (by decide)
  have h9 : c ≠ '-' := by rintro rfl; exact absurd hc (by decide)
  have hlen2 : ¬ ((c :: cs).length ≥ 128) := by omega
  have hil : intconstant_len (c :: cs) = (c :: cs).length := by
    unfold intconstant_len
    split
    · next heq => exact absurd (List.cons.inj heq).1 h9
    · next heq => exact absurd (List.cons.inj heq).1 h8
    · rfl
  unfold tokenize_step tokenize_token newline_seen
  simp only [h1, h2, h3, h4, h5, h6, h7, h8, h9, if_false, or_self, hc, if_true,
    takeWhile_append_run _ _ _ hcs hrest, dropWhile_append_run _ _ _ hcs hrest, hlen2,
    check_intconstant_length, hil]
  split_ifs <;> rfl

/-- The operator branch of `tokenize` on a signed literal. -/
theorem tokenize_step_signed (s : LexState) (sg d : Char) (ds rest : List Char)
    (hsg : sg = '+' ∨ sg = '-') (hd : isdigit d = true) (hds : ds.all isdigit = true)
    (hrest : ∀ e ∈ rest.head?, isdigit e = false) (hlen : (sg :: d :: ds).length ≤ 127) :
    tokenize_step s sg (d :: ds ++ rest) =
      (if (d :: ds).length > 100 then .exit { s with diag := s.diag ++ [.intTooLong s.line] }
        else write_token s "IntConstant" (some (sg :: d :: ds)) s.line, rest) := by
  have hde : d ≠ '=' := by rintro rfl; exact absurd hd (by decide)
  have hlen2 : ¬ ((sg :: d :: ds).length ≥ 128) := by omega
  have hil : intconstant_len (sg :: d :: ds) = (d :: ds).length := by
    rcases hsg with rfl | rfl <;> simp [intconstant_len]
  unfold tokenize_step tokenize_token newline_seen
  rcases hsg with rfl | rfl
  · simp only [show ('+' : Char) ≠ '\n' by decide, show ('+' : Char) ≠ ';' by decide,
      show ('+' : Char) ≠ '*' by decide, show ('+' : Char) ≠ '{' by decide,
      show ('+' : Char) ≠ '}' by decide, show ('+' : Char) ≠ '"' by decide,
      show ('+' : Char) ≠ ':' by decide, show ('+' : Char) ≠ '-' by decide, if_false,
      false_or, or_true, true_or, or_false, if_true, List.cons_append, false_and, and_false,
      hde, true_and, hd, and_self,
      takeWhile_append_run _ _ _ hds hrest, dropWhile_append_run _ _ _ hds hrest, hlen2,
      check_intconstant_length, hil]
    split_ifs <;> rfl
  · simp only [show ('-' : Char) ≠ '\n' by decide, show ('-' : Char) ≠ ';' by decide,
      show ('-' : Char) ≠ '*' by decide, show ('-' : Char) ≠ '{' by decide,
      show ('-' : Char) ≠ '}' by decide, show ('-' : Char) ≠ '"' by decide,
      show ('-' : Char) ≠ ':' by decide, show ('-' : Char) ≠ '+' by decide, if_false,
      false_or, or_true, true_or, or_false, if_true, List.cons_append, false_and, and_false,
      hde, true_and, hd, and_self,
      takeWhile_append_run _ _ _ hds hrest, dropWhile_append_run _ _ _ hds hrest, hlen2,
      check_intconstant_length, hil]
    split_ifs <;> rfl

theorem type_of_str_int : type_of_str "IntConstant" = TOKEN_INTCONST := by decide

/-- C10 (code defect for literals of 128 characters or more): for an integer
literal (optional sign `sign`, digits `ds`, followed by a non-digit or end of
input) whose text fits the 128-byte buffer `num`, the lexer exits with the
length diagnostic exactly when there are more than 100 digits, the sign not
counted, and otherwise writes one IntConstant token whose text is the whole
literal. Literals of 101 digits fail whether unsigned or signed, literals of
100 digits are stored whole. A literal of 128 digits is written past the end
of `num` before its length is checked. -/
theorem C10_integer_literal_length :
    (∀ (s : LexState) (sign ds rest : List Char) (c : Char) (cs : List Char),
        sign = [] ∨ sign = ['+'] ∨ sign = ['-'] → is_digits ds = true →
        (∀ d ∈ rest.head?, isdigit d = false) → (sign ++ ds).length ≤ 127 →
        sign ++ ds = c :: cs →
        tokenize_step s c (cs ++ rest) =
          (if ds.length > 100 then .exit { s with diag := s.diag ++ [.intTooLong s.line] }
            else write_token s "IntConstant" (some (sign ++ ds)) s.line, rest) ∧
        ((tokenize_step s c (cs ++ rest)).1
            = .exit { s with diag := s.diag ++ [.intTooLong s.line] } ↔ ds.length > 100) ∧
        (ds.length ≤ 100 → s.token_list.length < MAX_TOKENS →
          (tokenize_step s c (cs ++ rest)).1 = .ok { s with
            token_list := s.token_list ++
              [{ type := TOKEN_INTCONST, value := String.mk (sign ++ ds), line := s.line }],
            out := s.out ++ ["IntConstant" ++ "(" ++ String.mk (sign ++ ds) ++ ")"] })) ∧
    tokenize (List.replicate 101 '7') = .exit { LexState.init with diag := [.intTooLong 1] } ∧
    tokenize ('+' :: List.replicate 101 '7')
      = .exit { LexState.init with diag := [.intTooLong 1] } ∧
    tokenize ('-' :: List.replicate 101 '7')
      = .exit { LexState.init with diag := [.intTooLong 1] } ∧
    tokens_of (String.mk (List.replicate 100 '7'))
      = some [⟨TOKEN_INTCONST, String.mk (List.replicate 100 '7'), 1⟩] ∧
    tokens_of (String.mk ('-' :: List.replicate 100 '7'))
      = some [⟨TOKEN_INTCONST, String.mk ('-' :: List.replicate 100 '7'), 1⟩] ∧
    tokens_of (String.mk ('+' :: List.replicate 100 '7'))
      = some [⟨TOKEN_INTCONST, String.mk ('+' :: List.replicate 100 '7'), 1⟩] ∧
    tokenize (List.replicate 128 '7') = .overrun LexState.init := by
  refine ⟨?_, by decide!, by decide!, by decide!, by decide!, by decide!, by decide!, by decide!⟩
  intro s sign ds rest c cs hsign hds hrest hlen hlex
  simp only [is_digits, Bool.and_eq_true, Bool.not_eq_true', List.isEmpty_eq_false] at hds
  have hstep : tokenize_step s c (cs ++ rest) =
      (if ds.length > 100 then .exit { s with diag := s.diag ++ [.intTooLong s.line] }
        else write_token s "IntConstant" (some (sign ++ ds)) s.line, rest) := by
    rcases hsign with rfl | rfl | rfl
    · simp only [List.nil_append] at hlex hlen ⊢
      subst hlex
      simp only [List.all_cons, Bool.and_eq_true] at hds
      exact tokenize_step_unsigned s c cs rest hds.2.1 hds.2.2 hrest hlen
    · simp only [List.singleton_append, List.cons.injEq] at hlex
      obtain ⟨rfl, rfl⟩ := hlex
      cases ds with
      | nil => simp at hds
      | cons d ds =>
        simp only [List.all_cons, Bool.and_eq_true] at hds
        exact tokenize_step_signed s '+' d ds rest (Or.inl rfl) hds.2.1 hds.2.2 hrest hlen
    · simp only [List.singleton_append, List.cons.injEq] at hlex
      obtain ⟨rfl, rfl⟩ := hlex
      cases ds with
      | nil => simp at hds
      | cons d ds =>
        simp only [List.all_cons, Bool.and_eq_true] at hds
        exact tokenize_step_signed s '-' d ds rest (Or.inr rfl) hds.2.1 hds.2.2 hrest hlen
  have hnul : ∀ d ∈ sign ++ ds, d ≠ '\x00' := by
    intro d hd
    rcases List.mem_append.1 hd with h | h
    · rcases hsign with rfl | rfl | rfl
      · simp at h
      · simp only [List.mem_singleton] at h; rw [h]; decide
      · simp only [List.mem_singleton] at h; rw [h]; decide
    · exact isdigit_ne_nul (List.all_eq_true.1 hds.2 d h)
  refine ⟨hstep, ?_, ?_⟩
  · rw [hstep]
    constructor
    · intro h
      by_contra hle
      simp only [if_neg hle] at h
      unfold write_token at h
      split_ifs at h
      simp only [LexRes.exit.injEq, LexState.mk.injEq, List.append_cancel_left_eq,
        List.cons.injEq, and_true, true_and] at h
      cases h
    · intro h
      simp only [if_pos h]
  · intro hle hroom
    rw [hstep]
    simp only [if_neg (by omega : ¬ ds.length > 100)]
    rw [write_token_room _ _ _ _ hroom, stored_value_short _ hnul hlen,
      token_line_no_nul _ _ hnul, type_of_str_int]

/-- Witness for C10: the literal `-42` followed by a semicolon. -/
theorem C10_integer_literal_length_witness :
    tokenize_step LexState.init '-' (['4', '2'] ++ [';']) =
      (if ['4', '2'].length > 100 then
          .exit { LexState.init with diag := LexState.init.diag ++ [.intTooLong LexState.init.line] }
        else write_token LexState.init "IntConstant" (some (['-'] ++ ['4', '2'])) LexState.init.line,
        [';']) :=
  (C10_integer_literal_length.1 LexState.init ['-'] ['4', '2'] [';'] '-' ['4', '2']
    (Or.inr (Or.inr rfl)) (by decide) (by decide) (by decide) rfl).1

/-! ## Words -/

theorem isalpha_not_isdigit {c : Char} (h : isalpha c = true) : isdigit c = false := by
  simp only [isalpha, Bool.or_eq_true, Bool.and_eq_true, decide_eq_true_eq] at h
  simp only [isdigit, Bool.and_eq_false_iff, decide_eq_false_iff_not]
  change (97 ≤ c.toNat ∧ c.toNat ≤ 122) ∨ (65 ≤ c.toNat ∧ c.toNat ≤ 90) at h
  change ¬ (48 ≤ c.toNat) ∨ ¬ (c.toNat ≤ 57)
  omega

theorem identifier_start_not_isdigit {c : Char} (h : is_identifier_start c = true) :
    isdigit c = false := by
  simp only [is_identifier_start, Bool.or_eq_true, beq_iff_eq] at h
  rcases h with h | rfl
  · exact isalpha_not_isdigit h
  · decide

theorem isalpha_ne_nul {c : Char} (h : isalpha c = true) : c ≠ '\x00' := by
  rintro rfl; exact absurd h (by decide)

theorem identifier_char_ne_nul {c : Char} (h : is_identifier_char c = true) : c ≠ '\x00' := by
  rintro rfl; exact absurd h (by decide)

theorem identifier_start_is_char {c : Char} (h : is_identifier_start c = true) :
    is_identifier_char c = true := by
  simp only [is_identifier_start, Bool.or_eq_true, beq_iff_eq] at h
  simp only [is_identifier_char, isalnum, Bool.or_eq_true, beq_iff_eq]
  rcases h with h | h
  · exact Or.inl (Or.inl h)
  · exact Or.inr h

/-- The identifier branch of `tokenize` up to the keyword test, for a word that
fits the buffer `word[64]` and passes the length check. -/
theorem tokenize_step_word (s : LexState) (c : Char) (cs rest : List Char)
    (hc : is_identifier_start c = true) (hcs : cs.all is_identifier_char = true)
    (hrest : ∀ d ∈ rest.head?, is_identifier_char d = false) (hlen : (c :: cs).length ≤ 20) :
    tokenize_step s c (cs ++ rest) =
      (if is_keyword (String.mk (c :: cs)) then
        (write_token s "Keyword" (some (c :: cs)) s.line).bind fun s1 =>
          .ok (if String.mk (c :: cs) = "number" then
            { s1 with expect_identifier_declaration := true } else s1)
      else if s.expect_identifier_declaration then
        (write_token (declare_identifier s (String.mk (c :: cs))) "Identifier" (some (c :: cs))
          s.line).bind fun s1 => .ok { s1 with expect_identifier_declaration := false }
      else if is_declared s (String.mk (c :: cs)) then
        write_token s "Identifier" (some (c :: cs)) s.line
      else
        lex_error s (.notDefined s.line (not_defined_msg (c :: cs))) (not_defined_msg (c :: cs))
          s.line, rest) := by
  have h1 : c ≠ '\n' := by rintro rfl; exact absurd hc (by decide)
  have h2 : c ≠ ';' := by rintro rfl; exact absurd hc (by decide)
  have h3 : c ≠ '*' := by rintro rfl; exact absurd hc (by decide)
  have h4 : c ≠ '{' := by rintro rfl; exact absurd hc (by decide)
  have h5 : c ≠ '}' := by rintro rfl; exact absurd hc (by decide)
  have h6 : c ≠ '"' := by rintro rfl; exact absurd hc (by decide)
  have h7 : c ≠ ':' := by rintro rfl; exact absurd hc (by decide)
  have h8 : c ≠ '+' := by rintro rfl; exact absurd hc (by decide)
  have h9 : c ≠ '-' := by rintro rfl; exact absurd hc (by decide)
  have hd : isdigit c = false := identifier_start_not_isdigit hc
  have hlen2 : ¬ ((c :: cs).length ≥ 64) := by omega
  have hlen3 : ¬ ((c :: cs).length > 20) := by omega
  unfold tokenize_step tokenize_token newline_seen
  simp only [h1, h2, h3, h4, h5, h6, h7, h8, h9, if_false, or_self, hd, hc, if_true,
    takeWhile_append_run _ _ _ hcs hrest, dropWhile_append_run _ _ _ hcs hrest, hlen2,
    check_identifier_length, hlen3, Bool.false_eq_true]
  split_ifs <;> rfl

theorem not_defined_msg_toList (word : List Char) :
    (not_defined_msg word).toList = Char.ofNat 39 :: (word ++ "' is not defined".toList) := by
  simp [not_defined_msg, String.toList]

theorem not_defined_msg_stored (word : List Char) (hw : ∀ c ∈ word, c ≠ '\x00')
    (hlen : word.length ≤ 20) :
    stored_value (some (not_defined_msg word).toList) = not_defined_msg word ∧
    token_line "Error" (some (not_defined_msg word).toList)
      = "Error" ++ "(" ++ not_defined_msg word ++ ")" := by
  have hnul : ∀ c ∈ (not_defined_msg word).toList, c ≠ '\x00' := by
    intro c hc
    rw [not_defined_msg_toList] at hc
    rcases List.mem_cons.1 hc with rfl | hc
    · decide
    rcases List.mem_append.1 hc with hc | hc
    · exact hw c hc
    · have hall : ∀ d ∈ "' is not defined".toList, d ≠ '\x00' := by decide
      exact hall c hc
  have hl : (not_defined_msg word).toList.length ≤ 127 := by
    rw [not_defined_msg_toList]
    simp only [List.length_cons, List.length_append]
    have : "' is not defined".toList.length = 16 := by decide
    omega
  exact ⟨stored_value_short _ hnul hl, token_line_no_nul _ _ hnul⟩

theorem type_of_str_error : type_of_str "Error" = TOKEN_ERROR := by decide

theorem lex_error_room (s : LexState) (d : LexDiag) (msg : String) (line : Nat)
    (h : s.token_list.length < MAX_TOKENS) :
    lex_error s d msg line = .exit { s with
      diag := s.diag ++ [d],
      token_list := s.token_list ++
        [{ type := TOKEN_ERROR, value := stored_value (some msg.toList), line := line }],
      out := s.out ++ [token_line "Error" (some msg.toList)] } := by
  unfold lex_error
  rw [write_token_room _ _ _ _ (by exact h), type_of_str_error]

theorem lex_error_full (s : LexState) (d : LexDiag) (msg : String) (line : Nat)
    (h : MAX_TOKENS ≤ s.token_list.length) :
    lex_error s d msg line = .exit { s with diag := s.diag ++ [d] ++ [.tooManyTokens] } := by
  unfold lex_error write_token
  simp only [ge_iff_le, h, if_true]

/-- C9 as stated fails: the 21-letter word `abcdefghijklmnopqrstu` is no keyword
and is met with the flag not armed and the declaration set empty, yet the
lexer exits with the identifier-length diagnostic, not with `is not defined`. -/
theorem C9_counterexample :
    is_keyword "abcdefghijklmnopqrstu" = false ∧
    LexState.init.expect_identifier_declaration = false ∧
    is_declared LexState.init "abcdefghijklmnopqrstu" = false ∧
    tokenize "abcdefghijklmnopqrstu".toList
      = .exit { LexState.init with diag := [.identTooLong 1] } := by
  refine ⟨by decide!, rfl, by decide!, by decide!⟩

/-- C9 (amended): when the main loop of the lexer, in any state `s`, meets a
word `c :: cs` of at most 20 characters that is no keyword, with the flag not
armed and the word not in the declaration set, `tokenize` exits at once: the
`is not defined` diagnostic carries the current line, the only token written
after it is one Error token with that message (none if the table is full, where
the too-many-tokens diagnostic follows), and nothing after the word is lexed.
A run whose lexing exits reaches neither validator nor executor and has no
program output; so it is for `write "a" and b;`. -/
theorem C9_undeclared_word_stops_lexing :
    (∀ (fuel : Nat) (s : LexState) (c : Char) (cs rest : List Char),
        is_identifier_start c = true → cs.all is_identifier_char = true →
        (∀ d ∈ rest.head?, is_identifier_char d = false) → (c :: cs).length ≤ 20 →
        is_keyword (String.mk (c :: cs)) = false → s.expect_identifier_declaration = false →
        is_declared s (String.mk (c :: cs)) = false →
        (s.token_list.length < MAX_TOKENS →
          tokenize_loop (fuel + 1) s (c :: cs ++ rest) = .exit { s with
            diag := s.diag ++ [.notDefined s.line (not_defined_msg (c :: cs))],
            token_list := s.token_list ++
              [{ type := TOKEN_ERROR, value := not_defined_msg (c :: cs), line := s.line }],
            out := s.out ++ ["Error" ++ "(" ++ not_defined_msg (c :: cs) ++ ")"] }) ∧
        (MAX_TOKENS ≤ s.token_list.length →
          tokenize_loop (fuel + 1) s (c :: cs ++ rest) = .exit { s with
            diag := s.diag ++ [.notDefined s.line (not_defined_msg (c :: cs))] ++
              [.tooManyTokens] })) ∧
    (∀ (fuel : Nat) (input : List Char) (s1 : LexState), tokenize input = .exit s1 →
        run fuel input = .lexFailed (.exit s1) ∧ (run fuel input).program_output = "") ∧
    tokenize "write \"a\" and b;".toList = .exit
      { line := 1, expect_identifier_declaration := false, declared_identifiers := [],
        token_list := [⟨TOKEN_KEYWORD, "write", 1⟩, ⟨TOKEN_STRINGCONST, "a", 1⟩,
          ⟨TOKEN_KEYWORD, "and", 1⟩, ⟨TOKEN_ERROR, "'b' is not defined", 1⟩],
        out := ["Keyword(write)", "StringConstant(a)", "Keyword(and)",
          "Error('b' is not defined)"],
        diag := [.notDefined 1 "'b' is not defined"] } := by
  refine ⟨?_, ?_, by decide!⟩
  · intro fuel s c cs rest hc hcs hrest hlen hkw hflag hdecl
    have hstep := tokenize_step_word s c cs rest hc hcs hrest hlen
    simp only [hkw, hflag, hdecl, if_false, Bool.false_eq_true] at hstep
    have hw : ∀ d ∈ c :: cs, d ≠ '\x00' := by
      intro d hd
      rcases List.mem_cons.1 hd with rfl | hd
      · exact identifier_char_ne_nul (identifier_start_is_char hc)
      · exact identifier_char_ne_nul (List.all_eq_true.1 hcs d hd)
    obtain ⟨hsv, htl⟩ := not_defined_msg_stored (c :: cs) hw hlen
    constructor
    · intro hroom
      rw [List.cons_append, tokenize_loop, hstep, lex_error_room _ _ _ _ hroom, hsv, htl]
    · intro hfull
      rw [List.cons_append, tokenize_loop, hstep, lex_error_full _ _ _ _ hfull]
  · intro fuel input s1 h
    have hrun : run fuel input = .lexFailed (.exit s1) := by
      unfold run; rw [h]
    exact ⟨hrun, by rw [hrun]; rfl⟩

/-- Witness for C9: the undeclared word `b` followed by a semicolon. -/
theorem C9_undeclared_word_stops_lexing_witness :
    tokenize_loop (0 + 1) LexState.init ('b' :: [] ++ [';']) = .exit { LexState.init with
      diag := LexState.init.diag ++ [.notDefined LexState.init.line (not_defined_msg ('b' :: []))],
      token_list := LexState.init.token_list ++
        [{ type := TOKEN_ERROR, value := not_defined_msg ('b' :: []),
           line := LexState.init.line }],
      out := LexState.init.out ++ ["Error" ++ "(" ++ not_defined_msg ('b' :: []) ++ ")"] } :=
  (C9_undeclared_word_stops_lexing.1 0 LexState.init 'b' [] [';'] (by decide) (by decide)
    (by decide) (by decide) (by decide!) rfl (by decide!)).1 (by decide)

/-! ## Write statements -/

theorem write_list_length (v : Token) (more : List (Token × Token)) :
    (write_list v more).length = 2 * more.length + 1 := by
  induction more generalizing v with
  | nil => rfl
  | cons p more ih =>
    obtain ⟨a, v2⟩ := p
    simp only [write_list, List.length_cons, ih]
    omega

theorem write_value_step (f : Nat) (toks : List Token) (cur : Nat) (lt : Option Token)
    (ll : Int) (vt : List Variable) (out : String) (v : Token) (text : String)
    (hv : toks[cur]? = some v) (hr : renders ⟨⟨cur, lt, ll⟩, vt, out⟩ v text) :
    interpret_write_loop (f + 1) toks false ⟨⟨cur, lt, ll⟩, vt, out⟩ =
      interpret_write_loop f toks true ⟨⟨cur + 1, some v, v.line⟩, vt, out ++ text⟩ := by
  rw [interpret_write_loop]
  simp only [peek, hv, Bool.false_eq_true, if_false]
  rcases hr with ⟨ht, rfl⟩ | ⟨⟨ht, hval⟩, rfl⟩ | ⟨b, hd, rfl⟩
  · rw [if_pos ht]
    simp only [emit]
    rw [adv_mk hv]
  · rw [if_neg (by rw [ht]; decide), if_pos ⟨ht, hval⟩]
    simp only [emit]
    rw [adv_mk hv]
  · have hg := get_value_of_denotes hd
    have hty : v.type = TOKEN_INTCONST ∨ v.type = TOKEN_IDENTIFIER := by
      rcases hd with ⟨h, _⟩ | ⟨h, _⟩
      · exact Or.inl h
      · exact Or.inr h
    have h1 : ¬ v.type = TOKEN_STRINGCONST := by
      rcases hty with h | h <;> rw [h] <;> decide
    have h2 : ¬ (v.type = TOKEN_KEYWORD ∧ v.value = "newline") := by
      rintro ⟨h, _⟩
      rcases hty with h3 | h3 <;> rw [h3] at h <;> cases h
    rw [if_neg h1, if_neg h2, if_pos hty, hg]
    simp only [emit]
    rw [adv_mk hv]

theorem renders_state {c1 c2 : Cursor} {vt : List Variable} {o1 o2 : String} {t : Token}
    {text : String} (h : renders ⟨c1, vt, o1⟩ t text) : renders ⟨c2, vt, o2⟩ t text := h

theorem write_list_loop (toks : List Token) (vt : List Variable) (nx : Token)
    (hnx : ¬ nx.isKeyword "and") (more : List (Token × Token)) :
    ∀ (v : Token) (texts : List String) (f cur : Nat) (lt : Option Token) (ll : Int)
      (out : String),
      (∀ p ∈ more, p.1.isKeyword "and") →
      List.Forall₂ (renders ⟨⟨cur, lt, ll⟩, vt, out⟩) (v :: more.map Prod.snd) texts →
      occurs_at toks cur (write_list v more) →
      toks[cur + (2 * more.length + 1)]? = some nx →
      ∃ last, interpret_write_loop (f + (2 * more.length + 2)) toks false
          ⟨⟨cur, lt, ll⟩, vt, out⟩ =
        .ok ⟨⟨cur + (2 * more.length + 1), some last, last.line⟩, vt,
          out ++ concat_texts texts⟩ := by
  induction more with
  | nil =>
    intro v texts f cur lt ll out _ hr hocc hn
    cases hr with
    | cons h1 h2 =>
      cases h2
      have hv : toks[cur]? = some v := by simpa using hocc 0 v rfl
      refine ⟨v, ?_⟩
      simp only [List.length_nil, Nat.mul_zero, Nat.zero_add] at hn ⊢
      rw [show f + 2 = (f + 1) + 1 from rfl, write_value_step _ _ _ _ _ _ _ _ _ hv h1,
        interpret_write_loop]
      simp only [peek, hn, if_true]
      rw [accept_mk_false hn (tokMatches_and_false hnx)]
      simp [concat_texts]
  | cons p more ih =>
    obtain ⟨a, v2⟩ := p
    intro v texts f cur lt ll out hand hr hocc hn
    cases hr with
    | cons h1 h2 =>
      rename_i text texts
      have hv : toks[cur]? = some v := by simpa using hocc 0 v rfl
      have ha : toks[cur + 1]? = some a := hocc 1 a (by simp [write_list])
      have haa : a.isKeyword "and" := hand (a, v2) (List.mem_cons_self _ _)
      have hocc2 : occurs_at toks (cur + 1 + 1) (write_list v2 more) :=
        occurs_at_tail (occurs_at_tail hocc)
      simp only [List.length_cons] at hn ⊢
      have hn2 : toks[cur + 1 + 1 + (2 * more.length + 1)]? = some nx := by
        rw [← hn]; congr 1; omega
      obtain ⟨last, hl⟩ := ih v2 texts f (cur + 1 + 1) (some a) a.line (out ++ text)
        (fun p hp => hand p (List.mem_cons_of_mem _ hp)) (by exact h2) hocc2 hn2
      refine ⟨last, ?_⟩
      rw [show f + (2 * (more.length + 1) + 2) = (f + (2 * more.length + 2) + 1) + 1 by omega,
        write_value_step _ _ _ _ _ _ _ _ _ hv h1, interpret_write_loop]
      simp only [peek, ha, if_true]
      rw [accept_mk ha (tokMatches_keyword haa)]
      simp only [if_true]
      rw [hl]
      simp only [concat_texts, String.append_assoc]
      congr 2
      congr 1; omega

theorem write_statement_step (f : Nat) (toks : List Token) (s : ExecState) (w v semi : Token)
    (more : List (Token × Token)) (texts : List String) (hw : w.isKeyword "write")
    (hand : ∀ p ∈ more, p.1.isKeyword "and") (hsemi : semi.type = TOKEN_ENDOFLINE)
    (hocc : occurs_at toks s.cur.current (w :: write_list v more ++ [semi]))
    (hr : List.Forall₂ (renders s) (v :: more.map Prod.snd) texts) :
    interpret_statement (f + (2 * more.length + 2) + 1) toks s =
      .ok { cur := ⟨s.cur.current + (2 * more.length + 3), some semi, semi.line⟩,
            var_table := s.var_table, output := s.output ++ concat_texts texts } := by
  obtain ⟨⟨cur, lt, ll⟩, vt, out⟩ := s
  simp only at hocc ⊢
  have hw0 : toks[cur]? = some w := by simpa using hocc 0 w (by simp)
  have hlist : occurs_at toks (cur + 1) (write_list v more) :=
    occurs_at_append_left (occurs_at_tail hocc)
  have hs : toks[cur + 1 + (2 * more.length + 1)]? = some semi := by
    have h := occurs_at_append_right (occurs_at_tail hocc) 0 semi rfl
    rw [write_list_length] at h
    exact h
  have hns : ¬ semi.isKeyword "and" := by
    rintro ⟨h, _⟩
    rw [hsemi] at h
    cases h
  obtain ⟨last, hl⟩ := write_list_loop toks vt semi hns more v texts f (cur + 1) (some w) w.line
    out hand hr hlist hs
  have hm : tokMatches semi TOKEN_ENDOFLINE none = true := by simp [tokMatches, hsemi]
  rw [interpret_statement]
  simp only [peek, hw0, hw.1, hw.2, if_true]
  rw [interpret_write, adv_mk hw0, hl]
  simp only [Res.bind]
  rw [accept_mk hs hm]
  simp only [if_true]
  have : cur + 1 + (2 * more.length + 1) + 1 = cur + (2 * more.length + 3) := by omega
  rw [this, if_neg (by decide)]

/-! ## Declarations -/

theorem declaration_step_fresh (f : Nat) (toks : List Token) (s : ExecState)
    (n id semi : Token) (hn : toks[s.cur.current]? = some n) (hnk : n.isKeyword "number")
    (hid : toks[s.cur.current + 1]? = some id) (hidt : id.type = TOKEN_IDENTIFIER)
    (hsemi : toks[s.cur.current + 2]? = some semi) (hsemit : semi.type = TOKEN_ENDOFLINE)
    (hx : find_var s.var_table id.value = none) (hroom : s.var_table.length < MAX_VARS) :
    interpret_statement (f + 1) toks s =
      .ok { cur := ⟨s.cur.current + 3, some semi, semi.line⟩,
            var_table := s.var_table ++ [{ name := id.value, value := 0 }],
            output := s.output } := by
  obtain ⟨⟨cur, lt, ll⟩, vt, out⟩ := s
  simp only at hn hid hsemi hx hroom
  have hm : tokMatches semi TOKEN_ENDOFLINE none = true := by simp [tokMatches, hsemit]
  simp only [interpret_statement, peek, hn, hnk.1, hnk.2]
  simp only [interpret_declaration, adv_mk hn, adv_mk hid, hidt, declare_var, hx]
  simp only [Option.isSome_none, Bool.false_eq_true, if_false, ge_iff_le,
    if_neg (by omega : ¬ MAX_VARS ≤ vt.length), Res.bind, ne_eq, not_true_eq_false]
  rw [accept_mk hsemi hm]
  simp

theorem declaration_step_full (f : Nat) (toks : List Token) (s : ExecState)
    (n id : Token) (hn : toks[s.cur.current]? = some n) (hnk : n.isKeyword "number")
    (hid : toks[s.cur.current + 1]? = some id) (hidt : id.type = TOKEN_IDENTIFIER)
    (hx : find_var s.var_table id.value = none) (hfull : MAX_VARS ≤ s.var_table.length) :
    interpret_statement (f + 1) toks s =
      .fail .tooManyVariables
        { cur := ⟨s.cur.current + 2, some id, id.line⟩, var_table := s.var_table,
          output := s.output } := by
  obtain ⟨⟨cur, lt, ll⟩, vt, out⟩ := s
  simp only at hn hid hx hfull
  simp only [interpret_statement, peek, hn, hnk.1, hnk.2]
  simp only [interpret_declaration, adv_mk hn, adv_mk hid, hidt, declare_var, hx]
  simp [Res.bind, hfull]

/-- C12: at a write statement `write v1 and v2 and ... and vk ;` (k at least 1)
whose items render as `texts` in the state `s` (a string literal as its text,
`newline` as a line break, an integer literal in signed 64-bit range or a
declared identifier as the decimal form of its value), the executor returns
normally with the cursor just past the semicolon, the variable table unchanged
and the output extended by exactly the concatenation of `texts` in order. The
program `number n; n := -7; write "a" and n and newline and +007 and -0;`
writes `a-7`, a line break and `70`. -/
theorem C12_write_list_output :
    (∀ (f : Nat) (toks : List Token) (s : ExecState) (w v semi : Token)
        (more : List (Token × Token)) (texts : List String),
        w.isKeyword "write" → (∀ p ∈ more, p.1.isKeyword "and") →
        semi.type = TOKEN_ENDOFLINE →
        occurs_at toks s.cur.current (w :: write_list v more ++ [semi]) →
        List.Forall₂ (renders s) (v :: more.map Prod.snd) texts →
        interpret_statement (f + (2 * more.length + 2) + 1) toks s =
          .ok { cur := ⟨s.cur.current + (2 * more.length + 3), some semi, semi.line⟩,
                var_table := s.var_table, output := s.output ++ concat_texts texts }) ∧
    (run 20 "number n; n := -7; write \"a\" and n and newline and +007 and -0;".toList).program_output
      = "a-7\n70" ∧
    (run 20 "number n; n := -7; write \"a\" and n and newline and +007 and -0;".toList).final_vars
      = some [{ name := "n", value := -7 }] := by
  refine ⟨?_, by decide!, by decide!⟩
  intro f toks s w v semi more texts hw hand hsemi hocc hr
  exact write_statement_step f toks s w v semi more texts hw hand hsemi hocc hr

/-- Witness for C12: `write "hi" and newline and x;` with `x = -3`. -/
theorem C12_write_list_output_witness :
    interpret_statement (0 + (2 * [((⟨TOKEN_KEYWORD, "and", 1⟩ : Token),
          (⟨TOKEN_KEYWORD, "newline", 1⟩ : Token)),
          (⟨TOKEN_KEYWORD, "and", 1⟩, ⟨TOKEN_IDENTIFIER, "x", 2⟩)].length + 2) + 1)
        [⟨TOKEN_KEYWORD, "write", 1⟩, ⟨TOKEN_STRINGCONST, "hi", 1⟩, ⟨TOKEN_KEYWORD, "and", 1⟩,
          ⟨TOKEN_KEYWORD, "newline", 1⟩, ⟨TOKEN_KEYWORD, "and", 1⟩, ⟨TOKEN_IDENTIFIER, "x", 2⟩,
          ⟨TOKEN_ENDOFLINE, "", 2⟩]
        ⟨⟨0, none, -1⟩, [⟨"x", -3⟩], "> "⟩ =
      .ok { cur := ⟨0 + (2 * 2 + 3), some ⟨TOKEN_ENDOFLINE, "", 2⟩, 2⟩,
            var_table := [⟨"x", -3⟩], output := "> " ++ concat_texts ["hi", "\n", "-3"] } :=
  C12_write_list_output.1 0 _ ⟨⟨0, none, -1⟩, [⟨"x", -3⟩], "> "⟩ ⟨TOKEN_KEYWORD, "write", 1⟩
    ⟨TOKEN_STRINGCONST, "hi", 1⟩ ⟨TOKEN_ENDOFLINE, "", 2⟩
    [(⟨TOKEN_KEYWORD, "and", 1⟩, ⟨TOKEN_KEYWORD, "newline", 1⟩),
      (⟨TOKEN_KEYWORD, "and", 1⟩, ⟨TOKEN_IDENTIFIER, "x", 2⟩)]
    ["hi", "\n", "-3"] ⟨rfl, rfl⟩
    (by intro p hp; simp only [List.mem_cons, List.mem_singleton, List.not_mem_nil, or_false] at hp
        rcases hp with rfl | rfl <;> exact ⟨rfl, rfl⟩)
    rfl (occurs_at_self _)
    (.cons (Or.inl ⟨rfl, rfl⟩) (.cons (Or.inr (Or.inl ⟨⟨rfl, rfl⟩, rfl⟩))
      (.cons (Or.inr (Or.inr ⟨-3, Or.inr ⟨rfl, 0, ⟨"x", -3⟩, by decide!, rfl, rfl⟩, by decide!⟩))
        .nil)))

/-- C16: at a declaration `number x ;` whose name is not in the variable table,
the executor, when the table holds fewer than 100 entries, returns normally three
tokens further with `x = 0` appended as the last entry, every earlier entry and
the output unchanged; when the table holds 100 entries it exits with the
too-many-variables diagnostic and the table unchanged. -/
theorem C16_declaration :
    ∀ (f : Nat) (toks : List Token) (s : ExecState) (n id semi : Token),
      toks[s.cur.current]? = some n → n.isKeyword "number" →
      toks[s.cur.current + 1]? = some id → id.type = TOKEN_IDENTIFIER →
      toks[s.cur.current + 2]? = some semi → semi.type = TOKEN_ENDOFLINE →
      find_var s.var_table id.value = none →
      (s.var_table.length < MAX_VARS →
        interpret_statement (f + 1) toks s =
          .ok { cur := ⟨s.cur.current + 3, some semi, semi.line⟩,
                var_table := s.var_table ++ [{ name := id.value, value := 0 }],
                output := s.output }) ∧
      (s.var_table.length = MAX_VARS →
        interpret_statement (f + 1) toks s =
          .fail .tooManyVariables
            { cur := ⟨s.cur.current + 2, some id, id.line⟩, var_table := s.var_table,
              output := s.output }) := by
  intro f toks s n id semi hn hnk hid hidt hsemi hsemit hx
  exact ⟨declaration_step_fresh f toks s n id semi hn hnk hid hidt hsemi hsemit hx,
    fun h => declaration_step_full f toks s n id hn hnk hid hidt hx (by omega)⟩

/-- Witness for C16: `number y;` in a table that holds `x = 4`. -/
theorem C16_declaration_witness :
    interpret_statement (0 + 1)
        [⟨TOKEN_KEYWORD, "number", 1⟩, ⟨TOKEN_IDENTIFIER, "y", 1⟩, ⟨TOKEN_ENDOFLINE, "", 1⟩]
        ⟨⟨0, none, -1⟩, [⟨"x", 4⟩], ""⟩ =
      .ok { cur := ⟨0 + 3, some ⟨TOKEN_ENDOFLINE, "", 1⟩, 1⟩,
            var_table := [⟨"x", 4⟩] ++ [{ name := "y", value := 0 }], output := "" } :=
  (C16_declaration 0 _ ⟨⟨0, none, -1⟩, [⟨"x", 4⟩], ""⟩ ⟨TOKEN_KEYWORD, "number", 1⟩
    ⟨TOKEN_IDENTIFIER, "y", 1⟩ ⟨TOKEN_ENDOFLINE, "", 1⟩ rfl ⟨rfl, rfl⟩ rfl rfl rfl rfl
    (by decide!)).1 (by decide)

/-! ## String literals in the lexer -/

theorem scan_string_closed (s rest : List Char) :
    ∀ (i line : Nat) (str : List Char), (∀ c ∈ s, c ≠ '"') → i + s.length ≤ 254 →
      scan_string (s ++ '"' :: rest) i line str = (line + s.count '\n', some (str ++ s), rest) := by
  induction s with
  | nil =>
    intro i line str _ hi
    simp only [List.nil_append, scan_string, List.count_nil, Nat.add_zero, List.append_nil]
    rw [if_pos (by simp at hi; omega)]
    simp
  | cons c cs ih =>
    intro i line str hq hi
    have hc : c ≠ '"' := hq c (List.mem_cons_self _ _)
    simp only [List.length_cons] at hi
    simp only [List.cons_append, scan_string]
    rw [if_pos (by omega), if_neg hc]
    change scan_string (cs ++ '"' :: rest) _ _ _ = _
    rw [ih (i + 1) _ _ (fun d hd => hq d (List.mem_cons_of_mem _ hd)) (by omega)]
    by_cases hn : c = '\n'
    · subst hn
      simp only [if_true, List.count_cons_self, List.append_assoc, List.singleton_append]
      congr 1
      omega
    · simp only [if_neg hn, List.append_assoc, List.singleton_append]
      rw [List.count_cons_of_ne (Ne.symm hn)]

theorem scan_string_long (s rest : List Char) :
    ∀ (i line : Nat) (str : List Char), (∀ c ∈ s, c ≠ '"') → i ≤ 255 → 255 ≤ i + s.length →
      ∃ rest1, scan_string (s ++ rest) i line str
        = (line + (s.take (255 - i)).count '\n', none, rest1) := by
  induction s with
  | nil =>
    intro i line str _ hi hl
    have h255 : ¬ i < 255 := by simp at hl; omega
    cases rest with
    | nil => exact ⟨[], by simp [scan_string]⟩
    | cons c r => exact ⟨r, by simp [scan_string, h255]⟩
  | cons c cs ih =>
    intro i line str hq hi hl
    have hc : c ≠ '"' := hq c (List.mem_cons_self _ _)
    simp only [List.length_cons] at hl
    simp only [List.cons_append, scan_string]
    by_cases h255 : i < 255
    · rw [if_pos h255, if_neg hc]
      obtain ⟨r, hr⟩ := ih (i + 1) (if c = '\n' then line + 1 else line) (str ++ [c])
        (fun d hd => hq d (List.mem_cons_of_mem _ hd)) (by omega) (by omega)
      refine ⟨r, ?_⟩
      change scan_string (cs ++ rest) _ _ _ = _
      rw [hr]
      have h1 : 255 - i = (255 - (i + 1)) + 1 := by omega
      rw [h1, List.take_succ_cons]
      by_cases hn : c = '\n'
      · subst hn
        simp only [if_true, List.count_cons_self]
        congr 1
        omega
      · simp only [if_neg hn]
        rw [List.count_cons_of_ne (Ne.symm hn)]
    · rw [if_neg h255]
      have : 255 - i = 0 := by omega
      exact ⟨cs.append rest, by simp [this]⟩

theorem type_of_str_string : type_of_str "StringConstant" = TOKEN_STRINGCONST := by decide

/-- The string branch of `tokenize` on a literal whose closing quote comes while
the buffer index is below 255. -/
theorem tokenize_step_string (s0 : LexState) (s rest : List Char) (hq : ∀ c ∈ s, c ≠ '"')
    (hl : s.length ≤ 254) :
    tokenize_step s0 '"' (s ++ '"' :: rest) =
      (write_token { s0 with line := s0.line + s.count '\n' } "StringConstant" (some s)
        (s0.line + s.count '\n'), rest) := by
  unfold tokenize_step tokenize_token newline_seen
  simp only [show ('"' : Char) ≠ '\n' by decide, show ('"' : Char) ≠ ';' by decide,
    show ('"' : Char) ≠ '*' by decide, show ('"' : Char) ≠ '{' by decide,
    show ('"' : Char) ≠ '}' by decide, if_false, if_true]
  rw [scan_string_closed s rest 0 s0.line [] hq (by omega)]
  simp

/-- The string branch of `tokenize` on a literal of 255 characters or more. -/
theorem tokenize_step_string_long (s0 : LexState) (s rest : List Char)
    (hq : ∀ c ∈ s, c ≠ '"') (hl : 255 ≤ s.length) :
    (tokenize_step s0 '"' (s ++ rest)).1 =
      lex_error { s0 with line := s0.line + (s.take 255).count '\n' }
        (.unterminatedString s0.line) "Unterminated string constant."
        (s0.line + (s.take 255).count '\n') := by
  unfold tokenize_step tokenize_token newline_seen
  simp only [show ('"' : Char) ≠ '\n' by decide, show ('"' : Char) ≠ ';' by decide,
    show ('"' : Char) ≠ '*' by decide, show ('"' : Char) ≠ '{' by decide,
    show ('"' : Char) ≠ '}' by decide, if_false, if_true]
  obtain ⟨r, hr⟩ := scan_string_long s rest 0 s0.line [] hq (by omega) (by omega)
  rw [hr]

/-! ## Single-character steps of the lexer -/

theorem tokenize_loop_ok_step {f : Nat} {s s1 : LexState} {c : Char} {rest rest1 : List Char}
    (h : tokenize_step s c rest = (.ok s1, rest1)) :
    tokenize_loop (f + 1) s (c :: rest) = tokenize_loop f s1 rest1 := by
  rw [tokenize_loop, h]

theorem tokenize_step_space (s : LexState) (c : Char) (rest : List Char)
    (hc : isspace c = true) : tokenize_step s c rest = (.ok (newline_seen s c), rest) := by
  have h1 : c ≠ ';' := by rintro rfl; exact absurd hc (by decide)
  have h2 : c ≠ '*' := by rintro rfl; exact absurd hc (by decide)
  have h3 : c ≠ '{' := by rintro rfl; exact absurd hc (by decide)
  have h4 : c ≠ '}' := by rintro rfl; exact absurd hc (by decide)
  have h5 : c ≠ '"' := by rintro rfl; exact absurd hc (by decide)
  have h6 : c ≠ ':' := by rintro rfl; exact absurd hc (by decide)
  have h7 : c ≠ '+' := by rintro rfl; exact absurd hc (by decide)
  have h8 : c ≠ '-' := by rintro rfl; exact absurd hc (by decide)
  have h9 : isdigit c = false := by
    cases h : isdigit c with
    | false => rfl
    | true => rw [isdigit_not_isspace c h] at hc; cases hc
  have h10 : is_identifier_start c = false := by
    simp only [isspace, Bool.or_eq_true, beq_iff_eq] at hc
    rcases hc with ((((rfl | rfl) | rfl) | rfl) | rfl) | rfl <;> decide
  unfold tokenize_step tokenize_token
  simp only [h1, h2, h3, h4, h5, h6, h7, h8, h9, h10, hc, if_false, or_self, Bool.false_eq_true,
    Bool.not_true]

theorem tokenize_step_semicolon (s : LexState) (rest : List Char) :
    tokenize_step s ';' rest = (write_token s "EndOfLine" none s.line, rest) := by
  unfold tokenize_step tokenize_token newline_seen
  simp only [show (';' : Char) ≠ '\n' by decide, if_false, if_true]

theorem type_of_str_semicolon : type_of_str "EndOfLine" = TOKEN_ENDOFLINE := by decide

theorem type_of_str_keyword : type_of_str "Keyword" = TOKEN_KEYWORD := by decide

/-- The lexer on the source of `write "s";` for a text of at most 254
characters without a double quote. -/
theorem tokenize_write_string (s : List Char) (hq : ∀ c ∈ s, c ≠ '"') (hl : s.length ≤ 254) :
    tokenize (['w', 'r', 'i', 't', 'e', ' ', '"'] ++ s ++ ['"', ';']) = .ok
      { line := 1 + s.count '\n', expect_identifier_declaration := false,
        declared_identifiers := [],
        token_list := [⟨TOKEN_KEYWORD, "write", 1⟩,
          ⟨TOKEN_STRINGCONST, stored_value (some s), 1 + s.count '\n'⟩,
          ⟨TOKEN_ENDOFLINE, "", 1 + s.count '\n'⟩],
        out := ["Keyword(write)", token_line "StringConstant" (some s), "EndOfLine"],
        diag := [] } := by
  have hw : tokenize_step LexState.init 'w' (['r', 'i', 't', 'e'] ++ (' ' :: '"' :: (s ++ ['"', ';'])))
      = (.ok { LexState.init with token_list := [⟨TOKEN_KEYWORD, "write", 1⟩],
                                  out := ["Keyword(write)"] },
          ' ' :: '"' :: (s ++ ['"', ';'])) := by
    rw [tokenize_step_word _ _ _ _ (by decide) (by decide) (by intro d hd; simp at hd; subst hd; decide)
      (by decide)]
    exact congrArg (fun r => (r, ' ' :: '"' :: (s ++ ['"', ';']))) (by decide!)
  have hlen : (['w', 'r', 'i', 't', 'e', ' ', '"'] ++ s ++ ['"', ';']).length
      = (s.length + 5) + 1 + 1 + 1 + 1 := by
    simp only [List.length_append, List.length_cons, List.length_nil]; omega
  have hsp : tokenize_step
      ({ LexState.init with token_list := [⟨TOKEN_KEYWORD, "write", 1⟩],
                            out := ["Keyword(write)"] }) ' ' ('"' :: (s ++ ['"', ';']))
      = (.ok { LexState.init with token_list := [⟨TOKEN_KEYWORD, "write", 1⟩],
                                  out := ["Keyword(write)"] }, '"' :: (s ++ ['"', ';'])) := by
    rw [tokenize_step_space _ ' ' _ (by decide)]
    rfl
  have hs := tokenize_step_string
    ({ LexState.init with token_list := [⟨TOKEN_KEYWORD, "write", 1⟩],
                          out := ["Keyword(write)"] }) s [';'] hq hl
  rw [write_token_room _ _ _ _ (by simp [LexState.init, MAX_TOKENS])] at hs
  unfold tokenize
  rw [hlen]
  change tokenize_loop _ _ ('w' :: (['r', 'i', 't', 'e'] ++ (' ' :: '"' :: (s ++ ['"', ';'])))) = _
  rw [tokenize_loop_ok_step hw, tokenize_loop_ok_step hsp, tokenize_loop_ok_step hs,
    tokenize_loop_ok_step (by
      rw [tokenize_step_semicolon, write_token_room _ _ _ _ (by simp [LexState.init, MAX_TOKENS])])]
  rw [tokenize_loop]
  simp [type_of_str_string, type_of_str_semicolon, LexState.init, stored_value, token_line]

/-! ## Writing a string literal -/

theorem run_write_string (fuel : Nat) (s : List Char) (hq : ∀ c ∈ s, c ≠ '"')
    (hl : s.length ≤ 254) :
    ∃ c, run (fuel + 4) (write_string_source s) =
      .executed
        { line := 1 + s.count '\n', expect_identifier_declaration := false,
          declared_identifiers := [],
          token_list := [⟨TOKEN_KEYWORD, "write", 1⟩,
            ⟨TOKEN_STRINGCONST, stored_value (some s), 1 + s.count '\n'⟩,
            ⟨TOKEN_ENDOFLINE, "", 1 + s.count '\n'⟩],
          out := ["Keyword(write)", token_line "StringConstant" (some s), "EndOfLine"],
          diag := [] } c
        (.ok ⟨⟨3, some ⟨TOKEN_ENDOFLINE, "", 1 + s.count '\n'⟩, ((1 + s.count '\n' : Nat) : Int)⟩,
          [], stored_value (some s)⟩) := by
  have hd : Derives .program ([⟨TOKEN_KEYWORD, "write", 1⟩,
      ⟨TOKEN_STRINGCONST, stored_value (some s), 1 + s.count '\n'⟩,
      ⟨TOKEN_ENDOFLINE, "", 1 + s.count '\n'⟩] : List Token) :=
    Derives.program_cons (a := [_, _, _]) (b := [])
      (Derives.write (l := [_]) ⟨rfl, rfl⟩ (Derives.writelist_one (Or.inl rfl)) rfl)
      Derives.program_nil
  have hacc := parse_complete _ hd (by simp [times_followed_by])
  unfold accepted at hacc
  unfold run write_string_source
  rw [tokenize_write_string s hq hl]
  simp only
  split at hacc
  · next c hc =>
    refine ⟨c, ?_⟩
    rfl
  · cases hacc

/-- C11 as stated fails: the text of 128 letters `a` contains no double quote,
yet the program `write "aaa...a";` outputs only 127 of them. -/
theorem C11_counterexample :
    (∀ c ∈ List.replicate 128 'a', c ≠ '"') ∧
    (run 10 (write_string_source (List.replicate 128 'a'))).program_output
      = String.mk (List.replicate 127 'a') ∧
    (run 10 (write_string_source (List.replicate 128 'a'))).program_output
      ≠ String.mk (List.replicate 128 'a') := by
  refine ⟨by decide!, by decide!, by decide!⟩

/-- C11 (amended): for every text `s` of at most 254 characters without a double
quote, lexing, validating and executing the program `write "s";` runs to a
normal end and outputs the text stored in the string token: the characters of
`s` before its first NUL, cut to 127 characters. So when `s` has at most 127
characters and no NUL, the output is exactly `s`. -/
theorem C11_string_written_verbatim :
    ∀ (fuel : Nat) (s : List Char), (∀ c ∈ s, c ≠ '"') → s.length ≤ 254 →
      (run (fuel + 4) (write_string_source s)).program_output
        = String.mk ((cstr s).take 127) ∧
      (run (fuel + 4) (write_string_source s)).final_vars = some [] ∧
      ((∀ c ∈ s, c ≠ '\x00') → s.length ≤ 127 →
        (run (fuel + 4) (write_string_source s)).program_output = String.mk s) := by
  intro fuel s hq hl
  obtain ⟨c, hc⟩ := run_write_string fuel s hq hl
  rw [hc]
  refine ⟨rfl, rfl, ?_⟩
  intro hnul hlen
  exact stored_value_short s hnul hlen

/-- Witness for C11: the program `write "hi";`. -/
theorem C11_string_written_verbatim_witness :
    (run (0 + 4) (write_string_source ['h', 'i'])).program_output = String.mk ['h', 'i'] :=
  (C11_string_written_verbatim 0 ['h', 'i'] (by decide) (by decide)).2.2 (by decide) (by decide)

theorem tokenize_string_source (s : List Char) (hq : ∀ c ∈ s, c ≠ '"') (hl : s.length ≤ 254) :
    tokenize ('"' :: (s ++ ['"'])) = .ok { LexState.init with
      line := 1 + s.count '\n',
      token_list := [⟨TOKEN_STRINGCONST, String.mk ((cstr s).take 127), 1 + s.count '\n'⟩],
      out := ["StringConstant" ++ "(" ++ String.mk (cstr s) ++ ")"] } := by
  have hs := tokenize_step_string LexState.init s [] hq hl
  rw [write_token_room _ _ _ _ (by simp [LexState.init, MAX_TOKENS])] at hs
  unfold tokenize
  rw [List.length_cons, tokenize_loop_ok_step hs, tokenize_loop]
  simp [type_of_str_string, LexState.init, stored_value, token_line]

theorem tokenize_loop_exit_step {f : Nat} {s e : LexState} {c : Char} {rest : List Char}
    (h : (tokenize_step s c rest).1 = .exit e) :
    tokenize_loop (f + 1) s (c :: rest) = .exit e := by
  rw [tokenize_loop]
  generalize tokenize_step s c rest = p at h
  obtain ⟨r, rest1⟩ := p
  simp only at h
  subst h
  rfl

theorem scan_string_unclosed (s : List Char) :
    ∀ (i line : Nat) (str : List Char), (∀ c ∈ s, c ≠ '"') → i ≤ 255 →
      ∃ rest1, scan_string s i line str
        = (line + (s.take (255 - i)).count '\n', none, rest1) := by
  induction s with
  | nil =>
    intro i line str _ _
    exact ⟨[], by simp [scan_string]⟩
  | cons c cs ih =>
    intro i line str hq hi
    have hc : c ≠ '"' := hq c (List.mem_cons_self _ _)
    simp only [scan_string]
    by_cases h255 : i < 255
    · rw [if_pos h255, if_neg hc]
      obtain ⟨r, hr⟩ := ih (i + 1) (if c = '\n' then line + 1 else line) (str ++ [c])
        (fun d hd => hq d (List.mem_cons_of_mem _ hd)) (by omega)
      refine ⟨r, ?_⟩
      rw [hr]
      have h1 : 255 - i = (255 - (i + 1)) + 1 := by omega
      rw [h1, List.take_succ_cons]
      by_cases hn : c = '\n'
      · subst hn
        simp only [if_true, List.count_cons_self]
        congr 1
        omega
      · simp only [if_neg hn]
        rw [List.count_cons_of_ne (Ne.symm hn)]
    · rw [if_neg h255]
      have : 255 - i = 0 := by omega
      exact ⟨cs, by simp [this]⟩

/-- The string branch of `tokenize` on a literal that end of input cuts off. -/
theorem tokenize_step_string_unclosed (s0 : LexState) (s : List Char)
    (hq : ∀ c ∈ s, c ≠ '"') :
    (tokenize_step s0 '"' s).1 =
      lex_error { s0 with line := s0.line + (s.take 255).count '\n' }
        (.unterminatedString s0.line) "Unterminated string constant."
        (s0.line + (s.take 255).count '\n') := by
  unfold tokenize_step tokenize_token newline_seen
  simp only [show ('"' : Char) ≠ '\n' by decide, show ('"' : Char) ≠ ';' by decide,
    show ('"' : Char) ≠ '*' by decide, show ('"' : Char) ≠ '{' by decide,
    show ('"' : Char) ≠ '}' by decide, if_false, if_true]
  obtain ⟨r, hr⟩ := scan_string_unclosed s 0 s0.line [] hq (by omega)
  rw [hr]

theorem unterminated_string_exit (n : Nat) :
    lex_error { LexState.init with line := n } (.unterminatedString 1)
        "Unterminated string constant." n =
      .exit { LexState.init with
        line := n, diag := [.unterminatedString 1],
        token_list := [⟨TOKEN_ERROR, "Unterminated string constant.", n⟩],
        out := ["Error(Unterminated string constant.)"] } := by
  rw [lex_error_room _ _ _ _ (by simp [LexState.init, MAX_TOKENS])]
  have h1 : stored_value (some "Unterminated string constant.".toList)
      = "Unterminated string constant." := by decide!
  have h2 : token_line "Error" (some "Unterminated string constant.".toList)
      = "Error(Unterminated string constant.)" := by decide!
  rw [h1, h2]
  rfl

theorem tokenize_string_source_long (s : List Char) (hq : ∀ c ∈ s, c ≠ '"')
    (hl : 255 ≤ s.length) :
    tokenize ('"' :: (s ++ ['"'])) = .exit { LexState.init with
      line := 1 + (s.take 255).count '\n',
      diag := [.unterminatedString 1],
      token_list := [⟨TOKEN_ERROR, "Unterminated string constant.",
        1 + (s.take 255).count '\n'⟩],
      out := ["Error(Unterminated string constant.)"] } := by
  have hs := tokenize_step_string_long LexState.init s ['"'] hq hl
  rw [show LexState.init.line = 1 from rfl, unterminated_string_exit] at hs
  unfold tokenize
  rw [List.length_cons, tokenize_loop_exit_step hs]

theorem tokenize_string_source_unclosed (s : List Char) (hq : ∀ c ∈ s, c ≠ '"') :
    tokenize ('"' :: s) = .exit { LexState.init with
      line := 1 + (s.take 255).count '\n',
      diag := [.unterminatedString 1],
      token_list := [⟨TOKEN_ERROR, "Unterminated string constant.",
        1 + (s.take 255).count '\n'⟩],
      out := ["Error(Unterminated string constant.)"] } := by
  have hs := tokenize_step_string_unclosed LexState.init s hq
  rw [show LexState.init.line = 1 from rfl, unterminated_string_exit] at hs
  unfold tokenize
  rw [List.length_cons, tokenize_loop_exit_step hs]

/-- C13 as stated fails: the text of 255 letters `a` contains no double quote,
yet lexing the source `"aaa...a"` exits with the unterminated-string
diagnostic although its closing quote is there. -/
theorem C13_counterexample :
    (∀ c ∈ List.replicate 255 'a', c ≠ '"') ∧
    tokenize ('"' :: (List.replicate 255 'a' ++ ['"'])) = .exit { LexState.init with
      diag := [.unterminatedString 1],
      token_list := [⟨TOKEN_ERROR, "Unterminated string constant.", 1⟩],
      out := ["Error(Unterminated string constant.)"] } := by
  refine ⟨by decide!, by decide!⟩

/-- C13 (amended): for every text `s` without a double quote, the source `"s"`
lexes to a single StringConstant token when `s` has at most 254 characters:
the line counter ends one higher for each newline in `s`, the token stores the
characters of `s` before its first NUL, cut to 127, and the diagnostic line
shows them uncut. When `s` has 255 characters or more, or when end of input
comes before a closing quote, the lexer exits with the unterminated-string
diagnostic for line 1 and writes one Error token. -/
theorem C13_string_literal_lexing :
    (∀ s : List Char, (∀ c ∈ s, c ≠ '"') → s.length ≤ 254 →
      tokenize ('"' :: (s ++ ['"'])) = .ok { LexState.init with
        line := 1 + s.count '\n',
        token_list := [⟨TOKEN_STRINGCONST, String.mk ((cstr s).take 127), 1 + s.count '\n'⟩],
        out := ["StringConstant" ++ "(" ++ String.mk (cstr s) ++ ")"] }) ∧
    (∀ s : List Char, (∀ c ∈ s, c ≠ '"') → 255 ≤ s.length →
      tokenize ('"' :: (s ++ ['"'])) = .exit { LexState.init with
        line := 1 + (s.take 255).count '\n',
        diag := [.unterminatedString 1],
        token_list := [⟨TOKEN_ERROR, "Unterminated string constant.",
          1 + (s.take 255).count '\n'⟩],
        out := ["Error(Unterminated string constant.)"] }) ∧
    (∀ s : List Char, (∀ c ∈ s, c ≠ '"') →
      tokenize ('"' :: s) = .exit { LexState.init with
        line := 1 + (s.take 255).count '\n',
        diag := [.unterminatedString 1],
        token_list := [⟨TOKEN_ERROR, "Unterminated string constant.",
          1 + (s.take 255).count '\n'⟩],
        out := ["Error(Unterminated string constant.)"] }) :=
  ⟨tokenize_string_source, tokenize_string_source_long, tokenize_string_source_unclosed⟩

/-- Witness for C13: the source of the two-line literal with `a`, a newline
and `b` between the quotes. -/
theorem C13_string_literal_lexing_witness :
    tokenize ('"' :: (['a', '\n', 'b'] ++ ['"'])) = .ok { LexState.init with
      line := 1 + ['a', '\n', 'b'].count '\n',
      token_list := [⟨TOKEN_STRINGCONST, String.mk ((cstr ['a', '\n', 'b']).take 127),
        1 + ['a', '\n', 'b'].count '\n'⟩],
      out := ["StringConstant" ++ "(" ++ String.mk (cstr ['a', '\n', 'b']) ++ ")"] } :=
  C13_string_literal_lexing.1 ['a', '\n', 'b'] (by decide) (by decide)

/-- C14 (code defect for string literals that span lines): when the main loop of
the lexer reads the opening quote of a string literal with the line counter at
`s0.line`, the StringConstant token it writes carries `s0.line` plus the number
of newlines inside the literal, that is the line of the closing quote, not the
line on which the lexeme starts. The source with `a`, a newline and `b` between
quotes starts on line 1 and yields a token of line 2; in `write "a` / `b";` the
keyword carries line 1 and the string token line 2. -/
theorem C14_string_token_carries_end_line :
    (∀ (s0 : LexState) (s rest : List Char), (∀ c ∈ s, c ≠ '"') → s.length ≤ 254 →
      s0.token_list.length < MAX_TOKENS →
      tokenize_step s0 '"' (s ++ '"' :: rest) = (.ok { s0 with
        line := s0.line + s.count '\n',
        token_list := s0.token_list ++
          [⟨TOKEN_STRINGCONST, String.mk ((cstr s).take 127), s0.line + s.count '\n'⟩],
        out := s0.out ++ ["StringConstant" ++ "(" ++ String.mk (cstr s) ++ ")"] }, rest)) ∧
    tokens_of "\"a\nb\"" = some [⟨TOKEN_STRINGCONST, "a\nb", 2⟩] ∧
    tokens_of "write \"a\nb\";" = some [⟨TOKEN_KEYWORD, "write", 1⟩,
      ⟨TOKEN_STRINGCONST, "a\nb", 2⟩, ⟨TOKEN_ENDOFLINE, "", 2⟩] := by
  refine ⟨?_, by decide!, by decide!⟩
  intro s0 s rest hq hl hroom
  rw [tokenize_step_string s0 s rest hq hl, write_token_room _ _ _ _ (by exact hroom),
    type_of_str_string]
  rfl

/-- Witness for C14: the literal with `a`, a newline and `b`, met on line 7. -/
theorem C14_string_token_carries_end_line_witness :
    tokenize_step { LexState.init with line := 7 } '"' (['a', '\n', 'b'] ++ '"' :: [';']) =
      (.ok { LexState.init with
        line := 7 + ['a', '\n', 'b'].count '\n',
        token_list := [] ++
          [⟨TOKEN_STRINGCONST, String.mk ((cstr ['a', '\n', 'b']).take 127),
            7 + ['a', '\n', 'b'].count '\n'⟩],
        out := [] ++ ["StringConstant" ++ "(" ++ String.mk (cstr ['a', '\n', 'b']) ++ ")"] },
        [';']) :=
  C14_string_token_carries_end_line.1 { LexState.init with line := 7 } ['a', '\n', 'b'] [';']
    (by decide) (by decide) (by decide)

/-! ## Error-line attribution -/

theorem value_err_line_eq (t : Option Token) (c : Cursor) :
    value_err_line t c = expect_err_line t c := by
  cases t <;> rfl

theorem PRes.attributed_bind {toks : List Token} {r : PRes} {g : Cursor → PRes}
    (hr : r.attributed toks) (hg : ∀ c, (g c).attributed toks) : (r.bind g).attributed toks := by
  cases r with
  | ok c => exact hg c
  | fail e c => exact hr
  | timeout => trivial

theorem attributed_omission {toks : List Token} {e : SyntaxError} {c : Cursor}
    (h1 : e.is_omission = true) (h2 : e.line = some (expect_err_line (peek toks c) c)) :
    (PRes.fail e c).attributed toks := by
  cases e <;> first
    | (simp only [SyntaxError.is_omission, Bool.false_eq_true] at h1; done)
    | exact ⟨fun _ => h2, fun h => (by cases h), fun _ _ h => (by cases h), fun h => by cases h⟩

theorem attributed_unexpected {toks : List Token} {e : SyntaxError} {c : Cursor}
    (h1 : e.is_unexpected = true) (h2 : ∀ t, peek toks c = some t → e.line = some (t.line : Int)) :
    (PRes.fail e c).attributed toks := by
  cases e <;> first
    | (simp only [SyntaxError.is_unexpected, Bool.false_eq_true] at h1; done)
    | exact ⟨fun h => (by cases h), fun _ => h2, fun _ _ h => (by cases h), fun h => by cases h⟩

theorem attributed_end {toks : List Token} {e : SyntaxError} {c : Cursor}
    (h1 : e.is_end_of_input = true) (h2 : peek toks c = none) :
    (PRes.fail e c).attributed toks := by
  cases e <;> first
    | (simp only [SyntaxError.is_end_of_input, Bool.false_eq_true] at h1; done)
    | exact ⟨fun h => (by cases h), fun h => (by cases h), fun _ _ h => (by cases h), fun _ => h2⟩

theorem attributed_out_of_bounds (toks : List Token) (c : Cursor) :
    (PRes.fail .lookaheadOutOfBounds c).attributed toks :=
  ⟨fun h => (by cases h), fun h => (by cases h), fun _ _ h => (by cases h), fun h => by cases h⟩

/-- A token read by `lookahead` that is an operator is a stored token, not a
zeroed slot of the array. -/
theorem lookahead_operator {toks : List Token} {c : Cursor} {la : Token}
    (h : lookahead toks c = some la) (ht : la.type = TOKEN_OPERATOR) :
    toks[c.current + 1]? = some la := by
  unfold lookahead at h
  cases hx : toks[c.current + 1]? with
  | some x =>
    rw [hx] at h
    exact h
  | none =>
    rw [hx] at h
    simp only at h
    split_ifs at h
    simp only [Option.some.injEq] at h
    rw [← h] at ht
    cases ht

theorem attributed_operator {toks : List Token} {c : Cursor} {la : Token}
    (h : toks[c.current + 1]? = some la) :
    (PRes.fail (.unexpectedOperator la.line la.value) c).attributed toks := by
  refine ⟨fun h => (by cases h), fun h => (by cases h), fun l v he => ?_, fun h => by cases h⟩
  simp only [SyntaxError.unexpectedOperator.injEq] at he
  exact ⟨la, h, he.1.symm, he.2.symm⟩

theorem expect_attributed (toks : List Token) (c : Cursor) (ty : TokenType)
    (v : Option String) : (expect toks c ty v).attributed toks := by
  unfold expect
  split_ifs
  · trivial
  · exact attributed_omission rfl rfl

theorem parse_declaration_attributed (toks : List Token) (c : Cursor) :
    (parse_declaration toks c).attributed toks :=
  PRes.attributed_bind (expect_attributed _ _ _ _) fun _ =>
    PRes.attributed_bind (expect_attributed _ _ _ _) fun _ => expect_attributed _ _ _ _

theorem parse_assign_with_attributed (op : String) (err : Int → SyntaxError)
    (herr : ∀ l, (err l).is_omission = true ∧ (err l).line = some l) (toks : List Token)
    (c : Cursor) : (parse_assign_with op err toks c).attributed toks := by
  unfold parse_assign_with
  refine PRes.attributed_bind (expect_attributed _ _ _ _) fun c1 =>
    PRes.attributed_bind (expect_attributed _ _ _ _) fun c2 => ?_
  cases hp : peek toks c2 with
  | none =>
    exact attributed_omission (herr _).1 (by rw [(herr _).2, hp, value_err_line_eq])
  | some t =>
    simp only
    split_ifs
    · exact expect_attributed _ _ _ _
    · exact attributed_omission (herr _).1 (by rw [(herr _).2, hp, value_err_line_eq])

theorem parse_assignment_attributed (toks : List Token) (c : Cursor) :
    (parse_assignment toks c).attributed toks :=
  parse_assign_with_attributed ":=" .assignValue (fun _ => ⟨rfl, rfl⟩) toks c

theorem parse_increment_attributed (toks : List Token) (c : Cursor) :
    (parse_increment toks c).attributed toks :=
  parse_assign_with_attributed "+=" .incrementValue (fun _ => ⟨rfl, rfl⟩) toks c

theorem parse_decrement_attributed (toks : List Token) (c : Cursor) :
    (parse_decrement toks c).attributed toks :=
  parse_assign_with_attributed "-=" .decrementValue (fun _ => ⟨rfl, rfl⟩) toks c

theorem parse_write_loop_attributed (fuel : Nat) (toks : List Token) :
    ∀ (b : Bool) (c : Cursor), (parse_write_loop fuel toks b c).attributed toks := by
  induction fuel with
  | zero => intro b c; trivial
  | succ n ih =>
    intro b c
    rw [parse_write_loop]
    cases hp : peek toks c with
    | none => exact attributed_end rfl hp
    | some t =>
      simp only
      split_ifs
      · exact ih _ _
      · trivial
      · exact ih _ _
      · refine attributed_unexpected rfl fun u hu => ?_
        rw [hp] at hu
        cases hu
        rfl

theorem parse_write_attributed (fuel : Nat) (toks : List Token) (c : Cursor) :
    (parse_write fuel toks c).attributed toks :=
  PRes.attributed_bind (expect_attributed _ _ _ _) fun _ =>
    PRes.attributed_bind (parse_write_loop_attributed _ _ _ _) fun _ => expect_attributed _ _ _ _

theorem parse_repeat_count_attributed (toks : List Token) (c : Cursor) :
    (parse_repeat_count toks c).attributed toks := by
  unfold parse_repeat_count
  cases hp : peek toks c with
  | none => exact attributed_unexpected rfl fun u hu => by rw [hp] at hu; cases hu
  | some t =>
    simp only
    split_ifs
    · trivial
    · refine attributed_unexpected rfl fun u hu => ?_
      rw [hp] at hu
      cases hu
      rfl

theorem parse_attributed (fuel : Nat) (toks : List Token) :
    (∀ c, (parse_statement fuel toks c).attributed toks) ∧
    (∀ c, (parse_block fuel toks c).attributed toks) ∧
    (∀ c, (parse_block_loop fuel toks c).attributed toks) ∧
    (∀ c, (parse_repeat fuel toks c).attributed toks) := by
  induction fuel with
  | zero => refine ⟨?_, ?_, ?_, ?_⟩ <;> intros <;> trivial
  | succ n ih =>
    obtain ⟨ihs, ihb, ihbl, ihr⟩ := ih
    have unexp : ∀ (c : Cursor) (t : Token) (e : SyntaxError), peek toks c = some t →
        e.is_unexpected = true → e.line = some (t.line : Int) →
        (PRes.fail e c).attributed toks := by
      intro c t e hp h1 h2
      refine attributed_unexpected h1 fun u hu => ?_
      rw [hp] at hu
      cases hu
      exact h2
    refine ⟨?_, ?_, ?_, ?_⟩
    · intro c
      rw [parse_statement]
      cases hp : peek toks c with
      | none => trivial
      | some t =>
        simp only
        by_cases hk : t.type = TOKEN_KEYWORD
        · rw [if_pos hk]
          split_ifs
          · exact parse_declaration_attributed _ _
          · exact parse_write_attributed _ _ _
          · exact ihr _
          · exact unexp c t _ hp rfl rfl
        rw [if_neg hk]
        by_cases hi : t.type = TOKEN_IDENTIFIER
        · rw [if_pos hi]
          cases hla : lookahead toks c with
          | none => exact attributed_out_of_bounds _ _
          | some la =>
            simp only
            by_cases ho : la.type = TOKEN_OPERATOR
            · rw [if_pos ho]
              split_ifs
              · exact parse_assignment_attributed _ _
              · exact parse_increment_attributed _ _
              · exact parse_decrement_attributed _ _
              · exact attributed_operator (lookahead_operator hla ho)
            · rw [if_neg ho]
              exact unexp c t _ hp rfl rfl
        rw [if_neg hi]
        split_ifs
        · exact ihb _
        · exact unexp c t _ hp rfl rfl
        · exact unexp c t _ hp rfl rfl
    · intro c
      rw [parse_block]
      exact PRes.attributed_bind (expect_attributed _ _ _ _) fun c1 => ihbl c1
    · intro c
      rw [parse_block_loop]
      cases hp : peek toks c with
      | none => exact attributed_end rfl hp
      | some t =>
        simp only
        split_ifs
        · exact expect_attributed _ _ _ _
        · exact PRes.attributed_bind (ihs c) fun c1 => ihbl c1
    · intro c
      rw [parse_repeat]
      refine PRes.attributed_bind (expect_attributed _ _ _ _) fun c1 =>
        PRes.attributed_bind (parse_repeat_count_attributed _ _) fun c2 =>
          PRes.attributed_bind (expect_attributed _ _ _ _) fun c3 => ?_
      cases hp : peek toks c3 with
      | none => exact attributed_end rfl hp
      | some t =>
        simp only
        split_ifs
        all_goals first
          | exact ihb _
          | exact parse_write_attributed _ _ _
          | exact unexp c3 t _ hp rfl rfl
          | (split
             · exact attributed_out_of_bounds _ _
             · split_ifs
               all_goals first
                 | exact unexp c3 t _ hp rfl rfl
                 | exact PRes.attributed_bind (parse_assignment_attributed _ _) fun c4 =>
                     expect_attributed _ _ _ _
                 | exact PRes.attributed_bind (parse_increment_attributed _ _) fun c4 =>
                     expect_attributed _ _ _ _
                 | exact PRes.attributed_bind (parse_decrement_attributed _ _) fun c4 =>
                     expect_attributed _ _ _ _)

theorem parse_loop_attributed (fuel : Nat) (toks : List Token) :
    ∀ c, (parse_loop fuel toks c).attributed toks := by
  induction fuel with
  | zero => intro c; trivial
  | succ n ih =>
    intro c
    rw [parse_loop]
    split_ifs
    · exact PRes.attributed_bind ((parse_attributed n toks).1 c) fun c1 => ih c1
    · trivial

/-- C15 as stated fails: in the source with `write` on line 1 and `;` on line
2 the validator rejects the semicolon as an unexpected token in a write
statement; the current token is on line 2, the last consumed token `write` on
line 1, and the reported line is 2. -/
theorem C15_counterexample :
    tokens_of "write\n;" = some [⟨TOKEN_KEYWORD, "write", 1⟩, ⟨TOKEN_ENDOFLINE, "", 2⟩] ∧
    parse [⟨TOKEN_KEYWORD, "write", 1⟩, ⟨TOKEN_ENDOFLINE, "", 2⟩]
      = .fail (.writeUnexpected 2 "") ⟨1, some ⟨TOKEN_KEYWORD, "write", 1⟩, 1⟩ ∧
    peek [⟨TOKEN_KEYWORD, "write", 1⟩, ⟨TOKEN_ENDOFLINE, "", 2⟩]
      ⟨1, some ⟨TOKEN_KEYWORD, "write", 1⟩, 1⟩ = some ⟨TOKEN_ENDOFLINE, "", 2⟩ := by
  refine ⟨by decide!, by decide!, by decide!⟩

/-- C15 (amended): when `parse` rejects a token sequence with the diagnostic `e`
while a current token `t` exists, a token `lt` has been consumed and `t` is on a
later line than `lt`, then `e` is of one of these kinds. A missing-token
diagnostic (`Expected token ...` of `expect`, or the missing value of an
assignment, increment or decrement) reports the line of `lt`. An
unexpected-token diagnostic (in a write statement, as a repeat count, after
`times`, or an unexpected keyword, closing brace or other token at the start of
a statement) reports the line of `t` itself. The unexpected-operator diagnostic
at the start of a statement reports the line and text of the token after `t`.
The only other outcome is the read of the token after `t` past the end of the
token array, where the behaviour of the validator is undefined. A missing
semicolon after `number x`, with the next statement on line 2, is reported at
line 1; in `number x;`, `x` on line 2 and `+ 1;` on line 3 the operator is
reported at line 3, while the current token is on line 2 and the last consumed
one on line 1. -/
theorem C15_error_line_attribution :
    (∀ (toks : List Token) (e : SyntaxError) (c : Cursor) (t lt : Token),
        parse toks = .fail e c → peek toks c = some t → c.last_token = some lt →
        lt.line < t.line →
        (e.is_omission = true → e.line = some (lt.line : Int)) ∧
        (e.is_unexpected = true → e.line = some (t.line : Int)) ∧
        (∀ l v, e = .unexpectedOperator l v →
          ∃ la, toks[c.current + 1]? = some la ∧ l = (la.line : Int) ∧ v = la.value) ∧
        (e.is_omission = true ∨ e.is_unexpected = true ∨
          (∃ l v, e = .unexpectedOperator l v) ∨ e = .lookaheadOutOfBounds)) ∧
    tokens_of "number x\nnumber y;" = some [⟨TOKEN_KEYWORD, "number", 1⟩,
      ⟨TOKEN_IDENTIFIER, "x", 1⟩, ⟨TOKEN_KEYWORD, "number", 2⟩, ⟨TOKEN_IDENTIFIER, "y", 2⟩,
      ⟨TOKEN_ENDOFLINE, "", 2⟩] ∧
    syntax_error [⟨TOKEN_KEYWORD, "number", 1⟩,
      ⟨TOKEN_IDENTIFIER, "x", 1⟩, ⟨TOKEN_KEYWORD, "number", 2⟩, ⟨TOKEN_IDENTIFIER, "y", 2⟩,
      ⟨TOKEN_ENDOFLINE, "", 2⟩] = some (.expected 1 "semicolon ';'" "number") ∧
    tokens_of "number x;\nx\n+ 1;" = some [⟨TOKEN_KEYWORD, "number", 1⟩,
      ⟨TOKEN_IDENTIFIER, "x", 1⟩, ⟨TOKEN_ENDOFLINE, "", 1⟩, ⟨TOKEN_IDENTIFIER, "x", 2⟩,
      ⟨TOKEN_OPERATOR, "+", 3⟩, ⟨TOKEN_INTCONST, "1", 3⟩, ⟨TOKEN_ENDOFLINE, "", 3⟩] ∧
    parse [⟨TOKEN_KEYWORD, "number", 1⟩,
      ⟨TOKEN_IDENTIFIER, "x", 1⟩, ⟨TOKEN_ENDOFLINE, "", 1⟩, ⟨TOKEN_IDENTIFIER, "x", 2⟩,
      ⟨TOKEN_OPERATOR, "+", 3⟩, ⟨TOKEN_INTCONST, "1", 3⟩, ⟨TOKEN_ENDOFLINE, "", 3⟩]
      = .fail (.unexpectedOperator 3 "+") ⟨3, some ⟨TOKEN_ENDOFLINE, "", 1⟩, 1⟩ := by
  refine ⟨?_, by decide!, by decide!, by decide!, by decide!⟩
  intro toks e c t lt hfail hp hl hlt
  have h := parse_loop_attributed (3 * toks.length + 2) toks
    { current := 0, last_token := none, last_token_line := -1 }
  change (parse toks).attributed toks at h
  rw [hfail] at h
  obtain ⟨h1, h2, h3, h4⟩ := h
  refine ⟨fun ho => ?_, fun hu => h2 hu t hp, h3, ?_⟩
  · rw [h1 ho, hp]
    simp only [expect_err_line, hl, hlt, if_true]
  · cases e with
    | expected l a b => exact Or.inl rfl
    | assignValue l => exact Or.inl rfl
    | incrementValue l => exact Or.inl rfl
    | decrementValue l => exact Or.inl rfl
    | writeEof l => rw [h4 rfl] at hp; cases hp
    | writeUnexpected l v => exact Or.inr (Or.inl rfl)
    | blockEof => rw [h4 rfl] at hp; cases hp
    | repeatCount l => exact Or.inr (Or.inl rfl)
    | repeatEof => rw [h4 rfl] at hp; cases hp
    | repeatUnexpected l => exact Or.inr (Or.inl rfl)
    | unexpectedKeyword l v => exact Or.inr (Or.inl rfl)
    | unexpectedOperator l v => exact Or.inr (Or.inr (Or.inl ⟨l, v, rfl⟩))
    | unexpectedToken l v => exact Or.inr (Or.inl rfl)
    | unexpectedClose l => exact Or.inr (Or.inl rfl)
    | lookaheadOutOfBounds => exact Or.inr (Or.inr (Or.inr rfl))

/-- Witness for C15: `number x` on line 1 followed by `number y;` on line 2. -/
theorem C15_error_line_attribution_witness :
    (SyntaxError.expected 1 "semicolon ';'" "number").line
      = some (((⟨TOKEN_IDENTIFIER, "x", 1⟩ : Token).line : Nat) : Int) :=
  (C15_error_line_attribution.1
    [⟨TOKEN_KEYWORD, "number", 1⟩, ⟨TOKEN_IDENTIFIER, "x", 1⟩, ⟨TOKEN_KEYWORD, "number", 2⟩,
      ⟨TOKEN_IDENTIFIER, "y", 2⟩, ⟨TOKEN_ENDOFLINE, "", 2⟩]
    (.expected 1 "semicolon ';'" "number") ⟨2, some ⟨TOKEN_IDENTIFIER, "x", 1⟩, 1⟩
    ⟨TOKEN_KEYWORD, "number", 2⟩ ⟨TOKEN_IDENTIFIER, "x", 1⟩ (by decide!) (by decide!) rfl
    (by decide)).1 rfl

/-! ## The lexical declaration set -/

theorem write_token_ok_declared {s s1 : LexState} {ty : String} {v : Option (List Char)}
    {line : Nat} (h : write_token s ty v line = .ok s1) :
    s1.declared_identifiers = s.declared_identifiers := by
  unfold write_token at h
  split_ifs at h
  simp only [LexRes.ok.injEq] at h
  rw [← h]

theorem lex_error_not_ok (s s1 : LexState) (d : LexDiag) (msg : String) (line : Nat) :
    lex_error s d msg line ≠ .ok s1 := by
  unfold lex_error
  split
  · simp
  · next h =>
    intro heq
    exact h _ heq

theorem declare_identifier_mem (s : LexState) (name w : String)
    (h : w ∈ s.declared_identifiers) : w ∈ (declare_identifier s name).declared_identifiers := by
  unfold declare_identifier
  split_ifs
  · exact List.mem_append_left _ h
  · exact h

theorem newline_seen_declared (s : LexState) (c : Char) :
    (newline_seen s c).declared_identifiers = s.declared_identifiers := by
  unfold newline_seen
  split_ifs <;> rfl

theorem LexRes.bind_ok_inv {r : LexRes} {g : LexState → LexState} {s1 : LexState}
    (h : (r.bind fun s0 => .ok (g s0)) = .ok s1) : ∃ s0, r = .ok s0 ∧ s1 = g s0 := by
  cases r with
  | ok s0 =>
    simp only [LexRes.bind, LexRes.ok.injEq] at h
    exact ⟨s0, rfl, h.symm⟩
  | exit s0 => cases h
  | overrun s0 => cases h
  | timeout => cases h

/-- A round of the main loop that returns normally removes no name from the
declaration set. -/
theorem tokenize_token_declared (s : LexState) (c : Char) (rest : List Char) (s1 : LexState)
    (h : (tokenize_token s c rest).1 = .ok s1) :
    ∀ w ∈ s.declared_identifiers, w ∈ s1.declared_identifiers := by
  intro w hw
  have wt : ∀ (s0 : LexState) (ty : String) (v : Option (List Char)) (line : Nat),
      write_token s0 ty v line = .ok s1 → s0.declared_identifiers = s.declared_identifiers →
      w ∈ s1.declared_identifiers := by
    intro s0 ty v line h1 h0
    rw [write_token_ok_declared h1, h0]
    exact hw
  unfold tokenize_token at h
  by_cases h1 : c = ';'
  · rw [if_pos h1] at h; exact wt _ _ _ _ h rfl
  rw [if_neg h1] at h
  by_cases h2 : c = '*'
  · rw [if_pos h2] at h
    split at h
    · simp only [LexRes.ok.injEq] at h
      rw [← h]; exact hw
    · exact absurd h (lex_error_not_ok _ _ _ _ _)
  rw [if_neg h2] at h
  by_cases h3 : c = '{'
  · rw [if_pos h3] at h; exact wt _ _ _ _ h rfl
  rw [if_neg h3] at h
  by_cases h4 : c = '}'
  · rw [if_pos h4] at h; exact wt _ _ _ _ h rfl
  rw [if_neg h4] at h
  by_cases h5 : c = '"'
  · rw [if_pos h5] at h
    split at h
    · exact wt _ _ _ _ h rfl
    · exact absurd h (lex_error_not_ok _ _ _ _ _)
  rw [if_neg h5] at h
  by_cases h6 : c = ':' ∨ c = '+' ∨ c = '-'
  · rw [if_pos h6] at h
    cases rest with
    | nil => exact wt _ _ _ _ h rfl
    | cons next rest1 =>
      simp only at h
      split_ifs at h
      · exact wt _ _ _ _ h rfl
      · exact wt _ _ _ _ h rfl
      · exact wt _ _ _ _ h rfl
      · split at h
        · cases h
        · exact wt _ _ _ _ h rfl
      · exact wt _ _ _ _ h rfl
  rw [if_neg h6] at h
  by_cases h7 : isdigit c = true
  · rw [if_pos h7] at h
    simp only at h
    split_ifs at h
    split at h
    · cases h
    · exact wt _ _ _ _ h rfl
  rw [if_neg h7] at h
  by_cases h8 : is_identifier_start c = true
  · rw [if_pos h8] at h
    simp only at h
    by_cases h9 : (c :: rest.takeWhile is_identifier_char).length ≥ 64
    · rw [if_pos h9] at h; cases h
    rw [if_neg h9] at h
    split at h
    · cases h
    by_cases h10 : is_keyword (String.mk (c :: rest.takeWhile is_identifier_char)) = true
    · rw [if_pos h10] at h
      obtain ⟨s0, hs0, rfl⟩ := LexRes.bind_ok_inv h
      have := write_token_ok_declared hs0
      split_ifs
      · simp only; rw [this]; exact hw
      · rw [this]; exact hw
    rw [if_neg h10] at h
    by_cases h11 : s.expect_identifier_declaration = true
    · rw [if_pos h11] at h
      obtain ⟨s0, hs0, rfl⟩ := LexRes.bind_ok_inv h
      have := write_token_ok_declared hs0
      simp only
      rw [this]
      exact declare_identifier_mem _ _ _ hw
    rw [if_neg h11] at h
    split_ifs at h
    · exact wt _ _ _ _ h rfl
    · exact absurd h (lex_error_not_ok _ _ _ _ _)
  rw [if_neg h8] at h
  split_ifs at h
  · exact absurd h (lex_error_not_ok _ _ _ _ _)
  · simp only [LexRes.ok.injEq] at h
    rw [← h]; exact hw

theorem tokenize_step_declared {s s1 : LexState} {c : Char} {rest rest1 : List Char}
    (h : tokenize_step s c rest = (.ok s1, rest1)) :
    ∀ w ∈ s.declared_identifiers, w ∈ s1.declared_identifiers := by
  intro w hw
  unfold tokenize_step at h
  refine tokenize_token_declared (newline_seen s c) c rest s1 (by rw [h]) w ?_
  rw [newline_seen_declared]
  exact hw

/-- The declaration set only grows along the run of the lexer. -/
theorem lex_reach_declared {s1 s2 : LexState} (h : LexReach s1 s2) :
    ∀ w ∈ s1.declared_identifiers, w ∈ s2.declared_identifiers := by
  induction h with
  | refl s => exact fun w hw => hw
  | step hstep _ ih => exact fun w hw => ih w (tokenize_step_declared hstep w hw)

theorem type_of_str_identifier : type_of_str "Identifier" = TOKEN_IDENTIFIER := by decide

theorem word_no_nul {c : Char} {cs : List Char} (hc : is_identifier_start c = true)
    (hcs : cs.all is_identifier_char = true) : ∀ d ∈ c :: cs, d ≠ '\x00' := by
  intro d hd
  rcases List.mem_cons.1 hd with rfl | hd
  · exact identifier_char_ne_nul (identifier_start_is_char hc)
  · exact identifier_char_ne_nul (List.all_eq_true.1 hcs d hd)

/-- The lexer on a word that is no keyword, met with the flag armed: the word is
handed to `declare_identifier` and written as an Identifier token. -/
theorem tokenize_step_declaration (s : LexState) (c : Char) (cs rest : List Char)
    (hc : is_identifier_start c = true) (hcs : cs.all is_identifier_char = true)
    (hrest : ∀ d ∈ rest.head?, is_identifier_char d = false) (hlen : (c :: cs).length ≤ 20)
    (hkw : is_keyword (String.mk (c :: cs)) = false)
    (hflag : s.expect_identifier_declaration = true)
    (hroom : s.token_list.length < MAX_TOKENS) :
    tokenize_step s c (cs ++ rest) = (.ok { declare_identifier s (String.mk (c :: cs)) with
      expect_identifier_declaration := false,
      token_list := s.token_list ++ [⟨TOKEN_IDENTIFIER, String.mk (c :: cs), s.line⟩],
      out := s.out ++ ["Identifier" ++ "(" ++ String.mk (c :: cs) ++ ")"] }, rest) := by
  have hnul := word_no_nul hc hcs
  have hd : (declare_identifier s (String.mk (c :: cs))).token_list = s.token_list := by
    unfold declare_identifier; split_ifs <;> rfl
  have ho : (declare_identifier s (String.mk (c :: cs))).out = s.out := by
    unfold declare_identifier; split_ifs <;> rfl
  rw [tokenize_step_word s c cs rest hc hcs hrest hlen]
  simp only [hkw, hflag, if_true, Bool.false_eq_true, if_false]
  rw [write_token_room _ _ _ _ (by rw [hd]; exact hroom),
    stored_value_short _ hnul (by omega), token_line_no_nul _ _ hnul, type_of_str_identifier,
    hd, ho]
  rfl

/-- The lexer on a word that is in the declaration set: it is written as an
Identifier token, whether the flag is armed or not. -/
theorem tokenize_step_declared_word (s : LexState) (c : Char) (cs rest : List Char)
    (hc : is_identifier_start c = true) (hcs : cs.all is_identifier_char = true)
    (hrest : ∀ d ∈ rest.head?, is_identifier_char d = false) (hlen : (c :: cs).length ≤ 20)
    (hkw : is_keyword (String.mk (c :: cs)) = false)
    (hmem : String.mk (c :: cs) ∈ s.declared_identifiers)
    (hroom : s.token_list.length < MAX_TOKENS) :
    ∃ s1, tokenize_step s c (cs ++ rest) = (.ok s1, rest) ∧
      s1.token_list = s.token_list ++ [⟨TOKEN_IDENTIFIER, String.mk (c :: cs), s.line⟩] := by
  by_cases hflag : s.expect_identifier_declaration = true
  · exact ⟨_, tokenize_step_declaration s c cs rest hc hcs hrest hlen hkw hflag hroom, rfl⟩
  · have hnul := word_no_nul hc hcs
    have hdecl : is_declared s (String.mk (c :: cs)) = true := by
      unfold is_declared
      simpa using hmem
    rw [tokenize_step_word s c cs rest hc hcs hrest hlen]
    simp only [hkw, hflag, hdecl, if_true, Bool.false_eq_true, if_false]
    rw [write_token_room _ _ _ _ hroom, stored_value_short _ hnul (by omega),
      type_of_str_identifier]
    exact ⟨_, rfl, rfl⟩

/-! ## Declarations in the lexer -/

theorem declare_identifier_fields (s : LexState) (name : String) :
    (declare_identifier s name).line = s.line ∧
    (declare_identifier s name).token_list = s.token_list ∧
    (declare_identifier s name).out = s.out ∧
    (declare_identifier s name).diag = s.diag := by
  unfold declare_identifier
  split_ifs <;> exact ⟨rfl, rfl, rfl, rfl⟩

/-- The lexer on the text `number w;` for a word `w` that is no keyword: three
tokens are written, the word is handed to `declare_identifier`, and the flag
ends disarmed. -/
theorem lex_declaration (s : LexState) (c : Char) (cs rest : List Char) (f : Nat)
    (hc : is_identifier_start c = true) (hcs : cs.all is_identifier_char = true)
    (hlen : (c :: cs).length ≤ 20) (hkw : is_keyword (String.mk (c :: cs)) = false)
    (hroom : s.token_list.length + 3 ≤ MAX_TOKENS) :
    tokenize_loop (f + 4) s ("number ".toList ++ (c :: cs) ++ ';' :: rest) =
      tokenize_loop f
        { line := s.line, expect_identifier_declaration := false,
          declared_identifiers :=
            (declare_identifier s (String.mk (c :: cs))).declared_identifiers,
          token_list := s.token_list ++ [⟨TOKEN_KEYWORD, "number", s.line⟩,
            ⟨TOKEN_IDENTIFIER, String.mk (c :: cs), s.line⟩, ⟨TOKEN_ENDOFLINE, "", s.line⟩],
          out := s.out ++ ["Keyword(number)", "Identifier" ++ "(" ++ String.mk (c :: cs) ++ ")",
            "EndOfLine"],
          diag := s.diag } rest := by
  have h1 : tokenize_step s 'n' ("umber".toList ++ (' ' :: c :: (cs ++ ';' :: rest))) =
      (.ok { s with expect_identifier_declaration := true,
                    token_list := s.token_list ++ [⟨TOKEN_KEYWORD, "number", s.line⟩],
                    out := s.out ++ ["Keyword(number)"] },
        ' ' :: c :: (cs ++ ';' :: rest)) := by
    rw [tokenize_step_word s 'n' "umber".toList _ (by decide) (by decide)
      (by intro d hd; simp at hd; subst hd; decide) (by decide)]
    rw [if_pos (by decide), write_token_room _ _ _ _ (by omega)]
    simp only [LexRes.bind]
    rw [if_pos (by decide)]
    have h1 : stored_value (some ('n' :: "umber".toList)) = "number" := by decide
    have h2 : token_line "Keyword" (some ('n' :: "umber".toList)) = "Keyword(number)" := by
      decide
    rw [h1, h2, type_of_str_keyword]
  have h2 : ∀ s0 : LexState, tokenize_step s0 ' ' (c :: (cs ++ ';' :: rest)) =
      (.ok s0, c :: (cs ++ ';' :: rest)) := by
    intro s0
    rw [tokenize_step_space _ ' ' _ (by decide)]
    rfl
  have h3 := tokenize_step_declaration
    { s with expect_identifier_declaration := true,
             token_list := s.token_list ++ [⟨TOKEN_KEYWORD, "number", s.line⟩],
             out := s.out ++ ["Keyword(number)"] } c cs (';' :: rest) hc hcs
    (by intro d hd; simp at hd; subst hd; decide) hlen hkw rfl
    (by simp only [List.length_append, List.length_singleton]; omega)
  have hsrc : "number ".toList ++ (c :: cs) ++ ';' :: rest
      = 'n' :: ("umber".toList ++ (' ' :: c :: (cs ++ ';' :: rest))) := by
    simp
  rw [hsrc, tokenize_loop_ok_step h1, tokenize_loop_ok_step (h2 _), tokenize_loop_ok_step h3,
    tokenize_loop_ok_step (by
      rw [tokenize_step_semicolon, write_token_room _ _ _ _ (by
        simp only [List.length_append, List.length_singleton]
        omega)])]
  congr 1
  unfold declare_identifier
  split_ifs <;> simp [type_of_str_semicolon, token_line, stored_value]

theorem copies_length (n : Nat) (t : List Char) : (copies n t).length = n * t.length := by
  induction n with
  | zero => simp [copies]
  | succ k ih => simp only [copies, List.length_append, ih]; rw [Nat.succ_mul]; omega

/-- The lexer on `n` copies of the text `number w;`: three tokens for each copy,
and the declaration set grows by copies of `w` only, up to its capacity. -/
theorem lex_declarations (c : Char) (cs : List Char) (hc : is_identifier_start c = true)
    (hcs : cs.all is_identifier_char = true) (hlen : (c :: cs).length ≤ 20)
    (hkw : is_keyword (String.mk (c :: cs)) = false) (n : Nat) :
    ∀ (s : LexState) (rest : List Char) (f : Nat),
      s.token_list.length + 3 * n ≤ MAX_TOKENS →
      ∃ s1, tokenize_loop (f + 4 * n) s
            (copies n ("number ".toList ++ (c :: cs) ++ [';']) ++ rest)
          = tokenize_loop f s1 rest ∧
        s1.line = s.line ∧ s1.diag = s.diag ∧
        s1.token_list.length = s.token_list.length + 3 * n ∧
        (∀ w ∈ s1.declared_identifiers,
          w ∈ s.declared_identifiers ∨ w = String.mk (c :: cs)) ∧
        min MAX_IDENTIFIERS (s.declared_identifiers.length + n)
          ≤ s1.declared_identifiers.length := by
  induction n with
  | zero =>
    intro s rest f _
    exact ⟨s, rfl, rfl, rfl, rfl, fun w hw => Or.inl hw, by simp⟩
  | succ k ih =>
    intro s rest f hroom
    have hstep := lex_declaration s c cs
      (copies k ("number ".toList ++ (c :: cs) ++ [';']) ++ rest) (f + 4 * k) hc hcs hlen hkw
      (by omega)
    obtain ⟨s1, h1, hline, hdiag, htok, hmem, hcap⟩ := ih
      { line := s.line, expect_identifier_declaration := false,
        declared_identifiers :=
          (declare_identifier s (String.mk (c :: cs))).declared_identifiers,
        token_list := s.token_list ++ [⟨TOKEN_KEYWORD, "number", s.line⟩,
          ⟨TOKEN_IDENTIFIER, String.mk (c :: cs), s.line⟩, ⟨TOKEN_ENDOFLINE, "", s.line⟩],
        out := s.out ++ ["Keyword(number)", "Identifier" ++ "(" ++ String.mk (c :: cs) ++ ")",
          "EndOfLine"],
        diag := s.diag } rest f (by
      simp only [List.length_append, List.length_cons, List.length_nil]
      omega)
    refine ⟨s1, ?_, hline, hdiag, ?_, ?_, ?_⟩
    · rw [← h1, ← hstep]
      congr 1
      simp [copies]
    · rw [htok]
      simp only [List.length_append, List.length_cons, List.length_nil]
      omega
    · intro w hw
      rcases hmem w hw with h | h
      · simp only [declare_identifier] at h
        split_ifs at h
        · rcases List.mem_append.1 h with h | h
          · exact Or.inl h
          · exact Or.inr (List.mem_singleton.1 h)
        · exact Or.inl h
      · exact Or.inr h
    · refine le_trans ?_ hcap
      simp only [declare_identifier]
      split_ifs
      · simp only [List.length_append, List.length_singleton]
        omega
      · omega

theorem lex_exit_of_exit {input : List Char} {s : LexState} (h : tokenize input = .exit s) :
    lex_exit input = some (s.diag, s.token_list.length) := by
  unfold lex_exit
  rw [h]

/-- C17 as stated fails: after 256 declarations `number x;` the source goes on
with `number y;y`. All 257 declarations are lexed (771 tokens), the word `y`
being written as the Identifier introduced by the last `number`; yet the next
occurrence of `y` ends the lexer with `'y' is not defined` (token 772 is the
Error token), because `declare_identifier` stores nothing once 256 names are
stored. -/
theorem C17_counterexample :
    lex_exit (copies 256 "number x;".toList ++ "number y;y".toList)
      = some ([.notDefined 1 "'y' is not defined"], 772) := by
  have hx : "number x;".toList = "number ".toList ++ ('x' :: []) ++ [';'] := by decide
  have hsrc : "number y;y".toList = "number ".toList ++ ('y' :: []) ++ ';' :: ('y' :: []) := by
    decide
  have hlen : (copies 256 "number x;".toList ++ "number y;y".toList).length
      = 1285 + 1 + 4 + 4 * 256 := by
    rw [List.length_append, copies_length]
    rfl
  obtain ⟨s1, h1, hline, hdiag, htok, hmem, hcap⟩ :=
    lex_declarations 'x' [] (by decide) (by decide) (by decide) (by decide!) 256 LexState.init
      ("number ".toList ++ ('y' :: []) ++ ';' :: ('y' :: [])) (1285 + 1 + 4) (by decide)
  have hline1 : s1.line = 1 := hline
  have hdiag1 : s1.diag = [] := hdiag
  have hlen1 : s1.token_list.length = 768 := htok
  have hfull : ¬ s1.declared_identifiers.length < MAX_IDENTIFIERS := by
    have h : min MAX_IDENTIFIERS (0 + 256) ≤ s1.declared_identifiers.length := hcap
    simp only [MAX_IDENTIFIERS] at h ⊢
    omega
  have hy : is_declared s1 (String.mk ('y' :: [])) = false := by
    unfold is_declared
    rw [List.contains_eq_any_beq, List.any_eq_false]
    intro w hw
    rcases hmem w hw with h | h
    · cases h
    · rw [h]; decide
  have h2 := lex_declaration s1 'y' [] ('y' :: []) (1285 + 1) (by decide) (by decide)
    (by decide) (by decide!) (by rw [hlen1]; decide)
  have hdecl : (declare_identifier s1 (String.mk ('y' :: []))).declared_identifiers
      = s1.declared_identifiers := by
    unfold declare_identifier
    rw [if_neg hfull]
  rw [hdecl, hline1, hdiag1] at h2
  have h3 := tokenize_step_word
    { line := 1, expect_identifier_declaration := false,
      declared_identifiers := s1.declared_identifiers,
      token_list := s1.token_list ++ [⟨TOKEN_KEYWORD, "number", 1⟩,
        ⟨TOKEN_IDENTIFIER, String.mk ('y' :: []), 1⟩, ⟨TOKEN_ENDOFLINE, "", 1⟩],
      out := s1.out ++ ["Keyword(number)", "Identifier" ++ "(" ++ String.mk ('y' :: []) ++ ")",
        "EndOfLine"],
      diag := [] } 'y' [] [] (by decide) (by decide) (by simp) (by decide)
  rw [if_neg (by decide!), if_neg (by simp), if_neg (by
    show ¬ (is_declared s1 (String.mk ('y' :: [])) = true)
    rw [hy]; simp),
    lex_error_room _ _ _ _ (by
      simp only [List.length_append, List.length_cons, List.length_nil]
      rw [hlen1]; decide)] at h3
  have h4 := tokenize_loop_exit_step (f := 1285) (congrArg Prod.fst h3)
  have hexit := lex_exit_of_exit (Eq.trans (by
    unfold tokenize
    rw [hlen, hx, hsrc, h1, h2]
    rfl) h4)
  rw [hexit]
  simp only [List.length_append, List.length_cons, List.length_nil, hlen1, List.nil_append]
  rfl

/-! ## Operators -/

theorem tokenize_step_assign_op (s : LexState) (c : Char) (rest : List Char)
    (hc : c = ':' ∨ c = '+' ∨ c = '-') :
    tokenize_step s c ('=' :: rest) = (write_token s "Operator" (some [c, '=']) s.line, rest) := by
  unfold tokenize_step tokenize_token newline_seen
  rcases hc with rfl | rfl | rfl
  · simp only [show (':' : Char) ≠ '\n' by decide, show (':' : Char) ≠ ';' by decide,
      show (':' : Char) ≠ '*' by decide, show (':' : Char) ≠ '{' by decide,
      show (':' : Char) ≠ '}' by decide, show (':' : Char) ≠ '"' by decide, if_false,
      true_or, if_true, and_self]
  · simp only [show ('+' : Char) ≠ '\n' by decide, show ('+' : Char) ≠ ';' by decide,
      show ('+' : Char) ≠ '*' by decide, show ('+' : Char) ≠ '{' by decide,
      show ('+' : Char) ≠ '}' by decide, show ('+' : Char) ≠ '"' by decide,
      show ('+' : Char) ≠ ':' by decide, if_false, false_and,
      true_or, or_true, if_true, and_self]
  · simp only [show ('-' : Char) ≠ '\n' by decide, show ('-' : Char) ≠ ';' by decide,
      show ('-' : Char) ≠ '*' by decide, show ('-' : Char) ≠ '{' by decide,
      show ('-' : Char) ≠ '}' by decide, show ('-' : Char) ≠ '"' by decide,
      show ('-' : Char) ≠ ':' by decide, show ('-' : Char) ≠ '+' by decide, if_false, false_and,
      true_or, or_true, if_true, and_self]

theorem tokenize_step_sign_digit (s : LexState) (sg d : Char) (rest : List Char)
    (hsg : sg = '+' ∨ sg = '-') (hd : isdigit d = true) :
    tokenize_step s sg (d :: rest) =
      (if (sg :: d :: rest.takeWhile isdigit).length ≥ 128 then .overrun s
        else if (d :: rest.takeWhile isdigit).length > 100 then
          .exit { s with diag := s.diag ++ [.intTooLong s.line] }
        else write_token s "IntConstant" (some (sg :: d :: rest.takeWhile isdigit)) s.line,
        rest.dropWhile isdigit) := by
  have hde : d ≠ '=' := by rintro rfl; exact absurd hd (by decide)
  have hil : intconstant_len (sg :: d :: rest.takeWhile isdigit)
      = (d :: rest.takeWhile isdigit).length := by
    rcases hsg with rfl | rfl <;> simp [intconstant_len]
  unfold tokenize_step tokenize_token newline_seen
  rcases hsg with rfl | rfl
  · simp only [show ('+' : Char) ≠ '\n' by decide, show ('+' : Char) ≠ ';' by decide,
      show ('+' : Char) ≠ '*' by decide, show ('+' : Char) ≠ '{' by decide,
      show ('+' : Char) ≠ '}' by decide, show ('+' : Char) ≠ '"' by decide,
      show ('+' : Char) ≠ ':' by decide, show ('+' : Char) ≠ '-' by decide, if_false,
      false_or, or_true, true_or, or_false, if_true, false_and, and_false,
      hde, true_and, hd, and_self, check_intconstant_length, hil]
    split_ifs <;> rfl
  · simp only [show ('-' : Char) ≠ '\n' by decide, show ('-' : Char) ≠ ';' by decide,
      show ('-' : Char) ≠ '*' by decide, show ('-' : Char) ≠ '{' by decide,
      show ('-' : Char) ≠ '}' by decide, show ('-' : Char) ≠ '"' by decide,
      show ('-' : Char) ≠ ':' by decide, show ('-' : Char) ≠ '+' by decide, if_false,
      false_or, or_true, true_or, or_false, if_true, false_and, and_false,
      hde, true_and, hd, and_self, check_intconstant_length, hil]
    split_ifs <;> rfl

theorem tokenize_step_single_op (s : LexState) (c : Char) (rest : List Char)
    (hc : c = ':' ∨ c = '+' ∨ c = '-')
    (hnext : ∀ n ∈ rest.head?, n ≠ '=' ∧ (c = ':' ∨ isdigit n = false)) :
    tokenize_step s c rest = (write_token s "Operator" (some [c]) s.line, rest) := by
  unfold tokenize_step tokenize_token newline_seen
  cases rest with
  | nil =>
    rcases hc with rfl | rfl | rfl
    · simp only [show (':' : Char) ≠ '\n' by decide, show (':' : Char) ≠ ';' by decide,
        show (':' : Char) ≠ '*' by decide, show (':' : Char) ≠ '{' by decide,
        show (':' : Char) ≠ '}' by decide, show (':' : Char) ≠ '"' by decide, if_false,
        true_or, if_true]
    · simp only [show ('+' : Char) ≠ '\n' by decide, show ('+' : Char) ≠ ';' by decide,
        show ('+' : Char) ≠ '*' by decide, show ('+' : Char) ≠ '{' by decide,
        show ('+' : Char) ≠ '}' by decide, show ('+' : Char) ≠ '"' by decide, if_false,
        true_or, or_true, if_true]
    · simp only [show ('-' : Char) ≠ '\n' by decide, show ('-' : Char) ≠ ';' by decide,
        show ('-' : Char) ≠ '*' by decide, show ('-' : Char) ≠ '{' by decide,
        show ('-' : Char) ≠ '}' by decide, show ('-' : Char) ≠ '"' by decide, if_false,
        true_or, or_true, if_true]
  | cons n rest1 =>
    obtain ⟨hne, hdig⟩ := hnext n (by simp)
    rcases hc with rfl | rfl | rfl
    · simp only [show (':' : Char) ≠ '\n' by decide, show (':' : Char) ≠ ';' by decide,
        show (':' : Char) ≠ '*' by decide, show (':' : Char) ≠ '{' by decide,
        show (':' : Char) ≠ '}' by decide, show (':' : Char) ≠ '"' by decide,
        show (':' : Char) ≠ '+' by decide, show (':' : Char) ≠ '-' by decide, if_false,
        true_or, if_true, hne, and_false, false_and, or_self]
    · have hdig2 : isdigit n = false := by
        rcases hdig with h | h
        · exact absurd h (by decide)
        · exact h
      simp only [show ('+' : Char) ≠ '\n' by decide, show ('+' : Char) ≠ ';' by decide,
        show ('+' : Char) ≠ '*' by decide, show ('+' : Char) ≠ '{' by decide,
        show ('+' : Char) ≠ '}' by decide, show ('+' : Char) ≠ '"' by decide,
        show ('+' : Char) ≠ ':' by decide, show ('+' : Char) ≠ '-' by decide, if_false,
        true_or, or_true, if_true, hne, and_false, false_and, or_self, hdig2,
        Bool.false_eq_true]
    · have hdig2 : isdigit n = false := by
        rcases hdig with h | h
        · exact absurd h (by decide)
        · exact h
      simp only [show ('-' : Char) ≠ '\n' by decide, show ('-' : Char) ≠ ';' by decide,
        show ('-' : Char) ≠ '*' by decide, show ('-' : Char) ≠ '{' by decide,
        show ('-' : Char) ≠ '}' by decide, show ('-' : Char) ≠ '"' by decide,
        show ('-' : Char) ≠ ':' by decide, show ('-' : Char) ≠ '+' by decide, if_false,
        true_or, or_true, if_true, hne, and_false, false_and, or_self, hdig2,
        Bool.false_eq_true]

theorem type_of_str_operator : type_of_str "Operator" = TOKEN_OPERATOR := by decide

theorem write_operator_room (s : LexState) (text : List Char) (hroom : s.token_list.length < MAX_TOKENS)
    (hnul : ∀ c ∈ text, c ≠ '\x00') (hlen : text.length ≤ 127) :
    write_token s "Operator" (some text) s.line = .ok { s with
      token_list := s.token_list ++ [⟨TOKEN_OPERATOR, String.mk text, s.line⟩],
      out := s.out ++ ["Operator" ++ "(" ++ String.mk text ++ ")"] } := by
  rw [write_token_room _ _ _ _ hroom, stored_value_short _ hnul hlen, token_line_no_nul _ _ hnul,
    type_of_str_operator]

/-- C19: at a `:`, `+` or `-` the lexer looks at the next character only. With
`=` next, both characters are handed to `write_token` as one Operator and the
input continues after the `=`. With a digit next after `+` or `-`, the sign
and all digits that follow (the longest run) form one integer literal, which
is checked for length and handed to `write_token` as IntConstant; the input
continues after the last digit. In every other case (another character, or end
of input) the single character is handed to `write_token` as Operator and the
input continues at the character looked at. While the token table has room,
`write_token` stores the operator text as one Operator token. -/
theorem C19_operator_lexing :
    (∀ (s : LexState) (c : Char) (rest : List Char), c = ':' ∨ c = '+' ∨ c = '-' →
        tokenize_step s c ('=' :: rest)
          = (write_token s "Operator" (some [c, '=']) s.line, rest) ∧
        (s.token_list.length < MAX_TOKENS →
          tokenize_step s c ('=' :: rest) = (.ok { s with
            token_list := s.token_list ++ [⟨TOKEN_OPERATOR, String.mk [c, '='], s.line⟩],
            out := s.out ++ ["Operator" ++ "(" ++ String.mk [c, '='] ++ ")"] }, rest))) ∧
    (∀ (s : LexState) (sg d : Char) (rest : List Char), sg = '+' ∨ sg = '-' →
        isdigit d = true →
        tokenize_step s sg (d :: rest) =
          (if (sg :: d :: rest.takeWhile isdigit).length ≥ 128 then .overrun s
            else if (d :: rest.takeWhile isdigit).length > 100 then
              .exit { s with diag := s.diag ++ [.intTooLong s.line] }
            else write_token s "IntConstant" (some (sg :: d :: rest.takeWhile isdigit)) s.line,
            rest.dropWhile isdigit)) ∧
    (∀ (s : LexState) (c : Char) (rest : List Char), c = ':' ∨ c = '+' ∨ c = '-' →
        (∀ n ∈ rest.head?, n ≠ '=' ∧ (c = ':' ∨ isdigit n = false)) →
        tokenize_step s c rest = (write_token s "Operator" (some [c]) s.line, rest) ∧
        (s.token_list.length < MAX_TOKENS →
          tokenize_step s c rest = (.ok { s with
            token_list := s.token_list ++ [⟨TOKEN_OPERATOR, String.mk [c], s.line⟩],
            out := s.out ++ ["Operator" ++ "(" ++ String.mk [c] ++ ")"] }, rest))) ∧
    tokens_of "number x;x:=-5;:x+-5-:=:5+" = some [⟨TOKEN_KEYWORD, "number", 1⟩,
      ⟨TOKEN_IDENTIFIER, "x", 1⟩, ⟨TOKEN_ENDOFLINE, "", 1⟩, ⟨TOKEN_IDENTIFIER, "x", 1⟩,
      ⟨TOKEN_OPERATOR, ":=", 1⟩, ⟨TOKEN_INTCONST, "-5", 1⟩, ⟨TOKEN_ENDOFLINE, "", 1⟩,
      ⟨TOKEN_OPERATOR, ":", 1⟩, ⟨TOKEN_IDENTIFIER, "x", 1⟩, ⟨TOKEN_OPERATOR, "+", 1⟩,
      ⟨TOKEN_INTCONST, "-5", 1⟩, ⟨TOKEN_OPERATOR, "-", 1⟩, ⟨TOKEN_OPERATOR, ":=", 1⟩,
      ⟨TOKEN_OPERATOR, ":", 1⟩, ⟨TOKEN_INTCONST, "5", 1⟩, ⟨TOKEN_OPERATOR, "+", 1⟩] := by
  have hnul : ∀ c : Char, c = ':' ∨ c = '+' ∨ c = '-' → c ≠ '\x00' := by
    rintro c (rfl | rfl | rfl) <;> decide
  refine ⟨?_, ?_, ?_, by decide!⟩
  · intro s c rest hc
    refine ⟨tokenize_step_assign_op s c rest hc, fun hroom => ?_⟩
    rw [tokenize_step_assign_op s c rest hc, write_operator_room s _ hroom _ (by simp)]
    intro d hd
    simp only [List.mem_cons, List.mem_singleton, List.not_mem_nil, or_false] at hd
    rcases hd with rfl | rfl
    · exact hnul _ hc
    · decide
  · intro s sg d rest hsg hd
    exact tokenize_step_sign_digit s sg d rest hsg hd
  · intro s c rest hc hnext
    refine ⟨tokenize_step_single_op s c rest hc hnext, fun hroom => ?_⟩
    rw [tokenize_step_single_op s c rest hc hnext, write_operator_room s _ hroom _ (by simp)]
    intro d hd
    simp only [List.mem_singleton] at hd
    rw [hd]
    exact hnul _ hc

/-- Witness for C19: `-` followed by `x` in the state that follows `number x;`. -/
theorem C19_operator_lexing_witness :
    tokenize_step { LexState.init with declared_identifiers := ["x"] } '-' ['x', ';']
      = (write_token { LexState.init with declared_identifiers := ["x"] } "Operator"
          (some ['-']) 1, ['x', ';']) :=
  ((C19_operator_lexing.2.2.1) { LexState.init with declared_identifiers := ["x"] } '-'
    ['x', ';'] (Or.inr (Or.inr rfl)) (by
      intro n hn
      simp only [List.head?_cons, Option.mem_def, Option.some.injEq] at hn
      subst hn
      exact ⟨by decide, Or.inr (by decide)⟩)).1

/-! ## The length of words -/

theorem tokenize_step_long_word (s : LexState) (c : Char) (cs rest : List Char)
    (hc : is_identifier_start c = true) (hcs : cs.all is_identifier_char = true)
    (hrest : ∀ d ∈ rest.head?, is_identifier_char d = false) (hlen : 20 < (c :: cs).length)
    (hbuf : (c :: cs).length ≤ 63) :
    tokenize_step s c (cs ++ rest)
      = (.exit { s with diag := s.diag ++ [.identTooLong s.line] }, rest) := by
  have h1 : c ≠ '\n' := by rintro rfl; exact absurd hc (by decide)
  have h2 : c ≠ ';' := by rintro rfl; exact absurd hc (by decide)
  have h3 : c ≠ '*' := by rintro rfl; exact absurd hc (by decide)
  have h4 : c ≠ '{' := by rintro rfl; exact absurd hc (by decide)
  have h5 : c ≠ '}' := by rintro rfl; exact absurd hc (by decide)
  have h6 : c ≠ '"' := by rintro rfl; exact absurd hc (by decide)
  have h7 : c ≠ ':' := by rintro rfl; exact absurd hc (by decide)
  have h8 : c ≠ '+' := by rintro rfl; exact absurd hc (by decide)
  have h9 : c ≠ '-' := by rintro rfl; exact absurd hc (by decide)
  have hd : isdigit c = false := identifier_start_not_isdigit hc
  have hlen2 : ¬ ((c :: cs).length ≥ 64) := by omega
  unfold tokenize_step tokenize_token newline_seen
  simp only [h1, h2, h3, h4, h5, h6, h7, h8, h9, if_false, or_self, hd, hc, if_true,
    takeWhile_append_run _ _ _ hcs hrest, dropWhile_append_run _ _ _ hcs hrest, hlen2,
    check_identifier_length, hlen, Bool.false_eq_true]

theorem tokenize_step_overlong_word (s : LexState) (c : Char) (cs rest : List Char)
    (hc : is_identifier_start c = true) (hcs : cs.all is_identifier_char = true)
    (hrest : ∀ d ∈ rest.head?, is_identifier_char d = false) (hbuf : 64 ≤ (c :: cs).length) :
    tokenize_step s c (cs ++ rest) = (.overrun s, rest) := by
  have h1 : c ≠ '\n' := by rintro rfl; exact absurd hc (by decide)
  have h2 : c ≠ ';' := by rintro rfl; exact absurd hc (by decide)
  have h3 : c ≠ '*' := by rintro rfl; exact absurd hc (by decide)
  have h4 : c ≠ '{' := by rintro rfl; exact absurd hc (by decide)
  have h5 : c ≠ '}' := by rintro rfl; exact absurd hc (by decide)
  have h6 : c ≠ '"' := by rintro rfl; exact absurd hc (by decide)
  have h7 : c ≠ ':' := by rintro rfl; exact absurd hc (by decide)
  have h8 : c ≠ '+' := by rintro rfl; exact absurd hc (by decide)
  have h9 : c ≠ '-' := by rintro rfl; exact absurd hc (by decide)
  have hd : isdigit c = false := identifier_start_not_isdigit hc
  have hlen2 : (c :: cs).length ≥ 64 := hbuf
  unfold tokenize_step tokenize_token newline_seen
  simp only [h1, h2, h3, h4, h5, h6, h7, h8, h9, if_false, or_self, hd, hc, if_true,
    takeWhile_append_run _ _ _ hcs hrest, dropWhile_append_run _ _ _ hcs hrest, hlen2,
    Bool.false_eq_true]

theorem write_token_not_length_exit (s0 s : LexState) (ty : String) (v : Option (List Char))
    (line l : Nat) (h0 : s0.diag = s.diag) :
    write_token s0 ty v line ≠ .exit { s with diag := s.diag ++ [.identTooLong l] } := by
  unfold write_token
  split_ifs
  · intro h
    simp only [LexRes.exit.injEq, LexState.mk.injEq] at h
    have := h.2.2.2.2.2
    rw [h0] at this
    simp at this
  · simp

theorem bind_not_length_exit (r : LexRes) (g : LexState → LexState) (s : LexState) (l : Nat)
    (h : r ≠ .exit { s with diag := s.diag ++ [.identTooLong l] }) :
    (r.bind fun s1 => .ok (g s1)) ≠ .exit { s with diag := s.diag ++ [.identTooLong l] } := by
  cases r with
  | ok s1 => simp [LexRes.bind]
  | exit s1 => exact h
  | overrun s1 => simp [LexRes.bind]
  | timeout => simp [LexRes.bind]

theorem lex_error_not_length_exit (s : LexState) (d : LexDiag) (msg : String) (line l : Nat)
    (hd : d ≠ .identTooLong l) :
    lex_error s d msg line ≠ .exit { s with diag := s.diag ++ [.identTooLong l] } := by
  by_cases hroom : s.token_list.length < MAX_TOKENS
  · rw [lex_error_room _ _ _ _ hroom]
    intro h
    simp only [LexRes.exit.injEq, LexState.mk.injEq] at h
    have := h.2.2.2.2.2
    simp only [List.append_cancel_left_eq, List.cons.injEq, and_true] at this
    exact hd this
  · rw [lex_error_full _ _ _ _ (by omega)]
    intro h
    simp only [LexRes.exit.injEq, LexState.mk.injEq] at h
    have := h.2.2.2.2.2
    simp at this

/-- C20 (code defect for words of 64 characters or more): for a word `c :: cs`
(a letter or underscore, then letters, digits and underscores up to a character
that is none of these or the end of input) that fits the 64-byte buffer `word`,
the lexer exits with the identifier-length diagnostic exactly when the word has
more than 20 characters; a word of at most 20 characters goes on to the keyword
test and is written as Keyword, registered and written as Identifier, written
as Identifier, or reported as not defined. A 20-letter name is declared and
used, a 21-letter name fails even after `number`, an undeclared 20-letter name
is reported as not defined. A word of 64 letters is written past the end of
`word` before its length is checked. -/
theorem C20_identifier_length_limit :
    (∀ (s : LexState) (c : Char) (cs rest : List Char),
        is_identifier_start c = true → cs.all is_identifier_char = true →
        (∀ d ∈ rest.head?, is_identifier_char d = false) → (c :: cs).length ≤ 63 →
        ((tokenize_step s c (cs ++ rest)).1
            = .exit { s with diag := s.diag ++ [.identTooLong s.line] } ↔
          20 < (c :: cs).length) ∧
        ((c :: cs).length ≤ 20 →
          tokenize_step s c (cs ++ rest) =
            (if is_keyword (String.mk (c :: cs)) then
              (write_token s "Keyword" (some (c :: cs)) s.line).bind fun s1 =>
                .ok (if String.mk (c :: cs) = "number" then
                  { s1 with expect_identifier_declaration := true } else s1)
            else if s.expect_identifier_declaration then
              (write_token (declare_identifier s (String.mk (c :: cs))) "Identifier"
                (some (c :: cs)) s.line).bind fun s1 =>
                  .ok { s1 with expect_identifier_declaration := false }
            else if is_declared s (String.mk (c :: cs)) then
              write_token s "Identifier" (some (c :: cs)) s.line
            else
              lex_error s (.notDefined s.line (not_defined_msg (c :: cs)))
                (not_defined_msg (c :: cs)) s.line, rest))) ∧
    tokens_of "number abcdefghijklmnopqrst;abcdefghijklmnopqrst:=1;"
      = some [⟨TOKEN_KEYWORD, "number", 1⟩, ⟨TOKEN_IDENTIFIER, "abcdefghijklmnopqrst", 1⟩,
        ⟨TOKEN_ENDOFLINE, "", 1⟩, ⟨TOKEN_IDENTIFIER, "abcdefghijklmnopqrst", 1⟩,
        ⟨TOKEN_OPERATOR, ":=", 1⟩, ⟨TOKEN_INTCONST, "1", 1⟩, ⟨TOKEN_ENDOFLINE, "", 1⟩] ∧
    lex_exit "number abcdefghijklmnopqrstu;".toList = some ([.identTooLong 1], 1) ∧
    lex_exit "abcdefghijklmnopqrst;".toList
      = some ([.notDefined 1 "'abcdefghijklmnopqrst' is not defined"], 1) ∧
    tokenize (List.replicate 64 'a') = .overrun LexState.init := by
  refine ⟨?_, by decide!, by decide!, by decide!, by decide!⟩
  intro s c cs rest hc hcs hrest hbuf
  constructor
  · constructor
    · intro h
      by_contra hle
      have hlen : (c :: cs).length ≤ 20 := by omega
      rw [tokenize_step_word s c cs rest hc hcs hrest hlen] at h
      simp only at h
      by_cases hk : is_keyword (String.mk (c :: cs)) = true
      · rw [if_pos hk] at h
        exact bind_not_length_exit _ _ _ _ (write_token_not_length_exit _ _ _ _ _ _ rfl) h
      rw [if_neg hk] at h
      by_cases hf : s.expect_identifier_declaration = true
      · rw [if_pos hf] at h
        refine bind_not_length_exit _ _ _ _ (write_token_not_length_exit _ _ _ _ _ _ ?_) h
        unfold declare_identifier
        split_ifs <;> rfl
      rw [if_neg hf] at h
      by_cases hdc : is_declared s (String.mk (c :: cs)) = true
      · rw [if_pos hdc] at h
        exact write_token_not_length_exit _ _ _ _ _ _ rfl h
      rw [if_neg hdc] at h
      exact lex_error_not_length_exit _ _ _ _ _ (by simp) h
    · intro h
      rw [tokenize_step_long_word s c cs rest hc hcs hrest h hbuf]
  · intro hlen
    exact tokenize_step_word s c cs rest hc hcs hrest hlen

/-- Witness for C20: the 21-letter word `abcdefghijklmnopqrstu` before a
semicolon. -/
theorem C20_identifier_length_limit_witness :
    (tokenize_step LexState.init 'a' ("bcdefghijklmnopqrstu".toList ++ [';'])).1
      = .exit { LexState.init with
          diag := LexState.init.diag ++ [.identTooLong LexState.init.line] } :=
  ((C20_identifier_length_limit.1 LexState.init 'a' "bcdefghijklmnopqrstu".toList [';']
    (by decide) (by decide) (by decide) (by decide)).1).2 (by decide)

/-! ## Sources of keywords and integer literals -/

theorem tokenize_loop_nil (f : Nat) (s : LexState) : tokenize_loop f s [] = .ok s := by
  cases f <;> rfl

theorem isspace_not_identifier_char {c : Char} (h : isspace c = true) :
    is_identifier_char c = false := by
  simp only [isspace, Bool.or_eq_true, beq_iff_eq] at h
  rcases h with ((((rfl | rfl) | rfl) | rfl) | rfl) | rfl <;> decide

theorem isspace_not_isdigit {c : Char} (h : isspace c = true) : isdigit c = false := by
  cases hd : isdigit c with
  | false => rfl
  | true => rw [isdigit_not_isspace c hd] at h; cases h

theorem newline_seen_tokens (s : LexState) (c : Char) :
    (newline_seen s c).token_list = s.token_list ∧ (newline_seen s c).out = s.out := by
  unfold newline_seen
  split_ifs <;> exact ⟨rfl, rfl⟩

/-- The main loop skips a run of white space and writes no token for it. -/
theorem tokenize_loop_spaces (ws : List Char) :
    ∀ (s : LexState) (rest : List Char), ws.all isspace = true →
      ∃ s1, (∀ f, tokenize_loop (f + ws.length) s (ws ++ rest) = tokenize_loop f s1 rest) ∧
        s1.token_list = s.token_list ∧ s1.out = s.out := by
  induction ws with
  | nil => intro s rest _; exact ⟨s, fun f => rfl, rfl, rfl⟩
  | cons c cs ih =>
    intro s rest h
    simp only [List.all_cons, Bool.and_eq_true] at h
    obtain ⟨s1, h1, h2, h3⟩ := ih (newline_seen s c) rest h.2
    refine ⟨s1, fun f => ?_, ?_, ?_⟩
    · rw [List.length_cons, ← Nat.add_assoc, List.cons_append,
        tokenize_loop_ok_step (tokenize_step_space s c (cs ++ rest) h.1), h1]
    · rw [h2, (newline_seen_tokens s c).1]
    · rw [h3, (newline_seen_tokens s c).2]

theorem keyword_cases {w : List Char} (h : is_keyword (String.mk w) = true) :
    w = "number".toList ∨ w = "repeat".toList ∨ w = "times".toList ∨ w = "write".toList ∨
      w = "newline".toList ∨ w = "and".toList := by
  have hk : ∀ k : String, String.mk w = k → w = k.toList := fun k hk => by rw [← hk]; rfl
  simp only [is_keyword, keywords, List.contains_cons, List.contains_nil, Bool.or_false,
    Bool.or_eq_true, beq_iff_eq] at h
  rcases h with h | h | h | h | h | h
  · exact Or.inl (hk _ h)
  · exact Or.inr (Or.inl (hk _ h))
  · exact Or.inr (Or.inr (Or.inl (hk _ h)))
  · exact Or.inr (Or.inr (Or.inr (Or.inl (hk _ h))))
  · exact Or.inr (Or.inr (Or.inr (Or.inr (Or.inl (hk _ h)))))
  · exact Or.inr (Or.inr (Or.inr (Or.inr (Or.inr (hk _ h)))))

/-- A keyword is a word of at most 20 characters. -/
theorem keyword_shape {w : List Char} (h : is_keyword (String.mk w) = true) :
    ∃ c cs, w = c :: cs ∧ is_identifier_start c = true ∧ cs.all is_identifier_char = true ∧
      (c :: cs).length ≤ 20 := by
  rcases keyword_cases h with rfl | rfl | rfl | rfl | rfl | rfl
  all_goals exact ⟨_, _, rfl, by decide, by decide, by decide⟩

theorem write_token_full (s : LexState) (ty : String) (v : Option (List Char)) (line : Nat)
    (h : MAX_TOKENS ≤ s.token_list.length) :
    write_token s ty v line = .exit { s with diag := s.diag ++ [.tooManyTokens] } := by
  unfold write_token
  rw [if_pos h]

theorem keyword_step (s : LexState) (w R : List Char) (hk : is_keyword (String.mk w) = true)
    (hR : ∀ d ∈ R.head?, isspace d = true) :
    ∃ c cs, w = c :: cs ∧ writes_word s c (cs ++ R) R ⟨TOKEN_KEYWORD, String.mk w, s.line⟩
      ("Keyword" ++ "(" ++ String.mk w ++ ")") := by
  obtain ⟨c, cs, rfl, hc, hcs, hlen⟩ := keyword_shape hk
  have hrest : ∀ d ∈ R.head?, is_identifier_char d = false :=
    fun d hd => isspace_not_identifier_char (hR d hd)
  have hnul := word_no_nul hc hcs
  have hstep := tokenize_step_word s c cs R hc hcs hrest hlen
  rw [if_pos hk] at hstep
  refine ⟨c, cs, rfl, ?_, ?_⟩
  · intro hroom
    rw [hstep, write_token_room _ _ _ _ hroom, stored_value_short _ hnul (by omega),
      token_line_no_nul _ _ hnul, type_of_str_keyword]
    simp only [LexRes.bind]
    refine ⟨_, rfl, ?_, ?_⟩ <;> split_ifs <;> rfl
  · intro hfull
    rw [hstep, write_token_full _ _ _ _ hfull]
    rfl

theorem digits_no_nul {ds : List Char} (h : ds.all isdigit = true) : ∀ d ∈ ds, d ≠ '\x00' :=
  fun d hd => isdigit_ne_nul (List.all_eq_true.1 h d hd)

theorem literal_step (s : LexState) (w R : List Char) (hl : is_int_literal w = true)
    (hR : ∀ d ∈ R.head?, isspace d = true) :
    ∃ c cs, w = c :: cs ∧ writes_word s c (cs ++ R) R ⟨TOKEN_INTCONST, String.mk w, s.line⟩
      ("IntConstant" ++ "(" ++ String.mk w ++ ")") := by
  have hrest : ∀ d ∈ R.head?, isdigit d = false := fun d hd => isspace_not_isdigit (hR d hd)
  have signed : ∀ (sg : Char) (ds : List Char), sg = '+' ∨ sg = '-' →
      (is_digits ds && decide (ds.length ≤ 100)) = true →
      ∃ c cs, sg :: ds = c :: cs ∧
        writes_word s c (cs ++ R) R ⟨TOKEN_INTCONST, String.mk (sg :: ds), s.line⟩
          ("IntConstant" ++ "(" ++ String.mk (sg :: ds) ++ ")") := by
    intro sg ds hsg h
    simp only [is_digits, Bool.and_eq_true, Bool.not_eq_true', List.isEmpty_eq_false,
      decide_eq_true_eq] at h
    obtain ⟨⟨hne, hall⟩, hlen⟩ := h
    cases ds with
    | nil => exact absurd rfl hne
    | cons d ds =>
      simp only [List.all_cons, Bool.and_eq_true] at hall
      simp only [List.length_cons] at hlen
      have hnul : ∀ x ∈ sg :: d :: ds, x ≠ '\x00' := by
        intro x hx
        rcases List.mem_cons.1 hx with rfl | hx
        · rcases hsg with rfl | rfl <;> decide
        · exact digits_no_nul (by simp [hall.1, hall.2]) x hx
      have hstep := tokenize_step_signed s sg d ds R hsg hall.1 hall.2 hrest
        (by simp only [List.length_cons]; omega)
      rw [if_neg (by simp only [List.length_cons]; omega)] at hstep
      refine ⟨sg, d :: ds, rfl, ?_, ?_⟩
      · intro hroom
        rw [hstep, write_token_room _ _ _ _ hroom,
          stored_value_short _ hnul (by simp only [List.length_cons]; omega),
          token_line_no_nul _ _ hnul, type_of_str_int]
        exact ⟨_, rfl, rfl, rfl⟩
      · intro hfull
        rw [hstep, write_token_full _ _ _ _ hfull]
  unfold is_int_literal at hl
  split at hl
  · exact signed '+' _ (Or.inl rfl) hl
  · exact signed '-' _ (Or.inr rfl) hl
  · next hp hm =>
    simp only [is_digits, Bool.and_eq_true, Bool.not_eq_true', List.isEmpty_eq_false,
      decide_eq_true_eq] at hl
    obtain ⟨⟨hne, hall⟩, hlen⟩ := hl
    cases w with
    | nil => exact absurd rfl hne
    | cons d ds =>
      simp only [List.all_cons, Bool.and_eq_true] at hall
      simp only [List.length_cons] at hlen
      have hnul : ∀ x ∈ d :: ds, x ≠ '\x00' :=
        digits_no_nul (by simp [hall.1, hall.2])
      have hstep := tokenize_step_unsigned s d ds R hall.1 hall.2 hrest
        (by simp only [List.length_cons]; omega)
      rw [if_neg (by simp only [List.length_cons]; omega)] at hstep
      refine ⟨d, ds, rfl, ?_, ?_⟩
      · intro hroom
        rw [hstep, write_token_room _ _ _ _ hroom,
          stored_value_short _ hnul (by simp only [List.length_cons]; omega),
          token_line_no_nul _ _ hnul, type_of_str_int]
        exact ⟨_, rfl, rfl, rfl⟩
      · intro hfull
        rw [hstep, write_token_full _ _ _ _ hfull]

theorem plain_word_step (s : LexState) (w R : List Char) (hw : is_plain_word w = true)
    (hR : ∀ d ∈ R.head?, isspace d = true) :
    ∃ c cs, w = c :: cs ∧ writes_word s c (cs ++ R) R ⟨plain_type w, String.mk w, s.line⟩
      (plain_kind w ++ "(" ++ String.mk w ++ ")") := by
  unfold plain_type plain_kind
  by_cases hk : is_keyword (String.mk w) = true
  · rw [if_pos hk, if_pos hk]
    exact keyword_step s w R hk hR
  · rw [if_neg hk, if_neg hk]
    have hl : is_int_literal w = true := by
      simp only [is_plain_word, Bool.or_eq_true] at hw
      rcases hw with h | h
      · exact absurd h hk
      · exact h
    exact literal_step s w R hl hR

theorem separated_tail {p : List Char × List Char} {rest : List (List Char × List Char)}
    (h : separated (p :: rest) = true) : separated rest = true := by
  cases rest with
  | nil => rfl
  | cons q rest =>
    obtain ⟨w, sep⟩ := p
    simp only [separated, Bool.and_eq_true] at h
    exact h.2

theorem separated_head {w sep : List Char} {rest : List (List Char × List Char)}
    (h : separated ((w, sep) :: rest) = true) (hsep : sep.all isspace = true) :
    ∀ d ∈ (sep ++ words_source rest).head?, isspace d = true := by
  intro d hd
  cases sep with
  | cons x xs =>
    simp only [List.cons_append, List.head?_cons, Option.mem_def, Option.some.injEq] at hd
    simp only [List.all_cons, Bool.and_eq_true] at hsep
    rw [← hd]
    exact hsep.1
  | nil =>
    cases rest with
    | nil => simp [words_source] at hd
    | cons q rest => simp [separated] at h

/-- The main loop on a source of plain words, from any state: one token per
word while the token table has room, the too-many-tokens exit when the words
outnumber the free slots. -/
theorem lex_words (items : List (List Char × List Char)) :
    ∀ (s : LexState) (f : Nat),
      (∀ p ∈ items, is_plain_word p.1 = true ∧ p.2.all isspace = true) →
      separated items = true → (words_source items).length ≤ f →
      s.token_list.length ≤ MAX_TOKENS →
      (s.token_list.length + items.length ≤ MAX_TOKENS →
        ∃ s1, tokenize_loop f s (words_source items) = .ok s1 ∧
          s1.token_list.map (fun t => (t.type, t.value))
            = s.token_list.map (fun t => (t.type, t.value)) ++
              items.map (fun p => (plain_type p.1, String.mk p.1)) ∧
          s1.out = s.out ++ items.map (fun p => plain_kind p.1 ++ "(" ++ String.mk p.1 ++ ")")) ∧
      (MAX_TOKENS < s.token_list.length + items.length →
        ∃ s1, tokenize_loop f s (words_source items) = .exit s1 ∧
          s1.diag.getLast? = some .tooManyTokens ∧ s1.token_list.length = MAX_TOKENS) := by
  induction items with
  | nil =>
    intro s f _ _ _ hcap
    refine ⟨fun _ => ⟨s, tokenize_loop_nil f s, by simp, by simp⟩, fun h => ?_⟩
    simp only [List.length_nil, Nat.add_zero] at h
    omega
  | cons p rest ih =>
    obtain ⟨w, sep⟩ := p
    intro s f hall hsepd hf hcap
    have hw := hall (w, sep) (List.mem_cons_self _ _)
    have hrestall : ∀ q ∈ rest, is_plain_word q.1 = true ∧ q.2.all isspace = true :=
      fun q hq => hall q (List.mem_cons_of_mem _ hq)
    obtain ⟨c, cs, rfl, hroomcase, hfullcase⟩ :=
      plain_word_step s w (sep ++ words_source rest) hw.1 (separated_head hsepd hw.2)
    have hsrc : words_source ((c :: cs, sep) :: rest)
        = c :: (cs ++ (sep ++ words_source rest)) := by
      simp [words_source]
    rw [hsrc] at hf ⊢
    simp only [List.length_cons, List.length_append] at hf
    obtain ⟨f1, rfl⟩ : ∃ f1, f = f1 + 1 := ⟨f - 1, by omega⟩
    by_cases hroom : s.token_list.length < MAX_TOKENS
    · obtain ⟨s1, hstep, htok, hout⟩ := hroomcase hroom
      obtain ⟨s2, hskip, htok2, hout2⟩ :=
        tokenize_loop_spaces sep s1 (words_source rest) hw.2
      obtain ⟨f2, rfl⟩ : ∃ f2, f1 = f2 + sep.length := ⟨f1 - sep.length, by omega⟩
      have hlen2 : s2.token_list.length = s.token_list.length + 1 := by
        rw [htok2, htok]; simp
      obtain ⟨ih1, ih2⟩ := ih s2 f2 hrestall (separated_tail hsepd) (by omega) (by omega)
      rw [tokenize_loop_ok_step hstep, hskip]
      simp only [List.length_cons]
      constructor
      · intro hle
        obtain ⟨s3, h3, h3t, h3o⟩ := ih1 (by omega)
        refine ⟨s3, h3, ?_, ?_⟩
        · rw [h3t, htok2, htok]; simp
        · rw [h3o, hout2, hout]; simp
      · intro hgt
        exact ih2 (by omega)
    · have hfull : MAX_TOKENS ≤ s.token_list.length := by omega
      simp only [List.length_cons]
      refine ⟨fun hle => by omega, fun _ => ?_⟩
      refine ⟨_, tokenize_loop_exit_step (hfullcase hfull), by simp, ?_⟩
      simp only
      omega

/-- The lexer on a whole source of plain words after leading white space. -/
theorem tokenize_plain_source (lead : List Char) (items : List (List Char × List Char))
    (hlead : lead.all isspace = true)
    (hall : ∀ p ∈ items, is_plain_word p.1 = true ∧ p.2.all isspace = true)
    (hsep : separated items = true) :
    (items.length ≤ MAX_TOKENS →
      ∃ s1, tokenize (lead ++ words_source items) = .ok s1 ∧
        s1.token_list.map (fun t => (t.type, t.value))
          = items.map (fun p => (plain_type p.1, String.mk p.1)) ∧
        s1.out = items.map (fun p => plain_kind p.1 ++ "(" ++ String.mk p.1 ++ ")")) ∧
    (MAX_TOKENS < items.length →
      ∃ s1, tokenize (lead ++ words_source items) = .exit s1 ∧
        s1.diag.getLast? = some .tooManyTokens ∧ s1.token_list.length = MAX_TOKENS) := by
  obtain ⟨s0, hskip, htok, hout⟩ := tokenize_loop_spaces lead LexState.init (words_source items) hlead
  have htok0 : s0.token_list = [] := htok
  have hout0 : s0.out = [] := hout
  obtain ⟨h1, h2⟩ := lex_words items s0 (words_source items).length hall hsep (le_refl _)
    (by rw [htok0]; simp)
  unfold tokenize
  rw [List.length_append, Nat.add_comm, hskip]
  rw [htok0] at h1 h2
  rw [hout0] at h1
  simp only [List.length_nil, Nat.zero_add, List.map_nil, List.nil_append] at h1 h2
  exact ⟨h1, h2⟩

theorem separated_replicate (n : Nat) (w sep : List Char) (h : sep.isEmpty = false) :
    separated (List.replicate n (w, sep)) = true := by
  induction n with
  | zero => rfl
  | succ k ih =>
    cases k with
    | zero => rfl
    | succ j =>
      rw [List.replicate_succ, List.replicate_succ, separated, ← List.replicate_succ, ih, h]
      rfl

/-- C18 as stated fails: the source of 1025 words `1`, each followed by a space,
is made only of integer literals separated by white space, yet lexing it exits
with the too-many-tokens diagnostic after 1024 tokens. -/
theorem C18_counterexample :
    (∀ p ∈ List.replicate 1025 (['1'], [' ']),
      is_plain_word p.1 = true ∧ p.2.all isspace = true) ∧
    separated (List.replicate 1025 (['1'], [' '])) = true ∧
    ∃ s1, tokenize (words_source (List.replicate 1025 (['1'], [' ']))) = .exit s1 ∧
      s1.diag.getLast? = some .tooManyTokens ∧ s1.token_list.length = 1024 := by
  have hall : ∀ p ∈ List.replicate 1025 ((['1'], [' ']) : List Char × List Char),
      is_plain_word p.1 = true ∧ p.2.all isspace = true := by
    intro p hp
    rw [List.eq_of_mem_replicate hp]
    exact ⟨by decide!, by decide⟩
  have hsep : separated (List.replicate 1025 (['1'], [' '])) = true :=
    separated_replicate 1025 _ _ rfl
  refine ⟨hall, hsep, ?_⟩
  have h := (tokenize_plain_source [] _ rfl hall hsep).2 (by rw [List.length_replicate]; decide)
  rw [List.nil_append] at h
  exact h

/-- C18 (amended): for every source made of at most 1024 words, each a keyword
or an integer literal (optional sign, 1 to 100 digits), with white space
between the words and possibly before the first and after the last, the lexer
returns normally with exactly one token per word in source order; each token has
the type Keyword or IntConstant of its word and stores the word as written,
and the diagnostic lines are `Keyword(word)` or `IntConstant(word)` in the
same order. With more than 1024 words the lexer exits with the
too-many-tokens diagnostic once 1024 tokens are stored. -/
theorem C18_token_round_trip :
    (∀ (lead : List Char) (items : List (List Char × List Char)),
        lead.all isspace = true →
        (∀ p ∈ items, is_plain_word p.1 = true ∧ p.2.all isspace = true) →
        separated items = true →
        (items.length ≤ MAX_TOKENS →
          ∃ s1, tokenize (lead ++ words_source items) = .ok s1 ∧
            s1.token_list.map (fun t => (t.type, t.value))
              = items.map (fun p => (plain_type p.1, String.mk p.1)) ∧
            s1.out = items.map (fun p => plain_kind p.1 ++ "(" ++ String.mk p.1 ++ ")")) ∧
        (MAX_TOKENS < items.length →
          ∃ s1, tokenize (lead ++ words_source items) = .exit s1 ∧
            s1.diag.getLast? = some .tooManyTokens ∧ s1.token_list.length = MAX_TOKENS)) ∧
    tokenize " repeat +007 times\nnumber -0 and 12".toList = .ok
      { line := 2, expect_identifier_declaration := true, declared_identifiers := [],
        token_list := [⟨TOKEN_KEYWORD, "repeat", 1⟩, ⟨TOKEN_INTCONST, "+007", 1⟩,
          ⟨TOKEN_KEYWORD, "times", 1⟩, ⟨TOKEN_KEYWORD, "number", 2⟩, ⟨TOKEN_INTCONST, "-0", 2⟩,
          ⟨TOKEN_KEYWORD, "and", 2⟩, ⟨TOKEN_INTCONST, "12", 2⟩],
        out := ["Keyword(repeat)", "IntConstant(+007)", "Keyword(times)", "Keyword(number)",
          "IntConstant(-0)", "Keyword(and)", "IntConstant(12)"],
        diag := [.debugLine 2] } := by
  refine ⟨?_, by decide!⟩
  intro lead items hlead hall hsep
  exact tokenize_plain_source lead items hlead hall hsep

/-- Witness for C18: the source ` write -01` of two words. -/
theorem C18_token_round_trip_witness :
    ∃ s1, tokenize ([' '] ++ words_source [("write".toList, [' ']), ("-01".toList, [])])
        = .ok s1 ∧
      s1.token_list.map (fun t => (t.type, t.value))
        = [("write".toList, [' ']), ("-01".toList, ([] : List Char))].map
            (fun p => (plain_type p.1, String.mk p.1)) ∧
      s1.out = [("write".toList, [' ']), ("-01".toList, ([] : List Char))].map
        (fun p => plain_kind p.1 ++ "(" ++ String.mk p.1 ++ ")") :=
  (C18_token_round_trip.1 [' '] [("write".toList, [' ']), ("-01".toList, [])] (by decide)
    (by
      intro p hp
      simp only [List.mem_cons, List.mem_singleton, List.not_mem_nil, or_false] at hp
      rcases hp with rfl | rfl
      · exact ⟨by decide!, by decide⟩
      · exact ⟨by decide!, by decide⟩)
    (by decide)).1 (by decide)

/-! ## What one round of the lexer stores -/

theorem write_token_ok_inv {s s1 : LexState} {ty : String} {v : Option (List Char)}
    {line : Nat} (h : write_token s ty v line = .ok s1) :
    s.token_list.length < MAX_TOKENS ∧
      s1 = { s with
        token_list := s.token_list ++
          [{ type := type_of_str ty, value := stored_value v, line := line }],
        out := s.out ++ [token_line ty v] } := by
  unfold write_token at h
  split_ifs at h with h1
  simp only [LexRes.ok.injEq] at h
  exact ⟨by omega, h.symm⟩

/-- A token that is neither an identifier nor the keyword `number`, written at
the line counter, makes a round. -/
theorem lex_round_plain {s sl s1 : LexState} {ty : String} {v : Option (List Char)}
    (h : write_token sl ty v sl.line = .ok s1) (hl : s.line ≤ sl.line)
    (h1 : sl.token_list = s.token_list)
    (h2 : sl.expect_identifier_declaration = s.expect_identifier_declaration)
    (h3 : sl.declared_identifiers = s.declared_identifiers)
    (hty : type_of_str ty ≠ TOKEN_IDENTIFIER) (hk : type_of_str ty ≠ TOKEN_KEYWORD)
    (hwf : Token.well_formed ⟨type_of_str ty, stored_value v, sl.line⟩ = true) :
    lex_round s s1 := by
  obtain ⟨hroom, rfl⟩ := write_token_ok_inv h
  refine ⟨hl, Or.inr ⟨_, by rw [← h1]; exact hroom, by rw [← h1], rfl, hwf, ?_⟩⟩
  unfold lex_flags
  rw [if_neg hty]
  refine ⟨h3, ?_⟩
  have : (type_of_str ty == TOKEN_KEYWORD) = false := by simpa using hk
  simp only [this, Bool.false_and, Bool.or_false]
  exact h2

theorem type_of_str_open : type_of_str "OpenBlock" = TOKEN_OPENBLOCK := by decide

theorem type_of_str_close : type_of_str "CloseBlock" = TOKEN_CLOSEBLOCK := by decide

theorem well_formed_string (str : List Char) (line : Nat) :
    Token.well_formed ⟨TOKEN_STRINGCONST, stored_value (some str), line⟩ = true := by
  simp only [Token.well_formed, stored_value, decide_eq_true_eq]
  exact List.length_take_le _ _

theorem is_int_literal_unsigned {c : Char} {ds : List Char} (hc : isdigit c = true)
    (hds : ds.all isdigit = true) (hlen : (c :: ds).length ≤ 100) :
    is_int_literal (c :: ds) = true := by
  unfold is_int_literal
  split
  · next heq => rw [(List.cons.inj heq).1] at hc; exact absurd hc (by decide)
  · next heq => rw [(List.cons.inj heq).1] at hc; exact absurd hc (by decide)
  · simp only [is_digits, List.isEmpty_cons, Bool.not_false, List.all_cons, hc, hds,
      Bool.and_self, Bool.true_and, decide_eq_true_eq]
    exact hlen

theorem is_int_literal_signed {sg d : Char} {ds : List Char} (hsg : sg = '+' ∨ sg = '-')
    (hd : isdigit d = true) (hds : ds.all isdigit = true) (hlen : (d :: ds).length ≤ 100) :
    is_int_literal (sg :: d :: ds) = true := by
  rcases hsg with rfl | rfl
  all_goals
    simp only [is_int_literal, is_digits, List.isEmpty_cons, Bool.not_false, List.all_cons, hd,
      hds, Bool.and_self, Bool.true_and, decide_eq_true_eq]
    exact hlen

theorem well_formed_literal {num : List Char} (line : Nat) (hl : is_int_literal num = true)
    (hnul : ∀ x ∈ num, x ≠ '\x00') (hlen : num.length ≤ 127) :
    Token.well_formed ⟨TOKEN_INTCONST, stored_value (some num), line⟩ = true := by
  rw [stored_value_short _ hnul hlen]
  exact hl

theorem scan_comment_line (cs : List Char) :
    ∀ line, line ≤ (scan_comment cs line).1 := by
  induction cs with
  | nil => intro line; exact Nat.le_refl _
  | cons c cs ih =>
    intro line
    unfold scan_comment
    split_ifs
    · exact Nat.le_refl _
    · exact Nat.le_trans (Nat.le_succ _) (ih _)
    · exact ih _

theorem scan_string_line (cs : List Char) :
    ∀ i line str, line ≤ (scan_string cs i line str).1 := by
  induction cs with
  | nil => intro i line str; exact Nat.le_refl _
  | cons c cs ih =>
    intro i line str
    unfold scan_string
    split_ifs
    · exact Nat.le_refl _
    · exact Nat.le_trans (Nat.le_succ _) (ih _ _ _)
    · exact ih _ _ _
    · exact Nat.le_refl _

theorem well_formed_operator {op : List Char} (line : Nat)
    (h : op = [':', '='] ∨ op = ['+', '='] ∨ op = ['-', '='] ∨ op = [':'] ∨ op = ['+'] ∨
      op = ['-']) :
    Token.well_formed ⟨TOKEN_OPERATOR, stored_value (some op), line⟩ = true := by
  rcases h with rfl | rfl | rfl | rfl | rfl | rfl <;> rfl

theorem takeWhile_digits_no_nul {c : Char} {rest : List Char} (hc : c ≠ '\x00') :
    ∀ x ∈ c :: rest.takeWhile isdigit, x ≠ '\x00' := by
  intro x hx
  rcases List.mem_cons.1 hx with rfl | hx
  · exact hc
  · exact isdigit_ne_nul (List.mem_takeWhile_imp hx)

/-- A round of the main loop that returns normally keeps the line counter from
going back and stores at most one token, which is well formed. -/
theorem tokenize_token_round (s : LexState) (c : Char) (rest : List Char) (s1 : LexState)
    (h : (tokenize_token s c rest).1 = .ok s1) : lex_round s s1 := by
  have plain : ∀ (ty : String) (v : Option (List Char)),
      write_token s ty v s.line = .ok s1 → type_of_str ty ≠ TOKEN_IDENTIFIER →
      type_of_str ty ≠ TOKEN_KEYWORD →
      Token.well_formed ⟨type_of_str ty, stored_value v, s.line⟩ = true → lex_round s s1 :=
    fun ty v hw h1 h2 h3 => lex_round_plain hw (Nat.le_refl _) rfl rfl rfl h1 h2 h3
  unfold tokenize_token at h
  by_cases h1 : c = ';'
  · rw [if_pos h1] at h
    exact plain _ _ h (by decide) (by decide) rfl
  rw [if_neg h1] at h
  by_cases h2 : c = '*'
  · rw [if_pos h2] at h
    split at h
    · next line rest1 heq =>
      simp only [LexRes.ok.injEq] at h
      rw [← h]
      refine ⟨?_, Or.inl ⟨rfl, rfl, rfl⟩⟩
      have := scan_comment_line rest s.line
      rw [heq] at this
      exact this
    · exact absurd h (lex_error_not_ok _ _ _ _ _)
  rw [if_neg h2] at h
  by_cases h3 : c = '{'
  · rw [if_pos h3] at h
    exact plain _ _ h (by decide) (by decide) rfl
  rw [if_neg h3] at h
  by_cases h4 : c = '}'
  · rw [if_pos h4] at h
    exact plain _ _ h (by decide) (by decide) rfl
  rw [if_neg h4] at h
  by_cases h5 : c = '"'
  · rw [if_pos h5] at h
    split at h
    · next line str rest1 heq =>
      have hle := scan_string_line rest 0 s.line []
      rw [heq] at hle
      refine @lex_round_plain s { s with line := line } s1 _ _ h hle rfl rfl rfl (by decide)
        (by decide) ?_
      rw [type_of_str_string]
      exact well_formed_string _ _
    · exact absurd h (lex_error_not_ok _ _ _ _ _)
  rw [if_neg h5] at h
  have hop : ∀ (op : List Char), write_token s "Operator" (some op) s.line = .ok s1 →
      (op = [':', '='] ∨ op = ['+', '='] ∨ op = ['-', '='] ∨ op = [':'] ∨ op = ['+'] ∨
        op = ['-']) → lex_round s s1 := by
    intro op hw hcase
    refine plain _ _ hw (by decide) (by decide) ?_
    rw [type_of_str_operator]
    exact well_formed_operator _ hcase
  have hlit : ∀ (num : List Char), write_token s "IntConstant" (some num) s.line = .ok s1 →
      is_int_literal num = true → (∀ x ∈ num, x ≠ '\x00') → num.length ≤ 127 →
      lex_round s s1 := by
    intro num hw hl hnul hlen
    refine plain _ _ hw (by decide) (by decide) ?_
    rw [type_of_str_int]
    exact well_formed_literal _ hl hnul hlen
  by_cases h6 : c = ':' ∨ c = '+' ∨ c = '-'
  · rw [if_pos h6] at h
    have hsingle : [c] = [':'] ∨ [c] = ['+'] ∨ [c] = ['-'] := by
      rcases h6 with rfl | rfl | rfl <;> simp
    have hsingle2 : ([c] = [':', '='] ∨ [c] = ['+', '='] ∨ [c] = ['-', '='] ∨ [c] = [':'] ∨
        [c] = ['+'] ∨ [c] = ['-']) := Or.inr (Or.inr (Or.inr hsingle))
    cases rest with
    | nil => exact hop _ h hsingle2
    | cons next rest1 =>
      simp only at h
      split_ifs at h with k1 k2 k3 k4 k5
      · exact hop _ h (Or.inl rfl)
      · exact hop _ h (Or.inr (Or.inl rfl))
      · exact hop _ h (Or.inr (Or.inr (Or.inl rfl)))
      · have hlen : ¬ ((c :: next :: rest1.takeWhile isdigit).length ≥ 128) := k5
        split at h
        · cases h
        · next hchk =>
          have hsg : c = '+' ∨ c = '-' := k4.1.symm
          have hil : intconstant_len (c :: next :: rest1.takeWhile isdigit) =
              (next :: rest1.takeWhile isdigit).length := by
            rcases hsg with rfl | rfl <;> simp [intconstant_len]
          have hle : (next :: rest1.takeWhile isdigit).length ≤ 100 := by
            unfold check_intconstant_length at hchk
            split_ifs at hchk with hgt
            rw [hil] at hgt
            omega
          refine hlit _ h (is_int_literal_signed hsg k4.2 List.all_takeWhile hle) ?_
            (by simp only [List.length_cons] at hlen ⊢; omega)
          intro x hx
          rcases List.mem_cons.1 hx with rfl | hx
          · rcases hsg with rfl | rfl <;> decide
          · exact takeWhile_digits_no_nul (isdigit_ne_nul k4.2) x hx
      · exact hop _ h hsingle2
  rw [if_neg h6] at h
  by_cases h7 : isdigit c = true
  · rw [if_pos h7] at h
    simp only at h
    split_ifs at h with hlen
    split at h
    · cases h
    · next hchk =>
      have hil : intconstant_len (c :: rest.takeWhile isdigit) =
          (c :: rest.takeWhile isdigit).length := by
        unfold intconstant_len
        split
        · next heq => rw [(List.cons.inj heq).1] at h7; exact absurd h7 (by decide)
        · next heq => rw [(List.cons.inj heq).1] at h7; exact absurd h7 (by decide)
        · rfl
      have hle : (c :: rest.takeWhile isdigit).length ≤ 100 := by
        unfold check_intconstant_length at hchk
        split_ifs at hchk with hgt
        rw [hil] at hgt
        omega
      exact hlit _ h (is_int_literal_unsigned h7 List.all_takeWhile hle)
        (takeWhile_digits_no_nul (isdigit_ne_nul h7)) (by omega)
  rw [if_neg h7] at h
  by_cases h8 : is_identifier_start c = true
  · rw [if_pos h8] at h
    clear plain hop hlit
    simp only at h
    by_cases h9 : (c :: rest.takeWhile is_identifier_char).length ≥ 64
    · rw [if_pos h9] at h; cases h
    rw [if_neg h9] at h
    split at h
    · cases h
    next hchk =>
    have hle : (c :: rest.takeWhile is_identifier_char).length ≤ 20 := by
      unfold check_identifier_length at hchk
      split_ifs at hchk with hgt
      omega
    have hnul : ∀ x ∈ c :: rest.takeWhile is_identifier_char, x ≠ '\x00' :=
      word_no_nul h8 List.all_takeWhile
    have hval : stored_value (some (c :: rest.takeWhile is_identifier_char)) =
        String.mk (c :: rest.takeWhile is_identifier_char) :=
      stored_value_short _ hnul (by omega)
    by_cases h10 : is_keyword (String.mk (c :: rest.takeWhile is_identifier_char)) = true
    · rw [if_pos h10] at h
      obtain ⟨s0, hs0, rfl⟩ := LexRes.bind_ok_inv h
      obtain ⟨hroom, rfl⟩ := write_token_ok_inv hs0
      rw [hval, type_of_str_keyword]
      have hflags : ∀ b : Bool, b = (String.mk (c :: rest.takeWhile is_identifier_char) ==
          "number") → ∀ sx : LexState, sx.declared_identifiers = s.declared_identifiers →
          sx.expect_identifier_declaration = (s.expect_identifier_declaration || b) →
          lex_flags s ⟨TOKEN_KEYWORD, String.mk (c :: rest.takeWhile is_identifier_char),
            s.line⟩ sx := by
        intro b hb sx hd hf
        unfold lex_flags
        rw [if_neg (by simp)]
        refine ⟨hd, ?_⟩
        rw [hf, hb]
        simp
      by_cases hn : String.mk (c :: rest.takeWhile is_identifier_char) = "number"
      · rw [if_pos hn]
        exact ⟨Nat.le_refl _, Or.inr ⟨_, hroom, rfl, rfl, h10,
          hflags true (by simp [hn]) _ rfl (by simp)⟩⟩
      · rw [if_neg hn]
        exact ⟨Nat.le_refl _, Or.inr ⟨_, hroom, rfl, rfl, h10,
          hflags false (by simp [hn]) _ rfl (by simp)⟩⟩
    rw [if_neg h10] at h
    have hword : Token.well_formed ⟨TOKEN_IDENTIFIER,
        String.mk (c :: rest.takeWhile is_identifier_char), s.line⟩ = true := by
      show is_identifier_word (c :: rest.takeWhile is_identifier_char) = true
      simp only [is_identifier_word, h8, List.all_takeWhile, Bool.and_self,
        Bool.true_and, Bool.and_eq_true, decide_eq_true_eq, Bool.not_eq_true']
      exact ⟨hle, by simpa using h10⟩
    by_cases h11 : s.expect_identifier_declaration = true
    · rw [if_pos h11] at h
      obtain ⟨s0, hs0, rfl⟩ := LexRes.bind_ok_inv h
      obtain ⟨hroom, rfl⟩ := write_token_ok_inv hs0
      have hf := declare_identifier_fields s (String.mk (c :: rest.takeWhile is_identifier_char))
      rw [hval, type_of_str_identifier]
      refine ⟨?_, Or.inr ⟨⟨TOKEN_IDENTIFIER, String.mk (c :: rest.takeWhile is_identifier_char),
        s.line⟩, ?_, ?_, ?_, hword, ?_⟩⟩
      · simp only [hf.1]; exact Nat.le_refl _
      · rw [← hf.2.1]; exact hroom
      · simp only [hf.2.1]
      · simp only [hf.1]
      · unfold lex_flags
        rw [if_pos rfl]
        exact ⟨rfl, Or.inl ⟨h11, rfl⟩⟩
    rw [if_neg h11] at h
    split_ifs at h with h12
    · obtain ⟨hroom, rfl⟩ := write_token_ok_inv h
      rw [hval, type_of_str_identifier]
      refine ⟨Nat.le_refl _, Or.inr ⟨⟨TOKEN_IDENTIFIER,
        String.mk (c :: rest.takeWhile is_identifier_char), s.line⟩, hroom, rfl, rfl, hword, ?_⟩⟩
      unfold lex_flags
      rw [if_pos rfl]
      have hfalse : s.expect_identifier_declaration = false := by simpa using h11
      refine ⟨hfalse, Or.inr ⟨hfalse, ?_, rfl⟩⟩
      simpa [is_declared] using h12
    · exact absurd h (lex_error_not_ok _ _ _ _ _)
  rw [if_neg h8] at h
  split_ifs at h
  · exact absurd h (lex_error_not_ok _ _ _ _ _)
  · simp only [LexRes.ok.injEq] at h
    rw [← h]
    exact ⟨Nat.le_refl _, Or.inl ⟨rfl, rfl, rfl⟩⟩

/-! ## What the rounds of the lexer keep -/

theorem declare_identifier_congr {s sl : LexState} (name : String)
    (h : sl.declared_identifiers = s.declared_identifiers) :
    (declare_identifier sl name).declared_identifiers =
      (declare_identifier s name).declared_identifiers := by
  unfold declare_identifier
  rw [h]
  split_ifs
  · simp only [h]
  · exact h

theorem lex_flags_congr {s sl s1 : LexState} {t : Token}
    (h2 : sl.expect_identifier_declaration = s.expect_identifier_declaration)
    (h3 : sl.declared_identifiers = s.declared_identifiers) (h : lex_flags sl t s1) :
    lex_flags s t s1 := by
  unfold lex_flags at h ⊢
  rw [h2, h3, declare_identifier_congr _ h3] at h
  exact h

theorem lex_round_congr {s sl s1 : LexState} (hl : s.line ≤ sl.line)
    (h1 : sl.token_list = s.token_list)
    (h2 : sl.expect_identifier_declaration = s.expect_identifier_declaration)
    (h3 : sl.declared_identifiers = s.declared_identifiers) (h : lex_round sl s1) :
    lex_round s s1 := by
  obtain ⟨hle, h⟩ := h
  refine ⟨Nat.le_trans hl hle, ?_⟩
  rcases h with ⟨a, b, c⟩ | ⟨t, a, b, c, d, e⟩
  · exact Or.inl ⟨by rw [a, h1], by rw [b, h2], by rw [c, h3]⟩
  · exact Or.inr ⟨t, by rw [← h1]; exact a, by rw [b, h1], c, d, lex_flags_congr h2 h3 e⟩

/-- Every round of the main loop that returns normally is a round in the sense
of `lex_round`. -/
theorem tokenize_step_round {s s1 : LexState} {c : Char} {rest rest1 : List Char}
    (h : tokenize_step s c rest = (.ok s1, rest1)) : lex_round s s1 := by
  unfold tokenize_step at h
  have hr := tokenize_token_round (newline_seen s c) c rest s1 (by rw [h])
  refine lex_round_congr ?_ ?_ ?_ ?_ hr
  all_goals
    unfold newline_seen
    split_ifs
    · first
      | exact Nat.le_succ _
      | rfl
    · first
      | exact Nat.le_refl _
      | rfl

/-- A property of lexer states kept by every round holds of the state that
`tokenize` returns. -/
theorem tokenize_loop_inv (P : LexState → Prop)
    (hP : ∀ s s1, P s → lex_round s s1 → P s1) :
    ∀ (f : Nat) (s : LexState) (input : List Char) (s1 : LexState), P s →
      tokenize_loop f s input = .ok s1 → P s1 := by
  intro f
  induction f with
  | zero =>
    intro s input s1 hs h
    cases input with
    | nil => simp only [tokenize_loop, LexRes.ok.injEq] at h; rw [← h]; exact hs
    | cons c rest => simp [tokenize_loop] at h
  | succ f ih =>
    intro s input s1 hs h
    cases input with
    | nil => simp only [tokenize_loop, LexRes.ok.injEq] at h; rw [← h]; exact hs
    | cons c rest =>
      unfold tokenize_loop at h
      cases hstep : tokenize_step s c rest with
      | mk r rest1 =>
        rw [hstep] at h
        cases r with
        | ok s2 => exact ih s2 rest1 s1 (hP s s2 hs (tokenize_step_round hstep)) h
        | exit s2 => cases h
        | overrun s2 => cases h
        | timeout => cases h

theorem tokenize_inv (P : LexState → Prop) (h0 : P LexState.init)
    (hP : ∀ s s1, P s → lex_round s s1 → P s1) {input : List Char} {s : LexState}
    (h : tokenize input = .ok s) : P s :=
  tokenize_loop_inv P hP _ _ _ _ h0 h

/-- The token table never holds more than `MAX_TOKENS` tokens. -/
theorem tokenize_room {input : List Char} {s : LexState} (h : tokenize input = .ok s) :
    s.token_list.length ≤ MAX_TOKENS := by
  refine tokenize_inv (fun s => s.token_list.length ≤ MAX_TOKENS) (by decide) ?_ h
  intro s s1 hs hr
  rcases hr.2 with ⟨a, _, _⟩ | ⟨t, a, b, _⟩
  · rw [a]; exact hs
  · rw [b, List.length_append, List.length_singleton]; omega

/-- Every stored token is well formed. -/
theorem tokenize_well_formed {input : List Char} {s : LexState} (h : tokenize input = .ok s) :
    ∀ t ∈ s.token_list, t.well_formed = true := by
  refine tokenize_inv (fun s => ∀ t ∈ s.token_list, t.well_formed = true) ?_ ?_ h
  · intro t ht; cases ht
  intro s s1 hs hr
  rcases hr.2 with ⟨a, _, _⟩ | ⟨t, _, b, _, d, _⟩
  · rw [a]; exact hs
  · rw [b]
    intro u hu
    rcases List.mem_append.1 hu with hu | hu
    · exact hs u hu
    · rw [List.mem_singleton.1 hu]; exact d

/-- The lines of the stored tokens start at 1, never go back, and stay at or
below the line counter. -/
theorem tokenize_lines {input : List Char} {s : LexState} (h : tokenize input = .ok s) :
    (∀ t ∈ s.token_list, 1 ≤ t.line ∧ t.line ≤ s.line) ∧ lines_ordered s.token_list := by
  have := tokenize_inv (fun s => 1 ≤ s.line ∧ (∀ t ∈ s.token_list, 1 ≤ t.line ∧ t.line ≤ s.line) ∧
    lines_ordered s.token_list) ?_ ?_ h
  · exact this.2
  · refine ⟨by decide, ?_, ?_⟩
    · intro t ht; cases ht
    · intro i t u ht; simp [LexState.init] at ht
  intro s s1 ⟨h1, h2, h3⟩ hr
  have hle := hr.1
  rcases hr.2 with ⟨a, _, _⟩ | ⟨t, _, b, c, _, _⟩
  · rw [a]
    exact ⟨by omega, fun t ht => ⟨(h2 t ht).1, Nat.le_trans (h2 t ht).2 hle⟩, h3⟩
  · rw [b]
    refine ⟨by omega, ?_, ?_⟩
    · intro u hu
      rcases List.mem_append.1 hu with hu | hu
      · exact ⟨(h2 u hu).1, Nat.le_trans (h2 u hu).2 hle⟩
      · rw [List.mem_singleton.1 hu, c]; exact ⟨by omega, Nat.le_refl _⟩
    · intro i x y hx hy
      by_cases hi : i + 1 < s.token_list.length
      · rw [List.getElem?_append_left (by omega)] at hx
        rw [List.getElem?_append_left hi] at hy
        exact h3 i x y hx hy
      · have hi2 : i + 1 = s.token_list.length := by
          have := (List.getElem?_eq_some.1 hy).1
          rw [List.length_append, List.length_singleton] at this
          omega
        rw [List.getElem?_append_left (by omega)] at hx
        rw [List.getElem?_append_right (by omega), hi2, Nat.sub_self] at hy
        simp only [List.getElem?_cons_zero, Option.some.injEq] at hy
        rw [← hy, c]
        exact Nat.le_trans (h2 x (List.mem_iff_getElem?.2 ⟨i, hx⟩)).2 hle

/-! ## The token table and its tokens -/

theorem string_mk_toList (s : String) : String.mk s.toList = s := rfl

theorem keyword_length {v : String} (h : v ∈ keywords) : v.length ≤ 7 := by
  simp only [keywords, List.mem_cons, List.mem_singleton, List.not_mem_nil, or_false] at h
  rcases h with rfl | rfl | rfl | rfl | rfl | rfl <;> decide

theorem operator_length {v : String} (h : v ∈ operators) : v.length ≤ 2 := by
  simp only [operators, List.mem_cons, List.mem_singleton, List.not_mem_nil, or_false] at h
  rcases h with rfl | rfl | rfl | rfl | rfl | rfl <;> decide

theorem is_digits_inv {ds : List Char} (h : is_digits ds = true) :
    1 ≤ ds.length ∧ ∀ d ∈ ds, isdigit d = true := by
  simp only [is_digits, Bool.and_eq_true, Bool.not_eq_true', List.isEmpty_eq_false,
    List.all_eq_true] at h
  refine ⟨?_, h.2⟩
  cases ds with
  | nil => exact absurd rfl h.1
  | cons d ds => simp

/-- An integer literal is an optional sign followed by 1 to 100 digits. -/
theorem is_int_literal_inv {w : List Char} (h : is_int_literal w = true) :
    ∃ sign ds, w = sign ++ ds ∧ (sign = [] ∨ sign = ['+'] ∨ sign = ['-']) ∧ 1 ≤ ds.length ∧
      ds.length ≤ 100 ∧ ∀ d ∈ ds, isdigit d = true := by
  unfold is_int_literal at h
  split at h
  · next ds =>
    simp only [Bool.and_eq_true, decide_eq_true_eq] at h
    exact ⟨['+'], ds, rfl, Or.inr (Or.inl rfl), (is_digits_inv h.1).1, h.2, (is_digits_inv h.1).2⟩
  · next ds =>
    simp only [Bool.and_eq_true, decide_eq_true_eq] at h
    exact ⟨['-'], ds, rfl, Or.inr (Or.inr rfl), (is_digits_inv h.1).1, h.2, (is_digits_inv h.1).2⟩
  · simp only [Bool.and_eq_true, decide_eq_true_eq] at h
    exact ⟨[], w, rfl, Or.inl rfl, (is_digits_inv h.1).1, h.2, (is_digits_inv h.1).2⟩

/-- The shape of a well-formed token, kind by kind. -/
theorem well_formed_shape {t : Token} (h : t.well_formed = true) :
    (t.type = TOKEN_KEYWORD → t.value ∈ keywords) ∧
    (t.type = TOKEN_IDENTIFIER →
      t.value ∉ keywords ∧ 1 ≤ t.value.length ∧ t.value.length ≤ 20 ∧
      (∀ c ∈ t.value.toList, isalpha c = true ∨ isdigit c = true ∨ c = '_') ∧
      (∀ c, t.value.toList.head? = some c → isdigit c = false)) ∧
    (t.type = TOKEN_INTCONST →
      ∃ sign ds, t.value.toList = sign ++ ds ∧ (sign = [] ∨ sign = ['+'] ∨ sign = ['-']) ∧
        1 ≤ ds.length ∧ ds.length ≤ 100 ∧ ∀ d ∈ ds, isdigit d = true) ∧
    (t.type = TOKEN_OPERATOR → t.value ∈ operators) ∧
    (t.type = TOKEN_OPENBLOCK ∨ t.type = TOKEN_CLOSEBLOCK ∨ t.type = TOKEN_ENDOFLINE →
      t.value = "") ∧
    t.value.length ≤ 127 ∧ t.type ≠ TOKEN_ERROR := by
  obtain ⟨ty, v, line⟩ := t
  cases ty
  case TOKEN_KEYWORD =>
    have hk : v ∈ keywords := by simpa [Token.well_formed, is_keyword] using h
    have := keyword_length hk
    simp only [true_implies, reduceCtorEq, false_implies, false_or, or_self, ne_eq,
      not_false_eq_true, and_true, true_and]
    exact ⟨hk, by omega⟩
  case TOKEN_IDENTIFIER =>
    have hw : is_identifier_word v.toList = true := h
    simp only [true_implies, reduceCtorEq, false_implies, false_or, or_self, ne_eq,
      not_false_eq_true, and_true, true_and]
    have hlen : v.length = v.toList.length := rfl
    unfold is_identifier_word at hw
    split at hw
    · cases hw
    · next c cs heq =>
      simp only [Bool.and_eq_true, decide_eq_true_eq, Bool.not_eq_true', List.all_eq_true] at hw
      obtain ⟨⟨⟨hc, hcs⟩, hl⟩, hnk⟩ := hw
      have hv : String.mk (c :: cs) = v := by rw [← heq]; rfl
      rw [hv] at hnk
      rw [hlen, heq]
      refine ⟨⟨?_, ?_, hl, ?_, ?_⟩, by omega⟩
      · intro hmem
        have : is_keyword v = true := by simpa [is_keyword] using hmem
        rw [hnk] at this
        cases this
      · simp
      · intro d hd
        have hd2 : is_identifier_char d = true := by
          rcases List.mem_cons.1 hd with rfl | hd
          · exact identifier_start_is_char hc
          · exact hcs d hd
        simp only [is_identifier_char, isalnum, Bool.or_eq_true, beq_iff_eq] at hd2
        rcases hd2 with (h1 | h1) | h1
        · exact Or.inl h1
        · exact Or.inr (Or.inl h1)
        · exact Or.inr (Or.inr h1)
      · intro d hd
        simp only [List.head?_cons, Option.some.injEq] at hd
        rw [← hd]
        exact identifier_start_not_isdigit hc
  case TOKEN_INTCONST =>
    have hw : is_int_literal v.toList = true := h
    obtain ⟨sign, ds, h1, h2, h3, h4, h5⟩ := is_int_literal_inv hw
    simp only [true_implies, reduceCtorEq, false_implies, false_or, or_self, ne_eq,
      not_false_eq_true, and_true, true_and]
    refine ⟨⟨sign, ds, h1, h2, h3, h4, h5⟩, ?_⟩
    have hlen : v.length = v.toList.length := rfl
    rw [hlen, h1, List.length_append]
    rcases h2 with rfl | rfl | rfl <;> simp <;> omega
  case TOKEN_STRINGCONST =>
    have hw : v.length ≤ 127 := by simpa [Token.well_formed] using h
    simp only [reduceCtorEq, false_implies, false_or, or_self, ne_eq,
      not_false_eq_true, and_true, true_and]
    exact hw
  case TOKEN_OPERATOR =>
    have hk : v ∈ operators := by simpa [Token.well_formed] using h
    have := operator_length hk
    simp only [true_implies, reduceCtorEq, false_implies, false_or, or_self, ne_eq,
      not_false_eq_true, and_true, true_and]
    exact ⟨hk, by omega⟩
  case TOKEN_OPENBLOCK =>
    have hk : v = "" := by simpa [Token.well_formed] using h
    subst hk
    simp
  case TOKEN_CLOSEBLOCK =>
    have hk : v = "" := by simpa [Token.well_formed] using h
    subst hk
    simp
  case TOKEN_ENDOFLINE =>
    have hk : v = "" := by simpa [Token.well_formed] using h
    subst hk
    simp
  case TOKEN_ERROR => cases h

/-- C21 (token-count cap): `write_token` appends the token to a table that
holds fewer than 1024 tokens and exits with the too-many-tokens diagnostic on a
table that holds 1024; so the table `tokenize` returns never holds more than
1024 tokens. On a source of keywords and integer literals separated by white
space: exactly 1024 words are tokenized successfully with all 1024 tokens stored
in order, and 1025 words end the run with the too-many-tokens diagnostic and
1024 tokens stored. -/
theorem C21_token_count_cap :
    (∀ (s : LexState) (ty : String) (v : Option (List Char)) (line : Nat),
      s.token_list.length < MAX_TOKENS →
      write_token s ty v line = .ok { s with
        token_list := s.token_list ++
          [{ type := type_of_str ty, value := stored_value v, line := line }],
        out := s.out ++ [token_line ty v] }) ∧
    (∀ (s : LexState) (ty : String) (v : Option (List Char)) (line : Nat),
      s.token_list.length = MAX_TOKENS →
      write_token s ty v line = .exit { s with diag := s.diag ++ [.tooManyTokens] }) ∧
    (∀ (input : List Char) (s : LexState), tokenize input = .ok s →
      s.token_list.length ≤ MAX_TOKENS) ∧
    (∀ (lead : List Char) (items : List (List Char × List Char)),
      lead.all isspace = true →
      (∀ p ∈ items, is_plain_word p.1 = true ∧ p.2.all isspace = true) →
      separated items = true →
      (items.length = MAX_TOKENS →
        ∃ s1, tokenize (lead ++ words_source items) = .ok s1 ∧
          s1.token_list.length = 1024 ∧
          s1.token_list.map (fun t => (t.type, t.value))
            = items.map (fun p => (plain_type p.1, String.mk p.1))) ∧
      (items.length = MAX_TOKENS + 1 →
        ∃ s1, tokenize (lead ++ words_source items) = .exit s1 ∧
          s1.diag.getLast? = some .tooManyTokens ∧ s1.token_list.length = 1024)) := by
  refine ⟨write_token_room, ?_, fun input s h => tokenize_room h, ?_⟩
  · intro s ty v line h
    exact write_token_full s ty v line (by omega)
  · intro lead items hlead hall hsep
    have hsrc := tokenize_plain_source lead items hlead hall hsep
    constructor
    · intro hlen
      obtain ⟨s1, h1, h2, _⟩ := hsrc.1 (by omega)
      refine ⟨s1, h1, ?_, h2⟩
      have := congrArg List.length h2
      rw [List.length_map, List.length_map, hlen] at this
      exact this
    · intro hlen
      obtain ⟨s1, h1, h2, h3⟩ := hsrc.2 (by omega)
      exact ⟨s1, h1, h2, h3⟩

/-- Witness for C21: the table returned for the source `write 1` holds two
tokens. -/
theorem C21_token_count_cap_witness :
    tokenize "write 1".toList = .ok
      { line := 1, expect_identifier_declaration := false, declared_identifiers := [],
        token_list := [⟨TOKEN_KEYWORD, "write", 1⟩, ⟨TOKEN_INTCONST, "1", 1⟩],
        out := ["Keyword(write)", "IntConstant(1)"], diag := [] } ∧
    [(⟨TOKEN_KEYWORD, "write", 1⟩ : Token), ⟨TOKEN_INTCONST, "1", 1⟩].length ≤ MAX_TOKENS :=
  ⟨by decide!, C21_token_count_cap.2.2.1 "write 1".toList
    { line := 1, expect_identifier_declaration := false, declared_identifiers := [],
      token_list := [⟨TOKEN_KEYWORD, "write", 1⟩, ⟨TOKEN_INTCONST, "1", 1⟩],
      out := ["Keyword(write)", "IntConstant(1)"], diag := [] } (by decide!)⟩

/-- C30 (token well-formedness): in the token sequence of a successful
`tokenize`, a Keyword token's text is one of the six keywords; an Identifier
token's text is no keyword, has 1 to 20 characters, all letters, digits or
underscores, and does not start with a digit; an IntegerLiteral token's text
is an optional `+` or `-` followed by 1 to 100 digits; an Operator token's text
is one of `:=`, `+=`, `-=`, `:`, `+`, `-`; OpenBlock, CloseBlock and Semicolon
tokens have empty text; every text has at most 127 characters; and no token
has kind Error. -/
theorem C30_token_well_formedness (input : List Char) (s : LexState)
    (h : tokenize input = .ok s) (t : Token) (ht : t ∈ s.token_list) :
    (t.type = TOKEN_KEYWORD → t.value ∈ keywords) ∧
    (t.type = TOKEN_IDENTIFIER →
      t.value ∉ keywords ∧ 1 ≤ t.value.length ∧ t.value.length ≤ 20 ∧
      (∀ c ∈ t.value.toList, isalpha c = true ∨ isdigit c = true ∨ c = '_') ∧
      (∀ c, t.value.toList.head? = some c → isdigit c = false)) ∧
    (t.type = TOKEN_INTCONST →
      ∃ sign ds, t.value.toList = sign ++ ds ∧ (sign = [] ∨ sign = ['+'] ∨ sign = ['-']) ∧
        1 ≤ ds.length ∧ ds.length ≤ 100 ∧ ∀ d ∈ ds, isdigit d = true) ∧
    (t.type = TOKEN_OPERATOR → t.value ∈ operators) ∧
    (t.type = TOKEN_OPENBLOCK ∨ t.type = TOKEN_CLOSEBLOCK ∨ t.type = TOKEN_ENDOFLINE →
      t.value = "") ∧
    t.value.length ≤ 127 ∧ t.type ≠ TOKEN_ERROR :=
  well_formed_shape (tokenize_well_formed h t ht)

/-- Witness for C30: the identifier token of the source `number x1;`. -/
theorem C30_token_well_formedness_witness :
    tokenize "number x1;".toList = .ok
      { line := 1, expect_identifier_declaration := false, declared_identifiers := ["x1"],
        token_list := [⟨TOKEN_KEYWORD, "number", 1⟩, ⟨TOKEN_IDENTIFIER, "x1", 1⟩,
          ⟨TOKEN_ENDOFLINE, "", 1⟩],
        out := ["Keyword(number)", "Identifier(x1)", "EndOfLine"], diag := [] } ∧
    ("x1" ∉ keywords ∧ 1 ≤ "x1".length ∧ "x1".length ≤ 20 ∧
      (∀ c ∈ "x1".toList, isalpha c = true ∨ isdigit c = true ∨ c = '_') ∧
      (∀ c, "x1".toList.head? = some c → isdigit c = false)) ∧
    "x1".length ≤ 127 :=
  ⟨by decide!,
    (C30_token_well_formedness "number x1;".toList
      { line := 1, expect_identifier_declaration := false, declared_identifiers := ["x1"],
        token_list := [⟨TOKEN_KEYWORD, "number", 1⟩, ⟨TOKEN_IDENTIFIER, "x1", 1⟩,
          ⟨TOKEN_ENDOFLINE, "", 1⟩],
        out := ["Keyword(number)", "Identifier(x1)", "EndOfLine"], diag := [] }
      (by decide!) ⟨TOKEN_IDENTIFIER, "x1", 1⟩ (by simp)).2.1 rfl,
    (C30_token_well_formedness "number x1;".toList
      { line := 1, expect_identifier_declaration := false, declared_identifiers := ["x1"],
        token_list := [⟨TOKEN_KEYWORD, "number", 1⟩, ⟨TOKEN_IDENTIFIER, "x1", 1⟩,
          ⟨TOKEN_ENDOFLINE, "", 1⟩],
        out := ["Keyword(number)", "Identifier(x1)", "EndOfLine"], diag := [] }
      (by decide!) ⟨TOKEN_IDENTIFIER, "x1", 1⟩ (by simp)).2.2.2.2.2.1⟩

/-! ## The phases of a run -/

theorem run_lex_failed (fuel : Nat) (input : List Char) (h : ∀ s, tokenize input ≠ .ok s) :
    run fuel input = .lexFailed (tokenize input) := by
  unfold run
  split
  · next l heq => exact absurd heq (h l)
  · rfl

theorem run_syntax_failed (fuel : Nat) (input : List Char) (l : LexState) (e : SyntaxError)
    (c : Cursor) (hl : tokenize input = .ok l) (hp : parse l.token_list = .fail e c) :
    run fuel input = .syntaxFailed l (.fail e c) := by
  unfold run
  rw [hl]
  simp only
  rw [hp]

theorem run_executed (fuel : Nat) (input : List Char) (l : LexState) (c : Cursor)
    (hl : tokenize input = .ok l) (hp : parse l.token_list = .ok c) :
    run fuel input = .executed l c (interpret fuel l.token_list c) := by
  unfold run
  rw [hl]
  simp only
  rw [hp]

/-- C22 (no later phase after a failure): when lexing does not return normally
the run ends there, and when the validator fails the run ends there; the
validator always returns, so the executor runs only on a token sequence that
the validator accepted. A run that ends in the lexer or the validator has no
program output, no variable table and no runtime diagnostic. The source
`write "hi"; number ;` has a syntax error after a well-formed write statement
and writes nothing, while `write "hi";` alone writes `hi`. -/
theorem C22_no_later_phase :
    (∀ (fuel : Nat) (input : List Char), (∀ s, tokenize input ≠ .ok s) →
      run fuel input = .lexFailed (tokenize input) ∧
      (run fuel input).program_output = "" ∧ (run fuel input).final_vars = none ∧
      (run fuel input).runtime_error = none) ∧
    (∀ (fuel : Nat) (input : List Char) (l : LexState) (e : SyntaxError) (c : Cursor),
      tokenize input = .ok l → parse l.token_list = .fail e c →
      run fuel input = .syntaxFailed l (.fail e c) ∧
      (run fuel input).program_output = "" ∧ (run fuel input).final_vars = none ∧
      (run fuel input).runtime_error = none) ∧
    (∀ (fuel : Nat) (input : List Char) (l : LexState) (c : Cursor) (r : Res),
      run fuel input = .executed l c r →
      tokenize input = .ok l ∧ parse l.token_list = .ok c ∧ r = interpret fuel l.token_list c) ∧
    (∀ (input : List Char) (l : LexState), tokenize input = .ok l →
      (∃ c, parse l.token_list = .ok c) ∨ (∃ e c, parse l.token_list = .fail e c)) ∧
    (∀ fuel, (run fuel "write \"hi\"; number ;".toList).program_output = "") ∧
    (run 5 "write \"hi\";".toList).program_output = "hi" := by
  refine ⟨?_, ?_, ?_, ?_, ?_, by decide!⟩
  · intro fuel input h
    rw [run_lex_failed fuel input h]
    exact ⟨rfl, rfl, rfl, rfl⟩
  · intro fuel input l e c hl hp
    rw [run_syntax_failed fuel input l e c hl hp]
    exact ⟨rfl, rfl, rfl, rfl⟩
  · intro fuel input l c r h
    unfold run at h
    split at h
    · next l0 hl =>
      split at h
      · next c0 hp =>
        simp only [Run.executed.injEq] at h
        obtain ⟨rfl, rfl, rfl⟩ := h
        exact ⟨hl, hp, rfl⟩
      · cases h
    · cases h
  · intro input l _
    cases hp : parse l.token_list with
    | ok c => exact Or.inl ⟨c, rfl⟩
    | fail e c => exact Or.inr ⟨e, c, rfl⟩
    | timeout => exact absurd hp (parse_returns _)
  · intro fuel
    rw [run_syntax_failed fuel "write \"hi\"; number ;".toList
      { line := 1, expect_identifier_declaration := true, declared_identifiers := [],
        token_list := [⟨TOKEN_KEYWORD, "write", 1⟩, ⟨TOKEN_STRINGCONST, "hi", 1⟩,
          ⟨TOKEN_ENDOFLINE, "", 1⟩, ⟨TOKEN_KEYWORD, "number", 1⟩, ⟨TOKEN_ENDOFLINE, "", 1⟩],
        out := ["Keyword(write)", "StringConstant(hi)", "EndOfLine", "Keyword(number)",
          "EndOfLine"],
        diag := [] }
      (.expected 1 "an identifier" "") ⟨4, some ⟨TOKEN_KEYWORD, "number", 1⟩, 1⟩
      (by decide!) (by decide!)]
    rfl

/-- Witness for C22: the source `write "hi"; number ;`, which the validator
rejects at the second statement. -/
theorem C22_no_later_phase_witness :
    run 9 "write \"hi\"; number ;".toList = .syntaxFailed
      { line := 1, expect_identifier_declaration := true, declared_identifiers := [],
        token_list := [⟨TOKEN_KEYWORD, "write", 1⟩, ⟨TOKEN_STRINGCONST, "hi", 1⟩,
          ⟨TOKEN_ENDOFLINE, "", 1⟩, ⟨TOKEN_KEYWORD, "number", 1⟩, ⟨TOKEN_ENDOFLINE, "", 1⟩],
        out := ["Keyword(write)", "StringConstant(hi)", "EndOfLine", "Keyword(number)",
          "EndOfLine"],
        diag := [] }
      (.fail (.expected 1 "an identifier" "") ⟨4, some ⟨TOKEN_KEYWORD, "number", 1⟩, 1⟩) ∧
    (run 9 "write \"hi\"; number ;".toList).program_output = "" ∧
    (run 9 "write \"hi\"; number ;".toList).final_vars = none ∧
    (run 9 "write \"hi\"; number ;".toList).runtime_error = none :=
  C22_no_later_phase.2.1 9 "write \"hi\"; number ;".toList _ _ _ (by decide!) (by decide!)

/-! ## Names that are not in the variable table -/

theorem get_value_undeclared {s : ExecState} {t : Token} (ht : t.type = TOKEN_IDENTIFIER)
    (h : find_var s.var_table t.value = none) :
    get_value s t = .error (.notDeclaredValue t.line t.value) := by
  unfold get_value
  rw [if_neg (by rw [ht]; decide), if_pos ht, h]

theorem get_value_of_value {s : ExecState} {t : Token}
    (h : t.type = TOKEN_INTCONST ∨
      (t.type = TOKEN_IDENTIFIER ∧ (find_var s.var_table t.value).isSome = true)) :
    ∃ b, get_value s t = .ok b := by
  unfold get_value
  rcases h with h | ⟨h, hf⟩
  · rw [if_pos h]; exact ⟨_, rfl⟩
  · rw [if_neg (by rw [h]; decide), if_pos h]
    cases hfv : find_var s.var_table t.value with
    | none => rw [hfv] at hf; cases hf
    | some idx =>
      obtain ⟨x, hx⟩ := find_var_get _ _ _ hfv
      simp only [hx]
      exact ⟨_, rfl⟩

/-- The write loop on items that render, each followed by `and`, and then an
identifier that is not in the variable table: the items are written, then the
loop fails at the identifier. -/
theorem write_loop_undeclared (toks : List Token) (vt : List Variable) (bad : Token)
    (hbad : bad.type = TOKEN_IDENTIFIER) (hund : find_var vt bad.value = none)
    (pre : List (Token × Token)) :
    ∀ (texts : List String) (f cur : Nat) (lt : Option Token) (ll : Int) (out : String),
      (∀ p ∈ pre, p.2.isKeyword "and") →
      List.Forall₂ (renders ⟨⟨cur, lt, ll⟩, vt, out⟩) (pre.map Prod.fst) texts →
      occurs_at toks cur (write_items pre ++ [bad]) →
      ∃ c1, interpret_write_loop (f + (2 * pre.length + 1)) toks false
          ⟨⟨cur, lt, ll⟩, vt, out⟩ =
        .fail (.notDeclaredValue bad.line bad.value) ⟨c1, vt, out ++ concat_texts texts⟩ := by
  induction pre with
  | nil =>
    intro texts f cur lt ll out _ hr hocc
    cases hr
    have hv : toks[cur]? = some bad := by simpa using hocc 0 bad (by simp [write_items])
    refine ⟨⟨cur, lt, ll⟩, ?_⟩
    simp only [List.length_nil, Nat.mul_zero, Nat.zero_add]
    rw [interpret_write_loop]
    simp only [peek, hv, Bool.false_eq_true, if_false]
    rw [if_neg (by rw [hbad]; decide), if_neg (by rw [hbad]; simp), if_pos (Or.inr hbad),
      get_value_undeclared hbad hund]
    simp [concat_texts]
  | cons p pre ih =>
    obtain ⟨v, a⟩ := p
    intro texts f cur lt ll out hand hr hocc
    cases hr with
    | cons h1 h2 =>
      rename_i text texts
      have hv : toks[cur]? = some v := by simpa using hocc 0 v (by simp [write_items])
      have ha : toks[cur + 1]? = some a := hocc 1 a (by simp [write_items])
      have haa : a.isKeyword "and" := hand (v, a) (List.mem_cons_self _ _)
      have hocc2 : occurs_at toks (cur + 1 + 1) (write_items pre ++ [bad]) :=
        occurs_at_tail (occurs_at_tail hocc)
      obtain ⟨c1, hl⟩ := ih texts f (cur + 1 + 1) (some a) a.line (out ++ text)
        (fun p hp => hand p (List.mem_cons_of_mem _ hp)) (by exact h2) hocc2
      refine ⟨c1, ?_⟩
      simp only [List.length_cons]
      rw [show f + (2 * (pre.length + 1) + 1) = (f + (2 * pre.length + 1) + 1) + 1 by omega,
        write_value_step _ _ _ _ _ _ _ _ _ hv h1, interpret_write_loop]
      simp only [peek, ha, if_true]
      rw [accept_mk ha (tokMatches_keyword haa)]
      simp only [if_true]
      rw [hl]
      simp only [concat_texts, String.append_assoc]

/-- C23 (undeclared name at execution time): an assignment whose right-hand
side is an identifier that is not in the variable table, an assignment whose
right-hand side has a value and whose target is not in the table, a write
statement whose items render up to an identifier that is not in the table, and
a repeat whose count is an identifier that is not in the table all fail with an
undeclared-variable diagnostic naming that identifier; the variable table is
the one before the statement, and the output is the one before it followed by
the texts of the write items before the failing one. -/
theorem C23_undeclared_name_fails :
    (∀ (f : Nat) (toks : List Token) (s : ExecState) (id op rhs : Token),
      toks[s.cur.current]? = some id → id.type = TOKEN_IDENTIFIER →
      toks[s.cur.current + 1]? = some op → toks[s.cur.current + 2]? = some rhs →
      rhs.type = TOKEN_IDENTIFIER → find_var s.var_table rhs.value = none →
      interpret_statement (f + 1) toks s =
        .fail (.notDeclaredValue rhs.line rhs.value)
          { cur := ⟨s.cur.current + 3, some rhs, rhs.line⟩, var_table := s.var_table,
            output := s.output }) ∧
    (∀ (f : Nat) (toks : List Token) (s : ExecState) (id op rhs : Token),
      toks[s.cur.current]? = some id → id.type = TOKEN_IDENTIFIER →
      toks[s.cur.current + 1]? = some op → toks[s.cur.current + 2]? = some rhs →
      (rhs.type = TOKEN_INTCONST ∨
        (rhs.type = TOKEN_IDENTIFIER ∧ (find_var s.var_table rhs.value).isSome = true)) →
      find_var s.var_table id.value = none →
      interpret_statement (f + 1) toks s =
        .fail (.notDeclaredCheck id.line id.value)
          { cur := ⟨s.cur.current + 3, some rhs, rhs.line⟩, var_table := s.var_table,
            output := s.output }) ∧
    (∀ (f : Nat) (toks : List Token) (s : ExecState) (w bad : Token)
      (pre : List (Token × Token)) (texts : List String),
      w.isKeyword "write" → (∀ p ∈ pre, p.2.isKeyword "and") →
      occurs_at toks s.cur.current (w :: write_items pre ++ [bad]) →
      List.Forall₂ (renders s) (pre.map Prod.fst) texts →
      bad.type = TOKEN_IDENTIFIER → find_var s.var_table bad.value = none →
      ∃ c1, interpret_statement (f + (2 * pre.length + 1) + 1) toks s =
        .fail (.notDeclaredValue bad.line bad.value)
          { cur := c1, var_table := s.var_table,
            output := s.output ++ concat_texts texts }) ∧
    (∀ (f : Nat) (toks : List Token) (s : ExecState) (r ct : Token),
      toks[s.cur.current]? = some r → r.isKeyword "repeat" →
      toks[s.cur.current + 1]? = some ct →
      ct.type = TOKEN_IDENTIFIER → find_var s.var_table ct.value = none →
      interpret_statement (f + 2) toks s =
        .fail (.notDeclaredValue ct.line ct.value)
          { cur := ⟨s.cur.current + 2, some ct, ct.line⟩, var_table := s.var_table,
            output := s.output }) := by
  refine ⟨?_, ?_, ?_, ?_⟩
  · intro f toks s id op rhs hid hidt hop hrhs hrt hund
    obtain ⟨⟨cur, lt, ll⟩, vt, out⟩ := s
    simp only at hid hop hrhs hund
    have hg : ∀ c, get_value ⟨c, vt, out⟩ rhs = .error (.notDeclaredValue rhs.line rhs.value) :=
      fun c => get_value_undeclared hrt hund
    simp only [interpret_statement, peek, hid, hidt]
    simp only [interpret_assignment, adv_mk hid, adv_mk hop, adv_mk hrhs, hg]
    simp
  · intro f toks s id op rhs hid hidt hop hrhs hval hund
    obtain ⟨⟨cur, lt, ll⟩, vt, out⟩ := s
    simp only at hid hop hrhs hund hval
    obtain ⟨b, hb⟩ := get_value_of_value (s := ⟨⟨cur, lt, ll⟩, vt, out⟩) hval
    have hg : ∀ c, get_value ⟨c, vt, out⟩ rhs = .ok b := fun c => hb
    simp only [interpret_statement, peek, hid, hidt]
    simp only [interpret_assignment, adv_mk hid, adv_mk hop, adv_mk hrhs, hg, check_var_exists,
      hund]
    simp
  · intro f toks s w bad pre texts hw hand hocc hr hbad hund
    obtain ⟨⟨cur, lt, ll⟩, vt, out⟩ := s
    simp only at hocc hund ⊢
    have hw0 : toks[cur]? = some w := by simpa using hocc 0 w (by simp)
    have hlist : occurs_at toks (cur + 1) (write_items pre ++ [bad]) := by
      have := occurs_at_tail hocc
      simpa using this
    obtain ⟨c1, hl⟩ := write_loop_undeclared toks vt bad hbad hund pre texts f (cur + 1)
      (some w) w.line out hand hr hlist
    refine ⟨c1, ?_⟩
    rw [interpret_statement]
    simp only [peek, hw0, hw.1, hw.2, if_true]
    rw [interpret_write, adv_mk hw0, hl]
    rfl
  · intro f toks s r ct hr hrk hct hctt hund
    obtain ⟨⟨cur, lt, ll⟩, vt, out⟩ := s
    simp only at hr hct hund
    have hg : ∀ c, get_value ⟨c, vt, out⟩ ct = .error (.notDeclaredValue ct.line ct.value) :=
      fun c => get_value_undeclared hctt hund
    rw [interpret_statement]
    simp only [peek, hr, hrk.1, hrk.2]
    rw [if_pos trivial, if_neg (by decide), if_neg (by decide), if_pos trivial, interpret_repeat]
    simp only [adv_mk hr, adv_mk hct, hg]

/-- Witness for C23: `x := y;` with only `x` declared, and `write "a" and y;`
with `y` not declared, which fails after writing `a`. -/
theorem C23_undeclared_name_fails_witness :
    interpret_statement 1
        [⟨TOKEN_IDENTIFIER, "x", 1⟩, ⟨TOKEN_OPERATOR, ":=", 1⟩, ⟨TOKEN_IDENTIFIER, "y", 1⟩,
          ⟨TOKEN_ENDOFLINE, "", 1⟩]
        ⟨⟨0, none, -1⟩, [⟨"x", 7⟩], "out"⟩ =
      .fail (.notDeclaredValue 1 "y")
        ⟨⟨3, some ⟨TOKEN_IDENTIFIER, "y", 1⟩, 1⟩, [⟨"x", 7⟩], "out"⟩ ∧
    ∃ c1, interpret_statement 4
        [⟨TOKEN_KEYWORD, "write", 1⟩, ⟨TOKEN_STRINGCONST, "a", 1⟩, ⟨TOKEN_KEYWORD, "and", 1⟩,
          ⟨TOKEN_IDENTIFIER, "y", 2⟩, ⟨TOKEN_ENDOFLINE, "", 2⟩]
        ⟨⟨0, none, -1⟩, [⟨"x", 7⟩], "out"⟩ =
      .fail (.notDeclaredValue 2 "y")
        ⟨c1, [⟨"x", 7⟩], "out" ++ concat_texts ["a"]⟩ :=
  ⟨C23_undeclared_name_fails.1 0
      [⟨TOKEN_IDENTIFIER, "x", 1⟩, ⟨TOKEN_OPERATOR, ":=", 1⟩, ⟨TOKEN_IDENTIFIER, "y", 1⟩,
        ⟨TOKEN_ENDOFLINE, "", 1⟩]
      ⟨⟨0, none, -1⟩, [⟨"x", 7⟩], "out"⟩ ⟨TOKEN_IDENTIFIER, "x", 1⟩ ⟨TOKEN_OPERATOR, ":=", 1⟩
      ⟨TOKEN_IDENTIFIER, "y", 1⟩ rfl rfl rfl rfl rfl (by decide),
    C23_undeclared_name_fails.2.2.1 1
      [⟨TOKEN_KEYWORD, "write", 1⟩, ⟨TOKEN_STRINGCONST, "a", 1⟩, ⟨TOKEN_KEYWORD, "and", 1⟩,
        ⟨TOKEN_IDENTIFIER, "y", 2⟩, ⟨TOKEN_ENDOFLINE, "", 2⟩]
      ⟨⟨0, none, -1⟩, [⟨"x", 7⟩], "out"⟩ ⟨TOKEN_KEYWORD, "write", 1⟩ ⟨TOKEN_IDENTIFIER, "y", 2⟩
      [(⟨TOKEN_STRINGCONST, "a", 1⟩, ⟨TOKEN_KEYWORD, "and", 1⟩)] ["a"] ⟨rfl, rfl⟩
      (by
        intro p hp
        rw [List.mem_singleton.1 hp]
        exact ⟨rfl, rfl⟩)
      (by
        intro i t h
        match i, h with
        | 0, h => simpa [write_items] using h
        | 1, h => simpa [write_items] using h
        | 2, h => simpa [write_items] using h
        | 3, h => simpa [write_items] using h
        | n + 4, h => simp [write_items] at h)
      (List.Forall₂.cons (Or.inl ⟨rfl, rfl⟩) List.Forall₂.nil) rfl (by decide)⟩

/-! ## Line numbers do not steer the lexer -/

theorem same_upto_lines_length {s s2 : LexState} (h : s.same_upto_lines s2) :
    s.token_list.length = s2.token_list.length := by
  have := congrArg List.length h.2.2.1
  simpa using this

theorem write_token_sim {s s2 : LexState} (ty : String) (v : Option (List Char))
    (l l2 : Nat) (h : s.same_upto_lines s2) :
    (write_token s ty v l).same_upto_lines (write_token s2 ty v l2) := by
  unfold write_token
  rw [same_upto_lines_length h]
  split_ifs
  · exact h
  · refine ⟨h.1, h.2.1, ?_, ?_⟩
    · have := h.2.2.1
      unfold same_tokens at this ⊢
      simp only [List.map_append, this, List.map_cons, List.map_nil]
    · simp only [h.2.2.2]

theorem lex_error_sim {s s2 : LexState} (d d2 : LexDiag) (msg : String) (l l2 : Nat)
    (h : s.same_upto_lines s2) :
    (lex_error s d msg l).same_upto_lines (lex_error s2 d2 msg l2) := by
  unfold lex_error
  have hw := @write_token_sim { s with diag := s.diag ++ [d] }
    { s2 with diag := s2.diag ++ [d2] } "Error" (some msg.toList) l l2 h
  cases h1 : write_token { s with diag := s.diag ++ [d] } "Error" (some msg.toList) l <;>
    cases h2 : write_token { s2 with diag := s2.diag ++ [d2] } "Error" (some msg.toList) l2 <;>
    rw [h1, h2] at hw <;> first | exact hw | exact hw.elim

theorem bind_sim {r r2 : LexRes} {g g2 : LexState → LexState} (h : r.same_upto_lines r2)
    (hg : ∀ a a2 : LexState, a.same_upto_lines a2 → (g a).same_upto_lines (g2 a2)) :
    (r.bind fun a => .ok (g a)).same_upto_lines (r2.bind fun a => .ok (g2 a)) := by
  cases r <;> cases r2 <;> first | exact hg _ _ h | exact h

theorem declare_identifier_sim {s s2 : LexState} (name : String) (h : s.same_upto_lines s2) :
    (declare_identifier s name).same_upto_lines (declare_identifier s2 name) := by
  unfold declare_identifier
  rw [h.2.1]
  split_ifs
  · exact ⟨h.1, by simp only [h.2.1], h.2.2.1, h.2.2.2⟩
  · exact h

theorem scan_comment_rest (cs : List Char) :
    ∀ l l2, (scan_comment cs l).2 = (scan_comment cs l2).2 := by
  induction cs with
  | nil => intro l l2; rfl
  | cons c cs ih =>
    intro l l2
    unfold scan_comment
    split_ifs <;> first | rfl | exact ih _ _

theorem scan_string_rest (cs : List Char) :
    ∀ i l l2 str, (scan_string cs i l str).2 = (scan_string cs i l2 str).2 := by
  induction cs with
  | nil => intro i l l2 str; rfl
  | cons c cs ih =>
    intro i l l2 str
    unfold scan_string
    split_ifs <;> first | rfl | exact ih _ _ _ _

theorem newline_seen_sim {s s2 : LexState} (c : Char) (h : s.same_upto_lines s2) :
    (newline_seen s c).same_upto_lines (newline_seen s2 c) := by
  unfold newline_seen
  split_ifs
  · exact h
  · exact h

/-- One round of the main loop does the same on two states that differ at most
in line numbers: the same input is left, and the results differ at most in line
numbers. -/
theorem tokenize_token_sim {s s2 : LexState} (c : Char) (rest : List Char)
    (h : s.same_upto_lines s2) :
    (tokenize_token s c rest).2 = (tokenize_token s2 c rest).2 ∧
      (tokenize_token s c rest).1.same_upto_lines (tokenize_token s2 c rest).1 := by
  have wt : ∀ (ty : String) (v : Option (List Char)) (l l2 : Nat),
      (write_token s ty v l).same_upto_lines (write_token s2 ty v l2) :=
    fun ty v l l2 => write_token_sim ty v l l2 h
  unfold tokenize_token
  by_cases h1 : c = ';'
  · rw [if_pos h1, if_pos h1]; exact ⟨rfl, wt _ _ _ _⟩
  rw [if_neg h1, if_neg h1]
  by_cases h2 : c = '*'
  · rw [if_pos h2, if_pos h2]
    have hr := scan_comment_rest rest s.line s2.line
    cases hsc : scan_comment rest s.line with
    | mk l1 o1 =>
      cases hsc2 : scan_comment rest s2.line with
      | mk l2 o2 =>
        rw [hsc, hsc2] at hr
        simp only at hr
        subst hr
        cases o1 with
        | none => exact ⟨rfl, lex_error_sim _ _ _ _ _ h⟩
        | some r1 => exact ⟨rfl, h⟩
  rw [if_neg h2, if_neg h2]
  by_cases h3 : c = '{'
  · rw [if_pos h3, if_pos h3]; exact ⟨rfl, wt _ _ _ _⟩
  rw [if_neg h3, if_neg h3]
  by_cases h4 : c = '}'
  · rw [if_pos h4, if_pos h4]; exact ⟨rfl, wt _ _ _ _⟩
  rw [if_neg h4, if_neg h4]
  by_cases h5 : c = '"'
  · rw [if_pos h5, if_pos h5]
    have hr := scan_string_rest rest 0 s.line s2.line []
    cases hsc : scan_string rest 0 s.line [] with
    | mk l1 o1 =>
      cases hsc2 : scan_string rest 0 s2.line [] with
      | mk l2 o2 =>
        rw [hsc, hsc2] at hr
        simp only at hr
        subst hr
        obtain ⟨str, r1⟩ := o1
        cases str with
        | none => exact ⟨rfl, lex_error_sim _ _ _ _ _ h⟩
        | some str => exact ⟨rfl, write_token_sim _ _ _ _ h⟩
  rw [if_neg h5, if_neg h5]
  by_cases h6 : c = ':' ∨ c = '+' ∨ c = '-'
  · rw [if_pos h6, if_pos h6]
    cases rest with
    | nil => exact ⟨rfl, wt _ _ _ _⟩
    | cons next rest1 =>
      simp only
      by_cases k1 : c = ':' ∧ next = '='
      · rw [if_pos k1, if_pos k1]; exact ⟨rfl, wt _ _ _ _⟩
      rw [if_neg k1, if_neg k1]
      by_cases k2 : c = '+' ∧ next = '='
      · rw [if_pos k2, if_pos k2]; exact ⟨rfl, wt _ _ _ _⟩
      rw [if_neg k2, if_neg k2]
      by_cases k3 : c = '-' ∧ next = '='
      · rw [if_pos k3, if_pos k3]; exact ⟨rfl, wt _ _ _ _⟩
      rw [if_neg k3, if_neg k3]
      by_cases k4 : (c = '-' ∨ c = '+') ∧ isdigit next = true
      · rw [if_pos k4, if_pos k4]
        by_cases k5 : (c :: next :: rest1.takeWhile isdigit).length ≥ 128
        · rw [if_pos k5, if_pos k5]; exact ⟨rfl, h⟩
        rw [if_neg k5, if_neg k5]
        unfold check_intconstant_length
        by_cases k6 : intconstant_len (c :: next :: rest1.takeWhile isdigit) > 100
        · rw [if_pos k6, if_pos k6]; exact ⟨rfl, h⟩
        · rw [if_neg k6, if_neg k6]; exact ⟨rfl, wt _ _ _ _⟩
      rw [if_neg k4, if_neg k4]
      exact ⟨rfl, wt _ _ _ _⟩
  rw [if_neg h6, if_neg h6]
  by_cases h7 : isdigit c = true
  · rw [if_pos h7, if_pos h7]
    simp only
    by_cases k5 : (c :: rest.takeWhile isdigit).length ≥ 128
    · rw [if_pos k5, if_pos k5]; exact ⟨rfl, h⟩
    rw [if_neg k5, if_neg k5]
    unfold check_intconstant_length
    by_cases k6 : intconstant_len (c :: rest.takeWhile isdigit) > 100
    · rw [if_pos k6, if_pos k6]; exact ⟨rfl, h⟩
    · rw [if_neg k6, if_neg k6]; exact ⟨rfl, wt _ _ _ _⟩
  rw [if_neg h7, if_neg h7]
  by_cases h8 : is_identifier_start c = true
  · rw [if_pos h8, if_pos h8]
    simp only
    by_cases h9 : (c :: rest.takeWhile is_identifier_char).length ≥ 64
    · rw [if_pos h9, if_pos h9]; exact ⟨rfl, h⟩
    rw [if_neg h9, if_neg h9]
    unfold check_identifier_length
    by_cases k6 : (c :: rest.takeWhile is_identifier_char).length > 20
    · rw [if_pos k6, if_pos k6]; exact ⟨rfl, h⟩
    rw [if_neg k6, if_neg k6]
    simp only
    by_cases h10 : is_keyword (String.mk (c :: rest.takeWhile is_identifier_char)) = true
    · rw [if_pos h10, if_pos h10]
      refine ⟨rfl, bind_sim (wt _ _ _ _) ?_⟩
      intro a a2 ha
      split_ifs
      · exact ⟨rfl, ha.2.1, ha.2.2.1, ha.2.2.2⟩
      · exact ha
    rw [if_neg h10, if_neg h10]
    unfold is_declared
    rw [← h.1, ← h.2.1]
    by_cases h11 : s.expect_identifier_declaration = true
    · rw [if_pos h11, if_pos h11]
      refine ⟨rfl, bind_sim (write_token_sim _ _ _ _ (declare_identifier_sim _ h)) ?_⟩
      intro a a2 ha
      exact ⟨rfl, ha.2.1, ha.2.2.1, ha.2.2.2⟩
    rw [if_neg h11, if_neg h11]
    split_ifs
    · exact ⟨rfl, wt _ _ _ _⟩
    · exact ⟨rfl, lex_error_sim _ _ _ _ _ h⟩
  rw [if_neg h8, if_neg h8]
  split_ifs
  · exact ⟨rfl, lex_error_sim _ _ _ _ _ h⟩
  · exact ⟨rfl, h⟩

/-! ## Comments -/

theorem tokenize_step_sim {s s2 : LexState} (c : Char) (rest : List Char)
    (h : s.same_upto_lines s2) :
    (tokenize_step s c rest).2 = (tokenize_step s2 c rest).2 ∧
      (tokenize_step s c rest).1.same_upto_lines (tokenize_step s2 c rest).1 := by
  unfold tokenize_step
  exact tokenize_token_sim c rest (newline_seen_sim c h)

/-- The main loop gives the same result, up to line numbers, from two states
that differ at most in line numbers. -/
theorem tokenize_loop_sim (f : Nat) :
    ∀ (s s2 : LexState) (input : List Char), s.same_upto_lines s2 →
      (tokenize_loop f s input).same_upto_lines (tokenize_loop f s2 input) := by
  induction f with
  | zero =>
    intro s s2 input h
    cases input with
    | nil => exact h
    | cons c rest => trivial
  | succ f ih =>
    intro s s2 input h
    cases input with
    | nil => exact h
    | cons c rest =>
      have hs := tokenize_step_sim c rest h
      unfold tokenize_loop
      cases h1 : tokenize_step s c rest with
      | mk r rest1 =>
        cases h2 : tokenize_step s2 c rest with
        | mk r2 rest2 =>
          rw [h1, h2] at hs
          obtain ⟨hrest, hres⟩ := hs
          simp only at hrest hres
          subst hrest
          cases r <;> cases r2 <;> first | exact ih _ _ _ hres | exact hres | exact False.elim hres

/-- Fuel beyond the length of the input does not change the result of the main
loop. -/
theorem tokenize_loop_fuel (f : Nat) :
    ∀ (g : Nat) (s : LexState) (input : List Char), input.length ≤ f → input.length ≤ g →
      tokenize_loop f s input = tokenize_loop g s input := by
  induction f with
  | zero =>
    intro g s input hf _
    cases input with
    | nil => rw [tokenize_loop_nil, tokenize_loop_nil]
    | cons c rest => simp at hf
  | succ f ih =>
    intro g s input hf hg
    cases input with
    | nil => rw [tokenize_loop_nil, tokenize_loop_nil]
    | cons c rest =>
      obtain ⟨g, rfl⟩ : ∃ k, g = k + 1 := ⟨g - 1, by simp at hg; omega⟩
      simp only [List.length_cons, Nat.add_le_add_iff_right] at hf hg
      have hlen : (tokenize_step s c rest).2.length ≤ rest.length :=
        (tokenize_token_spec (newline_seen s c) c rest).2
      unfold tokenize_loop
      cases h1 : tokenize_step s c rest with
      | mk r rest1 =>
        rw [h1] at hlen
        cases r with
        | ok s1 => exact ih g s1 rest1 (by simp only at hlen; omega) (by simp only at hlen; omega)
        | exit s1 => rfl
        | overrun s1 => rfl
        | timeout => rfl

/-- A run of the main loop that reaches a state with some input left can be
continued from there. -/
theorem lex_run_loop {s s2 : LexState} {input rest : List Char} (h : LexRun s input s2 rest) :
    ∀ f, input.length ≤ f → tokenize_loop f s input = tokenize_loop rest.length s2 rest := by
  induction h with
  | refl s input => intro f hf; exact tokenize_loop_fuel f _ s input hf (Nat.le_refl _)
  | @step s s1 s2 c rest rest1 rest2 hstep _ ih =>
    intro f hf
    obtain ⟨f, rfl⟩ : ∃ k, f = k + 1 := ⟨f - 1, by simp at hf; omega⟩
    simp only [List.length_cons, Nat.add_le_add_iff_right] at hf
    have hlen : (tokenize_step s c rest).2.length ≤ rest.length :=
      (tokenize_token_spec (newline_seen s c) c rest).2
    rw [hstep] at hlen
    rw [tokenize_loop_ok_step hstep]
    exact ih f (by simp only at hlen; omega)

theorem scan_comment_closed (c rest : List Char) (hc : '*' ∉ c) :
    ∀ line, scan_comment (c ++ '*' :: rest) line = (line + c.count '\n', some rest) := by
  induction c with
  | nil => intro line; simp [scan_comment]
  | cons x xs ih =>
    intro line
    have hx : x ≠ '*' := fun h => hc (by rw [h]; exact List.mem_cons_self _ _)
    have hxs : '*' ∉ xs := fun h => hc (List.mem_cons_of_mem _ h)
    rw [List.cons_append, scan_comment, if_neg hx, ih hxs]
    by_cases hn : x = '\n'
    · rw [if_pos hn, hn, List.count_cons_self]
      congr 1
      omega
    · rw [if_neg hn, List.count_cons_of_ne (fun h => hn h.symm)]

theorem scan_comment_open (c : List Char) (hc : '*' ∉ c) :
    ∀ line, scan_comment c line = (line + c.count '\n', none) := by
  induction c with
  | nil => intro line; simp [scan_comment]
  | cons x xs ih =>
    intro line
    have hx : x ≠ '*' := fun h => hc (by rw [h]; exact List.mem_cons_self _ _)
    have hxs : '*' ∉ xs := fun h => hc (List.mem_cons_of_mem _ h)
    rw [scan_comment, if_neg hx, ih hxs]
    by_cases hn : x = '\n'
    · rw [if_pos hn, hn, List.count_cons_self]
      congr 1
      omega
    · rw [if_neg hn, List.count_cons_of_ne (fun h => hn h.symm)]

/-- The round of the main loop at the `*` that opens a closed comment. -/
theorem tokenize_step_comment (s : LexState) (c rest : List Char) (hc : '*' ∉ c) :
    tokenize_step s '*' (c ++ '*' :: rest) =
      (.ok { s with line := s.line + c.count '\n' }, rest) := by
  unfold tokenize_step newline_seen
  rw [if_neg (show ¬ ('*' : Char) = '\n' by decide)]
  unfold tokenize_token
  rw [if_neg (show ¬ ('*' : Char) = ';' by decide), if_pos rfl, scan_comment_closed c rest hc]

/-- The round of the main loop at the `*` that opens a comment never closed. -/
theorem tokenize_step_comment_open (s : LexState) (c : List Char) (hc : '*' ∉ c) :
    tokenize_step s '*' c =
      (lex_error { s with line := s.line + c.count '\n' } (.unterminatedComment s.line)
        "Unterminated comment detected." (s.line + c.count '\n'), []) := by
  unfold tokenize_step newline_seen
  rw [if_neg (show ¬ ('*' : Char) = '\n' by decide)]
  unfold tokenize_token
  rw [if_neg (show ¬ ('*' : Char) = ';' by decide), if_pos rfl, scan_comment_open c hc]

theorem lex_error_exit (s : LexState) (d : LexDiag) (msg : String) (line : Nat) :
    ∃ s1, lex_error s d msg line = .exit s1 ∧ d ∈ s1.diag ∧
      s1.token_list.length ≤ s.token_list.length + 1 := by
  by_cases h : s.token_list.length < MAX_TOKENS
  · rw [lex_error_room s d msg line h]
    exact ⟨_, rfl, by simp, by simp⟩
  · rw [lex_error_full s d msg line (by omega)]
    exact ⟨_, rfl, by simp, by simp⟩

/-- The main loop from any state on a comment followed by `B` gives the same
result, up to line numbers, as on `B` alone. -/
theorem comment_skipped (s : LexState) (c B : List Char) (hc : '*' ∉ c) :
    (tokenize_loop ('*' :: c ++ '*' :: B).length s ('*' :: c ++ '*' :: B)).same_upto_lines
      (tokenize_loop B.length s B) := by
  have hlen : ('*' :: c ++ '*' :: B).length = (c.length + 1 + B.length) + 1 := by
    simp only [List.cons_append, List.length_cons, List.length_append]
    omega
  rw [hlen, List.cons_append, tokenize_loop_ok_step (tokenize_step_comment s c B hc),
    tokenize_loop_fuel (c.length + 1 + B.length) B.length _ B (by omega) (Nat.le_refl _)]
  exact tokenize_loop_sim _ _ _ _ ⟨rfl, rfl, rfl, rfl⟩

theorem takeWhile_append_stop (p : Char → Bool) (l X : List Char) (sep : Char)
    (hsep : p sep = false) : (l ++ sep :: X).takeWhile p = l.takeWhile p := by
  induction l with
  | nil => simp [List.takeWhile, hsep]
  | cons a l ih =>
    rw [List.cons_append, List.takeWhile_cons, List.takeWhile_cons, ih]

theorem dropWhile_append_stop (p : Char → Bool) (l X : List Char) (sep : Char)
    (hsep : p sep = false) : (l ++ sep :: X).dropWhile p = l.dropWhile p ++ sep :: X := by
  induction l with
  | nil => simp [List.dropWhile, hsep]
  | cons a l ih =>
    rw [List.cons_append, List.dropWhile_cons, List.dropWhile_cons, ih]
    split_ifs <;> rfl

/-- A comment that is closed stays the same comment when more input follows. -/
theorem scan_comment_frame (Y : List Char) :
    ∀ (rest : List Char) (line l1 : Nat) (r1 : List Char),
      scan_comment rest line = (l1, some r1) →
      scan_comment (rest ++ Y) line = (l1, some (r1 ++ Y)) := by
  intro rest
  induction rest with
  | nil => intro line l1 r1 h; simp [scan_comment] at h
  | cons a rest ih =>
    intro line l1 r1 h
    rw [List.cons_append, scan_comment]
    rw [scan_comment] at h
    by_cases ha : a = '*'
    · rw [if_pos ha] at h ⊢
      simp only [Prod.mk.injEq, Option.some.injEq] at h ⊢
      exact ⟨h.1, by rw [h.2]⟩
    · rw [if_neg ha] at h ⊢
      exact ih _ _ _ h

/-- A string literal that is closed stays the same literal when more input
follows. -/
theorem scan_string_frame (Y : List Char) :
    ∀ (rest : List Char) (i line : Nat) (str : List Char) (l1 : Nat) (st r1 : List Char),
      scan_string rest i line str = (l1, some st, r1) →
      scan_string (rest ++ Y) i line str = (l1, some st, r1 ++ Y) := by
  intro rest
  induction rest with
  | nil => intro i line str l1 st r1 h; simp [scan_string] at h
  | cons a rest ih =>
    intro i line str l1 st r1 h
    rw [List.cons_append, scan_string]
    rw [scan_string] at h
    by_cases hi : i < 255
    · rw [if_pos hi] at h ⊢
      by_cases ha : a = '"'
      · rw [if_pos ha] at h ⊢
        simp only [Prod.mk.injEq, Option.some.injEq] at h ⊢
        exact ⟨h.1, h.2.1, by rw [h.2.2]⟩
      · rw [if_neg ha] at h ⊢
        exact ih _ _ _ _ _ _ h
    · rw [if_neg hi] at h
      simp at h

theorem pair_frame {r a : LexRes} {rest rest1 : List Char} (Y : List Char)
    (h : (a, rest) = (r, rest1)) : (a, rest ++ Y) = (r, rest1 ++ Y) := by
  simp only [Prod.mk.injEq] at h ⊢
  exact ⟨h.1, by rw [h.2]⟩

/-- A round of the main loop that does not run into the end of the input inside
a comment or a string literal does the same when the input goes on after a
character that can neither continue a word or number nor complete an
operator. -/
theorem tokenize_token_frame_closed (s : LexState) (c : Char) (rest : List Char) (sep : Char)
    (X : List Char) (hsep : is_identifier_char sep = false) (hne : sep ≠ '=')
    (hcom : c = '*' → ∃ l r, scan_comment rest s.line = (l, some r))
    (hstr : c = '"' → ∃ l st r, scan_string rest 0 s.line [] = (l, some st, r))
    (r : LexRes) (rest1 : List Char) (h : tokenize_token s c rest = (r, rest1)) :
    tokenize_token s c (rest ++ sep :: X) = (r, rest1 ++ sep :: X) := by
  have hdig : isdigit sep = false := by
    cases hd : isdigit sep with
    | false => rfl
    | true =>
      have : is_identifier_char sep = true := by
        simp only [is_identifier_char, isalnum, hd, Bool.or_true, Bool.true_or]
      rw [this] at hsep
      cases hsep
  unfold tokenize_token at h ⊢
  by_cases h1 : c = ';'
  · rw [if_pos h1] at h ⊢; exact pair_frame _ h
  rw [if_neg h1] at h ⊢
  by_cases h2 : c = '*'
  · rw [if_pos h2] at h ⊢
    obtain ⟨l1, r1, hsc⟩ := hcom h2
    rw [hsc] at h
    rw [scan_comment_frame _ _ _ _ _ hsc]
    exact pair_frame _ h
  rw [if_neg h2] at h ⊢
  by_cases h3 : c = '{'
  · rw [if_pos h3] at h ⊢; exact pair_frame _ h
  rw [if_neg h3] at h ⊢
  by_cases h4 : c = '}'
  · rw [if_pos h4] at h ⊢; exact pair_frame _ h
  rw [if_neg h4] at h ⊢
  by_cases h5 : c = '"'
  · rw [if_pos h5] at h ⊢
    obtain ⟨l1, st, r1, hsc⟩ := hstr h5
    rw [hsc] at h
    rw [scan_string_frame _ _ _ _ _ _ _ _ hsc]
    exact pair_frame _ h
  rw [if_neg h5] at h ⊢
  by_cases h6 : c = ':' ∨ c = '+' ∨ c = '-'
  · rw [if_pos h6] at h ⊢
    cases rest with
    | nil =>
      simp only at h
      rw [List.nil_append]
      simp only
      rw [if_neg (fun k => hne k.2), if_neg (fun k => hne k.2), if_neg (fun k => hne k.2),
        if_neg (fun k => by rw [hdig] at k; cases k.2)]
      exact pair_frame _ h
    | cons next rest2 =>
      rw [List.cons_append]
      simp only at h ⊢
      by_cases k1 : c = ':' ∧ next = '='
      · rw [if_pos k1] at h ⊢; exact pair_frame _ h
      rw [if_neg k1] at h ⊢
      by_cases k2 : c = '+' ∧ next = '='
      · rw [if_pos k2] at h ⊢; exact pair_frame _ h
      rw [if_neg k2] at h ⊢
      by_cases k3 : c = '-' ∧ next = '='
      · rw [if_pos k3] at h ⊢; exact pair_frame _ h
      rw [if_neg k3] at h ⊢
      by_cases k4 : (c = '-' ∨ c = '+') ∧ isdigit next = true
      · rw [if_pos k4] at h ⊢
        rw [takeWhile_append_stop _ _ _ _ hdig, dropWhile_append_stop _ _ _ _ hdig]
        by_cases k5 : (c :: next :: rest2.takeWhile isdigit).length ≥ 128
        · rw [if_pos k5] at h ⊢; exact pair_frame _ h
        rw [if_neg k5] at h ⊢
        cases k6 : check_intconstant_length (c :: next :: rest2.takeWhile isdigit) s.line with
        | some d => rw [k6] at h; exact pair_frame _ h
        | none => rw [k6] at h; exact pair_frame _ h
      rw [if_neg k4] at h ⊢
      have := pair_frame (sep :: X) h
      rw [List.cons_append] at this
      exact this
  rw [if_neg h6] at h ⊢
  by_cases h7 : isdigit c = true
  · rw [if_pos h7] at h ⊢
    simp only at h ⊢
    rw [takeWhile_append_stop _ _ _ _ hdig, dropWhile_append_stop _ _ _ _ hdig]
    by_cases k5 : (c :: rest.takeWhile isdigit).length ≥ 128
    · rw [if_pos k5] at h ⊢; exact pair_frame _ h
    rw [if_neg k5] at h ⊢
    cases k6 : check_intconstant_length (c :: rest.takeWhile isdigit) s.line with
    | some d => rw [k6] at h; exact pair_frame _ h
    | none => rw [k6] at h; exact pair_frame _ h
  rw [if_neg h7] at h ⊢
  by_cases h8 : is_identifier_start c = true
  · rw [if_pos h8] at h ⊢
    simp only at h ⊢
    rw [takeWhile_append_stop _ _ _ _ hsep, dropWhile_append_stop _ _ _ _ hsep]
    by_cases h9 : (c :: rest.takeWhile is_identifier_char).length ≥ 64
    · rw [if_pos h9] at h ⊢; exact pair_frame _ h
    rw [if_neg h9] at h ⊢
    cases k6 : check_identifier_length (c :: rest.takeWhile is_identifier_char) s.line with
    | some d => rw [k6] at h; exact pair_frame _ h
    | none =>
      rw [k6] at h
      simp only at h ⊢
      split_ifs at h ⊢ <;> exact pair_frame _ h
  rw [if_neg h8] at h ⊢
  split_ifs at h ⊢ <;> exact pair_frame _ h

/-- A result of the lexer that is not the exit for an unterminated comment or
string literal: a round with such a result did not run into the end of the
input inside a comment or a string literal. -/
theorem round_closed (s : LexState) (c : Char) (rest : List Char)
    (hr : ∀ s1, (tokenize_token s c rest).1 = .exit s1 →
      ∀ l, LexDiag.unterminatedComment l ∉ s1.diag ∧ LexDiag.unterminatedString l ∉ s1.diag) :
    (c = '*' → ∃ l r, scan_comment rest s.line = (l, some r)) ∧
    (c = '"' → ∃ l st r, scan_string rest 0 s.line [] = (l, some st, r)) := by
  constructor
  · intro hc
    cases hsc : scan_comment rest s.line with
    | mk l1 o1 =>
      cases o1 with
      | some r1 => exact ⟨l1, r1, rfl⟩
      | none =>
        obtain ⟨s1, he, hd, _⟩ := lex_error_exit { s with line := l1 }
          (.unterminatedComment s.line) "Unterminated comment detected." l1
        have h1 : (tokenize_token s c rest).1 = .exit s1 := by
          unfold tokenize_token
          rw [if_neg (by rw [hc]; decide), if_pos hc, hsc]
          exact he
        exact absurd hd (hr s1 h1 s.line).1
  · intro hc
    cases hsc : scan_string rest 0 s.line [] with
    | mk l1 o1 =>
      obtain ⟨st, r1⟩ := o1
      cases st with
      | some st => exact ⟨l1, st, r1, rfl⟩
      | none =>
        obtain ⟨s1, he, hd, _⟩ := lex_error_exit { s with line := l1 }
          (.unterminatedString s.line) "Unterminated string constant." l1
        have h1 : (tokenize_token s c rest).1 = .exit s1 := by
          unfold tokenize_token
          rw [if_neg (by rw [hc]; decide), if_neg (by rw [hc]; decide),
            if_neg (by rw [hc]; decide), if_neg (by rw [hc]; decide), if_pos hc, hsc]
          exact he
        exact absurd hd (hr s1 h1 s.line).2

/-- A round of the main loop whose result is not the exit for an unterminated
comment or string literal gives the same result when the input goes on after a
character that can neither continue a word or number nor complete an
operator. -/
theorem tokenize_step_frame {s : LexState} {c : Char} {rest rest1 : List Char} {r : LexRes}
    (sep : Char) (X : List Char) (hsep : is_identifier_char sep = false) (hne : sep ≠ '=')
    (h : tokenize_step s c rest = (r, rest1))
    (hr : ∀ s1, r = .exit s1 →
      ∀ l, LexDiag.unterminatedComment l ∉ s1.diag ∧ LexDiag.unterminatedString l ∉ s1.diag) :
    tokenize_step s c (rest ++ sep :: X) = (r, rest1 ++ sep :: X) := by
  unfold tokenize_step at h ⊢
  have hcl := round_closed (newline_seen s c) c rest (fun s1 h1 => hr s1 (by rw [← h1, h]))
  exact tokenize_token_frame_closed _ _ _ _ _ hsep hne hcl.1 hcl.2 _ _ h

theorem tokenize_loop_stop_step {f : Nat} {s : LexState} {c : Char} {rest rest1 : List Char}
    {r : LexRes} (h : tokenize_step s c rest = (r, rest1)) (hr : ∀ s1, r ≠ .ok s1) :
    tokenize_loop (f + 1) s (c :: rest) = r := by
  rw [tokenize_loop, h]
  cases r with
  | ok s1 => exact absurd rfl (hr s1)
  | exit s1 => rfl
  | overrun s1 => rfl
  | timeout => rfl

/-- A text that the main loop reads whole is read in the same rounds, reaching
the same state, when the input goes on after a character that can neither
continue a word or number nor complete an operator. -/
theorem tokenize_loop_prefix (sep : Char) (X : List Char)
    (hsep : is_identifier_char sep = false) (hne : sep ≠ '=') (f : Nat) :
    ∀ (s : LexState) (A : List Char) (sA : LexState), tokenize_loop f s A = .ok sA →
      LexRun s (A ++ sep :: X) sA (sep :: X) := by
  induction f with
  | zero =>
    intro s A sA h
    cases A with
    | nil =>
      rw [tokenize_loop_nil] at h
      cases h
      exact LexRun.refl _ _
    | cons c rest => cases h
  | succ f ih =>
    intro s A sA h
    cases A with
    | nil =>
      rw [tokenize_loop_nil] at h
      cases h
      exact LexRun.refl _ _
    | cons c rest =>
      rw [tokenize_loop] at h
      cases hstep : tokenize_step s c rest with
      | mk r rest1 =>
        rw [hstep] at h
        cases r with
        | ok s1 =>
          exact LexRun.step (tokenize_step_frame sep X hsep hne hstep (fun _ k => by cases k))
            (ih s1 rest1 sA h)
        | exit s1 => cases h
        | overrun s1 => cases h
        | timeout => cases h

/-- A text on which the main loop fails, for another reason than a comment or
string literal left open at its end, makes it fail in the same way when the
input goes on after a character that can neither continue a word or number nor
complete an operator. -/
theorem tokenize_loop_prefix_stop (sep : Char) (X : List Char)
    (hsep : is_identifier_char sep = false) (hne : sep ≠ '=') (f : Nat) :
    ∀ (s : LexState) (A : List Char) (r : LexRes), tokenize_loop f s A = r →
      (∀ sA, r ≠ .ok sA) → r ≠ .timeout →
      (∀ s1, r = .exit s1 →
        ∀ l, LexDiag.unterminatedComment l ∉ s1.diag ∧ LexDiag.unterminatedString l ∉ s1.diag) →
      ∀ g, (A ++ sep :: X).length ≤ g → tokenize_loop g s (A ++ sep :: X) = r := by
  induction f with
  | zero =>
    intro s A r h hok hto hr g hg
    cases A with
    | nil =>
      rw [tokenize_loop_nil] at h
      exact absurd h.symm (hok s)
    | cons c rest => exact absurd h.symm hto
  | succ f ih =>
    intro s A r h hok hto hr g hg
    cases A with
    | nil =>
      rw [tokenize_loop_nil] at h
      exact absurd h.symm (hok s)
    | cons c rest =>
      obtain ⟨g, rfl⟩ : ∃ k, g = k + 1 := ⟨g - 1, by simp at hg; omega⟩
      rw [List.cons_append]
      rw [tokenize_loop] at h
      have hlen : (tokenize_step s c rest).2.length ≤ rest.length :=
        (tokenize_token_spec (newline_seen s c) c rest).2
      cases hstep : tokenize_step s c rest with
      | mk r0 rest1 =>
        rw [hstep] at h hlen
        cases r0 with
        | ok s1 =>
          rw [tokenize_loop_ok_step
            (tokenize_step_frame sep X hsep hne hstep (fun _ k => by cases k))]
          refine ih s1 rest1 r h hok hto hr g ?_
          simp only [List.length_cons, List.length_append] at hg hlen ⊢
          omega
        | exit s1 =>
          simp only at h
          subst h
          exact tokenize_loop_stop_step (tokenize_step_frame sep X hsep hne hstep hr) hok
        | overrun s1 =>
          simp only at h
          subst h
          exact tokenize_loop_stop_step (tokenize_step_frame sep X hsep hne hstep hr) hok
        | timeout =>
          simp only at h
          exact absurd h.symm hto

/-- Lexing a text `A` that lexes on its own, a comment and `B` gives the same
result, up to line numbers, as lexing `A`, a space and `B`. -/
theorem comment_as_space (A c B : List Char) (sA : LexState) (hc : '*' ∉ c)
    (hA : tokenize A = .ok sA) :
    (tokenize (A ++ '*' :: (c ++ '*' :: B))).same_upto_lines (tokenize (A ++ ' ' :: B)) := by
  unfold tokenize at hA ⊢
  have r1 := tokenize_loop_prefix '*' (c ++ '*' :: B) (by decide) (by decide) _ _ _ _ hA
  have r2 := tokenize_loop_prefix ' ' B (by decide) (by decide) _ _ _ _ hA
  rw [lex_run_loop r1 _ (Nat.le_refl _), lex_run_loop r2 _ (Nat.le_refl _)]
  have hlen : ('*' :: (c ++ '*' :: B)).length = (c.length + 1 + B.length) + 1 := by
    simp only [List.length_cons, List.length_append]
    omega
  rw [hlen, List.length_cons, tokenize_loop_ok_step (tokenize_step_comment sA c B hc),
    tokenize_loop_ok_step (tokenize_step_space sA ' ' B (by decide)),
    tokenize_loop_fuel (c.length + 1 + B.length) B.length _ B (by omega) (Nat.le_refl _)]
  exact tokenize_loop_sim _ _ _ _ ⟨rfl, rfl, rfl, rfl⟩

/-- Lexing a text `A` that lexes on its own, followed by a comment that is never
closed, exits with the unterminated-comment diagnostic for the line reached at
the end of `A`. -/
theorem comment_open_exit (A c : List Char) (sA : LexState) (hc : '*' ∉ c)
    (hA : tokenize A = .ok sA) :
    ∃ s1, tokenize (A ++ '*' :: c) = .exit s1 ∧
      LexDiag.unterminatedComment sA.line ∈ s1.diag := by
  unfold tokenize at hA ⊢
  have r1 := tokenize_loop_prefix '*' c (by decide) (by decide) _ _ _ _ hA
  rw [lex_run_loop r1 _ (Nat.le_refl _)]
  obtain ⟨s1, he, hd, _⟩ := lex_error_exit { sA with line := sA.line + c.count '\n' }
    (.unterminatedComment sA.line) "Unterminated comment detected." (sA.line + c.count '\n')
  refine ⟨s1, ?_, hd⟩
  rw [List.length_cons]
  exact tokenize_loop_exit_step (by rw [tokenize_step_comment_open sA c hc]; exact he)

/-- Lexing a text `A` that fails on its own, for another reason than a comment
or string literal left open at its end, fails in the same way when a comment
or a space follows. -/
theorem failure_before_comment (A X : List Char) (sep : Char) (r : LexRes)
    (hsep : is_identifier_char sep = false) (hne : sep ≠ '=') (hA : tokenize A = r)
    (hok : ∀ sA, r ≠ .ok sA)
    (hr : ∀ s1, r = .exit s1 →
      ∀ l, LexDiag.unterminatedComment l ∉ s1.diag ∧ LexDiag.unterminatedString l ∉ s1.diag) :
    tokenize (A ++ sep :: X) = r := by
  have hto : r ≠ .timeout := by rw [← hA]; exact tokenize_returns A
  unfold tokenize at hA ⊢
  exact tokenize_loop_prefix_stop sep X hsep hne _ _ _ _ hA hok hto hr _ (Nat.le_refl _)

/-- C24 (comments): the round of the main loop at a `*` reads up to the next
`*`, stores no token and changes only the line counter, by one for each newline
inside the comment. For every text `A` that lexes on its own, every comment text
`c` without `*` and every text `B`, lexing `A`, the comment and `B` gives the
same result as lexing `A`, a space and `B`: the same kind of outcome, the same
kinds and texts of tokens, the same declaration set, flag and token lines
printed; only line numbers may differ. When lexing `A` on its own exits, for
another reason than a comment or string literal left open at its end, or
overruns a buffer, lexing exits or overruns in the very same state with the
comment and with the space. When end of input comes before the closing `*`,
lexing exits with the unterminated-comment diagnostic, which carries the line
counter at the opening `*`: the line reached wherever the main loop meets that
`*`, in particular at the end of a text `A` that lexes on its own. The comment
between `1` and `2` separates them as a space does, while `12` is one token. -/
theorem C24_comments :
    (∀ (s : LexState) (c rest : List Char), '*' ∉ c →
      tokenize_step s '*' (c ++ '*' :: rest) =
        (.ok { s with line := s.line + c.count '\n' }, rest)) ∧
    (∀ (A c B : List Char) (sA : LexState), '*' ∉ c → tokenize A = .ok sA →
      (tokenize (A ++ '*' :: (c ++ '*' :: B))).same_upto_lines (tokenize (A ++ ' ' :: B))) ∧
    (∀ (A c B : List Char) (s1 : LexState), tokenize A = .exit s1 →
      (∀ l, LexDiag.unterminatedComment l ∉ s1.diag ∧
        LexDiag.unterminatedString l ∉ s1.diag) →
      tokenize (A ++ '*' :: (c ++ '*' :: B)) = .exit s1 ∧
        tokenize (A ++ ' ' :: B) = .exit s1) ∧
    (∀ (A c B : List Char) (s1 : LexState), tokenize A = .overrun s1 →
      tokenize (A ++ '*' :: (c ++ '*' :: B)) = .overrun s1 ∧
        tokenize (A ++ ' ' :: B) = .overrun s1) ∧
    (∀ (A c : List Char) (sA : LexState), '*' ∉ c →
      LexRun LexState.init (A ++ '*' :: c) sA ('*' :: c) →
      ∃ s1, tokenize (A ++ '*' :: c) = .exit s1 ∧
        LexDiag.unterminatedComment sA.line ∈ s1.diag) ∧
    (∀ (A c : List Char) (sA : LexState), '*' ∉ c → tokenize A = .ok sA →
      ∃ s1, tokenize (A ++ '*' :: c) = .exit s1 ∧
        LexDiag.unterminatedComment sA.line ∈ s1.diag) ∧
    tokens_of "write 1;\n* a\nb * write 2;" =
      some [⟨TOKEN_KEYWORD, "write", 1⟩, ⟨TOKEN_INTCONST, "1", 1⟩, ⟨TOKEN_ENDOFLINE, "", 1⟩,
        ⟨TOKEN_KEYWORD, "write", 3⟩, ⟨TOKEN_INTCONST, "2", 3⟩, ⟨TOKEN_ENDOFLINE, "", 3⟩] ∧
    tokens_of "write 1;\n write 2;" =
      some [⟨TOKEN_KEYWORD, "write", 1⟩, ⟨TOKEN_INTCONST, "1", 1⟩, ⟨TOKEN_ENDOFLINE, "", 1⟩,
        ⟨TOKEN_KEYWORD, "write", 2⟩, ⟨TOKEN_INTCONST, "2", 2⟩, ⟨TOKEN_ENDOFLINE, "", 2⟩] ∧
    tokens_of "1*\n*2" = some [⟨TOKEN_INTCONST, "1", 1⟩, ⟨TOKEN_INTCONST, "2", 2⟩] ∧
    tokens_of "1 2" = some [⟨TOKEN_INTCONST, "1", 1⟩, ⟨TOKEN_INTCONST, "2", 1⟩] ∧
    tokens_of "12" = some [⟨TOKEN_INTCONST, "12", 1⟩] := by
  refine ⟨tokenize_step_comment, fun A c B sA hc hA => comment_as_space A c B sA hc hA, ?_, ?_,
    ?_, fun A c sA hc hA => comment_open_exit A c sA hc hA, by decide!, by decide!, by decide!,
    by decide!, by decide!⟩
  · intro A c B s1 hA hr
    have hr2 : ∀ s2, LexRes.exit s1 = .exit s2 →
        ∀ l, LexDiag.unterminatedComment l ∉ s2.diag ∧
          LexDiag.unterminatedString l ∉ s2.diag := by
      intro s2 h2
      cases h2
      exact hr
    exact ⟨failure_before_comment A _ '*' _ (by decide) (by decide) hA (fun _ k => by cases k)
        hr2,
      failure_before_comment A _ ' ' _ (by decide) (by decide) hA (fun _ k => by cases k) hr2⟩
  · intro A c B s1 hA
    exact ⟨failure_before_comment A _ '*' _ (by decide) (by decide) hA (fun _ k => by cases k)
        (fun _ k => by cases k),
      failure_before_comment A _ ' ' _ (by decide) (by decide) hA (fun _ k => by cases k)
        (fun _ k => by cases k)⟩
  · intro A c sA hc h1
    unfold tokenize
    rw [lex_run_loop h1 _ (Nat.le_refl _)]
    obtain ⟨s1, he, hd, _⟩ := lex_error_exit { sA with line := sA.line + c.count '\n' }
      (.unterminatedComment sA.line) "Unterminated comment detected." (sA.line + c.count '\n')
    refine ⟨s1, ?_, hd⟩
    rw [List.length_cons]
    exact tokenize_loop_exit_step (by rw [tokenize_step_comment_open sA c hc]; exact he)

/-- Witness for C24: the comment `* a`, newline, `*` between the literals `1`
and `2`, against a space between them; and the same comment after the
undeclared word `x`, where lexing exits at `x` either way. -/
theorem C24_comments_witness :
    (tokenize (['1'] ++ '*' :: (['a', '\n'] ++ '*' :: ['2']))).same_upto_lines
      (tokenize (['1'] ++ ' ' :: ['2'])) ∧
    (tokenize (['x'] ++ '*' :: (['a', '\n'] ++ '*' :: ['2'])) = .exit
        { line := 1, expect_identifier_declaration := false, declared_identifiers := [],
          token_list := [⟨TOKEN_ERROR, "'x' is not defined", 1⟩],
          out := ["Error('x' is not defined)"], diag := [.notDefined 1 "'x' is not defined"] } ∧
      tokenize (['x'] ++ ' ' :: ['2']) = .exit
        { line := 1, expect_identifier_declaration := false, declared_identifiers := [],
          token_list := [⟨TOKEN_ERROR, "'x' is not defined", 1⟩],
          out := ["Error('x' is not defined)"], diag := [.notDefined 1 "'x' is not defined"] }) :=
  ⟨C24_comments.2.1 ['1'] ['a', '\n'] ['2']
    { line := 1, expect_identifier_declaration := false, declared_identifiers := [],
      token_list := [⟨TOKEN_INTCONST, "1", 1⟩], out := ["IntConstant(1)"], diag := [] }
    (by decide) (by decide!),
   C24_comments.2.2.1 ['x'] ['a', '\n'] ['2']
    { line := 1, expect_identifier_declaration := false, declared_identifiers := [],
      token_list := [⟨TOKEN_ERROR, "'x' is not defined", 1⟩],
      out := ["Error('x' is not defined)"], diag := [.notDefined 1 "'x' is not defined"] }
    (by decide!) (fun l => ⟨by simp, by simp⟩)⟩

/-! ## A relation kept by every executor step on given tokens -/

theorem Res.related_bind_on {N : String → Prop} {R : ExecState → ExecState → Prop}
    (hR : StepClosedOn N R) {s : ExecState} {r : Res} {k : ExecState → Res}
    (h : r.related R s) (hk : ∀ s1, R s s1 → (k s1).related R s1) : (r.bind k).related R s := by
  cases r with
  | ok s1 =>
    have := hk s1 h
    simp only [Res.bind]
    cases hks : k s1 with
    | ok s2 => rw [hks] at this; exact hR.trans _ _ _ h this
    | fail e s2 => rw [hks] at this; exact hR.trans _ _ _ h this
    | timeout => trivial
  | fail e s1 => exact h
  | timeout => trivial

theorem Res.related_of_step_on {N : String → Prop} {R : ExecState → ExecState → Prop}
    (hR : StepClosedOn N R) {s : ExecState} (s1 : ExecState) {r : Res} (h1 : R s s1)
    (h : r.related R s1) : r.related R s := by
  cases r with
  | ok s2 => exact hR.trans _ _ _ h1 h
  | fail e s2 => exact hR.trans _ _ _ h1 h
  | timeout => trivial

theorem declare_var_related_on {N : String → Prop} {R : ExecState → ExecState → Prop}
    (hR : StepClosedOn N R) (s : ExecState) (name : String) (line : Nat) (hN : N name) :
    (declare_var s name line).related R s := by
  unfold declare_var
  split_ifs with h1 h2
  · exact hR.refl _
  · exact hR.refl _
  · refine hR.declare _ _ hN ?_ (by omega)
    cases hf : find_var s.var_table name with
    | none => rfl
    | some i => simp [hf] at h1

theorem set_variable_related_on {N : String → Prop} {R : ExecState → ExecState → Prop}
    (hR : StepClosedOn N R) (s : ExecState) (name : String) (v : Int) :
    (set_variable s name v).related R s := by
  unfold set_variable
  split
  · exact hR.refl _
  · next idx h => exact hR.store _ _ _ _ h

theorem interpret_write_loop_related_on {N : String → Prop}
    {R : ExecState → ExecState → Prop} (hR : StepClosedOn N R) (fuel : Nat)
    (toks : List Token) :
    ∀ (e : Bool) (s : ExecState), (interpret_write_loop fuel toks e s).related R s := by
  induction fuel with
  | zero => intro e s; trivial
  | succ n ih =>
    intro e s
    rw [interpret_write_loop]
    cases hp : peek toks s.cur with
    | none => exact hR.refl _
    | some t =>
      simp only
      have hstep : ∀ text, R s (adv toks (emit s text)).2 :=
        fun text => hR.trans _ _ _ (hR.emit s _) (hR.cursor _ _)
      split_ifs
      · exact Res.related_of_step_on hR _ (hR.cursor _ _) (ih _ _)
      · exact hR.refl _
      · exact Res.related_of_step_on hR _ (hstep _) (ih _ _)
      · exact Res.related_of_step_on hR _ (hstep _) (ih _ _)
      · split
        · exact hR.refl _
        · exact Res.related_of_step_on hR _ (hstep _) (ih _ _)
      · exact hR.refl _

theorem interpret_write_related_on {N : String → Prop} {R : ExecState → ExecState → Prop}
    (hR : StepClosedOn N R) (fuel : Nat) (toks : List Token) (s : ExecState) :
    (interpret_write fuel toks s).related R s := by
  unfold interpret_write
  refine Res.related_of_step_on hR _ (hR.cursor s (advance toks s.cur).2) ?_
  refine Res.related_bind_on hR (interpret_write_loop_related_on hR _ _ _ _) (fun s1 _ => ?_)
  split_ifs
  · exact hR.cursor _ _
  · exact hR.refl _

theorem adv_some_mem {toks : List Token} {s : ExecState} {t : Token}
    (h : (adv toks s).1 = some t) : t ∈ toks := by
  unfold adv advance at h
  cases hp : toks[s.cur.current]? with
  | none => rw [hp] at h; cases h
  | some u =>
    rw [hp] at h
    simp only [Option.some.injEq] at h
    rw [← h]
    exact List.mem_iff_getElem?.2 ⟨_, hp⟩

theorem interpret_declaration_related_on {N : String → Prop}
    {R : ExecState → ExecState → Prop} (hR : StepClosedOn N R) (toks : List Token)
    (hN : ∀ t ∈ toks, t.type = TOKEN_IDENTIFIER → N t.value) (s : ExecState) :
    (interpret_declaration toks s).related R s := by
  unfold interpret_declaration
  have h2 : R s (adv toks (adv toks s).2).2 :=
    hR.trans _ _ _ (hR.cursor _ _) (hR.cursor _ _)
  simp only
  split
  · exact h2
  · next id hid =>
    split_ifs with hty
    · exact h2
    · refine Res.related_of_step_on hR _ h2 ?_
      refine Res.related_bind_on hR
        (declare_var_related_on hR _ _ _ (hN id (adv_some_mem hid) (by simpa using hty)))
        (fun s3 _ => ?_)
      split_ifs
      · exact hR.cursor _ _
      · exact hR.refl _

theorem interpret_assignment_related_on {N : String → Prop}
    {R : ExecState → ExecState → Prop} (hR : StepClosedOn N R) (toks : List Token)
    (s : ExecState) : (interpret_assignment toks s).related R s := by
  unfold interpret_assignment
  have h3 : R s (adv toks (adv toks (adv toks s).2).2).2 :=
    hR.trans _ _ _ (hR.cursor _ _) (hR.trans _ _ _ (hR.cursor _ _) (hR.cursor _ _))
  simp only
  split
  · next id op rhs _ _ _ =>
    split
    · exact h3
    · split
      · exact h3
      · split
        · exact h3
        · next idx old hio =>
          split
          · exact h3
          · next v _ =>
            have hidx : find_var (adv toks (adv toks (adv toks s).2).2).2.var_table id.value
                = some idx := by
              cases hf : find_var (adv toks (adv toks (adv toks s).2).2).2.var_table id.value with
              | none => simp [hf] at hio
              | some i =>
                simp only [hf, Option.some_bind, Option.map_eq_some', Prod.mk.injEq] at hio
                obtain ⟨_, _, hi, _⟩ := hio
                rw [hi]
            have h4 := hR.store _ _ _ v hidx
            split_ifs
            · exact hR.trans _ _ _ h3 (hR.trans _ _ _ h4 (hR.cursor _ _))
            · exact hR.trans _ _ _ h3 h4
  · exact h3

/-- Every executor function relates its start state to the state it ends
with, for a relation kept by the steps on these tokens. -/
theorem interpret_related_on {N : String → Prop} {R : ExecState → ExecState → Prop}
    (hR : StepClosedOn N R) (fuel : Nat) (toks : List Token)
    (hN : ∀ t ∈ toks, t.type = TOKEN_IDENTIFIER → N t.value) :
    (∀ s, (interpret_statement fuel toks s).related R s) ∧
    (∀ s, (interpret_block fuel toks s).related R s) ∧
    (∀ s, (interpret_block_loop fuel toks s).related R s) ∧
    (∀ s, (interpret_repeat fuel toks s).related R s) ∧
    (∀ ct st b c s, (interpret_repeat_loop fuel toks ct st b c s).related R s) := by
  induction fuel with
  | zero => refine ⟨?_, ?_, ?_, ?_, ?_⟩ <;> intros <;> trivial
  | succ n ih =>
    obtain ⟨ihs, ihb, ihbl, ihr, ihrl⟩ := ih
    refine ⟨?_, ?_, ?_, ?_, ?_⟩
    · intro s
      rw [interpret_statement]
      cases hp : peek toks s.cur with
      | none => exact hR.refl _
      | some t =>
        simp only
        split_ifs
        all_goals first
          | exact hR.refl _
          | exact interpret_declaration_related_on hR _ hN _
          | exact interpret_assignment_related_on hR _ _
          | exact interpret_write_related_on hR _ _ _
          | exact ihr _
          | exact ihb _
    · intro s
      rw [interpret_block]
      split_ifs
      · refine Res.related_of_step_on hR (accept toks s TOKEN_OPENBLOCK none).2
          (hR.cursor _ _) ?_
        refine Res.related_bind_on hR (ihbl _) (fun s2 _ => ?_)
        split_ifs
        · exact hR.cursor _ _
        · exact hR.refl _
      · exact hR.refl _
    · intro s
      rw [interpret_block_loop]
      cases hp : peek toks s.cur with
      | none => exact hR.refl _
      | some t =>
        simp only
        split_ifs
        · exact Res.related_bind_on hR (ihs _) (fun s1 _ => ihbl _)
        · exact hR.refl _
    · intro s
      rw [interpret_repeat]
      have h2 : R s (adv toks (adv toks s).2).2 :=
        hR.trans _ _ _ (hR.cursor _ _) (hR.cursor _ _)
      simp only
      split
      · exact h2
      · split
        · exact h2
        · split_ifs
          · have h3 : R s (accept toks (adv toks (adv toks s).2).2 TOKEN_KEYWORD
                (some "times")).2 := hR.trans _ _ _ h2 (hR.cursor _ _)
            split
            · exact h3
            · exact Res.related_of_step_on hR _ h3 (ihrl _ _ _ _ _)
          · exact h2
    · intro ct st b c s
      rw [interpret_repeat_loop]
      simp only
      split_ifs with hc hb hct hct
      · refine Res.related_of_step_on hR { s with cur := { s.cur with current := st } }
          (hR.cursor s _) ?_
        refine Res.related_bind_on hR (ihb _) (fun s1 _ => ?_)
        refine Res.related_bind_on hR (set_variable_related_on hR _ _ _) (fun s2 _ => ?_)
        split
        · exact hR.refl _
        · exact ihrl _ _ _ _ _
      · refine Res.related_of_step_on hR { s with cur := { s.cur with current := st } }
          (hR.cursor s _) ?_
        exact Res.related_bind_on hR (ihb _) (fun s1 _ => ihrl _ _ _ _ _)
      · refine Res.related_of_step_on hR { s with cur := { s.cur with current := st } }
          (hR.cursor s _) ?_
        refine Res.related_bind_on hR (ihs _) (fun s1 _ => ?_)
        refine Res.related_bind_on hR (set_variable_related_on hR _ _ _) (fun s2 _ => ?_)
        split
        · exact hR.refl _
        · exact ihrl _ _ _ _ _
      · refine Res.related_of_step_on hR { s with cur := { s.cur with current := st } }
          (hR.cursor s _) ?_
        exact Res.related_bind_on hR (ihs _) (fun s1 _ => ihrl _ _ _ _ _)
      · exact set_variable_related_on hR _ _ _
      · exact hR.refl _

theorem interpret_loop_related_on {N : String → Prop} {R : ExecState → ExecState → Prop}
    (hR : StepClosedOn N R) (toks : List Token)
    (hN : ∀ t ∈ toks, t.type = TOKEN_IDENTIFIER → N t.value) (fuel : Nat) :
    ∀ s, (interpret_loop fuel toks s).related R s := by
  induction fuel with
  | zero => intro s; trivial
  | succ n ih =>
    intro s
    rw [interpret_loop]
    cases hp : peek toks s.cur with
    | none => exact hR.refl _
    | some t =>
      exact Res.related_bind_on hR ((interpret_related_on hR n toks hN).1 s) (fun s1 _ => ih s1)

theorem find_var_from_none (vars : List Variable) (name : String) (i : Nat)
    (h : find_var_from vars name i = none) : name ∉ vars.map (·.name) := by
  induction vars generalizing i with
  | nil => simp
  | cons x xs ih =>
    simp only [find_var_from] at h
    split_ifs at h with hx
    simp only [List.map_cons, List.mem_cons, not_or]
    refine ⟨fun he => hx (by simp [he]), ih (i + 1) h⟩

/-- The steps of the executor keep the variable table in the sense of
`table_kept`. -/
theorem table_kept_closed : StepClosed table_kept where
  refl := fun _ => ⟨⟨[], by simp⟩, id, id⟩
  trans := by
    rintro s1 s2 s3 ⟨⟨e1, h1⟩, a1, b1⟩ ⟨⟨e2, h2⟩, a2, b2⟩
    exact ⟨⟨e1 ++ e2, by rw [h2, h1, List.append_assoc]⟩, fun h => a2 (a1 h),
      fun h => b2 (b1 h)⟩
  cursor := fun _ _ => ⟨⟨[], by simp⟩, id, id⟩
  emit := fun _ _ => ⟨⟨[], by simp [emit]⟩, id, id⟩
  declare := by
    intro s name hf hlen
    refine ⟨⟨[name], by simp⟩, ?_, ?_⟩
    · intro hnd
      simp only [List.map_append, List.map_cons, List.map_nil]
      refine List.Nodup.append hnd (List.nodup_singleton _) ?_
      intro x hx hx2
      rw [List.mem_singleton.1 hx2] at hx
      exact find_var_from_none _ _ _ hf hx
    · intro _
      simp only [List.length_append, List.length_singleton]
      omega
  store := by
    intro s name idx v _
    refine ⟨⟨[], by simp [store_names]⟩, ?_, ?_⟩
    · intro h; simp only [store_names]; exact h
    · intro h; simp only [store_length]; exact h

/-- The steps of the executor keep the names short, when the text of every
identifier token has at most 20 characters. -/
theorem names_short_closed : StepClosedOn (fun name => name.length ≤ 20) names_short where
  refl := fun _ => id
  trans := fun _ _ _ h1 h2 h => h2 (h1 h)
  cursor := fun _ _ => id
  emit := fun _ _ => id
  declare := by
    intro s name hN _ _ h v hv
    rcases List.mem_append.1 hv with hv | hv
    · exact h v hv
    · rw [List.mem_singleton.1 hv]; exact hN
  store := by
    intro s name idx v _ h x hx
    have hmem : x.name ∈ (store s.var_table idx v).map (·.name) := List.mem_map_of_mem _ hx
    rw [store_names] at hmem
    obtain ⟨y, hy, hyx⟩ := List.mem_map.1 hmem
    rw [← hyx]
    exact h y hy

theorem interpret_loop_related {R : ExecState → ExecState → Prop} (hR : StepClosed R)
    (toks : List Token) (fuel : Nat) : ∀ s, (interpret_loop fuel toks s).related R s := by
  induction fuel with
  | zero => intro s; trivial
  | succ n ih =>
    intro s
    rw [interpret_loop]
    cases hp : peek toks s.cur with
    | none => exact hR.refl _
    | some t =>
      exact Res.related_bind hR ((interpret_related hR n toks).1 s) (fun s1 _ => ih s1)

theorem Res.related_state {R : ExecState → ExecState → Prop} {s s1 : ExecState} {r : Res}
    (h : r.related R s) (hs : r.state = some s1) : R s s1 := by
  cases r with
  | ok s2 => simp only [Res.state, Option.some.injEq] at hs; rw [← hs]; exact h
  | fail e s2 => simp only [Res.state, Option.some.injEq] at hs; rw [← hs]; exact h
  | timeout => cases hs

/-- C25 (variable table invariant): the state with which `interpret` ends, by
normal return or by a runtime failure, has a table of pairwise distinct names
and at most 100 entries; when the tokens come from a successful `tokenize`,
every name in it has at most 20 characters. Every statement, block and repeat,
run from any state, leaves a table that continues the one it started from: the
names it held stand first, unchanged and in the same order, so that no entry is
removed, renamed or moved, and distinctness and the bound of 100 are kept. -/
theorem C25_variable_table_invariant :
    (∀ (fuel : Nat) (toks : List Token) (c : Cursor) (s1 : ExecState),
      (interpret fuel toks c).state = some s1 →
      (s1.var_table.map (·.name)).Nodup ∧ s1.var_table.length ≤ 100) ∧
    (∀ (input : List Char) (l : LexState), tokenize input = .ok l →
      ∀ (fuel : Nat) (c : Cursor) (s1 : ExecState),
        (interpret fuel l.token_list c).state = some s1 →
        ∀ v ∈ s1.var_table, v.name.length ≤ 20) ∧
    (∀ (fuel : Nat) (toks : List Token) (s s1 : ExecState),
      ((interpret_statement fuel toks s).state = some s1 ∨
        (interpret_block fuel toks s).state = some s1 ∨
        (interpret_repeat fuel toks s).state = some s1 ∨
        (interpret_loop fuel toks s).state = some s1) →
      (∃ ext, s1.var_table.map (·.name) = s.var_table.map (·.name) ++ ext) ∧
      ((s.var_table.map (·.name)).Nodup → (s1.var_table.map (·.name)).Nodup) ∧
      (s.var_table.length ≤ 100 → s1.var_table.length ≤ 100)) := by
  refine ⟨?_, ?_, ?_⟩
  · intro fuel toks c s1 h
    have := Res.related_state (interpret_loop_related table_kept_closed toks fuel _) h
    exact ⟨this.2.1 List.nodup_nil, this.2.2 (Nat.zero_le _)⟩
  · intro input l hl fuel c s1 h
    have hN : ∀ t ∈ l.token_list, t.type = TOKEN_IDENTIFIER → t.value.length ≤ 20 :=
      fun t ht hty => ((well_formed_shape (tokenize_well_formed hl t ht)).2.1 hty).2.2.1
    have := Res.related_state
      (interpret_loop_related_on names_short_closed l.token_list hN fuel _) h
    exact this (fun v hv => by cases hv)
  · intro fuel toks s s1 h
    have hk := interpret_related table_kept_closed fuel toks
    rcases h with h | h | h | h
    · exact Res.related_state (hk.1 s) h
    · exact Res.related_state (hk.2.1 s) h
    · exact Res.related_state (hk.2.2.2.1 s) h
    · exact Res.related_state (interpret_loop_related table_kept_closed toks fuel s) h

/-- Witness for C25: the run of `number x; number y; x := 5;`. -/
theorem C25_variable_table_invariant_witness :
    (interpret 4
      [⟨TOKEN_KEYWORD, "number", 1⟩, ⟨TOKEN_IDENTIFIER, "x", 1⟩, ⟨TOKEN_ENDOFLINE, "", 1⟩,
        ⟨TOKEN_KEYWORD, "number", 1⟩, ⟨TOKEN_IDENTIFIER, "y", 1⟩, ⟨TOKEN_ENDOFLINE, "", 1⟩,
        ⟨TOKEN_IDENTIFIER, "x", 1⟩, ⟨TOKEN_OPERATOR, ":=", 1⟩, ⟨TOKEN_INTCONST, "5", 1⟩,
        ⟨TOKEN_ENDOFLINE, "", 1⟩] ⟨0, none, -1⟩).state =
      some ⟨⟨10, some ⟨TOKEN_ENDOFLINE, "", 1⟩, 1⟩, [⟨"x", 5⟩, ⟨"y", 0⟩], ""⟩ ∧
    ([(⟨"x", 5⟩ : Variable), ⟨"y", 0⟩].map (·.name)).Nodup ∧
    [(⟨"x", 5⟩ : Variable), ⟨"y", 0⟩].length ≤ 100 :=
  ⟨by decide!, C25_variable_table_invariant.1 4
    [⟨TOKEN_KEYWORD, "number", 1⟩, ⟨TOKEN_IDENTIFIER, "x", 1⟩, ⟨TOKEN_ENDOFLINE, "", 1⟩,
      ⟨TOKEN_KEYWORD, "number", 1⟩, ⟨TOKEN_IDENTIFIER, "y", 1⟩, ⟨TOKEN_ENDOFLINE, "", 1⟩,
      ⟨TOKEN_IDENTIFIER, "x", 1⟩, ⟨TOKEN_OPERATOR, ":=", 1⟩, ⟨TOKEN_INTCONST, "5", 1⟩,
      ⟨TOKEN_ENDOFLINE, "", 1⟩] ⟨0, none, -1⟩
    ⟨⟨10, some ⟨TOKEN_ENDOFLINE, "", 1⟩, 1⟩, [⟨"x", 5⟩, ⟨"y", 0⟩], ""⟩ (by decide!)⟩

/-! ## The last consumed token -/

theorem PRes.follows_bind {toks : List Token} {r : PRes} {g : Cursor → PRes}
    (hr : r.follows toks) (hg : ∀ c, cursor_follows toks c → (g c).follows toks) :
    (r.bind g).follows toks := by
  cases r with
  | ok c => exact hg c hr
  | fail e c => exact hr
  | timeout => trivial

theorem advance_follows {toks : List Token} {c : Cursor} (h : cursor_follows toks c) :
    cursor_follows toks (advance toks c).2 := by
  unfold advance
  cases hp : toks[c.current]? with
  | none => exact h
  | some t => exact Or.inr ⟨t, c.current, rfl, rfl, rfl, hp⟩

theorem matchTok_follows {toks : List Token} {c : Cursor} (ty : TokenType)
    (v : Option String) (h : cursor_follows toks c) :
    cursor_follows toks (matchTok toks c ty v).2 := by
  unfold matchTok
  cases hp : peek toks c with
  | none => exact h
  | some t =>
    simp only
    split_ifs
    · exact advance_follows h
    · exact h

theorem expect_follows {toks : List Token} {c : Cursor} (ty : TokenType) (v : Option String)
    (h : cursor_follows toks c) : (expect toks c ty v).follows toks := by
  unfold expect
  split_ifs
  · exact matchTok_follows ty v h
  · exact h

theorem parse_declaration_follows {toks : List Token} {c : Cursor}
    (h : cursor_follows toks c) : (parse_declaration toks c).follows toks :=
  PRes.follows_bind (expect_follows _ _ h) fun _ h1 =>
    PRes.follows_bind (expect_follows _ _ h1) fun _ h2 => expect_follows _ _ h2

theorem parse_assign_with_follows {toks : List Token} {c : Cursor} (op : String)
    (err : Int → SyntaxError) (h : cursor_follows toks c) :
    (parse_assign_with op err toks c).follows toks := by
  unfold parse_assign_with
  refine PRes.follows_bind (expect_follows _ _ h) fun c1 h1 =>
    PRes.follows_bind (expect_follows _ _ h1) fun c2 h2 => ?_
  cases hp : peek toks c2 with
  | none => exact h2
  | some t =>
    simp only
    split_ifs
    · exact expect_follows _ _ (advance_follows h2)
    · exact h2

theorem parse_write_loop_follows (fuel : Nat) (toks : List Token) :
    ∀ (b : Bool) (c : Cursor), cursor_follows toks c →
      (parse_write_loop fuel toks b c).follows toks := by
  induction fuel with
  | zero => intro b c _; trivial
  | succ n ih =>
    intro b c h
    rw [parse_write_loop]
    cases hp : peek toks c with
    | none => exact h
    | some t =>
      simp only
      split_ifs
      · exact ih _ _ (matchTok_follows _ _ h)
      · exact h
      · exact ih _ _ (advance_follows h)
      · exact h

theorem parse_write_follows (fuel : Nat) {toks : List Token} {c : Cursor}
    (h : cursor_follows toks c) : (parse_write fuel toks c).follows toks :=
  PRes.follows_bind (expect_follows _ _ h) fun _ h1 =>
    PRes.follows_bind (parse_write_loop_follows _ _ _ _ h1) fun _ h2 => expect_follows _ _ h2

theorem parse_repeat_count_follows {toks : List Token} {c : Cursor}
    (h : cursor_follows toks c) : (parse_repeat_count toks c).follows toks := by
  unfold parse_repeat_count
  cases hp : peek toks c with
  | none => exact h
  | some t =>
    simp only
    split_ifs
    · exact advance_follows h
    · exact h

/-- Every validator function keeps `last_token` on the token before the
cursor. -/
theorem parse_follows (fuel : Nat) (toks : List Token) :
    (∀ c, cursor_follows toks c → (parse_statement fuel toks c).follows toks) ∧
    (∀ c, cursor_follows toks c → (parse_block fuel toks c).follows toks) ∧
    (∀ c, cursor_follows toks c → (parse_block_loop fuel toks c).follows toks) ∧
    (∀ c, cursor_follows toks c → (parse_repeat fuel toks c).follows toks) := by
  induction fuel with
  | zero => refine ⟨?_, ?_, ?_, ?_⟩ <;> intros <;> trivial
  | succ n ih =>
    obtain ⟨ihs, ihb, ihbl, ihr⟩ := ih
    refine ⟨?_, ?_, ?_, ?_⟩
    · intro c h
      rw [parse_statement]
      cases hp : peek toks c with
      | none => exact h
      | some t =>
        simp only
        split_ifs
        all_goals first
          | exact parse_declaration_follows h
          | exact parse_write_follows _ h
          | exact ihr _ h
          | exact ihb _ h
          | exact h
          | (split
             · exact h
             · split_ifs
               all_goals first
                 | exact parse_assign_with_follows _ _ h
                 | exact h)
    · intro c h
      rw [parse_block]
      exact PRes.follows_bind (expect_follows _ _ h) fun c1 h1 => ihbl c1 h1
    · intro c h
      rw [parse_block_loop]
      cases hp : peek toks c with
      | none => exact h
      | some t =>
        simp only
        split_ifs
        · exact expect_follows _ _ h
        · exact PRes.follows_bind (ihs c h) fun c1 h1 => ihbl c1 h1
    · intro c h
      rw [parse_repeat]
      refine PRes.follows_bind (expect_follows _ _ h) fun c1 h1 =>
        PRes.follows_bind (parse_repeat_count_follows h1) fun c2 h2 =>
          PRes.follows_bind (expect_follows _ _ h2) fun c3 h3 => ?_
      cases hp : peek toks c3 with
      | none => exact h3
      | some t =>
        simp only
        split_ifs
        all_goals first
          | exact ihb _ h3
          | exact parse_write_follows _ h3
          | exact h3
          | (split
             · exact h3
             · split_ifs
               all_goals first
                 | exact h3
                 | exact PRes.follows_bind (parse_assign_with_follows _ _ h3) fun c4 h4 =>
                     expect_follows _ _ h4)

theorem parse_loop_follows (fuel : Nat) (toks : List Token) :
    ∀ c, cursor_follows toks c → (parse_loop fuel toks c).follows toks := by
  induction fuel with
  | zero => intro c _; trivial
  | succ n ih =>
    intro c h
    rw [parse_loop]
    split_ifs
    · exact PRes.follows_bind ((parse_follows n toks).1 c h) fun c1 h1 => ih c1 h1
    · exact h

/-- On tokens whose lines never go back, the line that `expect` reports is the
line of the token before the cursor, once a token was consumed. -/
theorem expect_line_last {toks : List Token} (hord : lines_ordered toks) {line : Int}
    {exp got : String} {c : Cursor} (h : parse toks = .fail (.expected line exp got) c)
    (hc : 1 ≤ c.current) :
    ∃ lt, toks[c.current - 1]? = some lt ∧ c.last_token = some lt ∧ line = (lt.line : Int) := by
  have hatt := parse_loop_attributed (3 * toks.length + 2) toks ⟨0, none, -1⟩
  have hfol := parse_loop_follows (3 * toks.length + 2) toks ⟨0, none, -1⟩ (Or.inl ⟨rfl, rfl⟩)
  unfold parse at h
  rw [h] at hatt hfol
  have hline : line = expect_err_line (peek toks c) c := by
    have := hatt.1 rfl
    simpa [SyntaxError.line] using this
  rcases hfol with ⟨_, h0⟩ | ⟨lt, i, h1, h2, h3, h4⟩
  · omega
  · refine ⟨lt, by rw [h3]; exact h4, h1, ?_⟩
    rw [hline]
    unfold expect_err_line
    cases hp : peek toks c with
    | none => exact h2
    | some t =>
      simp only [h1]
      have hle : lt.line ≤ t.line := hord i lt t h4 (by rw [← h3]; exact hp)
      split_ifs with hlt
      · rfl
      · have : t.line = lt.line := by omega
        rw [this]

/-- C29 (token lines are monotone): in the token sequence of a successful
`tokenize`, every token's line is at least 1 and at least the line of the token
before it; and when the validator ends on these tokens with the diagnostic of
`expect` after at least one token was consumed, the line reported is the line
of the token just before the cursor, which is the last token consumed. -/
theorem C29_token_lines_monotone (input : List Char) (l : LexState)
    (h : tokenize input = .ok l) :
    (∀ t ∈ l.token_list, 1 ≤ t.line) ∧
    (∀ i t u, l.token_list[i]? = some t → l.token_list[i + 1]? = some u → t.line ≤ u.line) ∧
    (∀ (line : Int) (exp got : String) (c : Cursor),
      parse l.token_list = .fail (.expected line exp got) c → 1 ≤ c.current →
      ∃ lt, l.token_list[c.current - 1]? = some lt ∧ c.last_token = some lt ∧
        line = (lt.line : Int)) :=
  ⟨fun t ht => ((tokenize_lines h).1 t ht).1, (tokenize_lines h).2,
    fun _ _ _ _ hp hc => expect_line_last (tokenize_lines h).2 hp hc⟩

/-- Witness for C29: the source `write 7`, newline, `number x;`, where `expect`
misses the semicolon at the `number` of line 2 and reports line 1. -/
theorem C29_token_lines_monotone_witness :
    ∃ lt, [(⟨TOKEN_KEYWORD, "write", 1⟩ : Token), ⟨TOKEN_INTCONST, "7", 1⟩,
        ⟨TOKEN_KEYWORD, "number", 2⟩, ⟨TOKEN_IDENTIFIER, "x", 2⟩,
        ⟨TOKEN_ENDOFLINE, "", 2⟩][2 - 1]? = some lt ∧
      (some ⟨TOKEN_INTCONST, "7", 1⟩ : Option Token) = some lt ∧ (1 : Int) = (lt.line : Int) :=
  (C29_token_lines_monotone "write 7\nnumber x;".toList
    { line := 2, expect_identifier_declaration := false, declared_identifiers := ["x"],
      token_list := [⟨TOKEN_KEYWORD, "write", 1⟩, ⟨TOKEN_INTCONST, "7", 1⟩,
        ⟨TOKEN_KEYWORD, "number", 2⟩, ⟨TOKEN_IDENTIFIER, "x", 2⟩, ⟨TOKEN_ENDOFLINE, "", 2⟩],
      out := ["Keyword(write)", "IntConstant(7)", "Keyword(number)", "Identifier(x)",
        "EndOfLine"],
      diag := [.debugLine 2] }
    (by decide!)).2.2 1 "semicolon ';'" "number"
    ⟨2, some ⟨TOKEN_INTCONST, "7", 1⟩, 1⟩ (by decide!) (by decide)

/-! ## What the validator accepts -/

theorem PRes.bind_ok {r : PRes} {g : Cursor → PRes} {c1 : Cursor} (h : r.bind g = .ok c1) :
    ∃ c0, r = .ok c0 ∧ g c0 = .ok c1 := by
  cases r with
  | ok c0 => exact ⟨c0, rfl, h⟩
  | fail e c0 => cases h
  | timeout => cases h

theorem drop_of_get {toks : List Token} {i : Nat} {t : Token} (h : toks[i]? = some t) :
    toks.drop i = t :: toks.drop (i + 1) := by
  obtain ⟨hi, ht⟩ := List.getElem?_eq_some.1 h
  rw [List.drop_eq_getElem_cons hi, ht]

theorem advance_drop {toks : List Token} {c : Cursor} {t : Token} (h : peek toks c = some t) :
    toks.drop c.current = t :: toks.drop (advance toks c).2.current := by
  unfold peek at h
  unfold advance
  rw [h]
  exact drop_of_get h

theorem expect_ok_inv {toks : List Token} {c c1 : Cursor} {ty : TokenType}
    {v : Option String} (h : expect toks c ty v = .ok c1) :
    ∃ t, tokMatches t ty v = true ∧ toks.drop c.current = t :: toks.drop c1.current := by
  unfold expect at h
  split_ifs at h with hm
  simp only [PRes.ok.injEq] at h
  unfold matchTok at hm h
  cases hp : peek toks c with
  | none => rw [hp] at hm; cases hm
  | some t =>
    rw [hp] at hm h
    simp only at hm h
    split_ifs at hm h with hmt
    rw [← h]
    exact ⟨t, hmt, advance_drop hp⟩

theorem tokMatches_type_inv {t : Token} {ty : TokenType} (h : tokMatches t ty none = true) :
    t.type = ty := by
  simpa [tokMatches] using h

theorem tokMatches_text_inv {t : Token} {ty : TokenType} {text : String}
    (h : tokMatches t ty (some text) = true) : t.type = ty ∧ t.value = text := by
  simpa [tokMatches] using h

theorem parse_declaration_ok_inv {toks : List Token} {c c1 : Cursor}
    (h : parse_declaration toks c = .ok c1) :
    ∃ n id semi, n.isKeyword "number" ∧ id.type = TOKEN_IDENTIFIER ∧
      semi.type = TOKEN_ENDOFLINE ∧ toks.drop c.current = [n, id, semi] ++ toks.drop c1.current := by
  unfold parse_declaration at h
  obtain ⟨c2, h1, h⟩ := PRes.bind_ok h
  obtain ⟨c3, h2, h3⟩ := PRes.bind_ok h
  obtain ⟨n, hn, dn⟩ := expect_ok_inv h1
  obtain ⟨id, hid, did⟩ := expect_ok_inv h2
  obtain ⟨semi, hsemi, dsemi⟩ := expect_ok_inv h3
  exact ⟨n, id, semi, tokMatches_text_inv hn, tokMatches_type_inv hid, tokMatches_type_inv hsemi,
    by rw [dn, did, dsemi]; rfl⟩

theorem parse_assign_with_ok_inv {toks : List Token} {c c1 : Cursor} {op : String}
    {err : Int → SyntaxError} (h : parse_assign_with op err toks c = .ok c1) :
    ∃ id o v semi, id.type = TOKEN_IDENTIFIER ∧ (o.type = TOKEN_OPERATOR ∧ o.value = op) ∧
      v.isValue ∧ semi.type = TOKEN_ENDOFLINE ∧
      toks.drop c.current = [id, o, v, semi] ++ toks.drop c1.current := by
  unfold parse_assign_with at h
  obtain ⟨c2, h1, h⟩ := PRes.bind_ok h
  obtain ⟨c3, h2, h3⟩ := PRes.bind_ok h
  obtain ⟨id, hid, did⟩ := expect_ok_inv h1
  obtain ⟨o, ho, do_⟩ := expect_ok_inv h2
  cases hp : peek toks c3 with
  | none => rw [hp] at h3; cases h3
  | some v =>
    rw [hp] at h3
    simp only at h3
    split_ifs at h3 with hv
    obtain ⟨semi, hsemi, dsemi⟩ := expect_ok_inv h3
    exact ⟨id, o, v, semi, tokMatches_type_inv hid, tokMatches_text_inv ho, hv,
      tokMatches_type_inv hsemi, by rw [did, do_, advance_drop hp, dsemi]; rfl⟩

theorem parse_repeat_count_ok_inv {toks : List Token} {c c1 : Cursor}
    (h : parse_repeat_count toks c = .ok c1) :
    ∃ t, t.isValue ∧ toks.drop c.current = t :: toks.drop c1.current := by
  unfold parse_repeat_count at h
  cases hp : peek toks c with
  | none => rw [hp] at h; cases h
  | some t =>
    rw [hp] at h
    simp only at h
    split_ifs at h with hv
    simp only [PRes.ok.injEq] at h
    rw [← h]
    exact ⟨t, hv, advance_drop hp⟩

/-- What the write loop has consumed when it returns: after a value, nothing
or `and` and a write list; before a value, a write list. -/
theorem parse_write_loop_ok_inv (fuel : Nat) (toks : List Token) :
    ∀ (b : Bool) (c c1 : Cursor), parse_write_loop fuel toks b c = .ok c1 →
      (b = false → ∃ l, Validates .writelist l ∧
        toks.drop c.current = l ++ toks.drop c1.current) ∧
      (b = true → c1 = c ∨ ∃ a l, a.isKeyword "and" ∧ Validates .writelist l ∧
        toks.drop c.current = a :: l ++ toks.drop c1.current) := by
  induction fuel with
  | zero => intro b c c1 h; cases h
  | succ n ih =>
    intro b c c1 h
    rw [parse_write_loop] at h
    cases hp : peek toks c with
    | none => rw [hp] at h; cases h
    | some t =>
      rw [hp] at h
      simp only at h
      cases b with
      | true =>
        simp only [if_true] at h
        refine ⟨fun hb => (by cases hb), fun _ => ?_⟩
        split_ifs at h with hm
        · obtain ⟨l, hl, dl⟩ := (ih _ _ _ h).1 rfl
          have he : expect toks c TOKEN_KEYWORD (some "and") =
              .ok (matchTok toks c TOKEN_KEYWORD (some "and")).2 := by
            unfold expect
            rw [if_pos hm]
          obtain ⟨a, ha, da⟩ := expect_ok_inv he
          exact Or.inr ⟨a, l, tokMatches_text_inv ha, hl, by rw [da, dl]; rfl⟩
        · simp only [PRes.ok.injEq] at h
          exact Or.inl h.symm
      | false =>
        simp only [Bool.false_eq_true, if_false] at h
        refine ⟨fun _ => ?_, fun hb => by cases hb⟩
        split_ifs at h with hv
        have hwv : t.isWriteVal := by
          rcases hv with hv | hv | hv | hv
          · exact Or.inl hv
          · exact Or.inr (Or.inr (Or.inl hv))
          · exact Or.inr (Or.inr (Or.inr hv))
          · exact Or.inr (Or.inl hv)
        rcases (ih _ _ _ h).2 rfl with hc | ⟨a, l, ha, hl, dl⟩
        · exact ⟨[t], .writelist_one hwv, by rw [advance_drop hp, hc]; rfl⟩
        · exact ⟨t :: a :: l, .writelist_and hwv ha hl, by rw [advance_drop hp, dl]; rfl⟩

theorem parse_write_ok_inv {fuel : Nat} {toks : List Token} {c c1 : Cursor}
    (h : parse_write fuel toks c = .ok c1) :
    ∃ w l semi, w.isKeyword "write" ∧ Validates .writelist l ∧ semi.type = TOKEN_ENDOFLINE ∧
      toks.drop c.current = (w :: l ++ [semi]) ++ toks.drop c1.current := by
  unfold parse_write at h
  obtain ⟨c2, h1, h⟩ := PRes.bind_ok h
  obtain ⟨c3, h2, h3⟩ := PRes.bind_ok h
  obtain ⟨w, hw, dw⟩ := expect_ok_inv h1
  obtain ⟨l, hl, dl⟩ := (parse_write_loop_ok_inv _ _ _ _ _ h2).1 rfl
  obtain ⟨semi, hsemi, dsemi⟩ := expect_ok_inv h3
  exact ⟨w, l, semi, tokMatches_text_inv hw, hl, tokMatches_type_inv hsemi,
    by rw [dw, dl, dsemi]; simp⟩

/-! ## Soundness of the validator -/

theorem assign_op_of {o : Token} {op : String} (h : o.type = TOKEN_OPERATOR ∧ o.value = op)
    (hop : op = ":=" ∨ op = "+=" ∨ op = "-=") : o.isAssignOp :=
  ⟨h.1, by rw [h.2]; exact hop⟩

/-- What each validator function has consumed when it returns normally: a
statement, a block, a statement list up to and with the closing brace, a
repeat statement, each in the forms the validator admits. -/
theorem parse_sound (fuel : Nat) (toks : List Token) :
    (∀ c c1, parse_statement fuel toks c = .ok c1 → (peek toks c).isSome = true →
      ∃ l, Validates .statement l ∧ toks.drop c.current = l ++ toks.drop c1.current) ∧
    (∀ c c1, parse_block fuel toks c = .ok c1 →
      ∃ o l cl, o.type = TOKEN_OPENBLOCK ∧ Validates .program l ∧ cl.type = TOKEN_CLOSEBLOCK ∧
        toks.drop c.current = (o :: l ++ [cl]) ++ toks.drop c1.current) ∧
    (∀ c c1, parse_block_loop fuel toks c = .ok c1 →
      ∃ l cl, Validates .program l ∧ cl.type = TOKEN_CLOSEBLOCK ∧
        toks.drop c.current = (l ++ [cl]) ++ toks.drop c1.current) ∧
    (∀ c c1, parse_repeat fuel toks c = .ok c1 →
      ∃ l, Validates .statement l ∧ toks.drop c.current = l ++ toks.drop c1.current) := by
  induction fuel with
  | zero => refine ⟨?_, ?_, ?_, ?_⟩ <;> intro c c1 h <;> cases h
  | succ n ih =>
    obtain ⟨ihs, ihb, ihbl, ihr⟩ := ih
    refine ⟨?_, ?_, ?_, ?_⟩
    · intro c c1 h hsome
      rw [parse_statement] at h
      cases hp : peek toks c with
      | none => rw [hp] at hsome; cases hsome
      | some t =>
        rw [hp] at h
        simp only at h
        by_cases hk : t.type = TOKEN_KEYWORD
        · rw [if_pos hk] at h
          by_cases h1 : t.value = "number"
          · rw [if_pos h1] at h
            obtain ⟨a, id, semi, ha, hid, hsemi, d⟩ := parse_declaration_ok_inv h
            exact ⟨_, .declaration ha hid hsemi, d⟩
          rw [if_neg h1] at h
          by_cases h2 : t.value = "write"
          · rw [if_pos h2] at h
            obtain ⟨w, l, semi, hw, hl, hsemi, d⟩ := parse_write_ok_inv h
            exact ⟨_, .write hw hl hsemi, d⟩
          rw [if_neg h2] at h
          by_cases h3 : t.value = "repeat"
          · rw [if_pos h3] at h
            exact ihr _ _ h
          rw [if_neg h3] at h
          cases h
        rw [if_neg hk] at h
        by_cases hi : t.type = TOKEN_IDENTIFIER
        · rw [if_pos hi] at h
          cases hla : lookahead toks c with
          | none => rw [hla] at h; cases h
          | some la =>
            rw [hla] at h
            simp only at h
            split_ifs at h with g1 g2 g3 g4
            · obtain ⟨id, o, v, semi, hid, ho, hv, hsemi, d⟩ := parse_assign_with_ok_inv h
              exact ⟨_, .assignment hid (assign_op_of ho (Or.inl rfl)) hv hsemi, d⟩
            · obtain ⟨id, o, v, semi, hid, ho, hv, hsemi, d⟩ := parse_assign_with_ok_inv h
              exact ⟨_, .assignment hid (assign_op_of ho (Or.inr (Or.inl rfl))) hv hsemi, d⟩
            · obtain ⟨id, o, v, semi, hid, ho, hv, hsemi, d⟩ := parse_assign_with_ok_inv h
              exact ⟨_, .assignment hid (assign_op_of ho (Or.inr (Or.inr rfl))) hv hsemi, d⟩
        rw [if_neg hi] at h
        by_cases ho : t.type = TOKEN_OPENBLOCK
        · rw [if_pos ho] at h
          obtain ⟨o, l, cl, h1, h2, h3, d⟩ := ihb _ _ h
          exact ⟨_, .block h1 h2 h3, d⟩
        rw [if_neg ho] at h
        split_ifs at h
    · intro c c1 h
      rw [parse_block] at h
      obtain ⟨c2, h1, h2⟩ := PRes.bind_ok h
      obtain ⟨o, ho, d1⟩ := expect_ok_inv h1
      obtain ⟨l, cl, hl, hcl, d2⟩ := ihbl _ _ h2
      exact ⟨o, l, cl, tokMatches_type_inv ho, hl, hcl, by rw [d1, d2]; simp⟩
    · intro c c1 h
      rw [parse_block_loop] at h
      cases hp : peek toks c with
      | none => rw [hp] at h; cases h
      | some t =>
        rw [hp] at h
        simp only at h
        split_ifs at h with hc
        · obtain ⟨cl, hcl, d⟩ := expect_ok_inv h
          exact ⟨[], cl, .program_nil, tokMatches_type_inv hcl, by rw [d]; rfl⟩
        · obtain ⟨c2, h1, h2⟩ := PRes.bind_ok h
          obtain ⟨a, ha, d1⟩ := ihs _ _ h1 (by rw [hp]; rfl)
          obtain ⟨l, cl, hl, hcl, d2⟩ := ihbl _ _ h2
          exact ⟨a ++ l, cl, .program_cons ha hl, hcl, by rw [d1, d2]; simp⟩
    · intro c c1 h
      rw [parse_repeat] at h
      obtain ⟨c2, h1, h⟩ := PRes.bind_ok h
      obtain ⟨c3, h2, h⟩ := PRes.bind_ok h
      obtain ⟨c4, h3, h⟩ := PRes.bind_ok h
      obtain ⟨r, hr, dr⟩ := expect_ok_inv h1
      obtain ⟨cnt, hcnt, dc⟩ := parse_repeat_count_ok_inv h2
      obtain ⟨tm, htm, dt⟩ := expect_ok_inv h3
      have hr := tokMatches_text_inv hr
      have htm := tokMatches_text_inv htm
      cases hp : peek toks c4 with
      | none => rw [hp] at h; cases h
      | some t =>
        rw [hp] at h
        simp only at h
        by_cases ho : t.type = TOKEN_OPENBLOCK
        · rw [if_pos ho] at h
          obtain ⟨o, l, cl, g1, g2, g3, d⟩ := ihb _ _ h
          exact ⟨_, .repeat_block hr hcnt htm g1 g2 g3, by rw [dr, dc, dt, d]; simp⟩
        rw [if_neg ho] at h
        by_cases hw : t.type = TOKEN_KEYWORD ∧ t.value = "write"
        · rw [if_pos hw] at h
          obtain ⟨w, l, semi, g1, g2, g3, d⟩ := parse_write_ok_inv h
          exact ⟨_, .repeat_write hr hcnt htm g1 g2 g3, by rw [dr, dc, dt, d]; simp⟩
        rw [if_neg hw] at h
        by_cases hi : t.type = TOKEN_IDENTIFIER
        · rw [if_pos hi] at h
          cases hla : lookahead toks c4 with
          | none => rw [hla] at h; cases h
          | some la =>
            rw [hla] at h
            simp only at h
            have fin : ∀ (op : String) (err : Int → SyntaxError),
                (op = ":=" ∨ op = "+=" ∨ op = "-=") →
                ((parse_assign_with op err toks c4).bind fun c5 =>
                  expect toks c5 TOKEN_ENDOFLINE none) = .ok c1 →
                ∃ l, Validates .statement l ∧
                  toks.drop c.current = l ++ toks.drop c1.current := by
              intro op err hop hb
              obtain ⟨c5, k1, k2⟩ := PRes.bind_ok hb
              obtain ⟨id, o, v, semi, hid, ho, hv, hsemi, d⟩ := parse_assign_with_ok_inv k1
              obtain ⟨semi2, hsemi2, d2⟩ := expect_ok_inv k2
              exact ⟨_, .repeat_assign hr hcnt htm hid (assign_op_of ho hop) hv hsemi
                (tokMatches_type_inv hsemi2), by rw [dr, dc, dt, d, d2]; simp⟩
            split_ifs at h with g1 g2 g3
            · exact fin _ _ (Or.inl rfl) h
            · exact fin _ _ (Or.inr (Or.inl rfl)) h
            · exact fin _ _ (Or.inr (Or.inr rfl)) h
        rw [if_neg hi] at h
        cases h

theorem parse_loop_sound (fuel : Nat) (toks : List Token) :
    ∀ c c1, parse_loop fuel toks c = .ok c1 →
      ∃ l, Validates .program l ∧ toks.drop c.current = l := by
  induction fuel with
  | zero => intro c c1 h; cases h
  | succ n ih =>
    intro c c1 h
    rw [parse_loop] at h
    split_ifs at h with hlt
    · obtain ⟨c2, h1, h2⟩ := PRes.bind_ok h
      have hsome : (peek toks c).isSome = true := by
        unfold peek
        rw [List.getElem?_eq_getElem hlt]
        rfl
      obtain ⟨a, ha, d1⟩ := (parse_sound n toks).1 _ _ h1 hsome
      obtain ⟨l, hl, d2⟩ := ih _ _ h2
      exact ⟨a ++ l, .program_cons ha hl, by rw [d1, d2]⟩
    · exact ⟨[], .program_nil, List.drop_eq_nil_of_le (by omega)⟩

/-- The validator accepts only token sequences of the language `Validates`. -/
theorem parse_validates {toks : List Token} (h : accepted toks = true) :
    Validates .program toks := by
  unfold accepted at h
  cases hp : parse toks with
  | ok c =>
    unfold parse at hp
    obtain ⟨l, hl, d⟩ := parse_loop_sound _ _ _ _ hp
    simp only [List.drop_zero] at d
    rw [d]
    exact hl
  | fail e c => rw [hp] at h; cases h
  | timeout => rw [hp] at h; cases h

/-! ## Block-bodied programs -/

theorem times_followed_by_mono {ok ok2 : Token → Bool} (h : ∀ b, ok b = true → ok2 b = true) :
    ∀ l, times_followed_by ok l = true → times_followed_by ok2 l = true := by
  intro l
  induction l with
  | nil => intro _; rfl
  | cons t l ih =>
    intro hl
    cases l with
    | nil => rfl
    | cons b rest =>
      simp only [times_followed_by, Bool.and_eq_true, Bool.or_eq_true] at hl ⊢
      refine ⟨?_, ih hl.2⟩
      rcases hl.1 with h1 | h1
      · exact Or.inl h1
      · exact Or.inr (h _ h1)

theorem times_followed_by_at {ok : Token → Bool} {r c t b : Token} {l : List Token}
    (ht : t.isKeyword "times") (h : times_followed_by ok (r :: c :: t :: b :: l) = true) :
    ok b = true := by
  have h2 := times_followed_by_tail (times_followed_by_tail h)
  simp only [times_followed_by, Bool.and_eq_true, Bool.or_eq_true] at h2
  rcases h2.1 with h3 | h3
  · simp [ht.1, ht.2] at h3
  · exact h3

/-- A token sequence of the validator's language in which every `times` is
followed by an opening brace is derivable in the grammar of the
specification. -/
theorem validates_derives {nt : Nonterminal} {l : List Token} (h : Validates nt l) :
    times_followed_by is_open_block l = true → Derives nt l := by
  induction h with
  | program_nil => intro _; exact .program_nil
  | program_cons _ _ iha ihb =>
    intro hb
    exact .program_cons (iha (times_followed_by_append_left hb))
      (ihb (times_followed_by_append_right hb))
  | declaration hn hid hsemi => intro _; exact .declaration hn hid hsemi
  | assignment hid hop hv hsemi => intro _; exact .assignment hid hop hv hsemi
  | write hw _ hsemi ihl =>
    intro hb
    exact .write hw (ihl (times_followed_by_append_left (times_followed_by_tail hb))) hsemi
  | writelist_one hv => intro _; exact .writelist_one hv
  | writelist_and hv ha _ ih =>
    intro hb
    exact .writelist_and hv ha (ih (times_followed_by_tail (times_followed_by_tail hb)))
  | repeat_block hr hc ht ho _ hcl ih =>
    intro hb
    have hb3 := times_followed_by_tail (times_followed_by_tail (times_followed_by_tail hb))
    exact .repeat_stmt hr hc ht
      (.block ho (ih (times_followed_by_append_left (times_followed_by_tail hb3))) hcl)
  | repeat_write hr hc ht hw _ hsemi _ =>
    intro hb
    have := times_followed_by_at ht hb
    simp [is_open_block, hw.1] at this
  | repeat_assign hr hc ht hid hop hv hsemi hsemi2 =>
    intro hb
    have := times_followed_by_at ht hb
    simp [is_open_block, hid] at this
  | block ho _ hcl ih =>
    intro hb
    exact .block ho (ih (times_followed_by_append_left (times_followed_by_tail hb))) hcl

/-- C26 (block-bodied grammar equivalence): on a token sequence in which every
`times` keyword token that has a successor is followed by an OpenBlock token,
`parse` returns normally if and only if the sequence is derivable from
`program := statement*` in the grammar of the specification. -/
theorem C26_block_bodied_equivalence (toks : List Token)
    (hb : times_followed_by is_open_block toks = true) :
    accepted toks = true ↔ Derives .program toks := by
  constructor
  · intro h
    exact validates_derives (parse_validates h) hb
  · intro h
    refine parse_complete toks h (times_followed_by_mono ?_ toks hb)
    intro b hb
    simp only [is_open_block, beq_iff_eq] at hb
    simp [starts_block_or_write, hb]

/-- Witness for C26: the tokens of `repeat 2 times { write 1; }`. -/
theorem C26_block_bodied_equivalence_witness :
    accepted [⟨TOKEN_KEYWORD, "repeat", 1⟩, ⟨TOKEN_INTCONST, "2", 1⟩, ⟨TOKEN_KEYWORD, "times", 1⟩,
        ⟨TOKEN_OPENBLOCK, "", 1⟩, ⟨TOKEN_KEYWORD, "write", 1⟩, ⟨TOKEN_INTCONST, "1", 1⟩,
        ⟨TOKEN_ENDOFLINE, "", 1⟩, ⟨TOKEN_CLOSEBLOCK, "", 1⟩] = true ↔
      Derives .program [⟨TOKEN_KEYWORD, "repeat", 1⟩, ⟨TOKEN_INTCONST, "2", 1⟩,
        ⟨TOKEN_KEYWORD, "times", 1⟩, ⟨TOKEN_OPENBLOCK, "", 1⟩, ⟨TOKEN_KEYWORD, "write", 1⟩,
        ⟨TOKEN_INTCONST, "1", 1⟩, ⟨TOKEN_ENDOFLINE, "", 1⟩, ⟨TOKEN_CLOSEBLOCK, "", 1⟩] :=
  C26_block_bodied_equivalence _ (by decide)

/-! ## The executor moves forward -/

theorem Res.advanced_bind {r : Res} {g : ExecState → Res} {k j p : Nat}
    (h : r.advanced k p) (hg : ∀ s1, r = .ok s1 → (g s1).advanced j s1.cur.current) :
    (r.bind g).advanced (k + j) p := by
  cases r with
  | ok s1 =>
    have h1 : p + k ≤ s1.cur.current := h
    have := hg s1 rfl
    simp only [Res.bind]
    cases hgs : g s1 with
    | ok s2 =>
      rw [hgs] at this
      have h2 : s1.cur.current + j ≤ s2.cur.current := this
      show p + (k + j) ≤ s2.cur.current
      omega
    | fail e s2 => trivial
    | timeout => trivial
  | fail e s1 => trivial
  | timeout => trivial

theorem Res.advanced_weaken {r : Res} {k j p q : Nat} (h : r.advanced k p)
    (hq : q + j ≤ p + k) : r.advanced j q := by
  cases r with
  | ok s1 =>
    have h1 : p + k ≤ s1.cur.current := h
    show q + j ≤ s1.cur.current
    omega
  | fail e s1 => trivial
  | timeout => trivial

theorem adv_current_le (toks : List Token) (s : ExecState) :
    s.cur.current ≤ (adv toks s).2.cur.current := by
  unfold adv advance
  cases toks[s.cur.current]? <;> simp

theorem adv_current_some {toks : List Token} {s : ExecState} {t : Token}
    (h : (adv toks s).1 = some t) : (adv toks s).2.cur.current = s.cur.current + 1 := by
  unfold adv advance at h ⊢
  cases hp : toks[s.cur.current]? with
  | none => rw [hp] at h; cases h
  | some u => rfl

theorem adv_current_peek {toks : List Token} {s : ExecState} {t : Token}
    (h : peek toks s.cur = some t) : (adv toks s).2.cur.current = s.cur.current + 1 := by
  unfold peek at h
  unfold adv advance
  rw [h]

theorem accept_current_le (toks : List Token) (s : ExecState) (ty : TokenType)
    (v : Option String) : s.cur.current ≤ (accept toks s ty v).2.cur.current := by
  unfold accept matchTok
  cases hp : peek toks s.cur with
  | none => simp
  | some t =>
    simp only
    split_ifs
    · unfold advance
      unfold peek at hp
      rw [hp]
      simp
    · simp

theorem accept_current_true {toks : List Token} {s : ExecState} {ty : TokenType}
    {v : Option String} (h : (accept toks s ty v).1 = true) :
    (accept toks s ty v).2.cur.current = s.cur.current + 1 := by
  obtain ⟨t, _, _, h3⟩ := accept_true_inv h
  rw [h3]

theorem declare_var_cur {s s1 : ExecState} {name : String} {line : Nat}
    (h : declare_var s name line = .ok s1) : s1.cur = s.cur := by
  unfold declare_var at h
  split_ifs at h
  simp only [Res.ok.injEq] at h
  rw [← h]

theorem set_variable_cur {s s1 : ExecState} {name : String} {v : Int}
    (h : set_variable s name v = .ok s1) : s1.cur = s.cur := by
  unfold set_variable at h
  split at h
  · cases h
  · simp only [Res.ok.injEq] at h
    rw [← h]

theorem interpret_write_loop_advanced (fuel : Nat) (toks : List Token) :
    ∀ (e : Bool) (s : ExecState),
      (interpret_write_loop fuel toks e s).advanced 0 s.cur.current := by
  induction fuel with
  | zero => intro e s; trivial
  | succ n ih =>
    intro e s
    rw [interpret_write_loop]
    cases hp : peek toks s.cur with
    | none => exact Nat.le_refl _
    | some t =>
      simp only
      have hstep : ∀ text, s.cur.current + 0 ≤ (adv toks (emit s text)).2.cur.current :=
        fun text => adv_current_le toks (emit s text)
      split_ifs
      · exact Res.advanced_weaken (ih _ _) (accept_current_le _ _ _ _)
      · exact Nat.le_refl _
      · exact Res.advanced_weaken (ih _ _) (hstep _)
      · exact Res.advanced_weaken (ih _ _) (hstep _)
      · split
        · trivial
        · exact Res.advanced_weaken (ih _ _) (hstep _)
      · exact Nat.le_refl _

theorem interpret_write_advanced (fuel : Nat) (toks : List Token) (s : ExecState) (t : Token)
    (hp : peek toks s.cur = some t) :
    (interpret_write fuel toks s).advanced 1 s.cur.current := by
  unfold interpret_write
  have h1 := adv_current_peek hp
  refine Res.advanced_weaken (k := 0 + 0) (p := (adv toks s).2.cur.current)
    (Res.advanced_bind (interpret_write_loop_advanced _ _ _ _) (fun s1 _ => ?_)) (by omega)
  split_ifs
  · exact accept_current_le _ _ _ _
  · trivial

theorem interpret_declaration_advanced (toks : List Token) (s : ExecState) (t : Token)
    (hp : peek toks s.cur = some t) :
    (interpret_declaration toks s).advanced 1 s.cur.current := by
  unfold interpret_declaration
  have h1 := adv_current_peek hp
  have h2 := adv_current_le toks (adv toks s).2
  simp only
  split
  · trivial
  · split_ifs
    · trivial
    · cases hd : declare_var (adv toks (adv toks s).2).2 _ _ with
      | ok s3 =>
        have h3 := declare_var_cur hd
        simp only [Res.bind]
        split_ifs
        · have h4 := accept_current_le toks s3 TOKEN_ENDOFLINE none
          show s.cur.current + 1 ≤ _
          rw [h3] at h4
          omega
        · trivial
      | fail e s3 => trivial
      | timeout => trivial

theorem interpret_assignment_advanced (toks : List Token) (s : ExecState) (t : Token)
    (hp : peek toks s.cur = some t) :
    (interpret_assignment toks s).advanced 1 s.cur.current := by
  unfold interpret_assignment
  have h1 := adv_current_peek hp
  have h2 := adv_current_le toks (adv toks s).2
  have h3 := adv_current_le toks (adv toks (adv toks s).2).2
  simp only
  split
  · split
    · trivial
    · split
      · trivial
      · split
        · trivial
        · split
          · trivial
          · split_ifs
            · refine Nat.le_trans ?_ (accept_current_le _ _ _ _)
              show s.cur.current + 1 ≤ (adv toks (adv toks (adv toks s).2).2).2.cur.current
              omega
            · trivial
  · trivial

/-- Every executor function that returns normally leaves the cursor where it
was or further on; a statement, a block and a repeat begun at a token leave it
at least one token further; a repeat loop leaves it at or after the start of
the body. -/
theorem interpret_advanced (fuel : Nat) (toks : List Token) :
    (∀ s, (interpret_statement fuel toks s).advanced 0 s.cur.current ∧
      ((peek toks s.cur).isSome = true →
        (interpret_statement fuel toks s).advanced 1 s.cur.current)) ∧
    (∀ s, (interpret_block fuel toks s).advanced 1 s.cur.current) ∧
    (∀ s, (interpret_block_loop fuel toks s).advanced 0 s.cur.current) ∧
    (∀ s, (interpret_repeat fuel toks s).advanced 1 s.cur.current) ∧
    (∀ ct st b c s, st ≤ s.cur.current →
      (interpret_repeat_loop fuel toks ct st b c s).advanced 0 st) := by
  induction fuel with
  | zero => refine ⟨?_, ?_, ?_, ?_, ?_⟩ <;> intros <;> first | trivial | exact ⟨trivial, fun _ => trivial⟩
  | succ n ih =>
    obtain ⟨ihs, ihb, ihbl, ihr, ihrl⟩ := ih
    refine ⟨?_, ?_, ?_, ?_, ?_⟩
    · intro s
      have key : ∀ t, peek toks s.cur = some t →
          (interpret_statement (n + 1) toks s).advanced 1 s.cur.current := by
        intro t hp
        rw [interpret_statement, hp]
        simp only
        split_ifs
        all_goals first
          | trivial
          | exact interpret_declaration_advanced _ _ t hp
          | exact interpret_assignment_advanced _ _ t hp
          | exact interpret_write_advanced _ _ _ t hp
          | exact ihr _
          | exact ihb _
      cases hp : peek toks s.cur with
      | none =>
        refine ⟨?_, fun h => by cases h⟩
        rw [interpret_statement, hp]
        exact Nat.le_refl _
      | some t => exact ⟨Res.advanced_weaken (key t hp) (by omega), fun _ => key t hp⟩
    · intro s
      rw [interpret_block]
      split_ifs with ha
      · have h1 := accept_current_true ha
        refine Res.advanced_weaken (k := 0 + 0)
          (p := (accept toks s TOKEN_OPENBLOCK none).2.cur.current)
          (Res.advanced_bind (ihbl _) (fun s2 _ => ?_)) (by omega)
        split_ifs
        · exact accept_current_le _ _ _ _
        · trivial
      · trivial
    · intro s
      rw [interpret_block_loop]
      cases hp : peek toks s.cur with
      | none => exact Nat.le_refl _
      | some t =>
        simp only
        split_ifs
        · exact Res.advanced_bind (k := 0) (j := 0) (ihs _).1 (fun s1 _ => ihbl s1)
        · exact Nat.le_refl _
    · intro s
      rw [interpret_repeat]
      simp only
      have h1 := adv_current_le toks s
      split
      · trivial
      · next ct hct =>
        have h2 := adv_current_some hct
        split
        · trivial
        · split_ifs
          · have h3 := accept_current_le toks (adv toks (adv toks s).2).2 TOKEN_KEYWORD
              (some "times")
            split
            · trivial
            · exact Res.advanced_weaken (ihrl _ _ _ _ _ (Nat.le_refl _)) (by omega)
          · trivial
    · intro ct st b c s hst
      rw [interpret_repeat_loop]
      simp only
      have tail : ∀ s1 : ExecState, st ≤ s1.cur.current →
          (if ct.type = TOKEN_IDENTIFIER then
            (set_variable s1 ct.value (c - 1)).bind fun s2 =>
              match get_value s2 ct with
              | .error e => .fail e s2
              | .ok c2 => interpret_repeat_loop n toks ct st b c2 s2
          else interpret_repeat_loop n toks ct st b (c - 1) s1).advanced 0 st := by
        intro s1 h1
        split_ifs
        · cases hsv : set_variable s1 ct.value (c - 1) with
          | ok s2 =>
            have hc := set_variable_cur hsv
            simp only [Res.bind]
            split
            · trivial
            · exact ihrl _ _ _ _ _ (by rw [hc]; exact h1)
          | fail e s2 => trivial
          | timeout => trivial
        · exact ihrl _ _ _ _ _ h1
      have body : ∀ r : Res, r.advanced 0 st →
          (r.bind fun s1 =>
            if ct.type = TOKEN_IDENTIFIER then
              (set_variable s1 ct.value (c - 1)).bind fun s2 =>
                match get_value s2 ct with
                | .error e => .fail e s2
                | .ok c2 => interpret_repeat_loop n toks ct st b c2 s2
            else interpret_repeat_loop n toks ct st b (c - 1) s1).advanced 0 st := by
        intro r hr
        cases r with
        | ok s1 => exact tail s1 hr
        | fail e s1 => trivial
        | timeout => trivial
      by_cases hc : c ≥ 1
      · rw [if_pos hc]
        by_cases hb : b = true
        · rw [if_pos hb]
          exact body _ (Res.advanced_weaken
            (ihb { s with cur := { s.cur with current := st } }) (Nat.le_succ _))
        · rw [if_neg hb]
          exact body _ (ihs { s with cur := { s.cur with current := st } }).1
      · rw [if_neg hc]
        by_cases hct : ct.type = TOKEN_IDENTIFIER
        · rw [if_pos hct]
          cases hsv : set_variable s ct.value 0 with
          | ok s2 =>
            have hcur := set_variable_cur hsv
            show st + 0 ≤ s2.cur.current
            rw [hcur]
            exact hst
          | fail e s2 => trivial
          | timeout => trivial
        · rw [if_neg hct]
          exact hst

/-! ## The executor always returns -/

theorem Res.stable_of_le {r r2 : Res} (h : r.le r2) (hr : r ≠ .timeout) : r2 = r := by
  rcases h with h | h
  · exact absurd h hr
  · exact h.symm

theorem interpret_block_loop_mono (toks : List Token) (s : ExecState) (f k : Nat) :
    (interpret_block_loop f toks s).le (interpret_block_loop (f + k) toks s) := by
  induction k with
  | zero => exact Res.le_refl _
  | succ k ih => exact Res.le_trans ih ((interpret_succ_le (f + k) toks).2.2.1 s)

theorem interpret_repeat_mono (toks : List Token) (s : ExecState) (f k : Nat) :
    (interpret_repeat f toks s).le (interpret_repeat (f + k) toks s) := by
  induction k with
  | zero => exact Res.le_refl _
  | succ k ih => exact Res.le_trans ih ((interpret_succ_le (f + k) toks).2.2.2.1 s)

theorem interpret_loop_succ_le (toks : List Token) (fuel : Nat) :
    ∀ s, (interpret_loop fuel toks s).le (interpret_loop (fuel + 1) toks s) := by
  induction fuel with
  | zero => intro s; exact Res.timeout_le _
  | succ n ih =>
    intro s
    rw [interpret_loop, interpret_loop]
    cases hp : peek toks s.cur with
    | none => exact Res.le_refl _
    | some t => exact Res.bind_le ((interpret_succ_le n toks).1 s) (fun s1 => ih s1)

theorem interpret_loop_mono (toks : List Token) (s : ExecState) (f k : Nat) :
    (interpret_loop f toks s).le (interpret_loop (f + k) toks s) := by
  induction k with
  | zero => exact Res.le_refl _
  | succ k ih => exact Res.le_trans ih (interpret_loop_succ_le toks (f + k) s)

theorem statement_at {toks : List Token} {s : ExecState} {f g : Nat} (h : f ≤ g)
    (hr : interpret_statement f toks s ≠ .timeout) :
    interpret_statement g toks s = interpret_statement f toks s := by
  have := interpret_statement_mono toks s f (g - f)
  rw [show f + (g - f) = g by omega] at this
  exact Res.stable_of_le this hr

theorem block_at {toks : List Token} {s : ExecState} {f g : Nat} (h : f ≤ g)
    (hr : interpret_block f toks s ≠ .timeout) :
    interpret_block g toks s = interpret_block f toks s := by
  have := interpret_block_mono toks s f (g - f)
  rw [show f + (g - f) = g by omega] at this
  exact Res.stable_of_le this hr

theorem block_loop_at {toks : List Token} {s : ExecState} {f g : Nat} (h : f ≤ g)
    (hr : interpret_block_loop f toks s ≠ .timeout) :
    interpret_block_loop g toks s = interpret_block_loop f toks s := by
  have := interpret_block_loop_mono toks s f (g - f)
  rw [show f + (g - f) = g by omega] at this
  exact Res.stable_of_le this hr

theorem repeat_at {toks : List Token} {s : ExecState} {f g : Nat} (h : f ≤ g)
    (hr : interpret_repeat f toks s ≠ .timeout) :
    interpret_repeat g toks s = interpret_repeat f toks s := by
  have := interpret_repeat_mono toks s f (g - f)
  rw [show f + (g - f) = g by omega] at this
  exact Res.stable_of_le this hr

theorem repeat_loop_at {toks : List Token} {ct : Token} {st : Nat} {b : Bool} {c : Int}
    {s : ExecState} {f g : Nat} (h : f ≤ g)
    (hr : interpret_repeat_loop f toks ct st b c s ≠ .timeout) :
    interpret_repeat_loop g toks ct st b c s = interpret_repeat_loop f toks ct st b c s := by
  have := interpret_repeat_loop_mono toks ct st b c s f (g - f)
  rw [show f + (g - f) = g by omega] at this
  exact Res.stable_of_le this hr

theorem loop_at {toks : List Token} {s : ExecState} {f g : Nat} (h : f ≤ g)
    (hr : interpret_loop f toks s ≠ .timeout) :
    interpret_loop g toks s = interpret_loop f toks s := by
  have := interpret_loop_mono toks s f (g - f)
  rw [show f + (g - f) = g by omega] at this
  exact Res.stable_of_le this hr

theorem peek_lt {toks : List Token} {c : Cursor} {t : Token} (h : peek toks c = some t) :
    c.current < toks.length := by
  unfold peek at h
  exact (List.getElem?_eq_some.1 h).1

/-- The write loop returns when the fuel exceeds the number of tokens left. -/
theorem interpret_write_loop_returns (toks : List Token) (fuel : Nat) :
    ∀ (e : Bool) (s : ExecState), toks.length - s.cur.current < fuel →
      interpret_write_loop fuel toks e s ≠ .timeout := by
  induction fuel with
  | zero => intro e s h; omega
  | succ n ih =>
    intro e s h
    rw [interpret_write_loop]
    cases hp : peek toks s.cur with
    | none => simp
    | some t =>
      have hlt := peek_lt hp
      have hadv : ∀ text, toks.length - (adv toks (emit s text)).2.cur.current < n := by
        intro text
        have : (adv toks (emit s text)).2.cur.current = s.cur.current + 1 :=
          adv_current_peek (s := emit s text) hp
        omega
      simp only
      split_ifs with h1 h2
      · have := accept_current_true h2
        exact ih _ _ (by omega)
      · simp
      · exact ih _ _ (hadv _)
      · exact ih _ _ (hadv _)
      · split
        · simp
        · exact ih _ _ (hadv _)
      · simp

theorem interpret_write_returns (toks : List Token) (fuel : Nat) (s : ExecState)
    (h : toks.length - s.cur.current < fuel) : interpret_write fuel toks s ≠ .timeout := by
  unfold interpret_write
  have h1 := adv_current_le toks s
  have h2 := interpret_write_loop_returns toks fuel false (adv toks s).2 (by omega)
  cases hl : interpret_write_loop fuel toks false (adv toks s).2 with
  | ok s1 =>
    simp only [Res.bind]
    split_ifs <;> simp
  | fail e s1 => simp [Res.bind]
  | timeout => exact absurd hl h2

theorem get_value_after_set {s1 s2 : ExecState} {ct : Token} {v : Int}
    (hct : ct.type = TOKEN_IDENTIFIER) (h : set_variable s1 ct.value v = .ok s2) :
    get_value s2 ct = .ok v := by
  unfold set_variable at h
  cases hf : find_var s1.var_table ct.value with
  | none => rw [hf] at h; cases h
  | some idx =>
    rw [hf] at h
    simp only [Res.ok.injEq] at h
    obtain ⟨x, hx⟩ := find_var_get _ _ _ hf
    rw [← h]
    simp [get_value, hct, find_var_store, hf, store_get_self _ _ _ _ hx]

/-- A repeat loop returns for every count and from every state, when every
execution of its body returns. -/
theorem repeat_loop_returns (toks : List Token) (ct : Token) (st : Nat) (b : Bool)
    (hbody : ∀ s0 : ExecState, ∃ f, run_body f toks st b s0 ≠ .timeout) :
    ∀ (k : Nat) (c : Int) (s : ExecState), c ≤ k →
      ∃ f, interpret_repeat_loop f toks ct st b c s ≠ .timeout := by
  intro k
  induction k with
  | zero =>
    intro c s hc
    refine ⟨1, ?_⟩
    rw [interpret_repeat_loop]
    rw [if_neg (by simp only [Nat.cast_zero] at hc; omega)]
    split_ifs
    · unfold set_variable; split <;> simp
    · simp
  | succ k ih =>
    intro c s hc
    by_cases hc1 : c ≥ 1
    · obtain ⟨fb, hfb⟩ := hbody s
      cases hr : run_body fb toks st b s with
      | timeout => exact absurd hr hfb
      | fail e s1 =>
        refine ⟨fb + 1, ?_⟩
        rw [interpret_repeat_loop, if_pos hc1]
        unfold run_body at hr
        simp only
        rw [hr]
        simp [Res.bind]
      | ok s1 =>
        have hck : c - 1 ≤ (k : Int) := by push_cast at hc; omega
        have hbody_at : ∀ g, fb ≤ g →
            (if b = true then interpret_block g toks { s with cur := { s.cur with current := st } }
              else interpret_statement g toks { s with cur := { s.cur with current := st } })
              = .ok s1 := by
          intro g hg
          unfold run_body at hr hfb
          by_cases hb : b = true
          · rw [if_pos hb] at hr hfb ⊢
            rw [block_at hg hfb, hr]
          · rw [if_neg hb] at hr hfb ⊢
            rw [statement_at hg hfb, hr]
        by_cases hct : ct.type = TOKEN_IDENTIFIER
        · cases hsv : set_variable s1 ct.value (c - 1) with
          | timeout => unfold set_variable at hsv; split at hsv <;> cases hsv
          | fail e s2 =>
            refine ⟨fb + 1, ?_⟩
            rw [interpret_repeat_loop, if_pos hc1]
            simp only
            rw [hbody_at fb (Nat.le_refl _)]
            simp [Res.bind, hct, hsv]
          | ok s2 =>
            obtain ⟨f2, hf2⟩ := ih (c - 1) s2 hck
            refine ⟨fb + f2 + 1, ?_⟩
            rw [interpret_repeat_loop, if_pos hc1]
            simp only
            rw [hbody_at (fb + f2) (by omega)]
            simp only [Res.bind, hct, if_true, hsv, get_value_after_set hct hsv]
            rw [repeat_loop_at (by omega) hf2]
            exact hf2
        · obtain ⟨f2, hf2⟩ := ih (c - 1) s1 hck
          refine ⟨fb + f2 + 1, ?_⟩
          rw [interpret_repeat_loop, if_pos hc1]
          simp only
          rw [hbody_at (fb + f2) (by omega)]
          simp only [Res.bind, hct, if_false]
          rw [repeat_loop_at (by omega) hf2]
          exact hf2
    · refine ⟨1, ?_⟩
      rw [interpret_repeat_loop, if_neg hc1]
      split_ifs
      · unfold set_variable; split <;> simp
      · simp

theorem interpret_declaration_ne_timeout (toks : List Token) (s : ExecState) :
    interpret_declaration toks s ≠ .timeout := by
  unfold interpret_declaration
  simp only
  split
  · simp
  · split_ifs
    · simp
    · unfold declare_var
      split_ifs
      · simp [Res.bind]
      · simp [Res.bind]
      · simp only [Res.bind]
        split_ifs <;> simp

theorem interpret_assignment_ne_timeout (toks : List Token) (s : ExecState) :
    interpret_assignment toks s ≠ .timeout := by
  unfold interpret_assignment
  simp only
  split
  · split
    · simp
    · split
      · simp
      · split
        · simp
        · split
          · simp
          · split_ifs <;> simp
  · simp

theorem adv_some_lt {toks : List Token} {s : ExecState} {t : Token}
    (h : (adv toks s).1 = some t) : s.cur.current < toks.length := by
  unfold adv advance at h
  cases hp : toks[s.cur.current]? with
  | none => rw [hp] at h; cases h
  | some u => exact (List.getElem?_eq_some.1 hp).1

theorem accept_true_lt {toks : List Token} {s : ExecState} {ty : TokenType}
    {v : Option String} (h : (accept toks s ty v).1 = true) : s.cur.current < toks.length := by
  obtain ⟨t, ht, _, _⟩ := accept_true_inv h
  exact (List.getElem?_eq_some.1 ht).1

/-- Every statement, block, statement list and repeat returns, given fuel
enough, from every state. -/
theorem interpret_returns_below (toks : List Token) :
    ∀ (m : Nat) (s : ExecState), toks.length - s.cur.current < m →
      (∃ f, interpret_statement f toks s ≠ .timeout) ∧
      (∃ f, interpret_block f toks s ≠ .timeout) ∧
      (∃ f, interpret_block_loop f toks s ≠ .timeout) ∧
      (∃ f, interpret_repeat f toks s ≠ .timeout) := by
  intro m
  induction m with
  | zero => intro s h; omega
  | succ m ih =>
    intro s hm
    have hrep : ∃ f, interpret_repeat f toks s ≠ .timeout := by
      cases h2 : (adv toks (adv toks s).2).1 with
      | none => exact ⟨1, by rw [interpret_repeat]; simp only [h2]; simp⟩
      | some ct =>
        cases hg : get_value (adv toks (adv toks s).2).2 ct with
        | error e => exact ⟨1, by rw [interpret_repeat]; simp only [h2, hg]; simp⟩
        | ok count =>
          by_cases ha : (accept toks (adv toks (adv toks s).2).2 TOKEN_KEYWORD
              (some "times")).1 = true
          · cases hp : peek toks
                (accept toks (adv toks (adv toks s).2).2 TOKEN_KEYWORD (some "times")).2.cur with
            | none =>
              exact ⟨1, by rw [interpret_repeat]; simp only [h2, hg, ha, if_true, hp]; simp⟩
            | some bt =>
              have h1 := adv_current_le toks s
              have h3 := adv_current_some h2
              have h4 := adv_some_lt h2
              have h5 := accept_current_le toks (adv toks (adv toks s).2).2 TOKEN_KEYWORD
                (some "times")
              have hbody : ∀ s0 : ExecState, ∃ f, run_body f toks
                  (accept toks (adv toks (adv toks s).2).2 TOKEN_KEYWORD
                    (some "times")).2.cur.current
                  (decide (bt.type = TOKEN_OPENBLOCK)) s0 ≠ .timeout := by
                intro s0
                have := ih { s0 with cur := { s0.cur with current :=
                  (accept toks (adv toks (adv toks s).2).2 TOKEN_KEYWORD
                    (some "times")).2.cur.current } } (by simp only; omega)
                unfold run_body
                split_ifs
                · exact this.2.1
                · exact this.1
              obtain ⟨f, hf⟩ := repeat_loop_returns toks ct _ _ hbody count.toNat count
                (accept toks (adv toks (adv toks s).2).2 TOKEN_KEYWORD (some "times")).2
                (Int.self_le_toNat count)
              exact ⟨f + 1, by
                rw [interpret_repeat]; simp only [h2, hg, ha, if_true, hp]; exact hf⟩
          · exact ⟨1, by rw [interpret_repeat]; simp only [h2, hg, ha]; simp⟩
    have hblock : ∃ f, interpret_block f toks s ≠ .timeout := by
      by_cases ha : (accept toks s TOKEN_OPENBLOCK none).1 = true
      · have h1 := accept_current_true ha
        have h2 := accept_true_lt ha
        obtain ⟨f, hf⟩ := (ih (accept toks s TOKEN_OPENBLOCK none).2 (by omega)).2.2.1
        refine ⟨f + 1, ?_⟩
        rw [interpret_block, if_pos ha]
        cases hl : interpret_block_loop f toks (accept toks s TOKEN_OPENBLOCK none).2 with
        | ok s2 =>
          simp only [Res.bind]
          split_ifs <;> simp
        | fail e s2 => simp [Res.bind]
        | timeout => exact absurd hl hf
      · exact ⟨1, by rw [interpret_block, if_neg ha]; simp⟩
    have hstmt : ∃ f, interpret_statement f toks s ≠ .timeout := by
      cases hp : peek toks s.cur with
      | none => exact ⟨1, by rw [interpret_statement, hp]; simp⟩
      | some t =>
        obtain ⟨fr, hfr⟩ := hrep
        obtain ⟨fb, hfb⟩ := hblock
        refine ⟨fr + fb + (toks.length - s.cur.current) + 2, ?_⟩
        rw [show fr + fb + (toks.length - s.cur.current) + 2 =
          (fr + fb + (toks.length - s.cur.current) + 1) + 1 from rfl, interpret_statement, hp]
        simp only
        split_ifs
        · exact interpret_declaration_ne_timeout _ _
        · exact interpret_write_returns _ _ _ (by omega)
        · rw [repeat_at (by omega) hfr]; exact hfr
        · simp
        · exact interpret_assignment_ne_timeout _ _
        · rw [block_at (by omega) hfb]; exact hfb
        · simp
    refine ⟨hstmt, hblock, ?_, hrep⟩
    cases hp : peek toks s.cur with
    | none => exact ⟨1, by rw [interpret_block_loop, hp]; simp⟩
    | some t =>
      by_cases hc : t.type ≠ TOKEN_CLOSEBLOCK
      · obtain ⟨f1, hf1⟩ := hstmt
        cases hr : interpret_statement f1 toks s with
        | timeout => exact absurd hr hf1
        | fail e s1 =>
          refine ⟨f1 + 1, ?_⟩
          rw [interpret_block_loop, hp]
          simp only [hc, if_true, ne_eq, not_false_eq_true, hr, Res.bind]
          simp
        | ok s1 =>
          have hadv := ((interpret_advanced f1 toks).1 s).2 (by rw [hp]; rfl)
          rw [hr] at hadv
          have hadv1 : s.cur.current + 1 ≤ s1.cur.current := hadv
          have hlt := peek_lt hp
          obtain ⟨f2, hf2⟩ := (ih s1 (by omega)).2.2.1
          refine ⟨f1 + f2 + 1, ?_⟩
          rw [interpret_block_loop, hp]
          simp only [hc, if_true, ne_eq, not_false_eq_true]
          rw [statement_at (by omega) hf1, hr]
          simp only [Res.bind]
          rw [block_loop_at (by omega) hf2]
          exact hf2
      · exact ⟨1, by rw [interpret_block_loop, hp]; simp only [hc, if_false]; simp⟩

theorem interpret_statement_returns (toks : List Token) (s : ExecState) :
    ∃ f, interpret_statement f toks s ≠ .timeout :=
  (interpret_returns_below toks (toks.length - s.cur.current + 1) s (by omega)).1

/-- The main loop of the executor returns, given fuel enough, from every
state. -/
theorem interpret_loop_returns (toks : List Token) :
    ∀ (m : Nat) (s : ExecState), toks.length - s.cur.current < m →
      ∃ f, interpret_loop f toks s ≠ .timeout := by
  intro m
  induction m with
  | zero => intro s h; omega
  | succ m ih =>
    intro s hm
    cases hp : peek toks s.cur with
    | none => exact ⟨1, by rw [interpret_loop, hp]; simp⟩
    | some t =>
      obtain ⟨f1, hf1⟩ := interpret_statement_returns toks s
      cases hr : interpret_statement f1 toks s with
      | timeout => exact absurd hr hf1
      | fail e s1 =>
        refine ⟨f1 + 1, ?_⟩
        rw [interpret_loop, hp]
        simp only [hr, Res.bind]
        simp
      | ok s1 =>
        have hadv := ((interpret_advanced f1 toks).1 s).2 (by rw [hp]; rfl)
        rw [hr] at hadv
        have hadv1 : s.cur.current + 1 ≤ s1.cur.current := hadv
        have hlt := peek_lt hp
        obtain ⟨f2, hf2⟩ := ih s1 (by omega)
        refine ⟨f1 + f2 + 1, ?_⟩
        rw [interpret_loop, hp]
        simp only
        rw [statement_at (by omega) hf1, hr]
        simp only [Res.bind]
        rw [loop_at (by omega) hf2]
        exact hf2

/-- C28 (executor termination): on every token sequence, from the start state of
`interpret` and from every other state and variable table, the executor
returns, normally or with a runtime diagnostic (a read through the `NULL` of
`peek` or `advance` counts as one), once the fuel is large enough, and more fuel
does not change the result. Every repeat loop returns for every count and
state. One round of a repeat loop with count `c` of at least 1 whose body
returns continues as the loop with count `c - 1`: a count variable is set to
`c - 1` after the body, whatever the body assigned to it, and is read back as
`c - 1`. -/
theorem C28_executor_termination :
    (∀ (toks : List Token) (c : Cursor), ∃ fuel, interpret fuel toks c ≠ .timeout ∧
      ∀ k, interpret (fuel + k) toks c = interpret fuel toks c) ∧
    (∀ (toks : List Token) (s : ExecState), ∃ fuel, interpret_loop fuel toks s ≠ .timeout ∧
      ∀ k, interpret_loop (fuel + k) toks s = interpret_loop fuel toks s) ∧
    (∀ (toks : List Token) (ct : Token) (st : Nat) (b : Bool) (c : Int) (s : ExecState),
      ∃ fuel, interpret_repeat_loop fuel toks ct st b c s ≠ .timeout) ∧
    (∀ (f : Nat) (toks : List Token) (ct : Token) (st : Nat) (b : Bool) (c : Int)
      (s s1 : ExecState), 1 ≤ c → run_body f toks st b s = .ok s1 →
      (ct.type = TOKEN_IDENTIFIER → ∀ s2, set_variable s1 ct.value (c - 1) = .ok s2 →
        get_value s2 ct = .ok (c - 1) ∧
        interpret_repeat_loop (f + 1) toks ct st b c s =
          interpret_repeat_loop f toks ct st b (c - 1) s2) ∧
      (ct.type ≠ TOKEN_IDENTIFIER →
        interpret_repeat_loop (f + 1) toks ct st b c s =
          interpret_repeat_loop f toks ct st b (c - 1) s1)) := by
  refine ⟨?_, ?_, ?_, ?_⟩
  · intro toks c
    obtain ⟨f, hf⟩ := interpret_loop_returns toks (toks.length + 1)
      { cur := { c with current := 0 }, var_table := [], output := "" } (by simp)
    exact ⟨f, hf, fun k => loop_at (Nat.le_add_right _ _) hf⟩
  · intro toks s
    obtain ⟨f, hf⟩ := interpret_loop_returns toks (toks.length - s.cur.current + 1) s (by omega)
    exact ⟨f, hf, fun k => loop_at (Nat.le_add_right _ _) hf⟩
  · intro toks ct st b c s
    refine repeat_loop_returns toks ct st b (fun s0 => ?_) c.toNat c s (Int.self_le_toNat c)
    have := interpret_returns_below toks (toks.length - st + 1)
      { s0 with cur := { s0.cur with current := st } } (by simp only; omega)
    unfold run_body
    split_ifs
    · exact this.2.1
    · exact this.1
  · intro f toks ct st b c s s1 hc hr
    have hloop : interpret_repeat_loop (f + 1) toks ct st b c s =
        (if ct.type = TOKEN_IDENTIFIER then
          (set_variable s1 ct.value (c - 1)).bind fun s2 =>
            match get_value s2 ct with
            | .error e => .fail e s2
            | .ok c2 => interpret_repeat_loop f toks ct st b c2 s2
        else interpret_repeat_loop f toks ct st b (c - 1) s1) := by
      rw [interpret_repeat_loop, if_pos hc]
      unfold run_body at hr
      simp only
      rw [hr]
      rfl
    constructor
    · intro hct s2 hs2
      have hg := get_value_after_set hct hs2
      refine ⟨hg, ?_⟩
      rw [hloop, if_pos hct, hs2]
      simp only [Res.bind, hg]
    · intro hct
      rw [hloop, if_neg hct]

/-- Witness for C28: one round of `repeat x times { }` with `x` holding 2. -/
theorem C28_executor_termination_witness :
    get_value ⟨⟨5, some ⟨TOKEN_CLOSEBLOCK, "", 1⟩, 1⟩, [⟨"x", 1⟩], ""⟩
        ⟨TOKEN_IDENTIFIER, "x", 1⟩ = .ok (2 - 1) ∧
      interpret_repeat_loop (3 + 1)
          [⟨TOKEN_KEYWORD, "repeat", 1⟩, ⟨TOKEN_IDENTIFIER, "x", 1⟩, ⟨TOKEN_KEYWORD, "times", 1⟩,
            ⟨TOKEN_OPENBLOCK, "", 1⟩, ⟨TOKEN_CLOSEBLOCK, "", 1⟩]
          ⟨TOKEN_IDENTIFIER, "x", 1⟩ 3 true 2
          ⟨⟨3, some ⟨TOKEN_KEYWORD, "times", 1⟩, 1⟩, [⟨"x", 2⟩], ""⟩ =
        interpret_repeat_loop 3
          [⟨TOKEN_KEYWORD, "repeat", 1⟩, ⟨TOKEN_IDENTIFIER, "x", 1⟩, ⟨TOKEN_KEYWORD, "times", 1⟩,
            ⟨TOKEN_OPENBLOCK, "", 1⟩, ⟨TOKEN_CLOSEBLOCK, "", 1⟩]
          ⟨TOKEN_IDENTIFIER, "x", 1⟩ 3 true (2 - 1)
          ⟨⟨5, some ⟨TOKEN_CLOSEBLOCK, "", 1⟩, 1⟩, [⟨"x", 1⟩], ""⟩ :=
  (C28_executor_termination.2.2.2 3
    [⟨TOKEN_KEYWORD, "repeat", 1⟩, ⟨TOKEN_IDENTIFIER, "x", 1⟩, ⟨TOKEN_KEYWORD, "times", 1⟩,
      ⟨TOKEN_OPENBLOCK, "", 1⟩, ⟨TOKEN_CLOSEBLOCK, "", 1⟩]
    ⟨TOKEN_IDENTIFIER, "x", 1⟩ 3 true 2
    ⟨⟨3, some ⟨TOKEN_KEYWORD, "times", 1⟩, 1⟩, [⟨"x", 2⟩], ""⟩
    ⟨⟨5, some ⟨TOKEN_CLOSEBLOCK, "", 1⟩, 1⟩, [⟨"x", 2⟩], ""⟩ (by decide) (by decide!)).1 rfl
    ⟨⟨5, some ⟨TOKEN_CLOSEBLOCK, "", 1⟩, 1⟩, [⟨"x", 1⟩], ""⟩ (by decide!)

/-! ## Where `number` stands in a validated sequence -/

theorem chain_get {R : Token → Token → Prop} {l : List Token} (h : List.Chain' R l)
    {i : Nat} {a b : Token} (ha : l[i]? = some a) (hb : l[i + 1]? = some b) : R a b := by
  obtain ⟨hi, hia⟩ := List.getElem?_eq_some.1 ha
  obtain ⟨hj, hjb⟩ := List.getElem?_eq_some.1 hb
  have := List.chain'_iff_get.1 h i (by omega)
  simp only [List.get_eq_getElem] at this
  rw [hia, hjb] at this
  exact this

theorem chain_no_number {l : List Token} (h : ∀ t ∈ l, ¬ t.isKeyword "number") :
    List.Chain' number_adjacent l := by
  induction l with
  | nil => exact List.chain'_nil
  | cons a l ih =>
    cases l with
    | nil => exact List.chain'_singleton _
    | cons b l =>
      refine List.Chain'.cons ⟨fun ha => ?_, fun hb => ?_⟩
        (ih (fun t ht => h t (List.mem_cons_of_mem _ ht)))
      · exact absurd ha (h a (List.mem_cons_self _ _))
      · exact absurd hb (h b (List.mem_cons_of_mem _ (List.mem_cons_self _ _)))

theorem not_number_of_type {t : Token} (h : t.type ≠ TOKEN_KEYWORD) :
    ¬ t.isKeyword "number" := fun hn => h hn.1

theorem not_number_of_keyword {t : Token} {text : String} (h : t.isKeyword text)
    (hne : text ≠ "number") : ¬ t.isKeyword "number" :=
  fun hn => hne (by rw [← h.2, hn.2])

theorem value_not_number {t : Token} (h : t.isValue) : ¬ t.isKeyword "number" := by
  rcases h with h | h <;> exact not_number_of_type (by rw [h]; decide)

theorem assign_op_not_number {t : Token} (h : t.isAssignOp) : ¬ t.isKeyword "number" :=
  not_number_of_type (by rw [h.1]; decide)

theorem write_val_not_number {t : Token} (h : t.isWriteVal) : ¬ t.isKeyword "number" := by
  rcases h with h | h | h | h
  · exact not_number_of_type (by rw [h]; decide)
  · exact not_number_of_keyword h (by decide)
  · exact not_number_of_type (by rw [h]; decide)
  · exact not_number_of_type (by rw [h]; decide)

theorem writelist_no_number {l : List Token} (h : Validates .writelist l) :
    ∀ t ∈ l, ¬ t.isKeyword "number" := by
  generalize hnt : Nonterminal.writelist = nt at h
  induction h with
  | writelist_one hv =>
    intro t ht
    rw [List.mem_singleton.1 ht]
    exact write_val_not_number hv
  | writelist_and hv ha _ ih =>
    intro t ht
    rcases List.mem_cons.1 ht with rfl | ht
    · exact write_val_not_number hv
    · rcases List.mem_cons.1 ht with rfl | ht
      · exact not_number_of_keyword ha (by decide)
      · exact ih hnt t ht
  | _ => cases hnt

/-- A block whose content is chained and ends in a semicolon or brace is
chained. -/
theorem chain_block {o cl : Token} {l : List Token} (ho : o.type = TOKEN_OPENBLOCK)
    (hcl : cl.type = TOKEN_CLOSEBLOCK) (hl : List.Chain' number_adjacent l)
    (hlast : ∀ x ∈ l.getLast?, x.type = TOKEN_ENDOFLINE ∨ x.type = TOKEN_CLOSEBLOCK) :
    List.Chain' number_adjacent (o :: l ++ [cl]) := by
  have hno : ∀ x ∈ l.getLast?, ¬ x.isKeyword "number" := by
    intro x hx
    rcases hlast x hx with h | h <;> exact not_number_of_type (by rw [h]; decide)
  have h1 : List.Chain' number_adjacent (l ++ [cl]) := by
    refine List.chain'_append.2 ⟨hl, List.chain'_singleton _, ?_⟩
    intro x hx y hy
    simp only [List.head?_cons, Option.mem_def, Option.some.injEq] at hy
    subst hy
    exact ⟨fun hn => absurd hn (hno x hx),
      fun hn => absurd hn (not_number_of_type (by rw [hcl]; decide))⟩
  have h2 : List.Chain' number_adjacent ([o] ++ (l ++ [cl])) := by
    refine List.chain'_append.2 ⟨List.chain'_singleton _, h1, ?_⟩
    intro x hx y _
    simp only [List.getLast?_singleton, Option.mem_def, Option.some.injEq] at hx
    subst hx
    exact ⟨fun hn => absurd hn (not_number_of_type (by rw [ho]; decide)),
      fun _ => Or.inr (Or.inr (Or.inl ho))⟩
  simpa using h2

theorem getLast_append_singleton (l : List Token) (a : Token) (pre : List Token) :
    ∀ x ∈ (pre ++ (l ++ [a])).getLast?, x = a := by
  intro x hx
  rw [← List.append_assoc, List.getLast?_concat] at hx
  simp only [Option.mem_def, Option.some.injEq] at hx
  exact hx.symm

/-- A statement or statement list of the validator's language is chained, and
ends in a semicolon or a closing brace. -/
theorem validates_chain {nt : Nonterminal} {l : List Token} (h : Validates nt l) :
    nt ≠ .writelist →
      List.Chain' number_adjacent l ∧
        ∀ x ∈ l.getLast?, x.type = TOKEN_ENDOFLINE ∨ x.type = TOKEN_CLOSEBLOCK := by
  induction h with
  | program_nil => intro _; exact ⟨List.chain'_nil, fun x hx => by cases hx⟩
  | @program_cons a b _ _ iha ihb =>
    intro _
    obtain ⟨ca, la⟩ := iha (by decide)
    obtain ⟨cb, lb⟩ := ihb (by decide)
    refine ⟨List.chain'_append.2 ⟨ca, cb, ?_⟩, ?_⟩
    · intro x hx y _
      have := la x hx
      exact ⟨fun hn => absurd hn (by
          rcases this with h | h <;> exact not_number_of_type (by rw [h]; decide)),
        fun _ => by
          rcases this with h | h
          · exact Or.inl h
          · exact Or.inr (Or.inl h)⟩
    · intro x hx
      rw [List.getLast?_append] at hx
      cases hb : b.getLast? with
      | none => rw [hb] at hx; exact la x hx
      | some y =>
        rw [hb] at hx
        have hxy : y = x := by simpa [Option.or] using hx
        rw [← hxy]
        exact lb y hb
  | @declaration n id semi hn hid hsemi =>
    intro _
    refine ⟨List.Chain'.cons ⟨fun _ => hid, fun h => ?_⟩
      (List.Chain'.cons ⟨fun h => ?_, fun h => ?_⟩ (List.chain'_singleton _)), ?_⟩
    · exact absurd h (not_number_of_type (by rw [hid]; decide))
    · exact absurd h (not_number_of_type (by rw [hid]; decide))
    · exact absurd h (not_number_of_type (by rw [hsemi]; decide))
    · intro x hx
      simp only [List.getLast?_cons_cons, List.getLast?_singleton, Option.mem_def,
        Option.some.injEq] at hx
      rw [← hx]
      exact Or.inl hsemi
  | @assignment id op v semi hid hop hv hsemi =>
    intro _
    refine ⟨chain_no_number ?_, ?_⟩
    · intro t ht
      simp only [List.mem_cons, List.mem_singleton, List.not_mem_nil, or_false] at ht
      rcases ht with rfl | rfl | rfl | rfl
      · exact not_number_of_type (by rw [hid]; decide)
      · exact assign_op_not_number hop
      · exact value_not_number hv
      · exact not_number_of_type (by rw [hsemi]; decide)
    · intro x hx
      simp only [List.getLast?_cons_cons, List.getLast?_singleton, Option.mem_def,
        Option.some.injEq] at hx
      rw [← hx]
      exact Or.inl hsemi
  | @write w semi l hw hl hsemi _ =>
    intro _
    refine ⟨chain_no_number ?_, ?_⟩
    · intro t ht
      rcases List.mem_append.1 ht with ht | ht
      · rcases List.mem_cons.1 ht with rfl | ht
        · exact not_number_of_keyword hw (by decide)
        · exact writelist_no_number hl t ht
      · rw [List.mem_singleton.1 ht]
        exact not_number_of_type (by rw [hsemi]; decide)
    · intro x hx
      rw [getLast_append_singleton l semi [w] x (by simpa using hx)]
      exact Or.inl hsemi
  | writelist_one _ => intro h; exact absurd rfl h
  | writelist_and _ _ _ _ => intro h; exact absurd rfl h
  | @repeat_block r c t o cl l hr hc ht ho _ hcl ih =>
    intro _
    obtain ⟨cl1, ll⟩ := ih (by decide)
    have hb := chain_block ho hcl cl1 ll
    have h3 : List.Chain' number_adjacent ([r, c, t] ++ (o :: l ++ [cl])) := by
      refine List.chain'_append.2 ⟨chain_no_number ?_, hb, ?_⟩
      · intro x hx
        simp only [List.mem_cons, List.mem_singleton, List.not_mem_nil, or_false] at hx
        rcases hx with rfl | rfl | rfl
        · exact not_number_of_keyword hr (by decide)
        · exact value_not_number hc
        · exact not_number_of_keyword ht (by decide)
      · intro x hx y hy
        simp only [List.getLast?_cons_cons, List.getLast?_singleton, Option.mem_def,
          Option.some.injEq] at hx
        simp only [List.cons_append, List.head?_cons, Option.mem_def, Option.some.injEq] at hy
        subst hx hy
        exact ⟨fun hn => absurd hn (not_number_of_keyword ht (by decide)),
          fun hn => absurd hn (not_number_of_type (by rw [ho]; decide))⟩
    refine ⟨by simpa using h3, ?_⟩
    intro x hx
    rw [getLast_append_singleton l cl [r, c, t, o] x (by simpa using hx)]
    exact Or.inr hcl
  | @repeat_write r c t w semi l hr hc ht hw hl hsemi _ =>
    intro _
    refine ⟨chain_no_number ?_, ?_⟩
    · intro x hx
      rcases List.mem_append.1 hx with hx | hx
      · simp only [List.mem_cons] at hx
        rcases hx with rfl | rfl | rfl | rfl | hx
        · exact not_number_of_keyword hr (by decide)
        · exact value_not_number hc
        · exact not_number_of_keyword ht (by decide)
        · exact not_number_of_keyword hw (by decide)
        · exact writelist_no_number hl x hx
      · rw [List.mem_singleton.1 hx]
        exact not_number_of_type (by rw [hsemi]; decide)
    · intro x hx
      rw [getLast_append_singleton l semi [r, c, t, w] x (by simpa using hx)]
      exact Or.inl hsemi
  | @repeat_assign r c t id op v semi semi2 hr hc ht hid hop hv hsemi hsemi2 =>
    intro _
    refine ⟨chain_no_number ?_, ?_⟩
    · intro x hx
      simp only [List.mem_cons, List.mem_singleton, List.not_mem_nil, or_false] at hx
      rcases hx with rfl | rfl | rfl | rfl | rfl | rfl | rfl | rfl
      · exact not_number_of_keyword hr (by decide)
      · exact value_not_number hc
      · exact not_number_of_keyword ht (by decide)
      · exact not_number_of_type (by rw [hid]; decide)
      · exact assign_op_not_number hop
      · exact value_not_number hv
      · exact not_number_of_type (by rw [hsemi]; decide)
      · exact not_number_of_type (by rw [hsemi2]; decide)
    · intro x hx
      simp only [List.getLast?_cons_cons, List.getLast?_singleton, Option.mem_def,
        Option.some.injEq] at hx
      rw [← hx]
      exact Or.inl hsemi2
  | @block o cl l ho _ hcl ih =>
    intro _
    obtain ⟨cl1, ll⟩ := ih (by decide)
    refine ⟨chain_block ho hcl cl1 ll, ?_⟩
    intro x hx
    rw [getLast_append_singleton l cl [o] x (by simpa using hx)]
    exact Or.inr hcl

/-! ## Identifiers are declared before they are used -/

theorem armed_append (l : List Token) (t : Token) :
    armed (l ++ [t]) =
      (if t.type = TOKEN_IDENTIFIER then false
        else armed l || (t.type == TOKEN_KEYWORD && t.value == "number")) := by
  unfold armed
  rw [List.foldl_append]
  rfl

theorem get_append_some {l : List Token} {t u : Token} {j : Nat} (h : l[j]? = some u) :
    (l ++ [t])[j]? = some u := by
  rw [List.getElem?_append_left (List.getElem?_eq_some.1 h).1]
  exact h

theorem take_append_some {l : List Token} {t u : Token} {j : Nat} (h : l[j]? = some u) :
    (l ++ [t]).take j = l.take j :=
  List.take_append_of_le_length (Nat.le_of_lt (List.getElem?_eq_some.1 h).1)

/-- The invariant `lex_declared` holds of the state that `tokenize` returns. -/
theorem tokenize_declared {input : List Char} {s : LexState} (h : tokenize input = .ok s) :
    lex_declared s := by
  refine tokenize_inv lex_declared ?_ ?_ h
  · refine ⟨rfl, ?_, ?_⟩
    · intro w hw; cases hw
    · intro i t ht; simp [LexState.init] at ht
  intro s s1 ⟨h1, h2, h3⟩ hr
  rcases hr.2 with ⟨a, b, c⟩ | ⟨t, _, b, _, _, e⟩
  · exact ⟨by rw [b, a]; exact h1, by rw [c, a]; exact h2, by rw [a]; exact h3⟩
  · have old : ∀ j u, s.token_list[j]? = some u → u.type = TOKEN_IDENTIFIER →
        armed (s.token_list.take j) = true →
        ∃ j2 u2, s1.token_list[j2]? = some u2 ∧ u2.type = TOKEN_IDENTIFIER ∧
          u2.value = u.value ∧ armed (s1.token_list.take j2) = true := by
      intro j u hj hu ha
      exact ⟨j, u, by rw [b]; exact get_append_some hj, hu, rfl,
        by rw [b, take_append_some hj]; exact ha⟩
    have hlast : s1.token_list[s.token_list.length]? = some t := by
      rw [b, List.getElem?_append_right (Nat.le_refl _)]
      simp
    have htake : s1.token_list.take s.token_list.length = s.token_list := by
      rw [b, List.take_append_of_le_length (Nat.le_refl _), List.take_length]
    have hthird : ∀ (i : Nat) (x : Token), s1.token_list[i]? = some x →
        x.type = TOKEN_IDENTIFIER → i < s.token_list.length →
        ∃ j u, j ≤ i ∧ s1.token_list[j]? = some u ∧ u.type = TOKEN_IDENTIFIER ∧
          u.value = x.value ∧ armed (s1.token_list.take j) = true := by
      intro i x hx hxt hi
      rw [b, List.getElem?_append_left hi] at hx
      obtain ⟨j, u, hj, hju, hut, huv, hua⟩ := h3 i x hx hxt
      exact ⟨j, u, hj, by rw [b]; exact get_append_some hju, hut, huv,
        by rw [b, take_append_some hju]; exact hua⟩
    have hidx : ∀ (i : Nat) (x : Token), s1.token_list[i]? = some x →
        i < s.token_list.length ∨ (i = s.token_list.length ∧ x = t) := by
      intro i x hx
      by_cases hi : i < s.token_list.length
      · exact Or.inl hi
      · have hlen := (List.getElem?_eq_some.1 hx).1
        rw [b, List.length_append, List.length_singleton] at hlen
        have hi2 : i = s.token_list.length := by omega
        rw [hi2, hlast] at hx
        simp only [Option.some.injEq] at hx
        exact Or.inr ⟨hi2, hx.symm⟩
    unfold lex_flags at e
    by_cases hty : t.type = TOKEN_IDENTIFIER
    · rw [if_pos hty] at e
      obtain ⟨e1, e2⟩ := e
      refine ⟨by rw [e1, b, armed_append, if_pos hty], ?_, ?_⟩
      · rcases e2 with ⟨f1, f2⟩ | ⟨_, _, f2⟩
        · intro w hw
          rw [f2] at hw
          unfold declare_identifier at hw
          split_ifs at hw
          · rcases List.mem_append.1 hw with hw | hw
            · obtain ⟨j, u, hj, hu, hv, ha⟩ := h2 w hw
              obtain ⟨j2, u2, k1, k2, k3, k4⟩ := old j u hj hu ha
              exact ⟨j2, u2, k1, k2, by rw [k3, hv], k4⟩
            · rw [List.mem_singleton.1 hw]
              exact ⟨_, t, hlast, hty, rfl, by rw [htake, ← h1]; exact f1⟩
          · obtain ⟨j, u, hj, hu, hv, ha⟩ := h2 w hw
            obtain ⟨j2, u2, k1, k2, k3, k4⟩ := old j u hj hu ha
            exact ⟨j2, u2, k1, k2, by rw [k3, hv], k4⟩
        · intro w hw
          rw [f2] at hw
          obtain ⟨j, u, hj, hu, hv, ha⟩ := h2 w hw
          obtain ⟨j2, u2, k1, k2, k3, k4⟩ := old j u hj hu ha
          exact ⟨j2, u2, k1, k2, by rw [k3, hv], k4⟩
      · intro i x hx hxt
        rcases hidx i x hx with hi | ⟨hi, rfl⟩
        · exact hthird i x hx hxt hi
        · rcases e2 with ⟨f1, _⟩ | ⟨_, f2, _⟩
          · exact ⟨i, x, Nat.le_refl _, hx, hty, rfl,
              by rw [hi, htake, ← h1]; exact f1⟩
          · obtain ⟨j, u, hj, hu, hv, ha⟩ := h2 _ f2
            have hjlt := (List.getElem?_eq_some.1 hj).1
            exact ⟨j, u, by omega, by rw [b]; exact get_append_some hj, hu, hv,
              by rw [b, take_append_some hj]; exact ha⟩
    · rw [if_neg hty] at e
      obtain ⟨e1, e2⟩ := e
      refine ⟨by rw [e2, b, armed_append, if_neg hty, h1], ?_, ?_⟩
      · intro w hw
        rw [e1] at hw
        obtain ⟨j, u, hj, hu, hv, ha⟩ := h2 w hw
        obtain ⟨j2, u2, k1, k2, k3, k4⟩ := old j u hj hu ha
        exact ⟨j2, u2, k1, k2, by rw [k3, hv], k4⟩
      · intro i x hx hxt
        rcases hidx i x hx with hi | ⟨_, rfl⟩
        · exact hthird i x hx hxt hi
        · exact absurd hxt hty

/-- In a chained sequence the flag the tokens determine is set only directly
after the keyword `number`. -/
theorem armed_after_number {toks : List Token} (hc : List.Chain' number_adjacent toks) :
    ∀ j, j < toks.length → armed (toks.take (j + 1)) = true →
      ∃ n, toks[j]? = some n ∧ n.isKeyword "number" := by
  intro j
  induction j with
  | zero =>
    intro hj ha
    have ht : toks[0]? = some toks[0] := List.getElem?_eq_getElem hj
    rw [List.take_succ, ht, List.take_zero, Option.toList_some, armed_append] at ha
    split_ifs at ha with h1
    simp only [armed, List.foldl_nil, Bool.false_or, Bool.and_eq_true, beq_iff_eq] at ha
    exact ⟨_, ht, ha⟩
  | succ j ih =>
    intro hj ha
    have ht : toks[j + 1]? = some toks[j + 1] := List.getElem?_eq_getElem hj
    rw [List.take_succ, ht, Option.toList_some, armed_append] at ha
    split_ifs at ha with h1
    simp only [Bool.or_eq_true, Bool.and_eq_true, beq_iff_eq] at ha
    rcases ha with ha | ha
    · obtain ⟨n, hn, hnum⟩ := ih (by omega) ha
      exact absurd ((chain_get hc hn ht).1 hnum) h1
    · exact ⟨_, ht, ha⟩

/-- The tokens of a source that the lexer tokenizes and the validator accepts:
every identifier is declared before it is used, and `number` starts a
statement. -/
theorem checked_tokens {input : List Char} {l : LexState} {c : Cursor}
    (hl : tokenize input = .ok l) (hp : parse l.token_list = .ok c) :
    declared_before_use l.token_list ∧ number_starts_statement l.token_list := by
  have hv : Validates .program l.token_list := parse_validates (by unfold accepted; rw [hp])
  have hc := (validates_chain hv (by decide)).1
  refine ⟨?_, fun i a b ha hb hn => (chain_get hc ha hb).2 hn⟩
  intro i t ht hty
  obtain ⟨j, u, hji, hj, hu, hv, ha⟩ := (tokenize_declared hl).2.2 i t ht hty
  cases j with
  | zero => simp [armed] at ha
  | succ q =>
    have hq := (List.getElem?_eq_some.1 hj).1
    obtain ⟨n, hn, hnum⟩ := armed_after_number hc q (by omega) ha
    exact ⟨q, hji, n, u, hn, hnum, hj, hu, hv⟩

/-! ## The executor meets no undeclared name on checked tokens -/

theorem Res.safe_bind {P Q : ExecState → Prop} {r : Res} {g : ExecState → Res}
    (h : r.safe P) (hg : ∀ s1, P s1 → (g s1).safe Q) : (r.bind g).safe Q := by
  cases r with
  | ok s1 => exact hg s1 h
  | fail e s1 => exact h
  | timeout => trivial

theorem declared_upto_step_type {toks : List Token} {p : Nat} {vt : List Variable} {t : Token}
    (h : declared_upto toks p vt) (ht : toks[p]? = some t) (hty : t.type ≠ TOKEN_IDENTIFIER) :
    declared_upto toks (p + 1) vt := by
  intro q name hq hin
  by_cases hlt : q + 1 < p
  · exact h q name hlt hin
  · have hqp : q + 1 = p := by omega
    obtain ⟨n, u, _, _, hu, hut, _⟩ := hin
    rw [hqp, ht] at hu
    simp only [Option.some.injEq] at hu
    rw [hu] at hty
    exact absurd hut hty

theorem declared_upto_step_nb {toks : List Token} {p : Nat} {vt : List Variable}
    (h : declared_upto toks p vt) (hnb : not_after_number toks p) :
    declared_upto toks (p + 1) vt := by
  intro q name hq hin
  by_cases hlt : q + 1 < p
  · exact h q name hlt hin
  · have hqp : q + 1 = p := by omega
    obtain ⟨n, u, hn, hnum, _, _, _⟩ := hin
    exact absurd hnum (hnb q n hqp hn)

theorem declared_upto_vars {toks : List Token} {p : Nat} {vt vt2 : List Variable}
    (h : declared_upto toks p vt)
    (hv : ∀ name, (find_var vt name).isSome = true → (find_var vt2 name).isSome = true) :
    declared_upto toks p vt2 :=
  fun q name hq hin => hv name (h q name hq hin)

theorem not_after_number_of {toks : List Token} {p : Nat} {t : Token} (ht : toks[p]? = some t)
    (hn : ¬ t.isKeyword "number") : not_after_number toks (p + 1) := by
  intro q n hq hqn
  have : q = p := by omega
  rw [this, ht] at hqn
  simp only [Option.some.injEq] at hqn
  rw [← hqn]
  exact hn

/-- An identifier at a well-placed position is in the variable table. -/
theorem use_declared {toks : List Token} (hd : declared_before_use toks) {p : Nat}
    {vt : List Variable} (h : declared_upto toks p vt) (hnb : not_after_number toks p)
    {t : Token} (ht : toks[p]? = some t) (hty : t.type = TOKEN_IDENTIFIER) :
    (find_var vt t.value).isSome = true := by
  obtain ⟨q, hq, hin⟩ := hd p t ht hty
  by_cases hlt : q + 1 < p
  · exact h q _ hlt hin
  · have hqp : q + 1 = p := by omega
    obtain ⟨n, u, hn, hnum, _, _, _⟩ := hin
    exact absurd hnum (hnb q n hqp hn)

theorem get_value_error_declared {s : ExecState} {t : Token} {e : RuntimeError}
    (h : get_value s t = .error e)
    (hdecl : t.type = TOKEN_IDENTIFIER → (find_var s.var_table t.value).isSome = true) :
    e.is_undeclared = false := by
  unfold get_value at h
  split_ifs at h with h1 h2
  · cases hf : find_var s.var_table t.value with
    | none =>
      have := hdecl h2
      rw [hf] at this
      cases this
    | some idx =>
      rw [hf] at h
      simp only at h
      split at h
      · cases h
      · simp only [Except.error.injEq] at h
        rw [← h]
        rfl
  · simp only [Except.error.injEq] at h
    rw [← h]
    rfl

theorem find_var_from_append_self (vt : List Variable) (name : String) (v : Int) (i : Nat) :
    (find_var_from (vt ++ [⟨name, v⟩]) name i).isSome = true := by
  induction vt generalizing i with
  | nil => simp [find_var_from]
  | cons x xs ih =>
    simp only [List.cons_append, find_var_from]
    split_ifs
    · rfl
    · exact ih (i + 1)

theorem find_var_append_some (vt : List Variable) (x : Variable) (name : String)
    (h : (find_var vt name).isSome = true) : (find_var (vt ++ [x]) name).isSome = true := by
  obtain ⟨idx, hidx⟩ := Option.isSome_iff_exists.1 h
  unfold find_var at hidx ⊢
  rw [find_var_from_append _ _ _ _ _ hidx]
  rfl

theorem keeps_vars_some {s s1 : ExecState} (h : keeps_vars s s1) (name : String)
    (hs : (find_var s.var_table name).isSome = true) :
    (find_var s1.var_table name).isSome = true := by
  obtain ⟨idx, hidx⟩ := Option.isSome_iff_exists.1 hs
  rw [h name idx hidx]
  rfl

theorem ident_not_ends_part {t : Token} (h : t.type = TOKEN_IDENTIFIER) : ¬ t.ends_part := by
  rintro (h1 | h1 | h1 | h1)
  · rw [h] at h1; cases h1
  · rw [h] at h1; cases h1
  · rw [h] at h1; cases h1
  · have h2 := h1.1
    rw [h] at h2
    cases h2

theorem tokMatches_semicolon {t : Token} (h : tokMatches t TOKEN_ENDOFLINE none = true) :
    t.type ≠ TOKEN_IDENTIFIER ∧ ¬ t.isKeyword "number" := by
  have ht : t.type = TOKEN_ENDOFLINE := by simpa [tokMatches] using h
  exact ⟨by rw [ht]; decide, not_number_of_type (by rw [ht]; decide)⟩

/-- After a semicolon is accepted at a position up to which every declaration
has been executed, the executor is well placed. -/
theorem well_placed_accept {toks : List Token} {s : ExecState} {ty : TokenType}
    (hty : ty = TOKEN_ENDOFLINE ∨ ty = TOKEN_CLOSEBLOCK ∨ ty = TOKEN_OPENBLOCK)
    (hD : declared_upto toks s.cur.current s.var_table)
    (ha : (accept toks s ty none).1 = true) : well_placed toks (accept toks s ty none).2 := by
  obtain ⟨t, ht, htt, hs⟩ := accept_true_inv ha
  rw [hs]
  have hne : t.type ≠ TOKEN_IDENTIFIER := by
    rcases hty with h | h | h <;> rw [htt, h] <;> decide
  have hnn : ¬ t.isKeyword "number" := by
    refine not_number_of_type ?_
    rcases hty with h | h | h <;> rw [htt, h] <;> decide
  exact ⟨declared_upto_step_type hD ht hne, not_after_number_of ht hnn⟩

theorem interpret_declaration_safe {toks : List Token} (s : ExecState) (t : Token)
    (hp : peek toks s.cur = some t) (hk : t.type = TOKEN_KEYWORD)
    (h : well_placed toks s) : (interpret_declaration toks s).safe (well_placed toks) := by
  obtain ⟨⟨cur, lt, ll⟩, vt, out⟩ := s
  obtain ⟨hD, _⟩ := h
  have ht : toks[cur]? = some t := hp
  simp only at hD
  unfold interpret_declaration
  simp only [adv_mk ht]
  cases h1 : toks[cur + 1]? with
  | none => simp only [adv_mk_none h1]; rfl
  | some id =>
    simp only [adv_mk h1]
    by_cases hid : id.type = TOKEN_IDENTIFIER
    · rw [if_neg (by simpa using hid)]
      unfold declare_var
      simp only
      split_ifs with g1 g2
      · rfl
      · rfl
      · simp only [Res.bind]
        have d0 : declared_upto toks cur (vt ++ [⟨id.value, 0⟩]) :=
          declared_upto_vars hD (fun name hn => find_var_append_some _ _ _ hn)
        have d1 := declared_upto_step_type d0 ht (by rw [hk]; decide)
        have d2 : declared_upto toks (cur + 1 + 1) (vt ++ [⟨id.value, 0⟩]) := by
          intro q name hq hin
          by_cases hlt : q + 1 < cur + 1
          · exact d1 q name hlt hin
          · have hqc : q = cur := by omega
            obtain ⟨n, u, _, _, hu, _, huv⟩ := hin
            rw [hqc, h1] at hu
            simp only [Option.some.injEq] at hu
            rw [← huv, ← hu]
            exact find_var_from_append_self _ _ _ _
        split_ifs with ha
        · exact well_placed_accept (Or.inl rfl) d2 ha
        · rfl
    · rw [if_pos hid]; rfl

theorem interpret_assignment_safe {toks : List Token} (hd : declared_before_use toks)
    (hn : number_starts_statement toks) (s : ExecState) (t : Token)
    (hp : peek toks s.cur = some t) (hk : t.type = TOKEN_IDENTIFIER)
    (h : well_placed toks s) : (interpret_assignment toks s).safe (well_placed toks) := by
  obtain ⟨⟨cur, lt, ll⟩, vt, out⟩ := s
  obtain ⟨hD, hNB⟩ := h
  have ht : toks[cur]? = some t := hp
  simp only at hD hNB
  unfold interpret_assignment
  simp only [adv_mk ht]
  cases h1 : toks[cur + 1]? with
  | none => simp only [adv_mk_none h1]; rfl
  | some op =>
    simp only [adv_mk h1]
    cases h2 : toks[cur + 1 + 1]? with
    | none => simp only [adv_mk_none h2]; rfl
    | some rhs =>
      simp only [adv_mk h2]
      have hid := use_declared hd hD hNB ht hk
      have d1 := declared_upto_step_nb hD hNB
      have n1 : not_after_number toks (cur + 1) :=
        not_after_number_of ht (not_number_of_type (by rw [hk]; decide))
      have d2 := declared_upto_step_nb d1 n1
      have n2 : not_after_number toks (cur + 1 + 1) :=
        not_after_number_of h1 (fun hnum => ident_not_ends_part hk (hn cur t op ht h1 hnum))
      have d3 := declared_upto_step_nb d2 n2
      cases hg : get_value ⟨⟨cur + 1 + 1 + 1, some rhs, rhs.line⟩, vt, out⟩ rhs with
      | error e =>
        exact get_value_error_declared hg (fun hr => use_declared hd d2 n2 h2 hr)
      | ok value =>
        simp only
        have hchk : check_var_exists ⟨⟨cur + 1 + 1 + 1, some rhs, rhs.line⟩, vt, out⟩
            t.value t.line = none := by
          unfold check_var_exists
          rw [if_neg]
          simp only [Option.isNone_iff_eq_none]
          intro hnone
          rw [hnone] at hid
          cases hid
        rw [hchk]
        simp only
        split
        · rfl
        · split
          · rfl
          · split_ifs with ha
            · refine well_placed_accept (Or.inl rfl) ?_ ha
              exact declared_upto_vars d3 (fun name hs => by rw [find_var_store]; exact hs)
            · rfl

/-- The write loop on checked tokens: it fails with no undeclared-variable
diagnostic and passes no declaration. -/
theorem interpret_write_loop_safe {toks : List Token} (hd : declared_before_use toks)
    (fuel : Nat) :
    ∀ (e : Bool) (s : ExecState), declared_upto toks s.cur.current s.var_table →
      (e = false → not_after_number toks s.cur.current) →
      (interpret_write_loop fuel toks e s).safe
        (fun s1 => declared_upto toks s1.cur.current s1.var_table) := by
  induction fuel with
  | zero => intro e s _ _; trivial
  | succ n ih =>
    intro e s hD hNB
    obtain ⟨⟨cur, lt, ll⟩, vt, out⟩ := s
    simp only at hD hNB
    rw [interpret_write_loop]
    cases hp : peek toks ⟨cur, lt, ll⟩ with
    | none => exact hD
    | some t =>
      have ht : toks[cur]? = some t := hp
      simp only
      have hadv : ∀ text, adv toks (emit ⟨⟨cur, lt, ll⟩, vt, out⟩ text) =
          (some t, ⟨⟨cur + 1, some t, t.line⟩, vt, out ++ text⟩) := fun text => adv_mk ht
      cases e with
      | true =>
        simp only [if_true]
        cases hm : tokMatches t TOKEN_KEYWORD (some "and") with
        | false =>
          rw [accept_mk_false ht hm]
          exact hD
        | true =>
          rw [accept_mk ht hm]
          simp only [if_true]
          have hand : t.type = TOKEN_KEYWORD ∧ t.value = "and" := by
            simpa [tokMatches] using hm
          refine ih _ _ (declared_upto_step_type hD ht (by rw [hand.1]; decide)) (fun _ => ?_)
          exact not_after_number_of ht (not_number_of_keyword hand (by decide))
      | false =>
        have hNB := hNB rfl
        simp only [Bool.false_eq_true, if_false]
        by_cases g1 : t.type = TOKEN_STRINGCONST
        · rw [if_pos g1, hadv]
          exact ih _ _ (declared_upto_step_type hD ht (by rw [g1]; decide))
            (fun hf => by cases hf)
        rw [if_neg g1]
        by_cases g2 : t.type = TOKEN_KEYWORD ∧ t.value = "newline"
        · rw [if_pos g2, hadv]
          exact ih _ _ (declared_upto_step_type hD ht (by rw [g2.1]; decide))
            (fun hf => by cases hf)
        rw [if_neg g2]
        by_cases g3 : t.type = TOKEN_INTCONST ∨ t.type = TOKEN_IDENTIFIER
        · rw [if_pos g3]
          cases hg : get_value ⟨⟨cur, lt, ll⟩, vt, out⟩ t with
          | error e =>
            exact get_value_error_declared hg (fun hr => use_declared hd hD hNB ht hr)
          | ok v =>
            simp only
            rw [hadv]
            exact ih _ _ (declared_upto_step_nb hD hNB) (fun hf => by cases hf)
        · rw [if_neg g3]
          exact hD

theorem interpret_write_safe {toks : List Token} (hd : declared_before_use toks)
    (fuel : Nat) (s : ExecState) (t : Token) (hp : peek toks s.cur = some t)
    (hk : t.isKeyword "write") (h : well_placed toks s) :
    (interpret_write fuel toks s).safe (well_placed toks) := by
  obtain ⟨⟨cur, lt, ll⟩, vt, out⟩ := s
  obtain ⟨hD, _⟩ := h
  have ht : toks[cur]? = some t := hp
  simp only at hD
  unfold interpret_write
  rw [adv_mk ht]
  refine Res.safe_bind (interpret_write_loop_safe hd fuel false _
    (declared_upto_step_type hD ht (by rw [hk.1]; decide))
    (fun _ => not_after_number_of ht (not_number_of_keyword hk (by decide)))) ?_
  intro s1 hD1
  split_ifs with ha
  · exact well_placed_accept (Or.inl rfl) hD1 ha
  · rfl

theorem Res.safe_bind_related {P Q : ExecState → Prop} {R : ExecState → ExecState → Prop}
    {s0 : ExecState} {r : Res} {g : ExecState → Res} (h : r.safe P) (hk : r.related R s0)
    (hg : ∀ s1, P s1 → R s0 s1 → (g s1).safe Q) : (r.bind g).safe Q := by
  cases r with
  | ok s1 => exact hg s1 h hk
  | fail e s1 => exact h
  | timeout => trivial

theorem well_placed_store {toks : List Token} {s : ExecState} (idx : Nat) (v : Int)
    (h : well_placed toks s) :
    well_placed toks { s with var_table := store s.var_table idx v } :=
  ⟨declared_upto_vars h.1 (fun name hs => by simp only [find_var_store]; exact hs), h.2⟩

/-- On checked tokens, every executor function started at a well-placed
state returns to a well-placed state or fails with a diagnostic other than the
undeclared-variable ones. -/
theorem interpret_safe {toks : List Token} (hd : declared_before_use toks)
    (hn : number_starts_statement toks) (fuel : Nat) :
    (∀ s, well_placed toks s → (interpret_statement fuel toks s).safe (well_placed toks)) ∧
    (∀ s, well_placed toks s → (interpret_block fuel toks s).safe (well_placed toks)) ∧
    (∀ s, well_placed toks s → (interpret_block_loop fuel toks s).safe (well_placed toks)) ∧
    (∀ s t, peek toks s.cur = some t → ¬ t.isKeyword "number" → well_placed toks s →
      (interpret_repeat fuel toks s).safe (well_placed toks)) ∧
    (∀ ct st b c s, well_placed toks s → declared_upto toks st s.var_table →
      not_after_number toks st →
      (ct.type = TOKEN_IDENTIFIER → (find_var s.var_table ct.value).isSome = true) →
      (interpret_repeat_loop fuel toks ct st b c s).safe (well_placed toks)) := by
  induction fuel with
  | zero => refine ⟨?_, ?_, ?_, ?_, ?_⟩ <;> intros <;> trivial
  | succ n ih =>
    obtain ⟨ihs, ihb, ihbl, ihr, ihrl⟩ := ih
    refine ⟨?_, ?_, ?_, ?_, ?_⟩
    · intro s h
      rw [interpret_statement]
      cases hp : peek toks s.cur with
      | none => exact h
      | some t =>
        simp only
        by_cases hk : t.type = TOKEN_KEYWORD
        · rw [if_pos hk]
          by_cases h1 : t.value = "number"
          · rw [if_pos h1]
            exact interpret_declaration_safe s t hp hk h
          rw [if_neg h1]
          by_cases h2 : t.value = "write"
          · rw [if_pos h2]
            exact interpret_write_safe hd n s t hp ⟨hk, h2⟩ h
          rw [if_neg h2]
          by_cases h3 : t.value = "repeat"
          · rw [if_pos h3]
            exact ihr s t hp (fun hnum => h1 hnum.2) h
          rw [if_neg h3]
          rfl
        rw [if_neg hk]
        by_cases hi : t.type = TOKEN_IDENTIFIER
        · rw [if_pos hi]
          exact interpret_assignment_safe hd hn s t hp hi h
        rw [if_neg hi]
        by_cases ho : t.type = TOKEN_OPENBLOCK
        · rw [if_pos ho]
          exact ihb s h
        rw [if_neg ho]
        rfl
    · intro s h
      rw [interpret_block]
      split_ifs with ha
      · refine Res.safe_bind (ihbl _ (well_placed_accept (Or.inr (Or.inr rfl)) h.1 ha)) ?_
        intro s2 h2
        split_ifs with hc
        · exact well_placed_accept (Or.inr (Or.inl rfl)) h2.1 hc
        · rfl
      · rfl
    · intro s h
      rw [interpret_block_loop]
      cases hp : peek toks s.cur with
      | none => exact h
      | some t =>
        simp only
        split_ifs
        · exact Res.safe_bind (ihs s h) (fun s1 h1 => ihbl s1 h1)
        · exact h
    · intro s t hp hnum h
      obtain ⟨⟨cur, lt, ll⟩, vt, out⟩ := s
      obtain ⟨hD, hNB⟩ := h
      have ht : toks[cur]? = some t := hp
      simp only at hD hNB
      rw [interpret_repeat]
      simp only [adv_mk ht]
      cases h1 : toks[cur + 1]? with
      | none => simp only [adv_mk_none h1]; rfl
      | some ct =>
        simp only [adv_mk h1]
        have d1 := declared_upto_step_nb hD hNB
        have n1 : not_after_number toks (cur + 1) := not_after_number_of ht hnum
        have d2 := declared_upto_step_nb d1 n1
        have hct : ct.type = TOKEN_IDENTIFIER → (find_var vt ct.value).isSome = true :=
          fun hty => use_declared hd d1 n1 h1 hty
        cases hg : get_value ⟨⟨cur + 1 + 1, some ct, ct.line⟩, vt, out⟩ ct with
        | error e => exact get_value_error_declared hg hct
        | ok count =>
          simp only
          cases h2 : toks[cur + 1 + 1]? with
          | none => simp only [accept_mk_none h2]; rfl
          | some tm =>
            cases hm : tokMatches tm TOKEN_KEYWORD (some "times") with
            | false => simp only [accept_mk_false h2 hm]; rfl
            | true =>
              simp only [accept_mk h2 hm, if_true]
              have htm : tm.type = TOKEN_KEYWORD ∧ tm.value = "times" := by
                simpa [tokMatches] using hm
              have d3 := declared_upto_step_type d2 h2 (by rw [htm.1]; decide)
              have n3 : not_after_number toks (cur + 1 + 1 + 1) :=
                not_after_number_of h2 (not_number_of_keyword htm (by decide))
              cases hb : peek toks ⟨cur + 1 + 1 + 1, some tm, tm.line⟩ with
              | none => rfl
              | some b => exact ihrl _ _ _ _ _ ⟨d3, n3⟩ d3 n3 hct
    · intro ct st b c s h hDst hNBst hct
      rw [interpret_repeat_loop]
      simp only
      have hs0 : well_placed toks { s with cur := { s.cur with current := st } } :=
        ⟨hDst, hNBst⟩
      have tail : ∀ s1 : ExecState, well_placed toks s1 →
          keeps_vars { s with cur := { s.cur with current := st } } s1 →
          (if ct.type = TOKEN_IDENTIFIER then
            (set_variable s1 ct.value (c - 1)).bind fun s2 =>
              match get_value s2 ct with
              | .error e => .fail e s2
              | .ok c2 => interpret_repeat_loop n toks ct st b c2 s2
          else interpret_repeat_loop n toks ct st b (c - 1) s1).safe (well_placed toks) := by
        intro s1 h1 hk
        have hDst1 : declared_upto toks st s1.var_table :=
          declared_upto_vars hDst (fun name hs => keeps_vars_some hk name hs)
        by_cases hty : ct.type = TOKEN_IDENTIFIER
        · rw [if_pos hty]
          have hc1 := keeps_vars_some hk ct.value (hct hty)
          obtain ⟨idx, hidx⟩ := Option.isSome_iff_exists.1 hc1
          rw [set_variable_ok hidx]
          simp only [Res.bind]
          have hdecl : (find_var (store s1.var_table idx (c - 1)) ct.value).isSome = true := by
            rw [find_var_store]; exact hc1
          cases hg : get_value { s1 with var_table := store s1.var_table idx (c - 1) } ct with
          | error e => exact get_value_error_declared hg (fun _ => hdecl)
          | ok c2 =>
            exact ihrl _ _ _ _ _ (well_placed_store idx (c - 1) h1)
              (declared_upto_vars hDst1 (fun name hs => by
                simp only [find_var_store]; exact hs)) hNBst (fun _ => hdecl)
        · rw [if_neg hty]
          exact ihrl _ _ _ _ _ h1 hDst1 hNBst (fun h => absurd h hty)
      by_cases hc : c ≥ 1
      · rw [if_pos hc]
        by_cases hb : b = true
        · rw [if_pos hb]
          exact Res.safe_bind_related (ihb _ hs0)
            ((interpret_related keeps_vars_closed n toks).2.1 _) tail
        · rw [if_neg hb]
          exact Res.safe_bind_related (ihs _ hs0)
            ((interpret_related keeps_vars_closed n toks).1 _) tail
      · rw [if_neg hc]
        by_cases hty : ct.type = TOKEN_IDENTIFIER
        · rw [if_pos hty]
          obtain ⟨idx, hidx⟩ := Option.isSome_iff_exists.1 (hct hty)
          rw [set_variable_ok hidx]
          exact well_placed_store idx 0 h
        · rw [if_neg hty]
          exact h

theorem interpret_loop_safe {toks : List Token} (hd : declared_before_use toks)
    (hn : number_starts_statement toks) (fuel : Nat) :
    ∀ s, well_placed toks s → (interpret_loop fuel toks s).safe (well_placed toks) := by
  induction fuel with
  | zero => intro s _; trivial
  | succ n ih =>
    intro s h
    rw [interpret_loop]
    cases hp : peek toks s.cur with
    | none => exact h
    | some t => exact Res.safe_bind ((interpret_safe hd hn n).1 s h) (fun s1 h1 => ih s1 h1)

/-- C27 (no undeclared-variable failure on checked programs): in the tokens of
a source that the lexer tokenizes and the validator accepts, every identifier
token stands directly after `number` or after an earlier `number` followed by
the same identifier; and when the executor fails on these tokens, its
diagnostic is none of the undeclared-variable diagnostics of `get_value`,
`check_var_exists` and `set_variable`. -/
theorem C27_no_undeclared_failure (input : List Char) (l : LexState) (c : Cursor)
    (hl : tokenize input = .ok l) (hp : parse l.token_list = .ok c) :
    declared_before_use l.token_list ∧
    ∀ (fuel : Nat) (e : RuntimeError) (s : ExecState),
      interpret fuel l.token_list c = .fail e s →
      (∀ line name, e ≠ .notDeclaredCheck line name ∧ e ≠ .notDeclaredValue line name) ∧
      (∀ name, e ≠ .notDeclaredSet name) := by
  obtain ⟨hd, hn⟩ := checked_tokens hl hp
  refine ⟨hd, ?_⟩
  intro fuel e s hf
  have hsafe := interpret_loop_safe hd hn fuel
    { cur := { c with current := 0 }, var_table := [], output := "" }
    ⟨fun q name hq _ => by simp at hq, fun q n hq _ => by simp at hq⟩
  unfold interpret at hf
  rw [hf] at hsafe
  have he : e.is_undeclared = false := hsafe
  refine ⟨fun line name => ⟨?_, ?_⟩, fun name => ?_⟩ <;> rintro rfl <;> cases he

/-- Witness for C27: the source `number x; number x;`, which is tokenized and
accepted and on which the executor fails, with the already-declared
diagnostic. -/
theorem C27_no_undeclared_failure_witness :
    declared_before_use
      [⟨TOKEN_KEYWORD, "number", 1⟩, ⟨TOKEN_IDENTIFIER, "x", 1⟩, ⟨TOKEN_ENDOFLINE, "", 1⟩,
        ⟨TOKEN_KEYWORD, "number", 1⟩, ⟨TOKEN_IDENTIFIER, "x", 1⟩, ⟨TOKEN_ENDOFLINE, "", 1⟩] ∧
    interpret 3
      [⟨TOKEN_KEYWORD, "number", 1⟩, ⟨TOKEN_IDENTIFIER, "x", 1⟩, ⟨TOKEN_ENDOFLINE, "", 1⟩,
        ⟨TOKEN_KEYWORD, "number", 1⟩, ⟨TOKEN_IDENTIFIER, "x", 1⟩, ⟨TOKEN_ENDOFLINE, "", 1⟩]
      ⟨6, some ⟨TOKEN_ENDOFLINE, "", 1⟩, 1⟩ =
      .fail (.alreadyDeclared 1 "x")
        ⟨⟨5, some ⟨TOKEN_IDENTIFIER, "x", 1⟩, 1⟩, [⟨"x", 0⟩], ""⟩ ∧
    (∀ line name, RuntimeError.alreadyDeclared 1 "x" ≠ .notDeclaredCheck line name ∧
      RuntimeError.alreadyDeclared 1 "x" ≠ .notDeclaredValue line name) ∧
    (∀ name, RuntimeError.alreadyDeclared 1 "x" ≠ .notDeclaredSet name) :=
  ⟨(C27_no_undeclared_failure "number x; number x;".toList
      { line := 1, expect_identifier_declaration := false, declared_identifiers := ["x", "x"],
        token_list := [⟨TOKEN_KEYWORD, "number", 1⟩, ⟨TOKEN_IDENTIFIER, "x", 1⟩,
          ⟨TOKEN_ENDOFLINE, "", 1⟩, ⟨TOKEN_KEYWORD, "number", 1⟩, ⟨TOKEN_IDENTIFIER, "x", 1⟩,
          ⟨TOKEN_ENDOFLINE, "", 1⟩],
        out := ["Keyword(number)", "Identifier(x)", "EndOfLine", "Keyword(number)",
          "Identifier(x)", "EndOfLine"],
        diag := [] }
      ⟨6, some ⟨TOKEN_ENDOFLINE, "", 1⟩, 1⟩ (by decide!) (by decide!)).1,
    by decide!,
    (C27_no_undeclared_failure "number x; number x;".toList
      { line := 1, expect_identifier_declaration := false, declared_identifiers := ["x", "x"],
        token_list := [⟨TOKEN_KEYWORD, "number", 1⟩, ⟨TOKEN_IDENTIFIER, "x", 1⟩,
          ⟨TOKEN_ENDOFLINE, "", 1⟩, ⟨TOKEN_KEYWORD, "number", 1⟩, ⟨TOKEN_IDENTIFIER, "x", 1⟩,
          ⟨TOKEN_ENDOFLINE, "", 1⟩],
        out := ["Keyword(number)", "Identifier(x)", "EndOfLine", "Keyword(number)",
          "Identifier(x)", "EndOfLine"],
        diag := [] }
      ⟨6, some ⟨TOKEN_ENDOFLINE, "", 1⟩, 1⟩ (by decide!) (by decide!)).2 3
      (.alreadyDeclared 1 "x") ⟨⟨5, some ⟨TOKEN_IDENTIFIER, "x", 1⟩, 1⟩, [⟨"x", 0⟩], ""⟩
      (by decide!)⟩

/-! ## The declaration set at capacity -/

/-- A round of the main loop that returns normally leaves a declaration set
that is at capacity as it is. -/
theorem tokenize_step_at_capacity {s s1 : LexState} {c : Char} {rest rest1 : List Char}
    (h : tokenize_step s c rest = (.ok s1, rest1))
    (hcap : MAX_IDENTIFIERS ≤ s.declared_identifiers.length) :
    s1.declared_identifiers = s.declared_identifiers := by
  have hd : ∀ name, (declare_identifier s name).declared_identifiers = s.declared_identifiers := by
    intro name
    unfold declare_identifier
    rw [if_neg (by omega)]
  rcases (tokenize_step_round h).2 with ⟨_, _, a⟩ | ⟨t, _, _, _, _, hf⟩
  · exact a
  · unfold lex_flags at hf
    split_ifs at hf
    · rcases hf.2 with ⟨_, a⟩ | ⟨_, _, a⟩
      · rw [a, hd]
      · exact a
    · exact hf.1

/-- Once the declaration set is at capacity it never changes. -/
theorem lex_reach_at_capacity {s s2 : LexState} (h : LexReach s s2) :
    MAX_IDENTIFIERS ≤ s.declared_identifiers.length →
    s2.declared_identifiers = s.declared_identifiers := by
  induction h with
  | refl s => exact fun _ => rfl
  | step hstep _ ih =>
    intro hcap
    have h1 := tokenize_step_at_capacity hstep hcap
    rw [ih (by rw [h1]; exact hcap), h1]

/-- The lexer on a word that is in the declaration set, with the token table
full: it exits with the too-many-tokens diagnostic. -/
theorem tokenize_step_declared_word_full (s : LexState) (c : Char) (cs rest : List Char)
    (hc : is_identifier_start c = true) (hcs : cs.all is_identifier_char = true)
    (hrest : ∀ d ∈ rest.head?, is_identifier_char d = false) (hlen : (c :: cs).length ≤ 20)
    (hkw : is_keyword (String.mk (c :: cs)) = false)
    (hmem : s.expect_identifier_declaration = true ∨
      String.mk (c :: cs) ∈ s.declared_identifiers)
    (hfull : MAX_TOKENS ≤ s.token_list.length) :
    ∃ s3, (tokenize_step s c (cs ++ rest)).1 = .exit s3 ∧
      s3.diag = s.diag ++ [.tooManyTokens] ∧ s3.token_list = s.token_list := by
  have hf := declare_identifier_fields s (String.mk (c :: cs))
  rw [tokenize_step_word s c cs rest hc hcs hrest hlen]
  by_cases hflag : s.expect_identifier_declaration = true
  · simp only [hkw, hflag, if_true, Bool.false_eq_true, if_false]
    rw [write_token_full _ _ _ _ (by rw [hf.2.1]; exact hfull)]
    exact ⟨_, rfl, by simp only [hf.2.2.2], hf.2.1⟩
  · have hdecl : is_declared s (String.mk (c :: cs)) = true := by
      unfold is_declared
      rcases hmem with h | h
      · exact absurd h hflag
      · simpa using h
    simp only [hkw, hflag, hdecl, if_true, Bool.false_eq_true, if_false]
    rw [write_token_full _ _ _ _ hfull]
    exact ⟨_, rfl, rfl, rfl⟩

/-- The lexer on a word that is not in the declaration set, met with the flag
not armed: it exits with the `is not defined` diagnostic for the current
line. -/
theorem tokenize_step_undeclared_word (s : LexState) (c : Char) (cs rest : List Char)
    (hc : is_identifier_start c = true) (hcs : cs.all is_identifier_char = true)
    (hrest : ∀ d ∈ rest.head?, is_identifier_char d = false) (hlen : (c :: cs).length ≤ 20)
    (hkw : is_keyword (String.mk (c :: cs)) = false)
    (hflag : s.expect_identifier_declaration = false)
    (hmem : String.mk (c :: cs) ∉ s.declared_identifiers) :
    ∃ s3, (tokenize_step s c (cs ++ rest)).1 = .exit s3 ∧
      LexDiag.notDefined s.line (not_defined_msg (c :: cs)) ∈ s3.diag := by
  have hdecl : is_declared s (String.mk (c :: cs)) = false := by
    unfold is_declared
    simpa using hmem
  rw [tokenize_step_word s c cs rest hc hcs hrest hlen]
  simp only [hkw, hflag, hdecl, Bool.false_eq_true, if_false]
  obtain ⟨s3, h1, h2, _⟩ := lex_error_exit s (.notDefined s.line (not_defined_msg (c :: cs)))
    (not_defined_msg (c :: cs)) s.line
  exact ⟨s3, h1, h2⟩

/-- A word met with the flag armed that the round of the main loop accepts was
met with room in the token table. -/
theorem tokenize_step_declaration_room (s s1 : LexState) (c : Char) (cs rest : List Char)
    (hc : is_identifier_start c = true) (hcs : cs.all is_identifier_char = true)
    (hrest : ∀ d ∈ rest.head?, is_identifier_char d = false) (hlen : (c :: cs).length ≤ 20)
    (hkw : is_keyword (String.mk (c :: cs)) = false)
    (hflag : s.expect_identifier_declaration = true)
    (hok : (tokenize_step s c (cs ++ rest)).1 = .ok s1) :
    s.token_list.length < MAX_TOKENS := by
  by_contra hroom
  obtain ⟨s3, h3, _⟩ := tokenize_step_declared_word_full s c cs rest hc hcs hrest hlen hkw
    (Or.inl hflag) (by omega)
  rw [h3] at hok
  cases hok

/-- C17 (amended): a word (no keyword, at most 20 characters) that a round of
the main loop accepts with the flag armed is written as an Identifier token.
When the declaration set held fewer than 256 names (repetitions counted), the
word is appended to the set and is in the set of every state the lexer reaches
later; a later occurrence of the word is then written as an Identifier token
when the token table has room, and ends the lexer with the too-many-tokens
diagnostic when the table is full, so it is never reported as not defined. No
round of the main loop removes a name from the set, and a set of 256 names or
more is the same in every state reached later. When the set already held 256
names, the set stays as it is, then and in every state reached later; a
later occurrence of the word, if the word is not in the set, is reported as not
defined when the flag is not armed, and is written as an Identifier token
again, without being stored, when the flag is armed and the token table has
room. -/
theorem C17_registered_name_stays_declared :
    (∀ (s s1 : LexState) (c : Char) (cs rest : List Char),
        is_identifier_start c = true → cs.all is_identifier_char = true →
        (∀ d ∈ rest.head?, is_identifier_char d = false) → (c :: cs).length ≤ 20 →
        is_keyword (String.mk (c :: cs)) = false →
        s.expect_identifier_declaration = true →
        (tokenize_step s c (cs ++ rest)).1 = .ok s1 →
        s.declared_identifiers.length < MAX_IDENTIFIERS →
        s1.token_list = s.token_list ++ [⟨TOKEN_IDENTIFIER, String.mk (c :: cs), s.line⟩] ∧
        s1.declared_identifiers = s.declared_identifiers ++ [String.mk (c :: cs)] ∧
        ∀ s2, LexReach s1 s2 →
          String.mk (c :: cs) ∈ s2.declared_identifiers ∧
          ∀ rest2 : List Char, (∀ d ∈ rest2.head?, is_identifier_char d = false) →
            (s2.token_list.length < MAX_TOKENS →
              ∃ s3, tokenize_step s2 c (cs ++ rest2) = (.ok s3, rest2) ∧
                s3.token_list
                  = s2.token_list ++ [⟨TOKEN_IDENTIFIER, String.mk (c :: cs), s2.line⟩]) ∧
            (MAX_TOKENS ≤ s2.token_list.length →
              ∃ s3, (tokenize_step s2 c (cs ++ rest2)).1 = .exit s3 ∧
                s3.diag = s2.diag ++ [.tooManyTokens] ∧ s3.token_list = s2.token_list)) ∧
    (∀ s1 s2 : LexState, LexReach s1 s2 →
        ∀ w ∈ s1.declared_identifiers, w ∈ s2.declared_identifiers) ∧
    (∀ (s s1 : LexState) (c : Char) (cs rest : List Char),
        is_identifier_start c = true → cs.all is_identifier_char = true →
        (∀ d ∈ rest.head?, is_identifier_char d = false) → (c :: cs).length ≤ 20 →
        is_keyword (String.mk (c :: cs)) = false →
        s.expect_identifier_declaration = true →
        (tokenize_step s c (cs ++ rest)).1 = .ok s1 →
        MAX_IDENTIFIERS ≤ s.declared_identifiers.length →
        s1.token_list = s.token_list ++ [⟨TOKEN_IDENTIFIER, String.mk (c :: cs), s.line⟩] ∧
        s1.declared_identifiers = s.declared_identifiers ∧
        ∀ s2, LexReach s1 s2 →
          s2.declared_identifiers = s.declared_identifiers ∧
          ∀ rest2 : List Char, (∀ d ∈ rest2.head?, is_identifier_char d = false) →
            (String.mk (c :: cs) ∉ s.declared_identifiers →
              s2.expect_identifier_declaration = false →
              ∃ s3, (tokenize_step s2 c (cs ++ rest2)).1 = .exit s3 ∧
                LexDiag.notDefined s2.line (not_defined_msg (c :: cs)) ∈ s3.diag) ∧
            (s2.expect_identifier_declaration = true → s2.token_list.length < MAX_TOKENS →
              ∃ s3, tokenize_step s2 c (cs ++ rest2) = (.ok s3, rest2) ∧
                s3.token_list
                  = s2.token_list ++ [⟨TOKEN_IDENTIFIER, String.mk (c :: cs), s2.line⟩] ∧
                s3.declared_identifiers = s.declared_identifiers)) ∧
    (∀ s s2 : LexState, MAX_IDENTIFIERS ≤ s.declared_identifiers.length → LexReach s s2 →
        s2.declared_identifiers = s.declared_identifiers) := by
  refine ⟨?_, fun s1 s2 h => lex_reach_declared h, ?_,
    fun s s2 hcap h => lex_reach_at_capacity h hcap⟩
  · intro s s1 c cs rest hc hcs hrest hlen hkw hflag hok hcap
    have hroom := tokenize_step_declaration_room s s1 c cs rest hc hcs hrest hlen hkw hflag hok
    have hstep := tokenize_step_declaration s c cs rest hc hcs hrest hlen hkw hflag hroom
    have hdecl : (declare_identifier s (String.mk (c :: cs))).declared_identifiers
        = s.declared_identifiers ++ [String.mk (c :: cs)] := by
      unfold declare_identifier
      rw [if_pos hcap]
    rw [hstep] at hok
    simp only [LexRes.ok.injEq] at hok
    subst hok
    refine ⟨rfl, hdecl, ?_⟩
    intro s2 hreach
    have hmem : String.mk (c :: cs) ∈ s2.declared_identifiers :=
      lex_reach_declared hreach _ (by
        show String.mk (c :: cs) ∈ (declare_identifier s (String.mk (c :: cs))).declared_identifiers
        rw [hdecl]
        simp)
    refine ⟨hmem, ?_⟩
    intro rest2 hrest2
    exact ⟨fun hroom2 => tokenize_step_declared_word s2 c cs rest2 hc hcs hrest2 hlen hkw hmem
        hroom2,
      fun hfull2 => tokenize_step_declared_word_full s2 c cs rest2 hc hcs hrest2 hlen hkw
        (Or.inr hmem) hfull2⟩
  · intro s s1 c cs rest hc hcs hrest hlen hkw hflag hok hcap
    have hroom := tokenize_step_declaration_room s s1 c cs rest hc hcs hrest hlen hkw hflag hok
    have hstep := tokenize_step_declaration s c cs rest hc hcs hrest hlen hkw hflag hroom
    have hdecl : (declare_identifier s (String.mk (c :: cs))).declared_identifiers
        = s.declared_identifiers := by
      unfold declare_identifier
      rw [if_neg (by omega)]
    rw [hstep] at hok
    simp only [LexRes.ok.injEq] at hok
    subst hok
    refine ⟨rfl, hdecl, ?_⟩
    intro s2 hreach
    have hsame : s2.declared_identifiers = s.declared_identifiers := by
      rw [lex_reach_at_capacity hreach (by
        show MAX_IDENTIFIERS
          ≤ (declare_identifier s (String.mk (c :: cs))).declared_identifiers.length
        rw [hdecl]; exact hcap)]
      exact hdecl
    refine ⟨hsame, ?_⟩
    intro rest2 hrest2
    refine ⟨fun hnot hflag2 => ?_, fun hflag2 hroom2 => ?_⟩
    · exact tokenize_step_undeclared_word s2 c cs rest2 hc hcs hrest2 hlen hkw hflag2
        (by rw [hsame]; exact hnot)
    · have hstep2 := tokenize_step_declaration s2 c cs rest2 hc hcs hrest2 hlen hkw hflag2 hroom2
      refine ⟨_, hstep2, rfl, ?_⟩
      show (declare_identifier s2 (String.mk (c :: cs))).declared_identifiers
        = s.declared_identifiers
      unfold declare_identifier
      rw [if_neg (by rw [hsame]; omega)]
      exact hsame

/-- Witness for C17: the word `x` after `number` on an empty declaration set,
and the word `y` after `number` on a set of 256 names. -/
theorem C17_registered_name_stays_declared_witness :
    (∃ s1, (tokenize_step { LexState.init with expect_identifier_declaration := true } 'x'
        ([] ++ [';'])).1 = .ok s1 ∧
      s1.token_list = [] ++ [⟨TOKEN_IDENTIFIER, String.mk ('x' :: []), 1⟩] ∧
      s1.declared_identifiers = [] ++ [String.mk ('x' :: [])] ∧
      ∀ s2, LexReach s1 s2 →
        String.mk ('x' :: []) ∈ s2.declared_identifiers ∧
        ∀ rest2 : List Char, (∀ d ∈ rest2.head?, is_identifier_char d = false) →
          (s2.token_list.length < MAX_TOKENS →
            ∃ s3, tokenize_step s2 'x' ([] ++ rest2) = (.ok s3, rest2) ∧
              s3.token_list
                = s2.token_list ++ [⟨TOKEN_IDENTIFIER, String.mk ('x' :: []), s2.line⟩]) ∧
          (MAX_TOKENS ≤ s2.token_list.length →
            ∃ s3, (tokenize_step s2 'x' ([] ++ rest2)).1 = .exit s3 ∧
              s3.diag = s2.diag ++ [.tooManyTokens] ∧ s3.token_list = s2.token_list)) ∧
    (∃ s1, (tokenize_step
        { line := 1, expect_identifier_declaration := true,
          declared_identifiers := List.replicate 256 "x", token_list := [], out := [],
          diag := [] } 'y' ([] ++ [';'])).1 = .ok s1 ∧
      s1.token_list = [] ++ [⟨TOKEN_IDENTIFIER, String.mk ('y' :: []), 1⟩] ∧
      s1.declared_identifiers = List.replicate 256 "x" ∧
      ∀ s2, LexReach s1 s2 →
        s2.declared_identifiers = List.replicate 256 "x" ∧
        ∀ rest2 : List Char, (∀ d ∈ rest2.head?, is_identifier_char d = false) →
          (String.mk ('y' :: []) ∉ List.replicate 256 "x" →
            s2.expect_identifier_declaration = false →
            ∃ s3, (tokenize_step s2 'y' ([] ++ rest2)).1 = .exit s3 ∧
              LexDiag.notDefined s2.line (not_defined_msg ('y' :: [])) ∈ s3.diag) ∧
          (s2.expect_identifier_declaration = true → s2.token_list.length < MAX_TOKENS →
            ∃ s3, tokenize_step s2 'y' ([] ++ rest2) = (.ok s3, rest2) ∧
              s3.token_list
                = s2.token_list ++ [⟨TOKEN_IDENTIFIER, String.mk ('y' :: []), s2.line⟩] ∧
              s3.declared_identifiers = List.replicate 256 "x")) :=
  ⟨⟨{ line := 1, expect_identifier_declaration := false, declared_identifiers := ["x"],
      token_list := [⟨TOKEN_IDENTIFIER, "x", 1⟩], out := ["Identifier(x)"], diag := [] },
    by decide!,
    C17_registered_name_stays_declared.1
      { LexState.init with expect_identifier_declaration := true }
      { line := 1, expect_identifier_declaration := false, declared_identifiers := ["x"],
        token_list := [⟨TOKEN_IDENTIFIER, "x", 1⟩], out := ["Identifier(x)"], diag := [] }
      'x' [] [';'] (by decide) (by decide) (by decide) (by decide) (by decide!) rfl
      (by decide!) (by decide)⟩,
   ⟨{ line := 1, expect_identifier_declaration := false,
      declared_identifiers := List.replicate 256 "x",
      token_list := [⟨TOKEN_IDENTIFIER, "y", 1⟩], out := ["Identifier(y)"], diag := [] },
    by decide!,
    C17_registered_name_stays_declared.2.2.1
      { line := 1, expect_identifier_declaration := true,
        declared_identifiers := List.replicate 256 "x", token_list := [], out := [],
        diag := [] }
      { line := 1, expect_identifier_declaration := false,
        declared_identifiers := List.replicate 256 "x",
        token_list := [⟨TOKEN_IDENTIFIER, "y", 1⟩], out := ["Identifier(y)"], diag := [] }
      'y' [] [';'] (by decide) (by decide) (by decide) (by decide) (by decide!) rfl
      (by decide!) (by decide!)⟩⟩

end PlusPlus
